import Mathlib

/-!
# libevmjit `Ext.cpp`: the environment-call bridge

A shallow embedding of `src/libevmjit/Ext.cpp`.  The C++ drives an LLVM `IRBuilder`; here the
builder is a value (`IRBuilder`) that records every instruction inserted together with the place
it was inserted at, and every routine of `Ext` is a function from the object's state (`Ext`) to a
result and the next state.  The instructions that a routine emits are given a meaning by a small
interpreter (`Machine`, `evalValue`, `execInstr`) over a byte-addressed memory, so that statements
about "the code that `calldataload` emits" are statements about what that code computes.

Conventions
* a 256-bit word is a `Nat` below `2 ^ 256`; `Type::Size` is 64 bits wide (the source mixes it with
  `getInt64` operands in one instruction); truncation is `% 2 ^ w`;
* the host is little-endian: an integer of `n` bytes is laid out least significant byte first and
  the byte-order boundary reverses the bytes (spec 4.4);
* LLVM itself is not part of the repository: its `IRBuilder`, `Function` and attribute queries are
  modelled after their documented behaviour, without constant folding (which never changes the
  value an instruction computes).
-/

namespace EvmJit

/-! ## LLVM types, functions, values -/

/-- The LLVM types that occur in `Ext.cpp`. `memRef` is the named struct `evm.memref`
(`{i8*, i64}`, `getMemRefTy`), `env` the environment structure behind `Type::EnvPtr`. -/
inductive Ty
  | void
  | int (bits : Nat)
  | ptr (pointee : Ty)
  | memRef
  | env
  deriving DecidableEq, Repr

namespace Ty

def Void : Ty := .void
/-- The type `Type::Bool` (`i1`); renamed, `Bool` being taken. -/
def BoolTy : Ty := .int 1
def Byte : Ty := .int 8
def Size : Ty := .int 64
def Gas : Ty := .int 64
def Word : Ty := .int 256
def BytePtr : Ty := .ptr Byte
def WordPtr : Ty := .ptr Word
def GasPtr : Ty := .ptr Gas
def EnvPtr : Ty := .ptr .env

def isPointerTy : Ty → Bool
  | .ptr _ => true
  | _ => false

def getPointerTo (t : Ty) : Ty := .ptr t

/-- Pointee of a pointer type (the type itself for a non-pointer, which no caller relies on). -/
def pointee : Ty → Ty
  | .ptr t => t
  | t => t

/-- Type of field `i` of an aggregate; `evm.memref` is `{Type::BytePtr, Type::Size}`. -/
def field : Ty → Nat → Ty
  | .memRef, 0 => BytePtr
  | .memRef, _ => Size
  | t, _ => t

/-- Store size in bytes. Pointers are eight bytes wide, as `Type::Size` is. -/
def bytes : Ty → Nat
  | .void => 0
  | .int b => (b + 7) / 8
  | .ptr _ => 8
  | .memRef => 16
  | .env => 0

end Ty

/-- Parameter attributes used by `Ext.cpp`. -/
inductive Attr
  | StructRet | NoAlias | NoCapture | ByVal | ReadOnly
  deriving DecidableEq, Repr

/-- An `llvm::Function` declaration: name, signature, and the attributes added to it.
Attribute index `0` is the return value, index `i + 1` the parameter number `i`. -/
structure Function where
  name : String
  retTy : Ty
  params : List Ty
  attrs : List (Nat × Attr)
  deriving DecidableEq, Repr

namespace Function

/-- The call `llvm::Function::Create(fty, ExternalLinkage, name, module)`, before it is added. -/
def create (retTy : Ty) (params : List Ty) (name : String) : Function :=
  { name := name, retTy := retTy, params := params, attrs := [] }

def addAttribute (f : Function) (i : Nat) (a : Attr) : Function :=
  { f with attrs := f.attrs ++ [(i, a)] }

def hasAttribute (f : Function) (i : Nat) (a : Attr) : Bool :=
  decide ((i, a) ∈ f.attrs)

/-- LLVM: a function has the struct-return attribute when its first or second parameter has. -/
def hasStructRetAttr (f : Function) : Bool :=
  f.hasAttribute 1 .StructRet || f.hasAttribute 2 .StructRet

/-- LLVM `Argument::hasByValAttr` of the formal parameter number `argNo`: the parameter is a
pointer and carries `ByVal`. -/
def hasByValAttr (f : Function) (argNo : Nat) : Bool :=
  match f.params.get? argNo with
  | some t => t.isPointerTy && f.hasAttribute (argNo + 1) .ByVal
  | none => false

end Function

/-- An `llvm::Value*`. Instructions that yield a value are their own value, as in LLVM, and carry
the number (`id`) under which the builder created them; the operands are the values they were
built from. -/
inductive Value
  /-- a value handed in from outside this component: an operand of the front end or a value of
  the runtime manager -/
  | arg (name : String) (ty : Ty)
  | constInt (bits : Nat) (value : Nat)
  | undef (ty : Ty)
  /-- result of `m_memoryMan.getBytePtr(off)` -/
  | memBytePtr (off : Value)
  | alloca (id : Nat) (ty : Ty) (count : Nat) (name : String)
  | bitcast (id : Nat) (v : Value) (ty : Ty)
  | trunc (id : Nat) (v : Value) (ty : Ty)
  | zext (id : Nat) (v : Value) (ty : Ty)
  | icmpULT (id : Nat) (a b : Value)
  | icmpULE (id : Nat) (a b : Value)
  | select (id : Nat) (c a b : Value)
  | nuwAdd (id : Nat) (a b : Value)
  | nuwSub (id : Nat) (a b : Value)
  | and (id : Nat) (a b : Value)
  | gep (id : Nat) (elemTy : Ty) (base idx : Value)
  | constGEP1 (id : Nat) (base : Value) (idx : Nat)
  | constGEP2 (id : Nat) (ty : Ty) (base : Value) (idx0 idx1 : Nat)
  | load (id : Nat) (ptr : Value)
  | extractValue (id : Nat) (agg : Value) (idx : Nat)
  | insertValue (id : Nat) (agg v : Value) (idx : Nat)
  | bswap (id : Nat) (v : Value)
  /-- result of the call instruction number `id` -/
  | callRet (id : Nat) (ty : Ty)
  deriving DecidableEq, Repr

namespace Value

def type : Value → Ty
  | arg _ ty => ty
  | constInt bits _ => .int bits
  | undef ty => ty
  | memBytePtr _ => Ty.BytePtr
  | alloca _ ty _ _ => .ptr ty
  | bitcast _ _ ty => ty
  | trunc _ _ ty => ty
  | zext _ _ ty => ty
  | icmpULT _ _ _ => Ty.BoolTy
  | icmpULE _ _ _ => Ty.BoolTy
  | select _ _ a _ => a.type
  | nuwAdd _ a _ => a.type
  | nuwSub _ a _ => a.type
  | and _ a _ => a.type
  | gep _ elemTy _ _ => .ptr elemTy
  | constGEP1 _ base _ => base.type
  | constGEP2 _ ty _ _ idx1 => .ptr (ty.field idx1)
  | load _ p => p.type.pointee
  | extractValue _ agg idx => agg.type.field idx
  | insertValue _ agg _ _ => agg.type
  | bswap _ v => v.type
  | callRet _ ty => ty

end Value

/-- An instruction as it sits in a basic block. -/
inductive Instr
  /-- an instruction that is a value: alloca, cast, arithmetic, address computation, load -/
  | val (v : Value)
  | store (id : Nat) (v ptr : Value)
  | memcpy (id : Nat) (dst src n : Value) (align : Nat)
  | memset (id : Nat) (dst byte n : Value) (align : Nat)
  | call (id : Nat) (fn : Function) (args : List Value)
  deriving DecidableEq, Repr

namespace Value

/-- Number of the instruction a value is; `none` for arguments and constants. -/
def id? : Value → Option Nat
  | arg _ _ => none
  | constInt _ _ => none
  | undef _ => none
  | memBytePtr _ => none
  | alloca id _ _ _ => some id
  | bitcast id _ _ => some id
  | trunc id _ _ => some id
  | zext id _ _ => some id
  | icmpULT id _ _ => some id
  | icmpULE id _ _ => some id
  | select id _ _ _ => some id
  | nuwAdd id _ _ => some id
  | nuwSub id _ _ => some id
  | and id _ _ => some id
  | gep id _ _ _ => some id
  | constGEP1 id _ _ => some id
  | constGEP2 id _ _ _ _ => some id
  | load id _ => some id
  | extractValue id _ _ => some id
  | insertValue id _ _ _ => some id
  | bswap id _ => some id
  | callRet id _ => some id

end Value

def Instr.id? : Instr → Option Nat
  | .val v => v.id?
  | .store id _ _ => some id
  | .memcpy id _ _ _ _ => some id
  | .memset id _ _ _ _ => some id
  | .call id _ _ => some id

/-! ## The instruction builder -/

/-- Where the builder inserts: in basic block `block` of the main function (block `0` is the
entry block, `getMainFunction()->front()`), before the instruction numbered `before`, or at the
end of the block when `before` is `none`. -/
structure InsertPoint where
  block : Nat
  before : Option Nat
  deriving DecidableEq, Repr

/-- One insertion: the instruction and the place it went to. -/
structure Emit where
  pt : InsertPoint
  instr : Instr
  deriving DecidableEq, Repr

/-- The `llvm::IRBuilder` together with the function it builds. The function body is kept as
the chronological list of insertions made so far; `IRBuilder.layout` replays them into the
basic blocks. -/
structure IRBuilder where
  log : List Emit
  insertPt : InsertPoint
  nextId : Nat
  deriving DecidableEq, Repr

/-- Insert `i` before the instruction numbered `k` (at the end when there is none). -/
def insertBefore (i : Instr) (k : Nat) : List Instr → List Instr
  | [] => [i]
  | x :: xs => if x.id? = some k then i :: x :: xs else x :: insertBefore i k xs

/-- Carry out one insertion on the blocks of a function. -/
def place (blocks : Nat → List Instr) (e : Emit) : Nat → List Instr :=
  fun n =>
    if n = e.pt.block then
      match e.pt.before with
      | some k => insertBefore e.instr k (blocks n)
      | none => blocks n ++ [e.instr]
    else blocks n

namespace IRBuilder

/-- The basic blocks of the function under construction. -/
def layout (b : IRBuilder) : Nat → List Instr :=
  b.log.foldl place (fun _ => [])

/-- The first instruction of the entry block, `getMainFunction()->front().begin()`. -/
def entryBegin (b : IRBuilder) : Option Nat :=
  ((b.layout 0).head?).bind Instr.id?

def SetInsertPoint (b : IRBuilder) (pt : InsertPoint) : IRBuilder :=
  { b with insertPt := pt }

/-- Insert an instruction at the insertion point; it gets the next free number. -/
def Insert (b : IRBuilder) (mk : Nat → Instr) : IRBuilder :=
  { b with log := b.log ++ [⟨b.insertPt, mk b.nextId⟩], nextId := b.nextId + 1 }

/-- Insert an instruction that is a value, and return it. -/
def InsertV (b : IRBuilder) (mk : Nat → Value) : Value × IRBuilder :=
  (mk b.nextId, b.Insert (fun id => .val (mk id)))

/-- LLVM `IRBuilder::CreateCast`: a cast to the type the value already has is the value itself
and inserts nothing. -/
def CreateCast (b : IRBuilder) (mk : Nat → Value) (v : Value) (ty : Ty) : Value × IRBuilder :=
  if v.type = ty then (v, b) else b.InsertV mk

def CreateAlloca (b : IRBuilder) (ty : Ty) (count : Nat) (name : String) : Value × IRBuilder :=
  b.InsertV (fun id => .alloca id ty count name)

def CreateBitCast (b : IRBuilder) (v : Value) (ty : Ty) : Value × IRBuilder :=
  b.CreateCast (fun id => .bitcast id v ty) v ty

def CreateTrunc (b : IRBuilder) (v : Value) (ty : Ty) : Value × IRBuilder :=
  b.CreateCast (fun id => .trunc id v ty) v ty

def CreateZExt (b : IRBuilder) (v : Value) (ty : Ty) : Value × IRBuilder :=
  b.CreateCast (fun id => .zext id v ty) v ty

def CreateICmpULT (b : IRBuilder) (x y : Value) : Value × IRBuilder :=
  b.InsertV (fun id => .icmpULT id x y)

def CreateICmpULE (b : IRBuilder) (x y : Value) : Value × IRBuilder :=
  b.InsertV (fun id => .icmpULE id x y)

def CreateSelect (b : IRBuilder) (c x y : Value) : Value × IRBuilder :=
  b.InsertV (fun id => .select id c x y)

def CreateNUWAdd (b : IRBuilder) (x y : Value) : Value × IRBuilder :=
  b.InsertV (fun id => .nuwAdd id x y)

def CreateNUWSub (b : IRBuilder) (x y : Value) : Value × IRBuilder :=
  b.InsertV (fun id => .nuwSub id x y)

def CreateAnd (b : IRBuilder) (x y : Value) : Value × IRBuilder :=
  b.InsertV (fun id => .and id x y)

def CreateGEP (b : IRBuilder) (elemTy : Ty) (base idx : Value) : Value × IRBuilder :=
  b.InsertV (fun id => .gep id elemTy base idx)

def CreateConstGEP1_32 (b : IRBuilder) (base : Value) (idx : Nat) : Value × IRBuilder :=
  b.InsertV (fun id => .constGEP1 id base idx)

def CreateConstGEP2_32 (b : IRBuilder) (ty : Ty) (base : Value) (idx0 idx1 : Nat) :
    Value × IRBuilder :=
  b.InsertV (fun id => .constGEP2 id ty base idx0 idx1)

def CreateLoad (b : IRBuilder) (p : Value) : Value × IRBuilder :=
  b.InsertV (fun id => .load id p)

def CreateStore (b : IRBuilder) (v p : Value) : IRBuilder :=
  b.Insert (fun id => .store id v p)

def CreateMemCpy (b : IRBuilder) (dst src n : Value) (align : Nat) : IRBuilder :=
  b.Insert (fun id => .memcpy id dst src n align)

def CreateMemSet (b : IRBuilder) (dst byte n : Value) (align : Nat) : IRBuilder :=
  b.Insert (fun id => .memset id dst byte n align)

def CreateExtractValue (b : IRBuilder) (agg : Value) (idx : Nat) : Value × IRBuilder :=
  b.InsertV (fun id => .extractValue id agg idx)

def CreateInsertValue (b : IRBuilder) (agg v : Value) (idx : Nat) : Value × IRBuilder :=
  b.InsertV (fun id => .insertValue id agg v idx)

def CreateCall (b : IRBuilder) (fn : Function) (args : List Value) : Value × IRBuilder :=
  (.callRet b.nextId fn.retTy, b.Insert (fun id => .call id fn args))

def getInt8 (n : Nat) : Value := .constInt 8 n
def getInt32 (n : Nat) : Value := .constInt 32 n
def getInt64 (n : Nat) : Value := .constInt 64 n

end IRBuilder

/-! ## Collaborators at the boundary -/

/-- The runtime manager's accessors. They yield values owned by the runtime manager, which is
outside this file; each is an opaque value here. -/
def RuntimeManager.getEnvPtr : Value := .arg "env" Ty.EnvPtr
def RuntimeManager.getGasPtr : Value := .arg "gas.ptr" Ty.GasPtr
def RuntimeManager.getCallData : Value := .arg "calldata" Ty.BytePtr
def RuntimeManager.getCallDataSize : Value := .arg "calldatasize" Ty.Word

/-- The memory manager's `getBytePtr(offset)`: the byte pointer into VM memory at `offset`. -/
def Memory.getBytePtr (off : Value) : Value := .memBytePtr off

/-- Modelled from the spec: `Endianness::toBE` lives in `Endianness.h`, which is not among the
sources. Spec 4.4: it byte-reverses a native-order value into the environment's big-endian
representation. One byte-swap instruction on the operand. -/
def Endianness.toBE (b : IRBuilder) (v : Value) : Value × IRBuilder :=
  b.InsertV (fun id => .bswap id v)

/-- Modelled from the spec: `Endianness::toNative` lives in `Endianness.h`, which is not among
the sources. Spec 4.4: it performs the inverse of `toBE`, again a byte reversal. -/
def Endianness.toNative (b : IRBuilder) (v : Value) : Value × IRBuilder :=
  b.InsertV (fun id => .bswap id v)

/-- Modelled from the spec: the keys of the query entry point are declared in `evm.h`, which is
not among the sources. These are the keys `Ext.cpp` names; `other` stands for any further key,
which `Ext::query` passes through its `default:` branch. -/
inductive evm_query_key
  | EVM_STORAGE | EVM_ADDRESS | EVM_CALLER | EVM_ORIGIN | EVM_COINBASE | EVM_GAS_LIMIT
  | EVM_NUMBER | EVM_TIMESTAMP | EVM_CODE_BY_ADDRESS | EVM_BALANCE | EVM_BLOCKHASH
  | other (n : Nat)
  deriving DecidableEq, Repr

/-- Modelled from the spec: the numeric value of a key is fixed by `evm.h`, which is not among
the sources; the numbering here is a stand-in, of which only injectivity matters. -/
def evm_query_key.code : evm_query_key → Nat
  | .EVM_STORAGE => 0
  | .EVM_ADDRESS => 1
  | .EVM_CALLER => 2
  | .EVM_ORIGIN => 3
  | .EVM_COINBASE => 4
  | .EVM_GAS_LIMIT => 5
  | .EVM_NUMBER => 6
  | .EVM_TIMESTAMP => 7
  | .EVM_CODE_BY_ADDRESS => 8
  | .EVM_BALANCE => 9
  | .EVM_BLOCKHASH => 10
  | .other n => 11 + n

/-- Modelled from the spec: the keys of the update entry point (`evm.h`, not among the
sources). -/
inductive evm_update_key
  | EVM_SSTORE | EVM_LOG | EVM_SELFDESTRUCT
  deriving DecidableEq, Repr

/-- Modelled from the spec: stand-in numbering of the update keys, see `evm_query_key.code`. -/
def evm_update_key.code : evm_update_key → Nat
  | .EVM_SSTORE => 0
  | .EVM_LOG => 1
  | .EVM_SELFDESTRUCT => 2

/-! ## The environment function table -/

/-- An `llvm::Module`, as far as `Ext.cpp` uses it: the functions declared in it. -/
structure Module where
  functions : List Function
  deriving DecidableEq, Repr

def Module.getFunction (m : Module) (name : String) : Option Function :=
  m.functions.find? (fun f => f.name == name)

/-- The effect on the module of `llvm::Function::Create(.., module)`. -/
def Module.add (m : Module) (f : Function) : Module :=
  { m with functions := m.functions ++ [f] }

/-- Modelled from the spec: the enumeration `EnvFunc` is declared in `Ext.h`, which is not among
the sources; its members are read off `getEnvFuncDescs`, in order. -/
inductive EnvFunc
  | sload | sstore | sha3 | balance | create | call | log | blockhash | extcode
  deriving DecidableEq, Repr

/-- A pair of name and function type (return type, parameter types). -/
abbrev FuncDesc := String × Ty × List Ty

def getEnvFuncDescs : EnvFunc → FuncDesc
  | .sload => ("env_sload", Ty.Void, [Ty.EnvPtr, Ty.WordPtr, Ty.WordPtr])
  | .sstore => ("env_sstore", Ty.Void, [Ty.EnvPtr, Ty.WordPtr, Ty.WordPtr])
  | .sha3 => ("env_sha3", Ty.Void, [Ty.BytePtr, Ty.Size, Ty.WordPtr])
  | .balance => ("env_balance", Ty.Void, [Ty.WordPtr, Ty.EnvPtr, Ty.WordPtr])
  | .create => ("env_create", Ty.Void,
      [Ty.EnvPtr, Ty.GasPtr, Ty.WordPtr, Ty.BytePtr, Ty.Size, Ty.WordPtr])
  | .call => ("env_call", Ty.BoolTy,
      [Ty.EnvPtr, Ty.GasPtr, Ty.Gas, Ty.WordPtr, Ty.WordPtr, Ty.WordPtr, Ty.WordPtr, Ty.WordPtr,
       Ty.BytePtr, Ty.Size, Ty.BytePtr, Ty.Size])
  | .log => ("env_log", Ty.Void,
      [Ty.EnvPtr, Ty.BytePtr, Ty.Size, Ty.WordPtr, Ty.WordPtr, Ty.WordPtr, Ty.WordPtr])
  | .blockhash => ("env_blockhash", Ty.Void, [Ty.EnvPtr, Ty.WordPtr, Ty.WordPtr])
  | .extcode => ("env_extcode", Ty.BytePtr, [Ty.EnvPtr, Ty.WordPtr, Ty.Size.getPointerTo])

def createFunc (_id : EnvFunc) (_module : Module) : Function × Module :=
  let desc := getEnvFuncDescs _id
  let func := Function.create desc.2.1 desc.2.2 desc.1
  (func, _module.add func)

def getQueryFunc (_module : Module) : Function × Module :=
  let funcName := "evm.query"
  match _module.getFunction funcName with
  | some func => (func, _module)
  | none =>
    let i32 := Ty.int 32
    let func := Function.create Ty.Void [Ty.WordPtr, Ty.EnvPtr, i32, Ty.WordPtr] funcName
    let func := func.addAttribute 1 .StructRet
    let func := func.addAttribute 1 .NoAlias
    let func := func.addAttribute 1 .NoCapture
    let func := func.addAttribute 4 .ByVal
    let func := func.addAttribute 4 .ReadOnly
    let func := func.addAttribute 4 .NoAlias
    let func := func.addAttribute 4 .NoCapture
    (func, _module.add func)

def getUpdateFunc (_module : Module) : Function × Module :=
  let funcName := "evm.update"
  match _module.getFunction funcName with
  | some func => (func, _module)
  | none =>
    let i32 := Ty.int 32
    let func := Function.create Ty.Void [Ty.EnvPtr, i32, Ty.WordPtr, Ty.WordPtr] funcName
    let func := func.addAttribute 3 .ByVal
    let func := func.addAttribute 3 .ReadOnly
    let func := func.addAttribute 3 .NoAlias
    let func := func.addAttribute 3 .NoCapture
    let func := func.addAttribute 4 .ByVal
    let func := func.addAttribute 4 .ReadOnly
    let func := func.addAttribute 4 .NoAlias
    let func := func.addAttribute 4 .NoCapture
    (func, _module.add func)

/-- The struct type `evm.memref`. The module's registry of named types is not modelled: the
type is the same whether found or created. -/
def getMemRefTy (_module : Module) : Ty := .memRef

/-- The declaration of `evm.call`. `msc` is the compile-time switch `_MSC_VER`. -/
def getCallFunc (msc : Bool) (_module : Module) : Function × Module :=
  let funcName := "evm.call"
  match _module.getFunction funcName with
  | some func => (func, _module)
  | none =>
    let i32 := Ty.int 32
    let hash160Ty := Ty.int 160
    let memRefTy := getMemRefTy _module
    let pMemRefTy := memRefTy.getPointerTo
    let inputTy := if msc then pMemRefTy else memRefTy
    let func := Function.create Ty.Gas
      [Ty.EnvPtr, i32, Ty.Gas, hash160Ty.getPointerTo, Ty.WordPtr, Ty.BytePtr, Ty.Size, pMemRefTy]
      funcName
    let func := func.addAttribute 4 .ByVal
    let func := func.addAttribute 4 .ReadOnly
    let func := func.addAttribute 4 .NoAlias
    let func := func.addAttribute 4 .NoCapture
    let func := func.addAttribute 5 .ByVal
    let func := func.addAttribute 5 .ReadOnly
    let func := func.addAttribute 5 .NoAlias
    let func := func.addAttribute 5 .NoCapture
    let func :=
      if inputTy.isPointerTy then
        ((func.addAttribute 6 .ByVal).addAttribute 6 .ReadOnly).addAttribute 6 .NoCapture
      else func
    let func := func.addAttribute 8 .ByVal
    let func := func.addAttribute 8 .NoCapture
    (func, _module.add func)

/-! ## The `Ext` object -/

/-- State of an `Ext` object: its members, the builder it writes through (`m_builder` of
`RuntimeHelper`) and the module (`getModule()`). `m_argAllocas` maps a slot index to the stack
slot created for it, `none` being the null pointer. -/
structure Ext where
  m_builder : IRBuilder
  m_module : Module
  m_funcs : EnvFunc → Option Function
  m_argAllocas : Nat → Option Value
  m_argCounter : Nat
  m_size : Value
  m_topics : Option Value

namespace Ext

/-- The constructor `Ext::Ext`. The members `m_argCounter` and `m_topics` are initialised in
`Ext.h` (not among the sources): cursor zero, no topics buffer. -/
def new (builder : IRBuilder) (module : Module) : Ext :=
  let r := builder.CreateAlloca Ty.Size 1 "env.size"
  { m_builder := r.2
    m_module := module
    m_funcs := fun _ => none
    m_argAllocas := fun _ => none
    m_argCounter := 0
    m_size := r.1
    m_topics := none }

/-- The object constructed for an empty main function in an empty module, the builder at the
end of the entry block. -/
def fresh : Ext := new ⟨[], ⟨0, none⟩, 0⟩ ⟨[]⟩

/-- Run a builder call that yields a value. -/
def build (e : Ext) (f : IRBuilder → Value × IRBuilder) : Value × Ext :=
  ((f e.m_builder).1, { e with m_builder := (f e.m_builder).2 })

/-- Run a builder call that yields nothing. -/
def emit (e : Ext) (f : IRBuilder → IRBuilder) : Ext :=
  { e with m_builder := f e.m_builder }

/-- Resolve a function through the module (`getQueryFunc(getModule())` and its siblings). -/
def resolve (e : Ext) (get : Module → Function × Module) : Function × Ext :=
  ((get e.m_module).1, { e with m_module := (get e.m_module).2 })

def getArgAlloca (e : Ext) : Value × Ext :=
  match e.m_argAllocas e.m_argCounter with
  | some a => (a, { e with m_argCounter := e.m_argCounter + 1 })
  | none =>
    -- InsertPointGuard g{m_builder}
    let g := e.m_builder.insertPt
    -- SetInsertPoint(allocaPtr): before the first instruction of the entry block. The iterator
    -- advanced by m_argCounter is not used afterwards. (On an empty entry block the C++
    -- dereferences the end iterator; the model inserts at the end of the block.)
    let allocaPtr := e.m_builder.entryBegin
    let b := e.m_builder.SetInsertPoint ⟨0, allocaPtr⟩
    let r := b.CreateAlloca Ty.Word 1 ("a." ++ toString e.m_argCounter)
    -- the guard restores the insertion point
    let b := r.2.SetInsertPoint g
    (r.1, { e with
      m_builder := b
      m_argAllocas := fun i => if i = e.m_argCounter then some r.1 else e.m_argAllocas i
      m_argCounter := e.m_argCounter + 1 })

def byPtr (e : Ext) (_value : Value) : Value × Ext :=
  let a := e.getArgAlloca
  (a.1, a.2.emit (·.CreateStore _value a.1))

def createCall (e : Ext) (_funcId : EnvFunc) (_args : List Value) : Value × Ext :=
  let fe : Function × Ext :=
    match e.m_funcs _funcId with
    | some func => (func, e)
    | none =>
      let c := createFunc _funcId e.m_module
      (c.1, { e with
        m_module := c.2
        m_funcs := fun i => if i = _funcId then some c.1 else e.m_funcs i })
  let e := { fe.2 with m_argCounter := 0 }
  e.build (·.CreateCall fe.1 _args)

/-- One round of the loop over `_func->args()` in `createCABICall`, for the formal parameter
number `argNo`, on the argument vector and the object state. (An argument vector shorter than
the parameter list is indexed out of bounds by the C++; the model leaves it alone.) -/
def byValArg (_func : Function) (st : List Value × Ext) (argNo : Nat) : List Value × Ext :=
  if _func.hasByValAttr argNo then
    match st.1.get? argNo with
    | some arg =>
      if !arg.type.isPointerTy then
        let mem := st.2.getArgAlloca
        let cast := mem.2.build (·.CreateBitCast mem.1 arg.type.getPointerTo)
        let e := cast.2.emit (·.CreateStore arg cast.1)
        (st.1.set argNo cast.1, e)
      else st
    | none => st
  else st

/-- The routine `Ext::createCABICall`. The default of `_derefOutput` is declared in `Ext.h`
(not among the sources); callers here pass it explicitly. -/
def createCABICall (e : Ext) (_func : Function) (_args : List Value) (_derefOutput : Bool) :
    Value × Ext :=
  let hasSRet := _func.hasStructRetAttr
  let st0 : List Value × Ext :=
    if hasSRet then ((e.getArgAlloca).1 :: _args, (e.getArgAlloca).2) else (_args, e)
  let st := (List.range _func.params.length).foldl (byValArg _func) st0
  let args := st.1
  let e := { st.2 with m_argCounter := 0 }
  let callRet := e.build (·.CreateCall _func args)
  if hasSRet then
    -- args[0] is the slot put in front above
    let args0 := args.headD callRet.1
    if _derefOutput then callRet.2.build (·.CreateLoad args0) else (args0, callRet.2)
  else callRet

/-- The value of the default argument `_derefOutput` of `createCABICall`. Modelled from the
spec: it is declared in `Ext.h`, not among the sources; the callers that leave it out use the
result as a word, so the slot is dereferenced. -/
def derefDefault : Bool := true

def sload (e : Ext) (_index : Value) : Value × Ext :=
  let func := e.resolve getQueryFunc
  func.2.createCABICall func.1
    [RuntimeManager.getEnvPtr, IRBuilder.getInt32 evm_query_key.EVM_STORAGE.code, _index]
    derefDefault

def sstore (e : Ext) (_index _value : Value) : Ext :=
  let func := e.resolve getUpdateFunc
  (func.2.createCABICall func.1
    [RuntimeManager.getEnvPtr, IRBuilder.getInt32 evm_update_key.EVM_SSTORE.code, _index, _value]
    derefDefault).2

def selfdestruct (e : Ext) (_beneficiary : Value) : Ext :=
  let func := e.resolve getUpdateFunc
  let b := func.2.build (Endianness.toBE · _beneficiary)
  let undef := Value.undef Ty.WordPtr
  (b.2.createCABICall func.1
    [RuntimeManager.getEnvPtr, IRBuilder.getInt32 evm_update_key.EVM_SELFDESTRUCT.code, b.1, undef]
    derefDefault).2

def calldataload (e : Ext) (_idx : Value) : Value × Ext :=
  let ret := e.getArgAlloca
  let result := ret.2.build (·.CreateBitCast ret.1 Ty.BytePtr)
  let callDataSize := RuntimeManager.getCallDataSize
  let callDataSize64 := result.2.build (·.CreateTrunc callDataSize Ty.Size)
  let idxValid := callDataSize64.2.build (·.CreateICmpULT _idx callDataSize)
  let sel := idxValid.2.build (·.CreateSelect idxValid.1 _idx callDataSize)
  let idx := sel.2.build (·.CreateTrunc sel.1 Ty.Size)
  let end0 := idx.2.build (·.CreateNUWAdd idx.1 (IRBuilder.getInt64 32))
  let le := end0.2.build (·.CreateICmpULE end0.1 callDataSize64.1)
  let end1 := le.2.build (·.CreateSelect le.1 end0.1 callDataSize64.1)
  let copySize := end1.2.build (·.CreateNUWSub end1.1 idx.1)
  let padSize := copySize.2.build (·.CreateNUWSub (IRBuilder.getInt64 32) copySize.1)
  let dataBegin := padSize.2.build (·.CreateGEP Ty.Byte RuntimeManager.getCallData idx.1)
  let e := dataBegin.2.emit (·.CreateMemCpy result.1 dataBegin.1 copySize.1 1)
  let pad := e.build (·.CreateGEP Ty.Byte result.1 copySize.1)
  let e := pad.2.emit (·.CreateMemSet pad.1 (IRBuilder.getInt8 0) padSize.1 1)
  -- Release args allocas.
  let e := { e with m_argCounter := 0 }
  let ld := e.build (·.CreateLoad ret.1)
  ld.2.build (Endianness.toNative · ld.1)

def query (e : Ext) (_key : evm_query_key) : Value × Ext :=
  let func := e.resolve getQueryFunc
  let undef := Value.undef Ty.WordPtr
  let v := func.2.createCABICall func.1
    [RuntimeManager.getEnvPtr, IRBuilder.getInt32 _key.code, undef] derefDefault
  match _key with
  | .EVM_ADDRESS | .EVM_CALLER | .EVM_ORIGIN | .EVM_COINBASE =>
    let mask160 := Value.constInt 256 (2 ^ 160 - 1)
    let n := v.2.build (Endianness.toNative · v.1)
    n.2.build (·.CreateAnd n.1 mask160)
  | .EVM_GAS_LIMIT | .EVM_NUMBER | .EVM_TIMESTAMP =>
    let mask64 := Value.constInt 256 (2 ^ 64 - 1)
    v.2.build (·.CreateAnd v.1 mask64)
  | _ => v

def balance (e : Ext) (_address : Value) : Value × Ext :=
  let func := e.resolve getQueryFunc
  let address := func.2.build (Endianness.toBE · _address)
  address.2.createCABICall func.1
    [RuntimeManager.getEnvPtr, IRBuilder.getInt32 evm_query_key.EVM_BALANCE.code, address.1]
    derefDefault

def blockHash (e : Ext) (_number : Value) : Value × Ext :=
  let func := e.resolve getQueryFunc
  let hash := func.2.createCABICall func.1
    [RuntimeManager.getEnvPtr, IRBuilder.getInt32 evm_query_key.EVM_BLOCKHASH.code, _number]
    derefDefault
  hash.2.build (Endianness.toNative · hash.1)

def create (e : Ext) (_endowment _initOff _initSize : Value) : Value × Ext :=
  let ret := e.getArgAlloca
  let begin := Memory.getBytePtr _initOff
  let size := ret.2.build (·.CreateTrunc _initSize Ty.Size)
  let endowment := size.2.byPtr _endowment
  let c := endowment.2.createCall EnvFunc.create
    [RuntimeManager.getEnvPtr, RuntimeManager.getGasPtr, endowment.1, begin, size.1, ret.1]
  let address := c.2.build (·.CreateLoad ret.1)
  address.2.build (Endianness.toNative · address.1)

def sha3 (e : Ext) (_inOff _inSize : Value) : Value × Ext :=
  let begin := Memory.getBytePtr _inOff
  let size := e.build (·.CreateTrunc _inSize Ty.Size)
  let ret := size.2.getArgAlloca
  let c := ret.2.createCall EnvFunc.sha3 [begin, size.1, ret.1]
  let hash := c.2.build (·.CreateLoad ret.1)
  hash.2.build (Endianness.toNative · hash.1)

/-- The pair `MemoryRef` returned by `extcode`: pointer and size. -/
abbrev MemoryRef := Value × Value

def extcode (e : Ext) (_addr : Value) : MemoryRef × Ext :=
  let func := e.resolve getQueryFunc
  let address := func.2.build (Endianness.toBE · _addr)
  let vPtr := address.2.createCABICall func.1
    [RuntimeManager.getEnvPtr, IRBuilder.getInt32 evm_query_key.EVM_CODE_BY_ADDRESS.code,
     address.1] false
  let memRefTy := getMemRefTy vPtr.2.m_module
  let memRefPtr := vPtr.2.build (·.CreateBitCast vPtr.1 memRefTy.getPointerTo)
  let memRef := memRefPtr.2.build (·.CreateLoad memRefPtr.1)
  let code := memRef.2.build (·.CreateExtractValue memRef.1 0)
  let size := code.2.build (·.CreateExtractValue memRef.1 1)
  let size256 := size.2.build (·.CreateZExt size.1 Ty.Word)
  ((code.1, size256.1), size256.2)

/-- The loop of `Ext::log` over the topics, from index `i` on. -/
def storeTopics (e : Ext) (m_topics : Value) (i : Nat) : List Value → Ext
  | [] => e
  | topic :: rest =>
    let t := e.build (Endianness.toBE · topic)
    let p := t.2.build (·.CreateConstGEP1_32 m_topics i)
    let e := p.2.emit (·.CreateStore t.1 p.1)
    storeTopics e m_topics (i + 1) rest

/-- The block `if (!m_topics) { ... }` at the head of `Ext::log`: the topics buffer, created at
the beginning of the entry block when there is none yet. -/
def topicsBuffer (e : Ext) : Value × Ext :=
  match e.m_topics with
  | some t => (t, e)
  | none =>
    -- InsertPointGuard g{m_builder}
    let g := e.m_builder.insertPt
    let b := e.m_builder.SetInsertPoint ⟨0, e.m_builder.entryBegin⟩
    let a := b.CreateAlloca Ty.Word 4 "topics"
    (a.1, { e with m_builder := a.2.SetInsertPoint g, m_topics := some a.1 })

def log (e : Ext) (_memIdx _numBytes : Value) (_topics : List Value) : Ext :=
  let tp := e.topicsBuffer
  let m_topics := tp.1
  let begin := Memory.getBytePtr _memIdx
  let size := tp.2.build (·.CreateTrunc _numBytes Ty.Size)
  let e := storeTopics size.2 m_topics 0 _topics
  let func := e.resolve getUpdateFunc
  let a := func.2.getArgAlloca
  let memRefTy := getMemRefTy a.2.m_module
  let pMemRef := a.2.build (·.CreateBitCast a.1 memRefTy.getPointerTo)
  let pData := pMemRef.2.build (·.CreateConstGEP2_32 memRefTy pMemRef.1 0 0)
  let e := pData.2.emit (·.CreateStore begin pData.1)
  let pSize := e.build (·.CreateConstGEP2_32 memRefTy pMemRef.1 0 1)
  let e := pSize.2.emit (·.CreateStore size.1 pSize.1)
  let b := e.getArgAlloca
  let pMemRef := b.2.build (·.CreateBitCast b.1 memRefTy.getPointerTo)
  let pData := pMemRef.2.build (·.CreateConstGEP2_32 memRefTy pMemRef.1 0 0)
  let tcast := pData.2.build (·.CreateBitCast m_topics Ty.BytePtr)
  let e := tcast.2.emit (·.CreateStore tcast.1 pData.1)
  let pSize := e.build (·.CreateConstGEP2_32 memRefTy pMemRef.1 0 1)
  let e := pSize.2.emit (·.CreateStore (IRBuilder.getInt64 (_topics.length * 32)) pSize.1)
  (e.createCABICall func.1
    [RuntimeManager.getEnvPtr, IRBuilder.getInt32 evm_update_key.EVM_LOG.code, a.1, b.1]
    derefDefault).2

/-- The routine `Ext::call`; `_kind` is the numeric value of the `evm_call_kind`, `msc` the
compile-time switch `_MSC_VER`. -/
def call (msc : Bool) (e : Ext) (_kind : Nat)
    (_gas _addr _value _inOff _inSize _outOff _outSize : Value) : Value × Ext :=
  let memRefTy := getMemRefTy e.m_module
  let gas := e.build (·.CreateTrunc _gas Ty.Size)
  let addr := gas.2.build (·.CreateTrunc _addr (Ty.int 160))
  let addr := addr.2.build (Endianness.toBE · addr.1)
  let inData := Memory.getBytePtr _inOff
  let inSize := addr.2.build (·.CreateTrunc _inSize Ty.Size)
  let initMemRef := Value.undef memRefTy
  let outData := Memory.getBytePtr _outOff
  let outSize := inSize.2.build (·.CreateTrunc _outSize Ty.Size)
  let out := outSize.2.build (·.CreateInsertValue initMemRef outData 0)
  let out := out.2.build (·.CreateInsertValue out.1 outSize.1 1)
  let func := out.2.resolve (getCallFunc msc)
  func.2.createCABICall func.1
    [RuntimeManager.getEnvPtr, IRBuilder.getInt32 _kind, gas.1, addr.1, _value, inData,
     inSize.1, out.1]
    derefDefault

end Ext

/-! ## Meaning of the emitted instructions -/

/-- A memory block: the stack slot of an alloca instruction (by its number), the call data
buffer, or another block of the host, by name. -/
inductive Block
  | stack (id : Nat)
  | callData
  | host (name : String)
  deriving DecidableEq, Repr

structure Ptr where
  block : Block
  off : Nat
  deriving DecidableEq, Repr

/-- Content of one byte of memory: nothing yet, a byte, or byte `i` of a stored pointer. -/
inductive MemVal
  | undef
  | byte (b : Nat)
  | frag (p : Ptr) (i : Nat)
  deriving DecidableEq, Repr

/-- A run-time value: an integer, a pointer, a two-field aggregate (`evm.memref`), or undefined. -/
inductive RVal
  | undef
  | int (n : Nat)
  | ptr (p : Ptr)
  | agg (f0 f1 : RVal)
  deriving DecidableEq, Repr

abbrev Mem := Block → Option (List MemVal)

/-- The `k` bytes of `n`, least significant first. -/
def toBytesLE (k n : Nat) : List Nat :=
  (List.range k).map (fun i => n / 256 ^ i % 256)

/-- The number whose bytes, least significant first, are `bs`. -/
def ofBytesLE : List Nat → Nat
  | [] => 0
  | b :: bs => b + 256 * ofBytesLE bs

/-- The number whose bytes, most significant first, are `bs`. -/
def ofBytesBE (bs : List Nat) : Nat := ofBytesLE bs.reverse

/-- Modelled from the spec: the conversion behind `Endianness::toBE` and `Endianness::toNative`
(`Endianness.h`, not among the sources). Spec 4.4: the value of `k` bytes is byte-reversed. -/
def byteSwap (k n : Nat) : Nat := ofBytesLE (toBytesLE k n).reverse

/-- The bytes held by memory cells, when all of them are bytes. -/
def cellBytes : List MemVal → Option (List Nat)
  | [] => some []
  | .byte b :: cs => (cellBytes cs).map (b :: ·)
  | _ :: _ => none

def ptrFrags (p : Ptr) : List MemVal := (List.range 8).map (fun i => .frag p i)

/-- Memory representation of a value of type `t`. -/
def encode : Ty → RVal → List MemVal
  | .memRef, .agg f0 f1 => encode Ty.BytePtr f0 ++ encode Ty.Size f1
  | .ptr _, .ptr p => ptrFrags p
  | .int b, .int n => (toBytesLE ((b + 7) / 8) n).map .byte
  | t, _ => List.replicate t.bytes MemVal.undef

/-- The pointer or integer that memory cells hold. -/
def decodeScalar : Ty → List MemVal → RVal
  | .ptr _, cs =>
    match cs with
    | .frag p 0 :: _ => if cs = ptrFrags p then .ptr p else .undef
    | _ => .undef
  | .int _, cs =>
    match cellBytes cs with
    | some bs => .int (ofBytesLE bs)
    | none => .undef
  | _, _ => RVal.undef

/-- The value of type `t` that memory cells hold. -/
def decode : Ty → List MemVal → RVal
  | .memRef, cs => .agg (decodeScalar Ty.BytePtr (cs.take 8)) (decodeScalar Ty.Size (cs.drop 8))
  | t, cs => decodeScalar t cs

/-- What is observed of a run: the memory ranges read and written, and the calls into the
environment with their actual arguments and the memory they see. -/
inductive Event
  | read (p : Ptr) (n : Nat)
  | write (p : Ptr) (n : Nat)
  | call (fn : String) (args : List RVal) (mem : Mem)

/-- The environment behind the entry points. `query key operand` is what `evm.query` writes
into its result slot (a word, or a pointer and a length); the other fields give the result of
`evm.call`, `env_sha3` and `env_create` from the actual arguments and the memory. -/
structure Host where
  query : Nat → RVal → RVal
  call : List RVal → Mem → Nat
  sha3 : List RVal → Mem → Nat
  create : List RVal → Mem → Nat

/-- State of the machine that runs the compiled function. `args` gives the values that come
from outside this component, `basePointer` the memory manager's address of a VM memory offset,
`regs` the results of the loads and calls executed so far. -/
structure Machine where
  args : String → RVal
  basePointer : Nat → Ptr
  host : Host
  mem : Mem
  regs : Nat → Option RVal
  trace : List Event

/-- Bit width of an integer type. -/
def Ty.width : Ty → Nat
  | .int b => b
  | _ => 0

/-- Byte offset of field `i` of `evm.memref`. -/
def fieldOffset (i : Nat) : Nat := if i = 0 then 0 else 8

/-- Value of an operand. Loads and calls are looked up among the executed instructions; every
other instruction is a function of its operands. `none` is undefined behaviour: an operand of
the wrong kind, or a no-unsigned-wrap operation that wraps. -/
def evalValue (M : Machine) : Value → Option RVal
  | .arg name _ => some (M.args name)
  | .constInt bits v => some (.int (v % 2 ^ bits))
  | .undef _ => some .undef
  | .memBytePtr off =>
    match evalValue M off with
    | some (.int n) => some (.ptr (M.basePointer n))
    | _ => none
  | .alloca id _ _ _ => some (.ptr ⟨.stack id, 0⟩)
  | .bitcast _ v _ => evalValue M v
  | .trunc _ v ty =>
    match evalValue M v with
    | some (.int n) => some (.int (n % 2 ^ ty.width))
    | _ => none
  | .zext _ v _ =>
    match evalValue M v with
    | some (.int n) => some (.int n)
    | _ => none
  | .icmpULT _ a b =>
    match evalValue M a, evalValue M b with
    | some (.int x), some (.int y) => some (.int (if x < y then 1 else 0))
    | _, _ => none
  | .icmpULE _ a b =>
    match evalValue M a, evalValue M b with
    | some (.int x), some (.int y) => some (.int (if x ≤ y then 1 else 0))
    | _, _ => none
  | .select _ c a b =>
    match evalValue M c, evalValue M a, evalValue M b with
    | some (.int k), some x, some y => some (if k = 1 then x else y)
    | _, _, _ => none
  | .nuwAdd _ a b =>
    match evalValue M a, evalValue M b with
    | some (.int x), some (.int y) => if x + y < 2 ^ a.type.width then some (.int (x + y)) else none
    | _, _ => none
  | .nuwSub _ a b =>
    match evalValue M a, evalValue M b with
    | some (.int x), some (.int y) => if y ≤ x then some (.int (x - y)) else none
    | _, _ => none
  | .and _ a b =>
    match evalValue M a, evalValue M b with
    | some (.int x), some (.int y) => some (.int (x &&& y))
    | _, _ => none
  | .gep _ elemTy base idx =>
    match evalValue M base, evalValue M idx with
    | some (.ptr p), some (.int i) => some (.ptr ⟨p.block, p.off + i * elemTy.bytes⟩)
    | _, _ => none
  | .constGEP1 _ base idx =>
    match evalValue M base with
    | some (.ptr p) => some (.ptr ⟨p.block, p.off + idx * base.type.pointee.bytes⟩)
    | _ => none
  | .constGEP2 _ ty base idx0 idx1 =>
    match evalValue M base with
    | some (.ptr p) => some (.ptr ⟨p.block, p.off + idx0 * ty.bytes + fieldOffset idx1⟩)
    | _ => none
  | .load id _ => M.regs id
  | .extractValue _ agg idx =>
    match evalValue M agg with
    | some (.agg f0 f1) => some (if idx = 0 then f0 else f1)
    | _ => none
  | .insertValue _ agg v idx =>
    match evalValue M agg, evalValue M v with
    | some (.agg f0 f1), some x => some (if idx = 0 then .agg x f1 else .agg f0 x)
    | some .undef, some x => some (if idx = 0 then .agg x .undef else .agg .undef x)
    | _, _ => none
  | .bswap _ v =>
    match evalValue M v with
    | some (.int n) => some (.int (byteSwap (v.type.bytes) n))
    | _ => none
  | .callRet id _ => M.regs id

namespace Machine

/-- The `n` cells at `p`, when the range lies inside an allocated block. -/
def readCells (M : Machine) (p : Ptr) (n : Nat) : Option (List MemVal) :=
  match M.mem p.block with
  | some cs => if p.off + n ≤ cs.length then some ((cs.drop p.off).take n) else none
  | none => none

/-- Overwrite the cells at `p` by `vs`, when the range lies inside an allocated block. -/
def writeCells (M : Machine) (p : Ptr) (vs : List MemVal) : Option Machine :=
  match M.mem p.block with
  | some cs =>
    if p.off + vs.length ≤ cs.length then
      some { M with
        mem := fun b =>
          if b = p.block then some (cs.take p.off ++ vs ++ cs.drop (p.off + vs.length))
          else M.mem b }
    else none
  | none => none

def setReg (M : Machine) (id : Nat) (v : RVal) : Machine :=
  { M with regs := fun i => if i = id then some v else M.regs i }

def record (M : Machine) (ev : Event) : Machine :=
  { M with trace := M.trace ++ [ev] }

/-- The word behind a by-value pointer argument, as the callee reads it: undefined for an
undefined pointer, which the callee does not read. -/
def operand (M : Machine) : RVal → Option RVal
  | .ptr p => (M.readCells p 32).map (decode Ty.Word)
  | .undef => some .undef
  | _ => none

/-- The cells `evm.query` writes into its result slot for the result `r` of the host. -/
def variantCells : RVal → List MemVal
  | .agg f0 f1 => encode Ty.memRef (.agg f0 f1)
  | r => encode Ty.Word r

end Machine

/-- Values of the actual arguments of a call. -/
def evalArgs (M : Machine) : List Value → Option (List RVal)
  | [] => some []
  | a :: as =>
    match evalValue M a, evalArgs M as with
    | some v, some vs => some (v :: vs)
    | _, _ => none

/-- Execute a call of the function named `fn` on evaluated arguments: the native calling
shape of each entry point of the environment (spec 6). `evm.query` writes its result through
the struct-return pointer, `env_sha3` and `env_create` through their last argument, `evm.call`
returns the gas, `evm.update` returns nothing. -/
def execCall (M : Machine) (id : Nat) (fn : String) (vs : List RVal) : Option Machine :=
  let M := M.record (.call fn vs M.mem)
  if fn = "evm.query" then
    match vs with
    | [.ptr ret, _, .int key, opnd] =>
      match M.operand opnd with
      | some x => M.writeCells ret (Machine.variantCells (M.host.query key x))
      | none => none
    | _ => none
  else if fn = "evm.update" then
    match vs with
    | [_, .int _, _, _] => some M
    | _ => none
  else if fn = "evm.call" then
    some (M.setReg id (.int (M.host.call vs M.mem % 2 ^ 64)))
  else if fn = "env_sha3" then
    match vs with
    | [_, _, .ptr ret] => M.writeCells ret (encode Ty.Word (.int (M.host.sha3 vs M.mem)))
    | _ => none
  else if fn = "env_create" then
    match vs with
    | [_, _, _, _, _, .ptr ret] =>
      M.writeCells ret (encode Ty.Word (.int (M.host.create vs M.mem)))
    | _ => none
  else none

/-- Execute one instruction; `none` is undefined behaviour (an access outside an allocated
block, an operand without a value). -/
def execInstr (M : Machine) : Instr → Option Machine
  | .val (.alloca id ty count _) =>
    some { M with
      mem := fun b =>
        if b = .stack id then some (List.replicate (count * ty.bytes) .undef) else M.mem b }
  | .val (.load id p) =>
    match evalValue M p with
    | some (.ptr q) =>
      match M.readCells q p.type.pointee.bytes with
      | some cs =>
        some ((M.record (.read q p.type.pointee.bytes)).setReg id (decode p.type.pointee cs))
      | none => none
    | _ => none
  | .val v => if (evalValue M v).isSome then some M else none
  | .store _ v p =>
    match evalValue M v, evalValue M p with
    | some x, some (.ptr q) =>
      ((M.record (.write q v.type.bytes)).writeCells q (encode v.type x))
    | _, _ => none
  | .memcpy _ dst src n _ =>
    match evalValue M dst, evalValue M src, evalValue M n with
    | some (.ptr d), some (.ptr s), some (.int k) =>
      match M.readCells s k with
      | some cs => ((M.record (.read s k)).record (.write d k)).writeCells d cs
      | none => none
    | _, _, _ => none
  | .memset _ dst byte n _ =>
    match evalValue M dst, evalValue M byte, evalValue M n with
    | some (.ptr d), some (.int b), some (.int k) =>
      (M.record (.write d k)).writeCells d (List.replicate k (.byte b))
    | _, _, _ => none
  | .call id fn args =>
    match evalArgs M args with
    | some vs => execCall M id fn.name vs
    | none => none

/-- Execute instructions in sequence. -/
def run : List Instr → Machine → Option Machine
  | [], M => some M
  | i :: is, M =>
    match execInstr M i with
    | some M1 => run is M1
    | none => none

/-- The instructions inserted between two states of the builder, in the order of insertion.
(A slot allocation goes to the head of the entry block, which runs before every block a routine
emits into; in the order of insertion too it precedes every use of the slot.) -/
def emitted (b b1 : IRBuilder) : List Instr :=
  (b1.log.drop b.log.length).map Emit.instr

/-! ## Sequences of invocations -/

/-- One invocation of an operation builder by the front end, with its operands; the front end
may also move the builder's insertion point between invocations. -/
inductive Op
  | sload (index : Value)
  | sstore (index value : Value)
  | selfdestruct (beneficiary : Value)
  | calldataload (idx : Value)
  | query (key : evm_query_key)
  | balance (address : Value)
  | blockHash (number : Value)
  | create (endowment initOff initSize : Value)
  | sha3 (inOff inSize : Value)
  | extcode (addr : Value)
  | log (memIdx numBytes : Value) (topics : List Value)
  | call (kind : Nat) (gas addr value inOff inSize outOff outSize : Value)
  | setInsertPoint (pt : InsertPoint)

/-- The word operands of an invocation. -/
def Op.wordOperands : Op → List Value
  | .sload i => [i]
  | .sstore i v => [i, v]
  | .selfdestruct b => [b]
  | .calldataload i => [i]
  | .query _ => []
  | .balance a => [a]
  | .blockHash n => [n]
  | .create v o n => [v, o, n]
  | .sha3 o n => [o, n]
  | .extcode a => [a]
  | .log m n ts => m :: n :: ts
  | .call _ g a v io is oo os => [g, a, v, io, is, oo, os]
  | .setInsertPoint _ => []

/-- The word operands of an invocation are values, not pointers. -/
def Op.valueOperands (op : Op) : Prop :=
  ∀ v ∈ op.wordOperands, v.type.isPointerTy = false

/-- Number of scratch slots a builder acquires before it resets the cursor, its word operands
being values (`Ext.step_pool` shows that the routines acquire these many). -/
def Op.slotDemand : Op → Nat
  | .sload _ => 2
  | .sstore _ _ => 2
  | .selfdestruct _ => 1
  | .calldataload _ => 1
  | .query _ => 1
  | .balance _ => 2
  | .blockHash _ => 2
  | .create _ _ _ => 2
  | .sha3 _ _ => 1
  | .extcode _ => 2
  | .log _ _ _ => 2
  | .call _ _ _ _ _ _ _ _ => 3
  | .setInsertPoint _ => 0

namespace Ext

/-- State after one invocation. -/
def step (msc : Bool) (e : Ext) : Op → Ext
  | .sload i => (e.sload i).2
  | .sstore i v => e.sstore i v
  | .selfdestruct b => e.selfdestruct b
  | .calldataload i => (e.calldataload i).2
  | .query k => (e.query k).2
  | .balance a => (e.balance a).2
  | .blockHash n => (e.blockHash n).2
  | .create v o n => (e.create v o n).2
  | .sha3 o n => (e.sha3 o n).2
  | .extcode a => (e.extcode a).2
  | .log m n ts => e.log m n ts
  | .call k g a v io is oo os => (e.call msc k g a v io is oo os).2
  | .setInsertPoint pt => e.emit (·.SetInsertPoint pt)

/-- State after a sequence of invocations. -/
def steps (msc : Bool) (e : Ext) (ops : List Op) : Ext :=
  ops.foldl (step msc) e

/-- The pool holds exactly the slots of the indices below `n`. -/
def PoolPrefix (e : Ext) (n : Nat) : Prop :=
  ∀ i, (e.m_argAllocas i).isSome = true ↔ i < n

/-- The cursor does not exceed the number of slots the pool holds, the slots being those of the
indices below that number. -/
def CursorInPool (e : Ext) : Prop :=
  ∃ n, e.PoolPrefix n ∧ e.m_argCounter ≤ n

/-- A step of the scratch slot allocator seen alone: acquire a slot, or rewind the cursor
(`m_argCounter = 0`). -/
inductive PoolOp
  | acquire
  | reset
  deriving DecidableEq, Repr

def poolStep (e : Ext) : PoolOp → Ext
  | .acquire => (e.getArgAlloca).2
  | .reset => { e with m_argCounter := 0 }

def poolSteps (e : Ext) (ops : List PoolOp) : Ext :=
  ops.foldl poolStep e

/-- Number of slots acquired since the last reset. -/
def acquiredSinceReset (ops : List PoolOp) : Nat :=
  (ops.reverse.takeWhile (· = PoolOp.acquire)).length

/-- The largest number of slots acquired between two consecutive resets, over the prefixes of
a sequence of allocator steps. -/
def maxDemand (ops : List PoolOp) : Nat :=
  ((List.range (ops.length + 1)).map (fun k => acquiredSinceReset (ops.take k))).foldl max 0

end Ext

/-! ## The ABI adapter in the words of the specification -/

namespace Ext

/-- Whether the argument `arg` at formal parameter number `pos` of `f` is replaced by a slot:
the parameter is by-value and the argument is not a pointer (spec 4.3, step 2). -/
def needsSlot (f : Function) (pos : Nat) (arg : Value) : Bool :=
  f.hasByValAttr pos && !arg.type.isPointerTy

/-- Acquire a scratch slot, store the value `arg` into it, and give the slot pointer (as a
pointer to the type of `arg`), spec 4.3, step 2. -/
def slotFor (e : Ext) (arg : Value) : Value × Ext :=
  let slot := e.getArgAlloca
  let p := slot.2.build (·.CreateBitCast slot.1 arg.type.getPointerTo)
  (p.1, p.2.emit (·.CreateStore arg p.1))

/-- Spec 4.3, step 2, in the spec's words, over the argument list from the formal parameter
number `pos` on: for every formal parameter marked by-value whose actual argument is not
already a pointer, acquire a scratch slot, store the value into it, and substitute the slot
pointer as the actual argument. -/
def marshalByVal (f : Function) : Nat → List Value → Ext → List Value × Ext
  | _, [], e => ([], e)
  | pos, arg :: rest, e =>
    if needsSlot f pos arg then
      ((slotFor e arg).1 :: (marshalByVal f (pos + 1) rest (slotFor e arg).2).1,
        (marshalByVal f (pos + 1) rest (slotFor e arg).2).2)
    else
      (arg :: (marshalByVal f (pos + 1) rest e).1, (marshalByVal f (pos + 1) rest e).2)

/-- Number of arguments replaced by a slot, the list starting at parameter number `pos`. -/
def slotsNeeded (f : Function) : Nat → List Value → Nat
  | _, [] => 0
  | pos, arg :: rest => (if needsSlot f pos arg then 1 else 0) + slotsNeeded f (pos + 1) rest

/-- Number of hidden arguments in front of the logical ones: one for a struct-return callee. -/
def sretArgs (f : Function) : Nat := if f.hasStructRetAttr then 1 else 0

/-- Every slot of the pool is the stack allocation of one word. -/
def PoolOfSlots (e : Ext) : Prop :=
  ∀ i a, e.m_argAllocas i = some a → ∃ id name, a = Value.alloca id Ty.Word 1 name

end Ext

/-- Spec 4.5 and 8, call-data load, in the spec's words: for the buffer `B` and the index `i`,
the `min 32 (len B - s)` bytes of `B` from `s = min i (len B)` on, zero-padded to 32 bytes. -/
def calldataWord (B : List Nat) (i : Nat) : List Nat :=
  (B.drop (min i B.length)).take (min 32 (B.length - min i B.length)) ++
    List.replicate (32 - min 32 (B.length - min i B.length)) 0

/-! The values that `Ext::calldataload` builds, under the names the source gives them, for the
slot `ret`, the index operand `x` and the number `n` of the first instruction. -/

def cdlResult (ret : Value) (n : Nat) : Value := .bitcast n ret Ty.BytePtr

def cdlCallDataSize64 (n : Nat) : Value := .trunc (n + 1) RuntimeManager.getCallDataSize Ty.Size

def cdlIdxValid (n : Nat) (x : Value) : Value :=
  .icmpULT (n + 2) x RuntimeManager.getCallDataSize

def cdlIdxSelect (n : Nat) (x : Value) : Value :=
  .select (n + 3) (cdlIdxValid n x) x RuntimeManager.getCallDataSize

def cdlIdx (n : Nat) (x : Value) : Value := .trunc (n + 4) (cdlIdxSelect n x) Ty.Size

def cdlEndAdd (n : Nat) (x : Value) : Value := .nuwAdd (n + 5) (cdlIdx n x) (IRBuilder.getInt64 32)

def cdlEndValid (n : Nat) (x : Value) : Value :=
  .icmpULE (n + 6) (cdlEndAdd n x) (cdlCallDataSize64 n)

def cdlEnd (n : Nat) (x : Value) : Value :=
  .select (n + 7) (cdlEndValid n x) (cdlEndAdd n x) (cdlCallDataSize64 n)

def cdlCopySize (n : Nat) (x : Value) : Value := .nuwSub (n + 8) (cdlEnd n x) (cdlIdx n x)

def cdlPadSize (n : Nat) (x : Value) : Value :=
  .nuwSub (n + 9) (IRBuilder.getInt64 32) (cdlCopySize n x)

def cdlDataBegin (n : Nat) (x : Value) : Value :=
  .gep (n + 10) Ty.Byte RuntimeManager.getCallData (cdlIdx n x)

def cdlPad (ret : Value) (n : Nat) (x : Value) : Value :=
  .gep (n + 12) Ty.Byte (cdlResult ret n) (cdlCopySize n x)

/-- The instructions that `Ext::calldataload` inserts once it holds the slot `ret`, for the
index operand `x`, the first of them numbered `n` (`Ext.calldataload_of_slot` and
`Ext.calldataload_of_none` show that they are these). -/
def calldataloadBody (ret : Value) (n : Nat) (x : Value) : List Instr :=
  [.val (cdlResult ret n), .val (cdlCallDataSize64 n), .val (cdlIdxValid n x),
   .val (cdlIdxSelect n x), .val (cdlIdx n x), .val (cdlEndAdd n x), .val (cdlEndValid n x),
   .val (cdlEnd n x), .val (cdlCopySize n x), .val (cdlPadSize n x), .val (cdlDataBegin n x),
   .memcpy (n + 11) (cdlResult ret n) (cdlDataBegin n x) (cdlCopySize n x) 1,
   .val (cdlPad ret n x),
   .memset (n + 13) (cdlPad ret n x) (IRBuilder.getInt8 0) (cdlPadSize n x) 1,
   .val (.load (n + 14) ret),
   .val (.bswap (n + 15) (.load (n + 14) ret))]

/-- The values from outside the component that `calldataload` reads, in the machine `M`: the
index operand named `name` is `i`, the call data is the buffer `B`. -/
structure CallDataArgs (M : Machine) (name : String) (i : Nat) (B : List Nat) : Prop where
  idx : M.args name = .int i
  data : M.args "calldata" = .ptr ⟨.callData, 0⟩
  size : M.args "calldatasize" = .int B.length

/-- A host whose query entry point answers every query with the word `w`. -/
def Host.const (w : Nat) : Host :=
  ⟨fun _ _ => .int w, fun _ _ => 0, fun _ _ => 0, fun _ _ => 0⟩

/-- A machine at the entry of the compiled function: no stack slot allocated yet, nothing
executed, the call data buffer holding the bytes `B`, the other outside values as given by
`operands`. -/
def Machine.entry (host : Host) (B : List Nat) (operands : String → RVal) : Machine :=
  { args := fun n =>
      if n = "calldata" then .ptr ⟨.callData, 0⟩
      else if n = "calldatasize" then .int B.length
      else operands n
    basePointer := fun n => ⟨.host "memory", n⟩
    host := host
    mem := fun b => if b = .callData then some (B.map .byte) else none
    regs := fun _ => none
    trace := [] }

/-- The declaration of `evm.query` that `getQueryFunc` creates. -/
def queryFunc : Function := (getQueryFunc ⟨[]⟩).1

/-- The declaration of `evm.update` that `getUpdateFunc` creates. -/
def updateFunc : Function := (getUpdateFunc ⟨[]⟩).1

/-- The declaration of `evm.call` that `getCallFunc` creates. -/
def callFunc (msc : Bool) : Function := (getCallFunc msc ⟨[]⟩).1

/-- The declaration that `createFunc` creates for the identifier `id`. -/
def envDecl (id : EnvFunc) : Function := (createFunc id ⟨[]⟩).1

/-- State after a sequence of `createCall` invocations, each with its identifier and actual
arguments. -/
def Ext.createCalls (e : Ext) (calls : List (EnvFunc × List Value)) : Ext :=
  calls.foldl (fun e c => (e.createCall c.1 c.2).2) e

namespace Ext

/-- Well-formedness of the object's stack slots, as the routines of `Ext` keep it: every slot
of the pool is a one-word stack allocation numbered below the builder's next number, no two
indices share an allocation, and the topics buffer is a four-word allocation apart from them. -/
structure WF (e : Ext) : Prop where
  slots : ∀ i a, e.m_argAllocas i = some a →
    ∃ id name, a = Value.alloca id Ty.Word 1 name ∧ id < e.m_builder.nextId
  distinct : ∀ i j id ni nj, e.m_argAllocas i = some (Value.alloca id Ty.Word 1 ni) →
    e.m_argAllocas j = some (Value.alloca id Ty.Word 1 nj) → i = j
  topics : ∀ t, e.m_topics = some t →
    ∃ id, t = Value.alloca id Ty.Word 4 "topics" ∧ id < e.m_builder.nextId ∧
      ∀ i name, e.m_argAllocas i ≠ some (Value.alloca id Ty.Word 1 name)

/-- The module holds under the names of the generic entry points, if anything, the
declarations that `getQueryFunc` and `getUpdateFunc` create. -/
structure DeclsOK (e : Ext) : Prop where
  query : ∀ f, e.m_module.getFunction "evm.query" = some f → f = queryFunc
  update : ∀ f, e.m_module.getFunction "evm.update" = some f → f = updateFunc

end Ext

/-- The stack slots that the object `e` holds are allocated in the machine `M`: the code that
created them has run. -/
structure Machine.Live (M : Machine) (e : Ext) : Prop where
  slots : ∀ i id name, e.m_argAllocas i = some (Value.alloca id Ty.Word 1 name) →
    ∃ cs, M.mem (.stack id) = some cs ∧ cs.length = 32
  topics : ∀ id, e.m_topics = some (Value.alloca id Ty.Word 4 "topics") →
    ∃ cs, M.mem (.stack id) = some cs ∧ cs.length = 128

/-- The builder went from `b` to `b1` by inserting instructions that, run in the machine `M`,
end in `M1`. -/
def Runs (b b1 : IRBuilder) (M M1 : Machine) : Prop :=
  ∃ l : List Emit, b1.log = b.log ++ l ∧ run (l.map Emit.instr) M = some M1

/-- The cells `cs` with `vs` written over them from offset `off` on. -/
def splice (cs : List MemVal) (off : Nat) (vs : List MemVal) : List MemVal :=
  cs.take off ++ vs ++ cs.drop (off + vs.length)

/-- The `n` cells of `cs` from offset `off` on. -/
def readAt (cs : List MemVal) (off n : Nat) : List MemVal :=
  (cs.drop off).take n

/-- The pointer a chain of pointer casts starts from (LLVM `stripPointerCasts`). -/
def Value.stripPointerCasts : Value → Value
  | .bitcast _ v _ => v.stripPointerCasts
  | v => v

def Instr.isCall : Instr → Bool
  | .call _ _ _ => true
  | _ => false

/-- The events of a trace that are calls of an entry point of the environment. -/
def Event.isCall : Event → Bool
  | .call _ _ _ => true
  | _ => false

/-- An allocation of four elements, as the topics buffer is (the slots of the pool and
`env.size` are allocations of one element). -/
def Instr.isTopicsAlloca : Instr → Bool
  | .val (.alloca _ _ count _) => count == 4
  | _ => false

/-- The builder went from `b` to `b1` by inserting instructions, none of them an allocation of
four elements; the instruction numbers only grow. -/
def BStep (b b1 : IRBuilder) : Prop :=
  b.nextId ≤ b1.nextId ∧
    ∃ l : List Emit, b1.log = b.log ++ l ∧ ∀ x ∈ l, x.instr.isTopicsAlloca = false

/-- The builder went from `b` to `b1` by inserting instructions, none of them a call. -/
def Quiet (b b1 : IRBuilder) : Prop :=
  ∃ l : List Emit, b1.log = b.log ++ l ∧ ∀ x ∈ l, x.instr.isCall = false

/-- Successive acquisitions within one marshaling sequence, each followed by insertions
through the builder (`fs`, one entry for each acquisition): the handles returned, in order, and
the state after. -/
def Ext.acquireEach (e : Ext) : List (IRBuilder → IRBuilder) → List Value × Ext
  | [] => ([], e)
  | f :: fs =>
    ((e.getArgAlloca).1 :: (acquireEach ((e.getArgAlloca).2.emit f) fs).1,
      (acquireEach ((e.getArgAlloca).2.emit f) fs).2)

/-- The actual argument number `i` of a call made by `createCABICall` is a scratch slot: the
struct-return slot in front, or the slot substituted for a by-value argument. -/
def Ext.SlotArg (f : Function) (args : List Value) (i : Nat) : Prop :=
  (f.hasStructRetAttr = true ∧ i = 0) ∨
    ∃ a, Ext.sretArgs f ≤ i ∧ args.get? (i - Ext.sretArgs f) = some a ∧
      Ext.needsSlot f i a = true

/-- Number of allocations of four elements inserted so far. -/
def topicsAllocas (b : IRBuilder) : Nat :=
  (b.log.filter (fun x => x.instr.isTopicsAlloca)).length

/-- The module holds under the name of the call entry point, if anything, the declaration that
`getCallFunc` creates. -/
def Ext.CallDeclOK (msc : Bool) (e : Ext) : Prop :=
  ∀ f, e.m_module.getFunction "evm.call" = some f → f = callFunc msc

/-- The state changes out of which the routines of `Ext` are composed: instructions inserted
through the builder, a generic entry point resolved through the module, a declaration created
and cached by `createCall`, a slot acquired, the cursor reset, and (only with the flag `true`)
the topics buffer obtained. -/
inductive Ext.Prim (msc : Bool) : Bool → Ext → Ext → Prop
  | refl (t : Bool) (e : Ext) : Prim msc t e e
  | builder (t : Bool) (e : Ext) (b1 : IRBuilder) (h : BStep e.m_builder b1) :
      Prim msc t e { e with m_builder := b1 }
  | resolveQuery (t : Bool) (e : Ext) : Prim msc t e (e.resolve getQueryFunc).2
  | resolveUpdate (t : Bool) (e : Ext) : Prim msc t e (e.resolve getUpdateFunc).2
  | resolveCall (t : Bool) (e : Ext) : Prim msc t e (e.resolve (getCallFunc msc)).2
  | cache (t : Bool) (e : Ext) (id : EnvFunc) :
      Prim msc t e { e with
        m_module := (createFunc id e.m_module).2
        m_funcs := fun i => if i = id then some (createFunc id e.m_module).1 else e.m_funcs i }
  | acquire (t : Bool) (e : Ext) : Prim msc t e (e.getArgAlloca).2
  | reset (t : Bool) (e : Ext) : Prim msc t e { e with m_argCounter := 0 }
  | topics (e : Ext) : Prim msc true e (e.topicsBuffer).2
  | trans (t : Bool) (e e1 e2 : Ext) (h1 : Prim msc t e e1) (h2 : Prim msc t e1 e2) :
      Prim msc t e e2

/-! ## Theorems: the scratch slot allocator -/

namespace Ext

@[simp] theorem build_argCounter (e : Ext) (f : IRBuilder → Value × IRBuilder) :
    (e.build f).2.m_argCounter = e.m_argCounter := rfl
@[simp] theorem build_argAllocas (e : Ext) (f : IRBuilder → Value × IRBuilder) :
    (e.build f).2.m_argAllocas = e.m_argAllocas := rfl
@[simp] theorem emit_argCounter (e : Ext) (f : IRBuilder → IRBuilder) :
    (e.emit f).m_argCounter = e.m_argCounter := rfl
@[simp] theorem emit_argAllocas (e : Ext) (f : IRBuilder → IRBuilder) :
    (e.emit f).m_argAllocas = e.m_argAllocas := rfl
@[simp] theorem resolve_argCounter (e : Ext) (g : Module → Function × Module) :
    (e.resolve g).2.m_argCounter = e.m_argCounter := rfl
@[simp] theorem resolve_argAllocas (e : Ext) (g : Module → Function × Module) :
    (e.resolve g).2.m_argAllocas = e.m_argAllocas := rfl

theorem getArgAlloca_argCounter (e : Ext) :
    (e.getArgAlloca).2.m_argCounter = e.m_argCounter + 1 := by
  unfold getArgAlloca
  split <;> rfl

theorem createCABICall_argCounter (e : Ext) (f : Function) (args : List Value) (d : Bool) :
    (e.createCABICall f args d).2.m_argCounter = 0 := by
  unfold createCABICall
  simp only []
  split_ifs <;> rfl

theorem createCall_argCounter (e : Ext) (f : EnvFunc) (args : List Value) :
    (e.createCall f args).2.m_argCounter = 0 := by
  unfold createCall
  rfl

theorem getArgAlloca_pool (e : Ext) (n : Nat) (hp : e.PoolPrefix n) (hc : e.m_argCounter ≤ n) :
    (e.getArgAlloca).2.PoolPrefix (max n (e.m_argCounter + 1)) := by
  unfold getArgAlloca
  split
  · rename_i a ha
    have hlt : e.m_argCounter < n := (hp _).1 (by simp [ha])
    have hmax : max n (e.m_argCounter + 1) = n := by omega
    rw [hmax]
    exact hp
  · rename_i ha
    have hge : ¬ e.m_argCounter < n := fun h => by
      have := (hp _).2 h
      simp [ha] at this
    have hmax : max n (e.m_argCounter + 1) = n + 1 := by omega
    rw [hmax]
    intro i
    simp only []
    by_cases hi : i = e.m_argCounter
    · simp [hi]; omega
    · simp only [hi, if_false]
      rw [hp i]
      omega

theorem getArgAlloca_inv (e : Ext) (h : e.CursorInPool) : (e.getArgAlloca).2.CursorInPool := by
  obtain ⟨n, hp, hc⟩ := h
  refine ⟨_, getArgAlloca_pool e n hp hc, ?_⟩
  rw [getArgAlloca_argCounter]
  omega

theorem byValArg_inv (f : Function) (st : List Value × Ext) (i : Nat) (h : st.2.CursorInPool) :
    (byValArg f st i).2.CursorInPool := by
  unfold byValArg
  split_ifs
  · split
    · split_ifs
      · exact getArgAlloca_inv _ h
      · exact h
    · exact h
  · exact h

theorem foldl_byValArg_inv (f : Function) (l : List Nat) (st : List Value × Ext)
    (h : st.2.CursorInPool) : (l.foldl (byValArg f) st).2.CursorInPool := by
  induction l generalizing st with
  | nil => exact h
  | cons i l ih => exact ih _ (byValArg_inv f st i h)

theorem reset_inv (e : Ext) (h : e.CursorInPool) : CursorInPool { e with m_argCounter := 0 } := by
  obtain ⟨n, hp, _⟩ := h
  exact ⟨n, hp, Nat.zero_le _⟩

theorem build_inv (e : Ext) (f : IRBuilder → Value × IRBuilder) :
    (e.build f).2.CursorInPool ↔ e.CursorInPool := Iff.rfl
theorem emit_inv (e : Ext) (f : IRBuilder → IRBuilder) :
    (e.emit f).CursorInPool ↔ e.CursorInPool := Iff.rfl
theorem resolve_inv (e : Ext) (g : Module → Function × Module) :
    (e.resolve g).2.CursorInPool ↔ e.CursorInPool := Iff.rfl

theorem createCABICall_inv (e : Ext) (f : Function) (args : List Value) (d : Bool)
    (h : e.CursorInPool) : (e.createCABICall f args d).2.CursorInPool := by
  unfold createCABICall
  simp only []
  have key : ∀ st0 : List Value × Ext, st0.2.CursorInPool →
      CursorInPool { ((List.range f.params.length).foldl (byValArg f) st0).2 with
        m_argCounter := 0 } :=
    fun st0 h0 => reset_inv _ (foldl_byValArg_inv f _ st0 h0)
  split_ifs
  · exact key _ (getArgAlloca_inv e h)
  · exact key _ (getArgAlloca_inv e h)
  · exact key _ h

theorem inv_of_reset (e e1 : Ext) (ha : e1.m_argAllocas = e.m_argAllocas)
    (hc : e1.m_argCounter = 0) (h : e.CursorInPool) : e1.CursorInPool := by
  obtain ⟨n, hp, _⟩ := h
  refine ⟨n, ?_, by omega⟩
  intro i
  rw [ha]
  exact hp i

theorem createCall_inv (e : Ext) (f : EnvFunc) (args : List Value)
    (h : e.CursorInPool) : (e.createCall f args).2.CursorInPool := by
  unfold createCall
  simp only []
  split
  · exact inv_of_reset e _ rfl rfl h
  · exact inv_of_reset e _ rfl rfl h

theorem byPtr_inv (e : Ext) (v : Value) (h : e.CursorInPool) : (e.byPtr v).2.CursorInPool :=
  getArgAlloca_inv e h

theorem storeTopics_inv (e : Ext) (t : Value) (i : Nat) (ts : List Value) (h : e.CursorInPool) :
    (storeTopics e t i ts).CursorInPool := by
  induction ts generalizing e i with
  | nil => exact h
  | cons a l ih => exact ih _ _ h

theorem step_inv (msc : Bool) (e : Ext) (op : Op) (h : e.CursorInPool) :
    (e.step msc op).CursorInPool := by
  cases op with
  | sload i => exact createCABICall_inv _ _ _ _ h
  | sstore i v => exact createCABICall_inv _ _ _ _ h
  | selfdestruct b => exact createCABICall_inv _ _ _ _ h
  | calldataload i =>
    simp only [step, calldataload]
    exact inv_of_reset (e.getArgAlloca).2 _ rfl rfl (getArgAlloca_inv e h)
  | query k =>
    have := createCABICall_inv (e.resolve getQueryFunc).2 (e.resolve getQueryFunc).1
      [RuntimeManager.getEnvPtr, IRBuilder.getInt32 k.code, Value.undef Ty.WordPtr] derefDefault h
    cases k <;> simp only [step, query, build_inv] <;> exact this
  | balance a =>
    simp only [step, balance]
    apply createCABICall_inv
    exact h
  | blockHash n =>
    simp only [step, blockHash, build_inv]
    apply createCABICall_inv
    exact h
  | create v o n =>
    simp only [step, create, build_inv]
    apply createCall_inv
    apply byPtr_inv
    rw [build_inv]
    exact getArgAlloca_inv e h
  | sha3 o n =>
    simp only [step, sha3, build_inv]
    apply createCall_inv
    apply getArgAlloca_inv
    exact h
  | extcode a =>
    simp only [step, extcode, build_inv]
    apply createCABICall_inv
    exact h
  | log m n ts =>
    simp only [step, log]
    apply createCABICall_inv
    simp only [build_inv, emit_inv]
    apply getArgAlloca_inv
    simp only [build_inv, emit_inv]
    apply getArgAlloca_inv
    rw [resolve_inv]
    apply storeTopics_inv
    rw [build_inv]
    unfold topicsBuffer
    cases hm : e.m_topics <;> exact h
  | call k g a v io is oo os =>
    simp only [step, call]
    apply createCABICall_inv
    exact h
  | setInsertPoint pt => exact h

theorem steps_inv (msc : Bool) (ops : List Op) (e : Ext) (h : e.CursorInPool) :
    (e.steps msc ops).CursorInPool := by
  induction ops generalizing e with
  | nil => exact h
  | cons op ops ih => exact ih _ (step_inv msc e op h)

theorem step_argCounter_zero (msc : Bool) (e : Ext) (op : Op) (h0 : e.m_argCounter = 0) :
    (e.step msc op).m_argCounter = 0 := by
  cases op <;>
    simp only [step, sload, sstore, selfdestruct, calldataload, balance, blockHash,
      create, sha3, extcode, log, call, createCABICall_argCounter, createCall_argCounter,
      build_argCounter, emit_argCounter, h0]
  case query k => cases k <;> simp [query, createCABICall_argCounter]

theorem steps_argCounter_zero (msc : Bool) (ops : List Op) (e : Ext) (h0 : e.m_argCounter = 0) :
    (e.steps msc ops).m_argCounter = 0 := by
  induction ops generalizing e with
  | nil => exact h0
  | cons op ops ih => exact ih _ (step_argCounter_zero msc e op h0)

/-- C3. The cursor is zero between operation builders: from a state with cursor zero every
builder ends with cursor zero, hence so does every sequence of invocations; and the cursor
stays within the pool: when the pool holds the slots below `n` and the cursor is at most `n`,
an acquisition leaves the pool holding the slots below `max n (cursor + 1)` with the cursor
advanced by one, so not beyond the slots held then, which carries over to every state reached
by invocations of the builders. -/
theorem cursor_zero_between_builders (msc : Bool) (e : Ext) (h0 : e.m_argCounter = 0) :
    (∀ op, (e.step msc op).m_argCounter = 0) ∧
    (∀ ops, (e.steps msc ops).m_argCounter = 0) ∧
    (∀ (s : Ext) (n : Nat), s.PoolPrefix n → s.m_argCounter ≤ n →
      (s.getArgAlloca).2.PoolPrefix (max n (s.m_argCounter + 1)) ∧
      (s.getArgAlloca).2.m_argCounter = s.m_argCounter + 1 ∧
      (s.getArgAlloca).2.m_argCounter ≤ max n (s.m_argCounter + 1)) ∧
    (∀ n, e.PoolPrefix n → ∀ ops, (e.steps msc ops).CursorInPool) := by
  refine ⟨fun op => step_argCounter_zero msc e op h0,
    fun ops => steps_argCounter_zero msc ops e h0, ?_, ?_⟩
  · intro s n hp hc
    refine ⟨getArgAlloca_pool s n hp hc, getArgAlloca_argCounter s, ?_⟩
    rw [getArgAlloca_argCounter]
    exact le_max_right _ _
  · intro n hp ops
    exact steps_inv msc ops e ⟨n, hp, by omega⟩

theorem acquiredSinceReset_acquire (ops : List PoolOp) :
    acquiredSinceReset (ops ++ [.acquire]) = acquiredSinceReset ops + 1 := by
  simp [acquiredSinceReset, List.takeWhile_cons]

theorem acquiredSinceReset_reset (ops : List PoolOp) :
    acquiredSinceReset (ops ++ [.reset]) = 0 := by
  simp [acquiredSinceReset, List.takeWhile_cons]

theorem foldl_max_snoc (l : List Nat) (x : Nat) :
    (l ++ [x]).foldl max 0 = max (l.foldl max 0) x := by
  simp [List.foldl_append]

theorem maxDemand_snoc (ops : List PoolOp) (op : PoolOp) :
    maxDemand (ops ++ [op]) = max (maxDemand ops) (acquiredSinceReset (ops ++ [op])) := by
  unfold maxDemand
  have hlen : (ops ++ [op]).length + 1 = (ops.length + 1) + 1 := by simp
  rw [hlen, List.range_succ, List.map_append, List.map_singleton, foldl_max_snoc]
  congr 1
  · congr 1
    apply List.map_congr_left
    intro k hk
    rw [List.mem_range] at hk
    rw [List.take_append_of_le_length (by omega)]
  · have : List.take (ops.length + 1) (ops ++ [op]) = ops ++ [op] :=
      List.take_of_length_le (by simp)
    rw [this]

theorem acquiredSinceReset_le_maxDemand (ops : List PoolOp) :
    acquiredSinceReset ops ≤ maxDemand ops := by
  induction ops using List.reverseRecOn with
  | nil => simp [acquiredSinceReset]
  | append_singleton ops op _ =>
    rw [maxDemand_snoc]
    exact le_max_right _ _

theorem poolSteps_snoc (e : Ext) (ops : List PoolOp) (op : PoolOp) :
    e.poolSteps (ops ++ [op]) = (e.poolSteps ops).poolStep op := by
  simp [poolSteps, List.foldl_append]

theorem poolSteps_exact (e : Ext) (hpool : ∀ i, e.m_argAllocas i = none)
    (hc : e.m_argCounter = 0) (ops : List PoolOp) :
    (e.poolSteps ops).PoolPrefix (maxDemand ops) ∧
      (e.poolSteps ops).m_argCounter = acquiredSinceReset ops := by
  induction ops using List.reverseRecOn with
  | nil =>
    refine ⟨?_, hc⟩
    intro i
    simp [poolSteps, hpool, maxDemand, acquiredSinceReset]
  | append_singleton ops op ih =>
    obtain ⟨hp, hcur⟩ := ih
    rw [poolSteps_snoc, maxDemand_snoc]
    have hle := acquiredSinceReset_le_maxDemand ops
    cases op with
    | acquire =>
      rw [acquiredSinceReset_acquire]
      refine ⟨?_, ?_⟩
      · have := getArgAlloca_pool _ _ hp (by omega)
        rw [hcur] at this
        exact this
      · show (getArgAlloca _).2.m_argCounter = _
        rw [getArgAlloca_argCounter, hcur]
    | reset =>
      rw [acquiredSinceReset_reset]
      refine ⟨?_, rfl⟩
      simpa using hp

theorem getArgAlloca_some (s : Ext) (a : Value) (h : s.m_argAllocas s.m_argCounter = some a) :
    (s.getArgAlloca).1 = a ∧ (s.getArgAlloca).2.m_argAllocas = s.m_argAllocas ∧
      (s.getArgAlloca).2.m_builder = s.m_builder := by
  unfold getArgAlloca
  rw [h]
  exact ⟨rfl, rfl, rfl⟩

theorem getArgAlloca_none (s : Ext) (h : s.m_argAllocas s.m_argCounter = none) :
    (s.getArgAlloca).1 =
        .alloca s.m_builder.nextId Ty.Word 1 ("a." ++ toString s.m_argCounter) ∧
      (s.getArgAlloca).2.m_argAllocas =
        (fun i => if i = s.m_argCounter then some (s.getArgAlloca).1 else s.m_argAllocas i) ∧
      emitted s.m_builder (s.getArgAlloca).2.m_builder = [.val (s.getArgAlloca).1] := by
  unfold getArgAlloca
  rw [h]
  refine ⟨rfl, rfl, ?_⟩
  simp [emitted, IRBuilder.CreateAlloca, IRBuilder.InsertV, IRBuilder.Insert,
    IRBuilder.SetInsertPoint]

theorem poolStep_retains (s : Ext) (op : PoolOp) (i : Nat) (a : Value)
    (h : s.m_argAllocas i = some a) : (s.poolStep op).m_argAllocas i = some a := by
  cases op with
  | reset => exact h
  | acquire =>
    show (s.getArgAlloca).2.m_argAllocas i = some a
    cases hc : s.m_argAllocas s.m_argCounter with
    | some b => rw [(getArgAlloca_some s b hc).2.1]; exact h
    | none =>
      rw [(getArgAlloca_none s hc).2.1]
      have hi : i ≠ s.m_argCounter := fun hi => by rw [hi, hc] at h; cases h
      simp only [hi, if_false]
      exact h

/-- C4. The scratch pool is grow-only and exact. From an empty pool with cursor zero, after any
sequence of acquisitions and resets: the pool holds exactly the slots of the indices below
`maxDemand ops`, the largest number of slots acquired between two consecutive resets so far, and
the cursor is the number acquired since the last reset; an acquisition in that state inserts an
instruction if and only if the slot at the cursor is missing, in which case the one instruction
is the new slot and it is recorded at the cursor, and otherwise returns the recorded slot and
leaves pool and function alone; a further step keeps every slot held and does not lower their
number. -/
theorem pool_grow_only_exact (e : Ext) (hpool : ∀ i, e.m_argAllocas i = none)
    (hc : e.m_argCounter = 0) (ops : List PoolOp) :
    (e.poolSteps ops).PoolPrefix (maxDemand ops) ∧
    (e.poolSteps ops).m_argCounter = acquiredSinceReset ops ∧
    (emitted (e.poolSteps ops).m_builder ((e.poolSteps ops).getArgAlloca).2.m_builder ≠ [] ↔
      (e.poolSteps ops).m_argAllocas (e.poolSteps ops).m_argCounter = none) ∧
    ((e.poolSteps ops).m_argAllocas (e.poolSteps ops).m_argCounter = none →
      emitted (e.poolSteps ops).m_builder ((e.poolSteps ops).getArgAlloca).2.m_builder =
        [.val ((e.poolSteps ops).getArgAlloca).1] ∧
      ((e.poolSteps ops).getArgAlloca).1 = .alloca (e.poolSteps ops).m_builder.nextId Ty.Word 1
        ("a." ++ toString (e.poolSteps ops).m_argCounter) ∧
      ((e.poolSteps ops).getArgAlloca).2.m_argAllocas (e.poolSteps ops).m_argCounter =
        some ((e.poolSteps ops).getArgAlloca).1) ∧
    (∀ a, (e.poolSteps ops).m_argAllocas (e.poolSteps ops).m_argCounter = some a →
      ((e.poolSteps ops).getArgAlloca).1 = a ∧
      ((e.poolSteps ops).getArgAlloca).2.m_argAllocas = (e.poolSteps ops).m_argAllocas ∧
      ((e.poolSteps ops).getArgAlloca).2.m_builder = (e.poolSteps ops).m_builder) ∧
    (∀ op, maxDemand ops ≤ maxDemand (ops ++ [op]) ∧
      ∀ i a, (e.poolSteps ops).m_argAllocas i = some a →
        (e.poolSteps (ops ++ [op])).m_argAllocas i = some a) := by
  obtain ⟨hp, hcur⟩ := poolSteps_exact e hpool hc ops
  have hlast : ∀ op, maxDemand ops ≤ maxDemand (ops ++ [op]) ∧
      ∀ i a, (e.poolSteps ops).m_argAllocas i = some a →
        (e.poolSteps (ops ++ [op])).m_argAllocas i = some a := by
    intro op
    refine ⟨?_, ?_⟩
    · rw [maxDemand_snoc]
      exact le_max_left _ _
    · intro i a h
      rw [poolSteps_snoc]
      exact poolStep_retains _ op i a h
  refine ⟨hp, hcur, ?_, ?_, ?_, hlast⟩
  all_goals clear hlast
  all_goals generalize e.poolSteps ops = s at hp hcur ⊢
  · cases hs : s.m_argAllocas s.m_argCounter with
    | some b =>
      rw [(getArgAlloca_some s b hs).2.2]
      simp [emitted]
    | none =>
      rw [(getArgAlloca_none s hs).2.2]
      simp
  · intro hs
    refine ⟨(getArgAlloca_none s hs).2.2, (getArgAlloca_none s hs).1, ?_⟩
    rw [(getArgAlloca_none s hs).2.1]
    simp
  · intro a hs
    exact getArgAlloca_some s a hs

/-- C4, at an instance: two acquisitions, a reset, then one acquisition on the fresh object
leave exactly the slots 0 and 1 and the cursor at 1. -/
theorem pool_grow_only_exact_witness :
    fresh.m_argCounter = 0 ∧
    (fresh.poolSteps [.acquire, .acquire, .reset, .acquire]).PoolPrefix 2 ∧
    (fresh.poolSteps [.acquire, .acquire, .reset, .acquire]).m_argCounter = 1 :=
  ⟨rfl,
    (pool_grow_only_exact fresh (fun _ => rfl) rfl [.acquire, .acquire, .reset, .acquire]).1,
    (pool_grow_only_exact fresh (fun _ => rfl) rfl [.acquire, .acquire, .reset, .acquire]).2.1⟩

/-- C3, at an instance: on the fresh object a storage read, a log emission and a sub-call leave
the cursor at zero. -/
theorem cursor_zero_between_builders_witness :
    fresh.m_argCounter = 0 ∧
    (fresh.steps false [.sload (.arg "k" Ty.Word),
      .log (.arg "m" Ty.Word) (.arg "n" Ty.Word) [.arg "t" Ty.Word],
      .call 0 (.arg "g" Ty.Word) (.arg "a" Ty.Word) (.arg "v" Ty.Word) (.arg "io" Ty.Word)
        (.arg "is" Ty.Word) (.arg "oo" Ty.Word) (.arg "os" Ty.Word)]).m_argCounter = 0 :=
  ⟨rfl, (cursor_zero_between_builders false fresh rfl).2.1 _⟩

/-! ## Theorems: the ABI adapter -/

theorem byValArg_of_get (f : Function) (l : List Value) (e : Ext) (i : Nat) (a : Value)
    (h : l.get? i = some a) :
    byValArg f (l, e) i =
      if needsSlot f i a then (l.set i (slotFor e a).1, (slotFor e a).2)
      else (l, e) := by
  unfold byValArg needsSlot
  simp only [h]
  cases f.hasByValAttr i <;> cases a.type.isPointerTy <;> rfl

theorem get_append_cons (pre rest : List Value) (a : Value) :
    (pre ++ a :: rest).get? pre.length = some a := by
  induction pre with
  | nil => rfl
  | cons x pre ih => simpa using ih

theorem set_append_cons (pre rest : List Value) (a x : Value) :
    (pre ++ a :: rest).set pre.length x = (pre ++ [x]) ++ rest := by
  induction pre with
  | nil => rfl
  | cons y pre ih => simp [ih]

theorem foldl_byValArg_eq (f : Function) (rest pre : List Value) (e : Ext) :
    (List.range' pre.length rest.length).foldl (byValArg f) (pre ++ rest, e) =
      (pre ++ (marshalByVal f pre.length rest e).1, (marshalByVal f pre.length rest e).2) := by
  induction rest generalizing pre e with
  | nil => simp [marshalByVal]
  | cons a rest ih =>
    simp only [List.length_cons, List.range'_succ, List.foldl_cons]
    rw [byValArg_of_get f _ e _ a (get_append_cons pre rest a)]
    unfold marshalByVal
    by_cases hn : needsSlot f pre.length a = true
    · simp only [hn, if_true]
      rw [set_append_cons]
      have := ih (pre ++ [(slotFor e a).1])
      simp only [List.length_append, List.length_singleton] at this
      rw [this]
      simp
    · simp only [hn]
      have h2 : pre ++ a :: rest = (pre ++ [a]) ++ rest := by simp
      rw [h2]
      have := ih (pre ++ [a]) e
      simp only [List.length_append, List.length_singleton] at this
      simp only [Bool.false_eq_true, if_false]
      rw [this]
      simp

theorem getArgAlloca_retains (s : Ext) (i : Nat) (a : Value)
    (h : s.m_argAllocas i = some a) : (s.getArgAlloca).2.m_argAllocas i = some a :=
  poolStep_retains s .acquire i a h

theorem getArgAlloca_at_cursor (s : Ext) :
    (s.getArgAlloca).2.m_argAllocas s.m_argCounter = some (s.getArgAlloca).1 := by
  cases hc : s.m_argAllocas s.m_argCounter with
  | some b =>
    rw [(getArgAlloca_some s b hc).2.1, (getArgAlloca_some s b hc).1]
    exact hc
  | none =>
    rw [(getArgAlloca_none s hc).2.1]
    simp

theorem getArgAlloca_isAlloca (s : Ext) (h : s.PoolOfSlots) :
    ∃ id name, (s.getArgAlloca).1 = Value.alloca id Ty.Word 1 name := by
  cases hc : s.m_argAllocas s.m_argCounter with
  | some b =>
    rw [(getArgAlloca_some s b hc).1]
    exact h _ _ hc
  | none => exact ⟨_, _, (getArgAlloca_none s hc).1⟩

theorem getArgAlloca_poolOfSlots (s : Ext) (h : s.PoolOfSlots) :
    (s.getArgAlloca).2.PoolOfSlots := by
  cases hc : s.m_argAllocas s.m_argCounter with
  | some b =>
    intro i a hi
    rw [(getArgAlloca_some s b hc).2.1] at hi
    exact h i a hi
  | none =>
    intro i a hi
    rw [(getArgAlloca_none s hc).2.1] at hi
    by_cases hic : i = s.m_argCounter
    · simp only [hic, if_true, Option.some.injEq] at hi
      rw [← hi]
      exact ⟨_, _, (getArgAlloca_none s hc).1⟩
    · simp only [hic, if_false] at hi
      exact h i a hi

theorem getArgAlloca_log (s : Ext) :
    ∃ l, (s.getArgAlloca).2.m_builder.log = s.m_builder.log ++ l ∧
      ∀ x ∈ l, x.instr.isCall = false := by
  cases hc : s.m_argAllocas s.m_argCounter with
  | some b =>
    rw [(getArgAlloca_some s b hc).2.2]
    exact ⟨[], by simp, by simp⟩
  | none =>
    unfold getArgAlloca
    rw [hc]
    refine ⟨[⟨⟨0, s.m_builder.entryBegin⟩,
      .val (.alloca s.m_builder.nextId Ty.Word 1 ("a." ++ toString s.m_argCounter))⟩], rfl, ?_⟩
    intro x hx
    simp only [List.mem_singleton] at hx
    rw [hx]
    rfl

theorem slotFor_spec (e : Ext) (arg : Value) (h : e.PoolOfSlots) :
    (slotFor e arg).2.PoolOfSlots ∧
    (∀ i a, e.m_argAllocas i = some a → (slotFor e arg).2.m_argAllocas i = some a) ∧
    (slotFor e arg).2.m_argCounter = e.m_argCounter + 1 ∧
    (∃ slot, (slotFor e arg).2.m_argAllocas e.m_argCounter = some slot ∧
      (slotFor e arg).1.stripPointerCasts = slot) ∧
    ∃ l sid pt, (slotFor e arg).2.m_builder.log =
        e.m_builder.log ++ l ++ [⟨pt, .store sid arg (slotFor e arg).1⟩] ∧
      ∀ x ∈ l, x.instr.isCall = false := by
  refine ⟨getArgAlloca_poolOfSlots e h, getArgAlloca_retains e, getArgAlloca_argCounter e, ?_, ?_⟩
  · refine ⟨(e.getArgAlloca).1, getArgAlloca_at_cursor e, ?_⟩
    obtain ⟨id, nm, ha⟩ := getArgAlloca_isAlloca e h
    simp only [slotFor, build, emit, IRBuilder.CreateBitCast, IRBuilder.CreateCast,
      IRBuilder.InsertV]
    split_ifs
    · rw [ha]; rfl
    · simp only [Value.stripPointerCasts]
      rw [ha]; rfl
  · obtain ⟨l, hl, hcall⟩ := getArgAlloca_log e
    simp only [slotFor, build, emit, IRBuilder.CreateBitCast, IRBuilder.CreateCast,
      IRBuilder.InsertV, IRBuilder.CreateStore, IRBuilder.Insert]
    split_ifs
    · exact ⟨l, _, _, by rw [hl], hcall⟩
    · refine ⟨l ++ [⟨(e.getArgAlloca).2.m_builder.insertPt, .val (.bitcast
        (e.getArgAlloca).2.m_builder.nextId (e.getArgAlloca).1 arg.type.getPointerTo)⟩],
        (e.getArgAlloca).2.m_builder.nextId + 1, (e.getArgAlloca).2.m_builder.insertPt,
        by rw [hl]; simp, ?_⟩
      intro x hx
      simp only [List.mem_append, List.mem_singleton] at hx
      rcases hx with hx | hx
      · exact hcall x hx
      · rw [hx]; rfl

theorem marshalByVal_spec (f : Function) (args : List Value) (pos : Nat) (e : Ext)
    (h : e.PoolOfSlots) :
    (marshalByVal f pos args e).2.PoolOfSlots ∧
    (∀ i a, e.m_argAllocas i = some a →
      (marshalByVal f pos args e).2.m_argAllocas i = some a) ∧
    (marshalByVal f pos args e).2.m_argCounter = e.m_argCounter + slotsNeeded f pos args ∧
    (marshalByVal f pos args e).1.length = args.length ∧
    ∃ l, (marshalByVal f pos args e).2.m_builder.log = e.m_builder.log ++ l ∧
      (∀ x ∈ l, x.instr.isCall = false) ∧
      ∀ j a, args.get? j = some a →
        (needsSlot f (pos + j) a = false → (marshalByVal f pos args e).1.get? j = some a) ∧
        (needsSlot f (pos + j) a = true → ∃ slot v sid pt,
          (marshalByVal f pos args e).2.m_argAllocas
            (e.m_argCounter + slotsNeeded f pos (args.take j)) = some slot ∧
          (marshalByVal f pos args e).1.get? j = some v ∧ v.stripPointerCasts = slot ∧
          (⟨pt, .store sid a v⟩ : Emit) ∈ l) := by
  induction args generalizing pos e with
  | nil =>
    refine ⟨h, fun _ _ hi => hi, rfl, rfl, [], by simp [marshalByVal], by simp, ?_⟩
    intro j a hj
    simp at hj
  | cons a0 rest ih =>
    by_cases hn : needsSlot f pos a0 = true
    · obtain ⟨hp1, hret1, hc1, ⟨slot, hslot, hstrip⟩, l1, sid, pt, hlog1, hcall1⟩ :=
        slotFor_spec e a0 h
      obtain ⟨hp2, hret2, hc2, hlen2, l2, hlog2, hcall2, hpt2⟩ :=
        ih (pos + 1) (slotFor e a0).2 hp1
      have hm : marshalByVal f pos (a0 :: rest) e =
          ((slotFor e a0).1 :: (marshalByVal f (pos + 1) rest (slotFor e a0).2).1,
            (marshalByVal f (pos + 1) rest (slotFor e a0).2).2) := by
        rw [marshalByVal]; simp only [hn, if_true]
      rw [hm]
      refine ⟨hp2, fun i a hi => hret2 i a (hret1 i a hi), ?_, by simp [hlen2],
        l1 ++ [⟨pt, .store sid a0 (slotFor e a0).1⟩] ++ l2, ?_, ?_, ?_⟩
      · simp only [hc2, hc1, slotsNeeded, hn, if_true]; omega
      · simp only [hlog2, hlog1, List.append_assoc]
      · intro x hx
        simp only [List.mem_append, List.mem_singleton] at hx
        rcases hx with (hx | hx) | hx
        · exact hcall1 x hx
        · rw [hx]; rfl
        · exact hcall2 x hx
      · intro j a hj
        cases j with
        | zero =>
          simp only [List.get?_cons_zero, Option.some.injEq] at hj
          subst hj
          refine ⟨fun hf => ?_, fun _ => ⟨slot, _, sid, pt, ?_, rfl, hstrip, ?_⟩⟩
          · rw [Nat.add_zero, hn] at hf; cases hf
          · simp only [List.take_zero, slotsNeeded, Nat.add_zero]
            exact hret2 _ _ hslot
          · simp
        | succ j =>
          simp only [List.get?_cons_succ] at hj
          obtain ⟨hA, hB⟩ := hpt2 j a hj
          have hpos : pos + (j + 1) = pos + 1 + j := by omega
          rw [hpos]
          refine ⟨fun hf => by simpa using hA hf, fun ht => ?_⟩
          obtain ⟨s2, v, sid2, pt2, h1, h2, h3, h4⟩ := hB ht
          refine ⟨s2, v, sid2, pt2, ?_, by simpa using h2, h3, ?_⟩
          · simp only [List.take_succ_cons, slotsNeeded, hn, if_true]
            rw [hc1] at h1
            have : e.m_argCounter + (1 + slotsNeeded f (pos + 1) (List.take j rest)) =
                e.m_argCounter + 1 + slotsNeeded f (pos + 1) (List.take j rest) := by omega
            rw [this]
            exact h1
          · simp only [List.mem_append]
            exact Or.inr h4
    · obtain ⟨hp2, hret2, hc2, hlen2, l2, hlog2, hcall2, hpt2⟩ := ih (pos + 1) e h
      have hm : marshalByVal f pos (a0 :: rest) e =
          (a0 :: (marshalByVal f (pos + 1) rest e).1, (marshalByVal f (pos + 1) rest e).2) := by
        rw [marshalByVal]; simp only [hn]; rfl
      rw [hm]
      refine ⟨hp2, hret2, ?_, by simp [hlen2], l2, hlog2, hcall2, ?_⟩
      · simp only [hc2, slotsNeeded, hn]; simp
      · intro j a hj
        cases j with
        | zero =>
          simp only [List.get?_cons_zero, Option.some.injEq] at hj
          subst hj
          refine ⟨fun _ => rfl, fun ht => ?_⟩
          rw [Nat.add_zero] at ht
          exact absurd ht hn
        | succ j =>
          simp only [List.get?_cons_succ] at hj
          obtain ⟨hA, hB⟩ := hpt2 j a hj
          have hpos : pos + (j + 1) = pos + 1 + j := by omega
          rw [hpos]
          refine ⟨fun hf => by simpa using hA hf, fun ht => ?_⟩
          obtain ⟨s2, v, sid2, pt2, h1, h2, h3, h4⟩ := hB ht
          refine ⟨s2, v, sid2, pt2, ?_, by simpa using h2, h3, h4⟩
          simp only [List.take_succ_cons, slotsNeeded, hn]
          simpa using h1

theorem foldl_byValArg_range (f : Function) (l : List Value) (e : Ext)
    (hlen : l.length = f.params.length) :
    (List.range f.params.length).foldl (byValArg f) (l, e) = marshalByVal f 0 l e := by
  have := foldl_byValArg_eq f l [] e
  simp only [List.length_nil, List.nil_append] at this
  rw [List.range_eq_range', ← hlen, this]

theorem createCABICall_sret (e : Ext) (f : Function) (args : List Value) (d : Bool)
    (hs : f.hasStructRetAttr = true) (hpool : e.PoolOfSlots)
    (hlen : args.length + 1 = f.params.length) :
    e.createCABICall f args d =
      if d then
        (Ext.build { (marshalByVal f 1 args (e.getArgAlloca).2).2 with m_argCounter := 0 }
          (·.CreateCall f ((e.getArgAlloca).1 :: (marshalByVal f 1 args (e.getArgAlloca).2).1))).2.build
          (·.CreateLoad (e.getArgAlloca).1)
      else
        ((e.getArgAlloca).1,
          (Ext.build { (marshalByVal f 1 args (e.getArgAlloca).2).2 with m_argCounter := 0 }
          (·.CreateCall f
            ((e.getArgAlloca).1 :: (marshalByVal f 1 args (e.getArgAlloca).2).1))).2) := by
  obtain ⟨id, nm, ha⟩ := getArgAlloca_isAlloca e hpool
  have hns : needsSlot f 0 (e.getArgAlloca).1 = false := by
    rw [ha]; simp [needsSlot, Value.type, Ty.isPointerTy]
  have hm : marshalByVal f 0 ((e.getArgAlloca).1 :: args) (e.getArgAlloca).2 =
      ((e.getArgAlloca).1 :: (marshalByVal f 1 args (e.getArgAlloca).2).1,
        (marshalByVal f 1 args (e.getArgAlloca).2).2) := by
    rw [marshalByVal]; simp only [hns]; rfl
  unfold createCABICall
  simp only [hs, if_true]
  rw [foldl_byValArg_range f _ _ (by simpa using hlen), hm]
  simp only [List.headD_cons]

theorem createCABICall_plain (e : Ext) (f : Function) (args : List Value) (d : Bool)
    (hs : f.hasStructRetAttr = false) (hlen : args.length = f.params.length) :
    e.createCABICall f args d =
      Ext.build { (marshalByVal f 0 args e).2 with m_argCounter := 0 }
        (·.CreateCall f (marshalByVal f 0 args e).1) := by
  unfold createCABICall
  simp only [hs, Bool.false_eq_true, if_false]
  rw [foldl_byValArg_range f _ _ hlen]

theorem emitted_of_log (b b1 : IRBuilder) (l : List Emit) (h : b1.log = b.log ++ l) :
    emitted b b1 = l.map Emit.instr := by
  simp [emitted, h]

/-- C5. The ABI adapter. For a callee `f` and logical arguments, one per formal parameter
apart from the struct-return one, `createCABICall` emits exactly one call, to `f`, with one
actual argument per formal parameter: in front the slot acquired first (the slot at the cursor)
if and only if `f` is struct-return; then every logical argument, itself when its parameter is
not by-value or it is a pointer, and otherwise a pointer to the slot at the next cursor index,
into which a store emitted before the call has put the argument. The value returned is the
result of the call when `f` is not struct-return, and otherwise the struct-return slot, or the
value loaded from it right after the call when `d` (dereference on return) is set. -/
theorem createCABICall_convention (e : Ext) (f : Function) (args : List Value) (d : Bool)
    (hpool : e.PoolOfSlots) (hlen : args.length + sretArgs f = f.params.length) :
    ∃ (id : Nat) (actual : List Value) (pre post : List Instr),
      emitted e.m_builder (e.createCABICall f args d).2.m_builder =
        pre ++ Instr.call id f actual :: post ∧
      (∀ i ∈ pre ++ post, i.isCall = false) ∧
      actual.length = f.params.length ∧
      (if f.hasStructRetAttr then
        actual.head? = some (e.getArgAlloca).1 ∧
        (e.createCABICall f args d).2.m_argAllocas e.m_argCounter = some (e.getArgAlloca).1 ∧
        (d = false → (e.createCABICall f args d).1 = (e.getArgAlloca).1 ∧ post = []) ∧
        (d = true → (e.createCABICall f args d).1 = .load (id + 1) (e.getArgAlloca).1 ∧
          post = [.val (.load (id + 1) (e.getArgAlloca).1)])
      else (e.createCABICall f args d).1 = .callRet id f.retTy ∧ post = []) ∧
      ∀ j a, args.get? j = some a →
        (needsSlot f (sretArgs f + j) a = false → actual.get? (sretArgs f + j) = some a) ∧
        (needsSlot f (sretArgs f + j) a = true → ∃ slot v sid,
          (e.createCABICall f args d).2.m_argAllocas
            (e.m_argCounter + sretArgs f + slotsNeeded f (sretArgs f) (args.take j)) =
              some slot ∧
          actual.get? (sretArgs f + j) = some v ∧ v.stripPointerCasts = slot ∧
          Instr.store sid a v ∈ pre) := by
  by_cases hs : f.hasStructRetAttr = true
  · have hsa : sretArgs f = 1 := by simp [sretArgs, hs]
    rw [hsa] at hlen ⊢
    obtain ⟨l0, hl0, hc0⟩ := getArgAlloca_log e
    obtain ⟨hp2, hret2, hc2, hlen2, l2, hlog2, hcall2, hpt2⟩ :=
      marshalByVal_spec f args 1 (e.getArgAlloca).2 (getArgAlloca_poolOfSlots e hpool)
    rw [createCABICall_sret e f args d hs hpool hlen]
    simp only [hs, if_true]
    refine ⟨(marshalByVal f 1 args (e.getArgAlloca).2).2.m_builder.nextId,
      (e.getArgAlloca).1 :: (marshalByVal f 1 args (e.getArgAlloca).2).1,
      (l0 ++ l2).map Emit.instr,
      if d then [.val (.load ((marshalByVal f 1 args (e.getArgAlloca).2).2.m_builder.nextId + 1)
        (e.getArgAlloca).1)] else [], ?_, ?_, ?_, ?_, ?_⟩
    · cases d
      · simp only [Bool.false_eq_true, if_false]
        rw [emitted_of_log _ _ (l0 ++ l2 ++ [⟨(marshalByVal f 1 args
            (e.getArgAlloca).2).2.m_builder.insertPt,
          .call (marshalByVal f 1 args (e.getArgAlloca).2).2.m_builder.nextId f
            ((e.getArgAlloca).1 :: (marshalByVal f 1 args (e.getArgAlloca).2).1)⟩])
          (by simp [build, IRBuilder.CreateCall, IRBuilder.Insert, hlog2, hl0])]
        simp
      · simp only [if_true]
        rw [emitted_of_log _ _ (l0 ++ l2 ++ [⟨(marshalByVal f 1 args
            (e.getArgAlloca).2).2.m_builder.insertPt,
          .call (marshalByVal f 1 args (e.getArgAlloca).2).2.m_builder.nextId f
            ((e.getArgAlloca).1 :: (marshalByVal f 1 args (e.getArgAlloca).2).1)⟩,
          ⟨(marshalByVal f 1 args (e.getArgAlloca).2).2.m_builder.insertPt,
          .val (.load ((marshalByVal f 1 args (e.getArgAlloca).2).2.m_builder.nextId + 1)
            (e.getArgAlloca).1)⟩])
          (by simp [build, IRBuilder.CreateCall, IRBuilder.CreateLoad, IRBuilder.InsertV,
            IRBuilder.Insert, hlog2, hl0])]
        simp
    · intro i hi
      simp only [List.mem_append, List.mem_map] at hi
      rcases hi with ⟨x, hx | hx, rfl⟩ | hi
      · exact hc0 x hx
      · exact hcall2 x hx
      · cases d
        · simp at hi
        · simp only [if_true, List.mem_singleton] at hi
          rw [hi]; rfl
    · simp [hlen2, hlen]
    · refine ⟨rfl, ?_, ?_, ?_⟩
      · have := hret2 _ _ (getArgAlloca_at_cursor e)
        cases d <;> exact this
      · intro hd; subst hd; exact ⟨rfl, rfl⟩
      · intro hd; subst hd
        exact ⟨rfl, rfl⟩
    · intro j a hj
      obtain ⟨hA, hB⟩ := hpt2 j a hj
      refine ⟨fun hf => ?_, fun ht => ?_⟩
      · have := hA hf
        rw [Nat.add_comm 1 j]
        simpa using this
      · obtain ⟨slot, v, sid, pt, h1, h2, h3, h4⟩ := hB ht
        refine ⟨slot, v, sid, ?_, ?_, h3, ?_⟩
        · rw [getArgAlloca_argCounter] at h1
          cases d <;> exact h1
        · rw [Nat.add_comm 1 j]
          simpa using h2
        · simp only [List.map_append, List.mem_append, List.mem_map]
          exact Or.inr ⟨_, h4, rfl⟩
  · have hs : f.hasStructRetAttr = false := by simpa using hs
    have hsa : sretArgs f = 0 := by simp [sretArgs, hs]
    rw [hsa] at hlen ⊢
    obtain ⟨hp2, hret2, hc2, hlen2, l2, hlog2, hcall2, hpt2⟩ :=
      marshalByVal_spec f args 0 e hpool
    rw [createCABICall_plain e f args d hs hlen]
    simp only [hs, Bool.false_eq_true, if_false]
    refine ⟨(marshalByVal f 0 args e).2.m_builder.nextId, (marshalByVal f 0 args e).1,
      l2.map Emit.instr, [], ?_, ?_, ?_, ⟨rfl, rfl⟩, ?_⟩
    · rw [emitted_of_log _ _ (l2 ++ [⟨(marshalByVal f 0 args e).2.m_builder.insertPt,
          .call (marshalByVal f 0 args e).2.m_builder.nextId f (marshalByVal f 0 args e).1⟩])
          (by simp [build, IRBuilder.CreateCall, IRBuilder.Insert, hlog2])]
      simp
    · intro i hi
      simp only [List.append_nil, List.mem_map] at hi
      obtain ⟨x, hx, rfl⟩ := hi
      exact hcall2 x hx
    · rw [hlen2]; exact hlen
    · intro j a hj
      obtain ⟨hA, hB⟩ := hpt2 j a hj
      rw [Nat.zero_add] at hA hB ⊢
      refine ⟨hA, fun ht => ?_⟩
      obtain ⟨slot, v, sid, pt, h1, h2, h3, h4⟩ := hB ht
      exact ⟨slot, v, sid, h1, h2, h3, List.mem_map.2 ⟨_, h4, rfl⟩⟩

theorem fresh_poolOfSlots : fresh.PoolOfSlots := by
  intro i a h
  cases h

/-- C5, at an instance: a call of the query entry point on the fresh object with one word
operand is emitted as one call with four actual arguments. -/
theorem createCABICall_convention_witness :
    fresh.PoolOfSlots ∧
    (3 + sretArgs (getQueryFunc ⟨[]⟩).1 = (getQueryFunc ⟨[]⟩).1.params.length) ∧
    ∃ (id : Nat) (actual : List Value) (pre post : List Instr),
      emitted fresh.m_builder (fresh.createCABICall (getQueryFunc ⟨[]⟩).1
        [RuntimeManager.getEnvPtr, IRBuilder.getInt32 0, .arg "k" Ty.Word] true).2.m_builder =
        pre ++ Instr.call id (getQueryFunc ⟨[]⟩).1 actual :: post ∧
      actual.length = 4 := by
  refine ⟨fresh_poolOfSlots, by decide, ?_⟩
  obtain ⟨id, actual, pre, post, h1, _, h3, _⟩ :=
    createCABICall_convention fresh (getQueryFunc ⟨[]⟩).1
      [RuntimeManager.getEnvPtr, IRBuilder.getInt32 0, .arg "k" Ty.Word] true
      fresh_poolOfSlots (by decide)
  exact ⟨id, actual, pre, post, h1, h3⟩

/-! ## Theorems: the call-data load -/

theorem calldataload_of_slot (e : Ext) (name nm : String) (id0 : Nat)
    (hs : e.m_argAllocas e.m_argCounter = some (.alloca id0 Ty.Word 1 nm)) :
    emitted e.m_builder (e.calldataload (.arg name Ty.Word)).2.m_builder =
      calldataloadBody (.alloca id0 Ty.Word 1 nm) e.m_builder.nextId (.arg name Ty.Word) ∧
    (e.calldataload (.arg name Ty.Word)).1 =
      .bswap (e.m_builder.nextId + 15) (.load (e.m_builder.nextId + 14)
        (.alloca id0 Ty.Word 1 nm)) := by
  have h1 := (getArgAlloca_some e _ hs).1
  have h2 := (getArgAlloca_some e _ hs).2.2
  refine ⟨?_, ?_⟩ <;>
  simp [calldataload, calldataloadBody, cdlResult, cdlCallDataSize64, cdlIdxValid, cdlIdxSelect,
      cdlIdx, cdlEndAdd, cdlEndValid, cdlEnd, cdlCopySize, cdlPadSize, cdlDataBegin, cdlPad, emitted, build, emit, h1, h2, IRBuilder.CreateBitCast,
      IRBuilder.CreateCast, IRBuilder.CreateTrunc,
      IRBuilder.InsertV, IRBuilder.Insert, Value.type, Ty.BytePtr, Ty.Byte, Ty.Word, Ty.Size,
      RuntimeManager.getCallDataSize, RuntimeManager.getCallData, IRBuilder.CreateICmpULT,
      IRBuilder.CreateICmpULE, IRBuilder.CreateSelect,
      IRBuilder.CreateNUWAdd, IRBuilder.CreateNUWSub, IRBuilder.CreateGEP, IRBuilder.CreateMemCpy,
      IRBuilder.CreateMemSet, IRBuilder.CreateLoad,
      Endianness.toNative, IRBuilder.getInt64, IRBuilder.getInt8, Nat.add_assoc]

theorem calldataload_of_none (e : Ext) (name : String)
    (hs : e.m_argAllocas e.m_argCounter = none) :
    emitted e.m_builder (e.calldataload (.arg name Ty.Word)).2.m_builder =
      .val (.alloca e.m_builder.nextId Ty.Word 1 ("a." ++ toString e.m_argCounter)) ::
      calldataloadBody (.alloca e.m_builder.nextId Ty.Word 1 ("a." ++ toString e.m_argCounter))
        (e.m_builder.nextId + 1) (.arg name Ty.Word) ∧
    (e.calldataload (.arg name Ty.Word)).1 =
      .bswap (e.m_builder.nextId + 16) (.load (e.m_builder.nextId + 15)
        (.alloca e.m_builder.nextId Ty.Word 1 ("a." ++ toString e.m_argCounter))) := by
  have h1 := (getArgAlloca_none e hs).1
  have h2 : (e.getArgAlloca).2.m_builder =
      ⟨e.m_builder.log ++ [⟨⟨0, e.m_builder.entryBegin⟩,
        .val (.alloca e.m_builder.nextId Ty.Word 1 ("a." ++ toString e.m_argCounter))⟩],
        e.m_builder.insertPt, e.m_builder.nextId + 1⟩ := by
    unfold getArgAlloca
    rw [hs]
    rfl
  refine ⟨?_, ?_⟩ <;>
  simp [calldataload, calldataloadBody, cdlResult, cdlCallDataSize64, cdlIdxValid, cdlIdxSelect,
      cdlIdx, cdlEndAdd, cdlEndValid, cdlEnd, cdlCopySize, cdlPadSize, cdlDataBegin, cdlPad, emitted, build, emit, h1, h2, IRBuilder.CreateBitCast,
      IRBuilder.CreateCast, IRBuilder.CreateTrunc,
      IRBuilder.InsertV, IRBuilder.Insert, Value.type, Ty.BytePtr, Ty.Byte, Ty.Word, Ty.Size,
      RuntimeManager.getCallDataSize, RuntimeManager.getCallData, IRBuilder.CreateICmpULT,
      IRBuilder.CreateICmpULE, IRBuilder.CreateSelect,
      IRBuilder.CreateNUWAdd, IRBuilder.CreateNUWSub, IRBuilder.CreateGEP, IRBuilder.CreateMemCpy,
      IRBuilder.CreateMemSet, IRBuilder.CreateLoad,
      Endianness.toNative, IRBuilder.getInt64, IRBuilder.getInt8, Nat.add_assoc]

theorem cellBytes_map_byte (W : List Nat) : cellBytes (W.map .byte) = some W := by
  induction W with
  | nil => rfl
  | cons b W ih => simp [cellBytes, ih]

section
variable {M : Machine}

theorem evalValue_trunc {v : Value} {x : Nat} (id : Nat) (ty : Ty)
    (h : evalValue M v = some (.int x)) :
    evalValue M (.trunc id v ty) = some (.int (x % 2 ^ ty.width)) := by
  simp [evalValue, h]

theorem evalValue_icmpULT {a b : Value} {x y : Nat} (id : Nat)
    (ha : evalValue M a = some (.int x)) (hb : evalValue M b = some (.int y)) :
    evalValue M (.icmpULT id a b) = some (.int (if x < y then 1 else 0)) := by
  simp [evalValue, ha, hb]

theorem evalValue_icmpULE {a b : Value} {x y : Nat} (id : Nat)
    (ha : evalValue M a = some (.int x)) (hb : evalValue M b = some (.int y)) :
    evalValue M (.icmpULE id a b) = some (.int (if x ≤ y then 1 else 0)) := by
  simp [evalValue, ha, hb]

theorem evalValue_select {c a b : Value} {k x y : Nat} (id : Nat)
    (hc : evalValue M c = some (.int k)) (ha : evalValue M a = some (.int x))
    (hb : evalValue M b = some (.int y)) :
    evalValue M (.select id c a b) = some (.int (if k = 1 then x else y)) := by
  simp only [evalValue, hc, ha, hb]
  split_ifs <;> rfl

theorem evalValue_nuwAdd {a b : Value} {x y : Nat} (id : Nat)
    (ha : evalValue M a = some (.int x)) (hb : evalValue M b = some (.int y))
    (hw : x + y < 2 ^ a.type.width) :
    evalValue M (.nuwAdd id a b) = some (.int (x + y)) := by
  simp [evalValue, ha, hb, hw]

theorem evalValue_nuwSub {a b : Value} {x y : Nat} (id : Nat)
    (ha : evalValue M a = some (.int x)) (hb : evalValue M b = some (.int y))
    (hw : y ≤ x) :
    evalValue M (.nuwSub id a b) = some (.int (x - y)) := by
  simp [evalValue, ha, hb, hw]

theorem evalValue_gep {base idx : Value} {p : Ptr} {k : Nat} (id : Nat) (ty : Ty)
    (hb : evalValue M base = some (.ptr p)) (hi : evalValue M idx = some (.int k)) :
    evalValue M (.gep id ty base idx) = some (.ptr ⟨p.block, p.off + k * ty.bytes⟩) := by
  simp [evalValue, hb, hi]

theorem evalValue_getInt64 (k : Nat) (hk : k < 2 ^ 64) :
    evalValue M (IRBuilder.getInt64 k) = some (.int k) := by
  simp only [IRBuilder.getInt64, evalValue, Nat.mod_eq_of_lt hk]

variable {name : String} {i : Nat} {B : List Nat}

theorem eval_cdlIdx (n : Nat) (h : CallDataArgs M name i B) (hB : B.length + 32 < 2 ^ 64) :
    evalValue M (cdlIdx n (.arg name Ty.Word)) = some (.int (min i B.length)) := by
  have hx : evalValue M (.arg name Ty.Word) = some (.int i) := by simp [evalValue, h.idx]
  have hs : evalValue M RuntimeManager.getCallDataSize = some (.int B.length) := by
    simp [evalValue, RuntimeManager.getCallDataSize, h.size]
  have h1 := evalValue_select (n + 3) (evalValue_icmpULT (n + 2) hx hs) hx hs
  have h2 := evalValue_trunc (n + 4) Ty.Size h1
  unfold cdlIdx cdlIdxSelect cdlIdxValid
  rw [h2]
  by_cases hlt : i < B.length
  · simp only [hlt, if_true]
    rw [Nat.mod_eq_of_lt (by simp only [Ty.Size, Ty.width]; omega)]
    congr 2; omega
  · simp only [hlt, if_false]
    simp only [Nat.zero_ne_one, if_false]
    rw [Nat.mod_eq_of_lt (by simp only [Ty.Size, Ty.width]; omega)]
    congr 2; omega

theorem eval_cdlCallDataSize64 (n : Nat) (h : CallDataArgs M name i B)
    (hB : B.length + 32 < 2 ^ 64) :
    evalValue M (cdlCallDataSize64 n) = some (.int B.length) := by
  have hs : evalValue M RuntimeManager.getCallDataSize = some (.int B.length) := by
    simp [evalValue, RuntimeManager.getCallDataSize, h.size]
  unfold cdlCallDataSize64
  rw [evalValue_trunc (n + 1) Ty.Size hs,
    Nat.mod_eq_of_lt (by simp only [Ty.Size, Ty.width]; omega)]

theorem eval_cdlEndAdd (n : Nat) (h : CallDataArgs M name i B) (hB : B.length + 32 < 2 ^ 64) :
    evalValue M (cdlEndAdd n (.arg name Ty.Word)) = some (.int (min i B.length + 32)) := by
  unfold cdlEndAdd
  exact evalValue_nuwAdd (n + 5) (eval_cdlIdx n h hB) (evalValue_getInt64 32 (by norm_num))
    (by simp only [cdlIdx, Value.type, Ty.Size, Ty.width]; omega)

theorem eval_cdlEnd (n : Nat) (h : CallDataArgs M name i B) (hB : B.length + 32 < 2 ^ 64) :
    evalValue M (cdlEnd n (.arg name Ty.Word)) =
      some (.int (min (min i B.length + 32) B.length)) := by
  have h1 := eval_cdlEndAdd n h hB
  have h2 := eval_cdlCallDataSize64 n h hB
  unfold cdlEnd cdlEndValid
  rw [evalValue_select (n + 7) (evalValue_icmpULE (n + 6) h1 h2) h1 h2]
  by_cases hle : min i B.length + 32 ≤ B.length
  · simp only [hle, if_true]
    congr 2; omega
  · simp only [hle, if_false, Nat.zero_ne_one]
    congr 2; omega

theorem eval_cdlCopySize (n : Nat) (h : CallDataArgs M name i B) (hB : B.length + 32 < 2 ^ 64) :
    evalValue M (cdlCopySize n (.arg name Ty.Word)) =
      some (.int (min 32 (B.length - min i B.length))) := by
  unfold cdlCopySize
  rw [evalValue_nuwSub (n + 8) (eval_cdlEnd n h hB) (eval_cdlIdx n h hB) (by omega)]
  congr 2
  omega

theorem eval_cdlPadSize (n : Nat) (h : CallDataArgs M name i B) (hB : B.length + 32 < 2 ^ 64) :
    evalValue M (cdlPadSize n (.arg name Ty.Word)) =
      some (.int (32 - min 32 (B.length - min i B.length))) := by
  unfold cdlPadSize
  exact evalValue_nuwSub (n + 9) (evalValue_getInt64 32 (by norm_num))
    (eval_cdlCopySize n h hB) (by omega)

theorem eval_cdlDataBegin (n : Nat) (h : CallDataArgs M name i B) (hB : B.length + 32 < 2 ^ 64) :
    evalValue M (cdlDataBegin n (.arg name Ty.Word)) =
      some (.ptr ⟨.callData, min i B.length⟩) := by
  have hd : evalValue M RuntimeManager.getCallData = some (.ptr ⟨.callData, 0⟩) := by
    simp [evalValue, RuntimeManager.getCallData, h.data]
  unfold cdlDataBegin
  rw [evalValue_gep (n + 10) Ty.Byte hd (eval_cdlIdx n h hB)]
  simp [Ty.Byte, Ty.bytes]

theorem eval_cdlResult (n id0 : Nat) (nm : String) :
    evalValue M (cdlResult (.alloca id0 Ty.Word 1 nm) n) = some (.ptr ⟨.stack id0, 0⟩) := by
  simp [cdlResult, evalValue]

theorem eval_cdlPad (n id0 : Nat) (nm : String) (h : CallDataArgs M name i B)
    (hB : B.length + 32 < 2 ^ 64) :
    evalValue M (cdlPad (.alloca id0 Ty.Word 1 nm) n (.arg name Ty.Word)) =
      some (.ptr ⟨.stack id0, min 32 (B.length - min i B.length)⟩) := by
  unfold cdlPad
  rw [evalValue_gep (n + 12) Ty.Byte (eval_cdlResult n id0 nm) (eval_cdlCopySize n h hB)]
  simp [Ty.Byte, Ty.bytes]

end

theorem execInstr_val_of_eval (M : Machine) (v : Value) (r : RVal)
    (h : evalValue M v = some r) (hna : ∀ id ty c nm, v ≠ .alloca id ty c nm)
    (hnl : ∀ id p, v ≠ .load id p) : execInstr M (.val v) = some M := by
  cases v
  case alloca id ty c nm => exact absurd rfl (hna id ty c nm)
  case load id p => exact absurd rfl (hnl id p)
  all_goals simp [execInstr, h]

theorem readCells_eq (M : Machine) (p : Ptr) (n : Nat) (cs : List MemVal)
    (h : M.mem p.block = some cs) (hb : p.off + n ≤ cs.length) :
    M.readCells p n = some ((cs.drop p.off).take n) := by
  simp [Machine.readCells, h, hb]

theorem writeCells_eq (M : Machine) (p : Ptr) (vs cs : List MemVal)
    (h : M.mem p.block = some cs) (hb : p.off + vs.length ≤ cs.length) :
    M.writeCells p vs = some { M with
      mem := fun b =>
        if b = p.block then some (cs.take p.off ++ vs ++ cs.drop (p.off + vs.length))
        else M.mem b } := by
  simp [Machine.writeCells, h, hb]

theorem exec_memcpy (M : Machine) {dst src nv : Value} {d s : Ptr} {k : Nat}
    {scs dcs : List MemVal} (id al : Nat)
    (hd : evalValue M dst = some (.ptr d)) (hs : evalValue M src = some (.ptr s))
    (hn : evalValue M nv = some (.int k))
    (hsm : M.mem s.block = some scs) (hsb : s.off + k ≤ scs.length)
    (hdm : M.mem d.block = some dcs) (hdb : d.off + k ≤ dcs.length) :
    execInstr M (.memcpy id dst src nv al) = some { M with
      trace := M.trace ++ [.read s k, .write d k]
      mem := fun b =>
        if b = d.block then
          some (dcs.take d.off ++ (scs.drop s.off).take k ++ dcs.drop (d.off + k))
        else M.mem b } := by
  have hlen : ((scs.drop s.off).take k).length = k := by
    simp only [List.length_take, List.length_drop]; omega
  simp only [execInstr, hd, hs, hn, readCells_eq M s k scs hsm hsb]
  rw [writeCells_eq _ d _ dcs (by exact hdm) (by rw [hlen]; exact hdb)]
  simp [Machine.record, hlen]

theorem exec_memset (M : Machine) {dst bv nv : Value} {d : Ptr} {b k : Nat}
    {dcs : List MemVal} (id al : Nat)
    (hd : evalValue M dst = some (.ptr d)) (hbv : evalValue M bv = some (.int b))
    (hn : evalValue M nv = some (.int k))
    (hdm : M.mem d.block = some dcs) (hdb : d.off + k ≤ dcs.length) :
    execInstr M (.memset id dst bv nv al) = some { M with
      trace := M.trace ++ [.write d k]
      mem := fun blk =>
        if blk = d.block then
          some (dcs.take d.off ++ List.replicate k (.byte b) ++ dcs.drop (d.off + k))
        else M.mem blk } := by
  simp only [execInstr, hd, hbv, hn]
  rw [writeCells_eq _ d _ dcs (by exact hdm) (by simpa using hdb)]
  simp [Machine.record]

theorem exec_load (M : Machine) {p : Value} {q : Ptr} {cs : List MemVal} (id : Nat)
    (hp : evalValue M p = some (.ptr q))
    (hm : M.mem q.block = some cs) (hb : q.off + p.type.pointee.bytes ≤ cs.length) :
    execInstr M (.val (.load id p)) = some { M with
      trace := M.trace ++ [.read q p.type.pointee.bytes]
      regs := fun r => if r = id then
          some (decode p.type.pointee ((cs.drop q.off).take p.type.pointee.bytes))
        else M.regs r } := by
  simp only [execInstr, hp, readCells_eq M q _ cs hm hb]
  simp [Machine.record, Machine.setReg]

theorem splice_cells (C R cs : List MemVal) (k : Nat) (hC : C.length = k)
    (hcs : cs.length = 32) (hk : k ≤ 32) :
    (cs.take 0 ++ C ++ cs.drop (0 + k)).take k ++ R ++
        (cs.take 0 ++ C ++ cs.drop (0 + k)).drop (k + (32 - k)) = C ++ R := by
  have h32 : k + (32 - k) = 32 := by omega
  have h1 : (C ++ cs.drop k).take k = C := by
    rw [List.take_append_of_le_length (le_of_eq hC.symm), List.take_of_length_le (le_of_eq hC)]
  have h2 : (C ++ cs.drop k).drop 32 = [] := by
    apply List.drop_of_length_le
    simp only [List.length_append, List.length_drop, hC, hcs]
    omega
  simp only [List.take_zero, List.nil_append, Nat.zero_add, h32, h1, h2, List.append_nil]

theorem slot_cells (B : List Nat) (cs : List MemVal) (s k : Nat) (hcs : cs.length = 32)
    (hk : k ≤ 32) (hsk : s + k ≤ B.length) :
    (cs.take 0 ++ ((B.map MemVal.byte).drop s).take k ++ cs.drop (0 + k)).take k ++
        List.replicate (32 - k) (MemVal.byte 0) ++
        (cs.take 0 ++ ((B.map MemVal.byte).drop s).take k ++ cs.drop (0 + k)).drop (k + (32 - k)) =
      ((B.drop s).take k ++ List.replicate (32 - k) 0).map MemVal.byte := by
  have hlen : (((B.map MemVal.byte).drop s).take k).length = k := by
    simp only [List.length_take, List.length_drop, List.length_map]; omega
  rw [splice_cells _ _ cs k hlen hcs hk]
  simp [List.map_take, List.map_drop]

theorem run_calldataloadBody (M : Machine) (B : List Nat) (i n id0 : Nat) (nm name : String)
    (cs : List MemVal) (h : CallDataArgs M name i B)
    (hmem : M.mem .callData = some (B.map .byte))
    (hslot : M.mem (.stack id0) = some cs) (hcs : cs.length = 32)
    (hB : B.length + 32 < 2 ^ 64) :
    ∃ M1, run (calldataloadBody (.alloca id0 Ty.Word 1 nm) n (.arg name Ty.Word)) M = some M1 ∧
      M1.args = M.args ∧
      M1.mem = (fun b =>
        if b = .stack id0 then some ((calldataWord B i).map .byte) else M.mem b) ∧
      M1.regs = (fun r =>
        if r = n + 14 then some (.int (ofBytesLE (calldataWord B i))) else M.regs r) ∧
      M1.trace = M.trace ++
        [.read ⟨.callData, min i B.length⟩ (min 32 (B.length - min i B.length)),
         .write ⟨.stack id0, 0⟩ (min 32 (B.length - min i B.length)),
         .write ⟨.stack id0, min 32 (B.length - min i B.length)⟩
           (32 - min 32 (B.length - min i B.length)),
         .read ⟨.stack id0, 0⟩ 32] := by
  unfold calldataWord
  have hk : min 32 (B.length - min i B.length) ≤ 32 := Nat.min_le_left _ _
  have hsk : min i B.length + min 32 (B.length - min i B.length) ≤ B.length := by omega
  generalize hkdef : min 32 (B.length - min i B.length) = k at hk hsk
  generalize hsdef : min i B.length = s at hsk
  have eIdx := eval_cdlIdx (M := M) n h hB
  have eCopy := eval_cdlCopySize (M := M) n h hB
  have ePad := eval_cdlPadSize (M := M) n h hB
  have eBegin := eval_cdlDataBegin (M := M) n h hB
  rw [hsdef] at eIdx eBegin
  rw [hkdef] at eCopy ePad
  have p1 : execInstr M (.val (cdlResult (.alloca id0 Ty.Word 1 nm) n)) = some M :=
    execInstr_val_of_eval M _ _ (eval_cdlResult n id0 nm) (by simp [cdlResult])
      (by simp [cdlResult])
  have p2 : execInstr M (.val (cdlCallDataSize64 n)) = some M :=
    execInstr_val_of_eval M _ _ (eval_cdlCallDataSize64 n h hB) (by simp [cdlCallDataSize64])
      (by simp [cdlCallDataSize64])
  have hx : evalValue M (.arg name Ty.Word) = some (.int i) := by simp [evalValue, h.idx]
  have hsz : evalValue M RuntimeManager.getCallDataSize = some (.int B.length) := by
    simp [evalValue, RuntimeManager.getCallDataSize, h.size]
  have p3 : execInstr M (.val (cdlIdxValid n (.arg name Ty.Word))) = some M :=
    execInstr_val_of_eval M _ _ (evalValue_icmpULT (n + 2) hx hsz)
      (by simp [cdlIdxValid]) (by simp [cdlIdxValid])
  have p4 : execInstr M (.val (cdlIdxSelect n (.arg name Ty.Word))) = some M :=
    execInstr_val_of_eval M _ _
      (evalValue_select (n + 3) (evalValue_icmpULT (n + 2) hx hsz) hx hsz)
      (by simp [cdlIdxSelect]) (by simp [cdlIdxSelect])
  have p5 : execInstr M (.val (cdlIdx n (.arg name Ty.Word))) = some M :=
    execInstr_val_of_eval M _ _ eIdx (by simp [cdlIdx]) (by simp [cdlIdx])
  have p6 : execInstr M (.val (cdlEndAdd n (.arg name Ty.Word))) = some M :=
    execInstr_val_of_eval M _ _ (eval_cdlEndAdd n h hB) (by simp [cdlEndAdd])
      (by simp [cdlEndAdd])
  have p7 : execInstr M (.val (cdlEndValid n (.arg name Ty.Word))) = some M :=
    execInstr_val_of_eval M _ _
      (evalValue_icmpULE (n + 6) (eval_cdlEndAdd n h hB) (eval_cdlCallDataSize64 n h hB))
      (by simp [cdlEndValid]) (by simp [cdlEndValid])
  have p8 : execInstr M (.val (cdlEnd n (.arg name Ty.Word))) = some M :=
    execInstr_val_of_eval M _ _ (eval_cdlEnd n h hB) (by simp [cdlEnd]) (by simp [cdlEnd])
  have p9 : execInstr M (.val (cdlCopySize n (.arg name Ty.Word))) = some M :=
    execInstr_val_of_eval M _ _ eCopy (by simp [cdlCopySize]) (by simp [cdlCopySize])
  have p10 : execInstr M (.val (cdlPadSize n (.arg name Ty.Word))) = some M :=
    execInstr_val_of_eval M _ _ ePad (by simp [cdlPadSize]) (by simp [cdlPadSize])
  have p11 : execInstr M (.val (cdlDataBegin n (.arg name Ty.Word))) = some M :=
    execInstr_val_of_eval M _ _ eBegin (by simp [cdlDataBegin]) (by simp [cdlDataBegin])
  have hcpy := exec_memcpy M (n + 11) 1 (eval_cdlResult n id0 nm) eBegin eCopy
    hmem (by simpa using hsk) hslot (by simp; omega)
  obtain ⟨M2, hM2⟩ : ∃ M2 : Machine, M2 = { M with
      trace := M.trace ++ [.read ⟨.callData, s⟩ k, .write ⟨.stack id0, 0⟩ k]
      mem := fun b =>
        if b = .stack id0 then
          some (cs.take 0 ++ ((B.map MemVal.byte).drop s).take k ++ cs.drop (0 + k))
        else M.mem b } := ⟨_, rfl⟩
  rw [← hM2] at hcpy
  have h2 : CallDataArgs M2 name i B := by
    rw [hM2]; exact ⟨h.idx, h.data, h.size⟩
  have ePad2 := eval_cdlPad (M := M2) n id0 nm h2 hB
  have ePadSize2 := eval_cdlPadSize (M := M2) n h2 hB
  rw [hkdef] at ePad2 ePadSize2
  have p12 : execInstr M2 (.val (cdlPad (.alloca id0 Ty.Word 1 nm) n (.arg name Ty.Word))) =
      some M2 :=
    execInstr_val_of_eval M2 _ _ ePad2 (by simp [cdlPad]) (by simp [cdlPad])
  have hM2slot : M2.mem (.stack id0) =
      some (cs.take 0 ++ ((B.map MemVal.byte).drop s).take k ++ cs.drop (0 + k)) := by
    rw [hM2]; simp
  have hlen2 : (cs.take 0 ++ ((B.map MemVal.byte).drop s).take k ++ cs.drop (0 + k)).length
      = 32 := by
    simp only [List.take_zero, List.nil_append, List.length_append, List.length_take,
      List.length_drop, List.length_map, hcs]
    omega
  have hset := exec_memset M2 (n + 13) 1 ePad2
    (show evalValue M2 (IRBuilder.getInt8 0) = some (.int 0) by simp [IRBuilder.getInt8, evalValue])
    ePadSize2 hM2slot (by rw [hlen2]; simp; omega)
  rw [slot_cells B cs s k hcs hk hsk] at hset
  obtain ⟨M3, hM3⟩ : ∃ M3 : Machine, M3 = { M2 with
      trace := M2.trace ++ [.write ⟨.stack id0, k⟩ (32 - k)]
      mem := fun b =>
        if b = .stack id0 then
          some (((B.drop s).take k ++ List.replicate (32 - k) 0).map MemVal.byte)
        else M2.mem b } := ⟨_, rfl⟩
  rw [← hM3] at hset
  have hM3slot : M3.mem (.stack id0) =
      some (((B.drop s).take k ++ List.replicate (32 - k) 0).map MemVal.byte) := by
    rw [hM3]; simp
  have hWlen : (((B.drop s).take k ++ List.replicate (32 - k) 0).map MemVal.byte).length
      = 32 := by
    simp only [List.length_map, List.length_append, List.length_take, List.length_drop,
      List.length_replicate]
    omega
  have hld := exec_load M3 (n + 14) (p := .alloca id0 Ty.Word 1 nm) (q := ⟨.stack id0, 0⟩)
    (by simp [evalValue]) hM3slot (by rw [hWlen]; simp [Value.type, Ty.pointee, Ty.Word, Ty.bytes])
  have hdec : decode (Value.alloca id0 Ty.Word 1 nm).type.pointee
      ((((B.drop s).take k ++ List.replicate (32 - k) 0).map MemVal.byte).drop 0 |>.take
        (Value.alloca id0 Ty.Word 1 nm).type.pointee.bytes) =
      .int (ofBytesLE ((B.drop s).take k ++ List.replicate (32 - k) 0)) := by
    have hb : (Value.alloca id0 Ty.Word 1 nm).type.pointee.bytes = 32 := by
      simp [Value.type, Ty.pointee, Ty.Word, Ty.bytes]
    rw [hb, List.drop_zero, List.take_of_length_le (le_of_eq hWlen)]
    show (match cellBytes (((B.drop s).take k ++ List.replicate (32 - k) 0).map MemVal.byte) with
      | some bs => RVal.int (ofBytesLE bs)
      | none => RVal.undef) = _
    rw [cellBytes_map_byte]
  rw [hdec] at hld
  obtain ⟨M4, hM4⟩ : ∃ M4 : Machine, M4 = { M3 with
      trace := M3.trace ++ [.read ⟨.stack id0, 0⟩ (Value.alloca id0 Ty.Word 1 nm).type.pointee.bytes]
      regs := fun r => if r = n + 14 then
          some (.int (ofBytesLE ((B.drop s).take k ++ List.replicate (32 - k) 0)))
        else M3.regs r } := ⟨_, rfl⟩
  rw [← hM4] at hld
  have p16 : execInstr M4 (.val (.bswap (n + 15) (.load (n + 14) (.alloca id0 Ty.Word 1 nm)))) =
      some M4 :=
    execInstr_val_of_eval M4 _
      (.int (byteSwap 32 (ofBytesLE ((B.drop s).take k ++ List.replicate (32 - k) 0))))
      (by rw [hM4]; simp [evalValue, Value.type, Ty.pointee, Ty.Word, Ty.bytes])
      (by simp) (by simp)
  refine ⟨M4, ?_, ?_, ?_, ?_, ?_⟩
  · unfold calldataloadBody
    simp only [run, p1, p2, p3, p4, p5, p6, p7, p8, p9, p10, p11, hcpy, p12, hset, hld, p16]
  · rw [hM4, hM3, hM2]
  · rw [hM4, hM3, hM2]
    funext b
    by_cases hb : b = Block.stack id0 <;> simp [hb]
  · rw [hM4, hM3, hM2]
  · rw [hM4, hM3, hM2]
    simp [Value.type, Ty.pointee, Ty.Word, Ty.bytes]

theorem calldataload_run (e : Ext) (M : Machine) (B : List Nat) (i : Nat) (name : String)
    (hpool : e.PoolOfSlots)
    (hslot : ∀ id ty c nm, e.m_argAllocas e.m_argCounter = some (.alloca id ty c nm) →
      ∃ cs, M.mem (.stack id) = some cs ∧ cs.length = 32)
    (h : CallDataArgs M name i B) (hmem : M.mem .callData = some (B.map .byte))
    (hB : B.length + 32 < 2 ^ 64) :
    ∃ (M1 : Machine) (id : Nat) (nm : String) (n : Nat) (pre : List Instr),
      (e.getArgAlloca).1 = .alloca id Ty.Word 1 nm ∧
      emitted e.m_builder (e.calldataload (.arg name Ty.Word)).2.m_builder =
        pre ++ calldataloadBody (.alloca id Ty.Word 1 nm) n (.arg name Ty.Word) ∧
      (pre = [] ∨ pre = [.val (.alloca id Ty.Word 1 nm)]) ∧
      (e.calldataload (.arg name Ty.Word)).1 =
        .bswap (n + 15) (.load (n + 14) (.alloca id Ty.Word 1 nm)) ∧
      run (emitted e.m_builder (e.calldataload (.arg name Ty.Word)).2.m_builder) M = some M1 ∧
      M1.args = M.args ∧
      M1.mem = (fun b =>
        if b = .stack id then some ((calldataWord B i).map .byte) else M.mem b) ∧
      M1.regs = (fun r =>
        if r = n + 14 then some (.int (ofBytesLE (calldataWord B i))) else M.regs r) ∧
      M1.trace = M.trace ++
        [.read ⟨.callData, min i B.length⟩ (min 32 (B.length - min i B.length)),
         .write ⟨.stack id, 0⟩ (min 32 (B.length - min i B.length)),
         .write ⟨.stack id, min 32 (B.length - min i B.length)⟩
           (32 - min 32 (B.length - min i B.length)),
         .read ⟨.stack id, 0⟩ 32] := by
  cases hc : e.m_argAllocas e.m_argCounter with
  | some a =>
    obtain ⟨id, nm, ha⟩ := hpool _ _ hc
    subst ha
    obtain ⟨cs, hcs, hlen⟩ := hslot _ _ _ _ hc
    obtain ⟨hem, hret⟩ := calldataload_of_slot e name nm id hc
    obtain ⟨M1, hrun, h1, h2, h3, h4⟩ :=
      run_calldataloadBody M B i e.m_builder.nextId id nm name cs h hmem hcs hlen hB
    refine ⟨M1, id, nm, e.m_builder.nextId, [], (getArgAlloca_some e _ hc).1, by simpa using hem,
      Or.inl rfl, hret, ?_, h1, h2, h3, h4⟩
    rw [hem]; exact hrun
  | none =>
    obtain ⟨hem, hret⟩ := calldataload_of_none e name hc
    obtain ⟨M0, hM0⟩ : ∃ M0 : Machine, M0 = { M with
        mem := fun b =>
          if b = .stack e.m_builder.nextId then
            some (List.replicate (1 * Ty.Word.bytes) MemVal.undef)
          else M.mem b } := ⟨_, rfl⟩
    have h0 : CallDataArgs M0 name i B := by rw [hM0]; exact ⟨h.idx, h.data, h.size⟩
    have hmem0 : M0.mem .callData = some (B.map .byte) := by rw [hM0]; simpa using hmem
    have hslot0 : M0.mem (.stack e.m_builder.nextId) =
        some (List.replicate (1 * Ty.Word.bytes) MemVal.undef) := by rw [hM0]; simp
    obtain ⟨M1, hrun, h1, h2, h3, h4⟩ :=
      run_calldataloadBody M0 B i (e.m_builder.nextId + 1) e.m_builder.nextId
        ("a." ++ toString e.m_argCounter) name _ h0 hmem0 hslot0
        (by simp [Ty.Word, Ty.bytes]) hB
    refine ⟨M1, e.m_builder.nextId, "a." ++ toString e.m_argCounter, e.m_builder.nextId + 1,
      [.val (.alloca e.m_builder.nextId Ty.Word 1 ("a." ++ toString e.m_argCounter))],
      (getArgAlloca_none e hc).1, by simpa using hem, Or.inr rfl, hret, ?_, ?_, ?_, ?_, ?_⟩
    · rw [hem]
      simp only [run, execInstr]
      rw [← hM0]
      exact hrun
    · rw [h1, hM0]
    · rw [h2, hM0]
      funext b
      by_cases hb : b = Block.stack e.m_builder.nextId <;> simp [hb]
    · rw [h3, hM0]
    · rw [h4, hM0]

theorem toBytesLE_succ (k n : Nat) :
    toBytesLE (k + 1) n = n % 256 :: toBytesLE k (n / 256) := by
  unfold toBytesLE
  rw [List.range_succ_eq_map, List.map_cons, List.map_map]
  simp only [pow_zero, Nat.div_one, List.cons.injEq, true_and]
  apply List.map_congr_left
  intro i _
  simp only [Function.comp, pow_succ']
  rw [Nat.div_div_eq_div_mul]

theorem toBytesLE_ofBytesLE (W : List Nat) (h : ∀ b ∈ W, b < 256) :
    toBytesLE W.length (ofBytesLE W) = W := by
  induction W with
  | nil => rfl
  | cons b W ih =>
    have hb : b < 256 := h b (List.mem_cons_self _ _)
    rw [List.length_cons, toBytesLE_succ, ofBytesLE]
    have h1 : (b + 256 * ofBytesLE W) % 256 = b := by omega
    have h2 : (b + 256 * ofBytesLE W) / 256 = ofBytesLE W := by omega
    rw [h1, h2, ih (fun x hx => h x (List.mem_cons_of_mem _ hx))]

theorem byteSwap_ofBytesLE (W : List Nat) (h : ∀ b ∈ W, b < 256) :
    byteSwap W.length (ofBytesLE W) = ofBytesBE W := by
  unfold byteSwap ofBytesBE
  rw [toBytesLE_ofBytesLE W h]

theorem calldataWord_length (B : List Nat) (i : Nat) : (calldataWord B i).length = 32 := by
  unfold calldataWord
  simp only [List.length_append, List.length_take, List.length_drop, List.length_replicate]
  omega

theorem calldataWord_lt (B : List Nat) (i : Nat) (h : ∀ b ∈ B, b < 256) :
    ∀ b ∈ calldataWord B i, b < 256 := by
  intro b hb
  unfold calldataWord at hb
  rw [List.mem_append] at hb
  rcases hb with hb | hb
  · exact h b (List.mem_of_mem_drop (List.mem_of_mem_take hb))
  · rw [List.eq_of_mem_replicate hb]; norm_num

theorem calldataWord_of_le (B : List Nat) (i : Nat) (h : B.length ≤ i) :
    calldataWord B i = List.replicate 32 0 := by
  unfold calldataWord
  have h1 : min i B.length = B.length := by omega
  simp [h1]

theorem ofBytesLE_replicate_zero (k : Nat) : ofBytesLE (List.replicate k 0) = 0 := by
  induction k with
  | zero => rfl
  | succ k ih => simp [List.replicate_succ, ofBytesLE, ih]

theorem byteSwap_zero (k : Nat) : byteSwap k 0 = 0 := by
  unfold byteSwap toBytesLE
  have : (List.range k).map (fun i => 0 / 256 ^ i % 256) = List.replicate k 0 := by
    induction k with
    | zero => rfl
    | succ k ih =>
      rw [List.range_succ, List.map_append, ih]
      simp [List.replicate_succ']
  rw [this, List.reverse_replicate, ofBytesLE_replicate_zero]

/-- C1. Call-data load. For a buffer `B` with `len B + 32 < 2 ^ 64` and any index `i` (of any
size), the code that `calldataload` emits runs to completion and leaves in the slot the 32-byte
word `calldataWord B i`: the `min 32 (len B - s)` bytes of `B` from `s = min i (len B)` on,
followed by zero bytes; the value returned is the word loaded from the slot, byte-reversed, which
for a buffer of bytes is the big-endian reading of the 32 bytes. For `len B ≤ i` the word is 32
zero bytes and the result is zero; for `len B = 1`, `i = 0` the word is the byte of `B` and 31
zero bytes. -/
theorem calldataload_word (e : Ext) (M : Machine) (B : List Nat) (i : Nat) (name : String)
    (hpool : e.PoolOfSlots)
    (hslot : ∀ id ty c nm, e.m_argAllocas e.m_argCounter = some (.alloca id ty c nm) →
      ∃ cs, M.mem (.stack id) = some cs ∧ cs.length = 32)
    (h : CallDataArgs M name i B) (hmem : M.mem .callData = some (B.map .byte))
    (hB : B.length + 32 < 2 ^ 64) :
    ∃ (M1 : Machine) (id : Nat) (nm : String),
      (e.getArgAlloca).1 = .alloca id Ty.Word 1 nm ∧
      run (emitted e.m_builder (e.calldataload (.arg name Ty.Word)).2.m_builder) M = some M1 ∧
      M1.mem (.stack id) = some ((calldataWord B i).map .byte) ∧
      (calldataWord B i).length = 32 ∧
      evalValue M1 (e.calldataload (.arg name Ty.Word)).1 =
        some (.int (byteSwap 32 (ofBytesLE (calldataWord B i)))) ∧
      ((∀ b ∈ B, b < 256) → evalValue M1 (e.calldataload (.arg name Ty.Word)).1 =
        some (.int (ofBytesBE (calldataWord B i)))) ∧
      (B.length ≤ i → calldataWord B i = List.replicate 32 0 ∧
        evalValue M1 (e.calldataload (.arg name Ty.Word)).1 = some (.int 0)) ∧
      (B.length = 1 → i = 0 → calldataWord B i = B ++ List.replicate 31 0) := by
  obtain ⟨M1, id, nm, n, pre, hret, _, _, hval, hrun, _, hm, hr, _⟩ :=
    calldataload_run e M B i name hpool hslot h hmem hB
  have hev : evalValue M1 (e.calldataload (.arg name Ty.Word)).1 =
      some (.int (byteSwap 32 (ofBytesLE (calldataWord B i)))) := by
    rw [hval]
    simp [evalValue, hr, Value.type, Ty.pointee, Ty.Word, Ty.bytes]
  refine ⟨M1, id, nm, hret, hrun, by rw [hm]; simp, calldataWord_length B i, hev, ?_, ?_, ?_⟩
  · intro hb
    rw [hev, ← calldataWord_length B i, byteSwap_ofBytesLE _ (calldataWord_lt B i hb)]
  · intro hle
    refine ⟨calldataWord_of_le B i hle, ?_⟩
    rw [hev, calldataWord_of_le B i hle, ofBytesLE_replicate_zero, byteSwap_zero]
  · intro h1 h0
    subst h0
    match B, h1 with
    | [b], _ => simp [calldataWord]

/-- C1, at an instance: on the fresh object, with the one-byte buffer `[0xab]` and index 0 the
code runs and the slot holds `0xab` followed by 31 zero bytes. -/
theorem calldataload_word_witness :
    fresh.PoolOfSlots ∧
    CallDataArgs (Machine.entry (Host.const 0) [0xab] (fun _ => .int 0)) "idx" 0 [0xab] ∧
    [0xab].length + 32 < 2 ^ 64 ∧
    ∃ (M1 : Machine) (id : Nat),
      run (emitted fresh.m_builder (fresh.calldataload (.arg "idx" Ty.Word)).2.m_builder)
        (Machine.entry (Host.const 0) [0xab] (fun _ => .int 0)) = some M1 ∧
      M1.mem (.stack id) = some (([0xab] ++ List.replicate 31 0).map .byte) := by
  have hargs : CallDataArgs (Machine.entry (Host.const 0) [0xab] (fun _ => .int 0)) "idx" 0
      [0xab] := ⟨by simp [Machine.entry], by simp [Machine.entry], by simp [Machine.entry]⟩
  refine ⟨fresh_poolOfSlots, hargs, by norm_num, ?_⟩
  obtain ⟨M1, id, nm, _, hrun, hmem, _, _, _, _, hone⟩ :=
    calldataload_word fresh (Machine.entry (Host.const 0) [0xab] (fun _ => .int 0)) [0xab] 0
      "idx" fresh_poolOfSlots (fun _ _ _ _ hc => by cases hc) hargs
      (by simp [Machine.entry]) (by norm_num)
  exact ⟨M1, id, hrun, by rw [hmem, hone rfl rfl]⟩

/-- C2. Call-data load stays in bounds. Under the hypotheses of C1 the emitted code is the
sequence `calldataloadBody` (after the slot's allocation when the slot is new) and in it: the
truncated start index `idx` is `s = min i (len B)`, at most `len B`; the copy size `k` has
`s + k ≤ len B` and `k ≤ 32`; the pad size `p` has `k + p = 32`; the three no-unsigned-wrap
operations have values (`s + 32` below `2 ^ 64`, `end - s` with `s ≤ end`, `32 - k`), so none
wraps; the run completes, its memory accesses are exactly: read `[s, s + k)` of the call data,
write `[0, k)` and `[k, 32)` of the slot, read the slot; and no block but the slot changes. -/
theorem calldataload_in_bounds (e : Ext) (M : Machine) (B : List Nat) (i : Nat)
    (name : String) (hpool : e.PoolOfSlots)
    (hslot : ∀ id ty c nm, e.m_argAllocas e.m_argCounter = some (.alloca id ty c nm) →
      ∃ cs, M.mem (.stack id) = some cs ∧ cs.length = 32)
    (h : CallDataArgs M name i B) (hmem : M.mem .callData = some (B.map .byte))
    (hB : B.length + 32 < 2 ^ 64) :
    ∃ (M1 : Machine) (id : Nat) (nm : String) (n : Nat) (pre : List Instr) (s k p en : Nat),
      (e.getArgAlloca).1 = .alloca id Ty.Word 1 nm ∧
      emitted e.m_builder (e.calldataload (.arg name Ty.Word)).2.m_builder =
        pre ++ calldataloadBody (.alloca id Ty.Word 1 nm) n (.arg name Ty.Word) ∧
      (pre = [] ∨ pre = [.val (.alloca id Ty.Word 1 nm)]) ∧
      evalValue M (cdlIdx n (.arg name Ty.Word)) = some (.int s) ∧
      s = min i B.length ∧ s ≤ B.length ∧
      evalValue M (cdlCopySize n (.arg name Ty.Word)) = some (.int k) ∧
      s + k ≤ B.length ∧ k ≤ 32 ∧
      evalValue M (cdlPadSize n (.arg name Ty.Word)) = some (.int p) ∧ k + p = 32 ∧
      evalValue M (cdlEndAdd n (.arg name Ty.Word)) = some (.int (s + 32)) ∧
      s + 32 < 2 ^ 64 ∧
      evalValue M (cdlEnd n (.arg name Ty.Word)) = some (.int en) ∧ s ≤ en ∧ k = en - s ∧
      p = 32 - k ∧
      run (emitted e.m_builder (e.calldataload (.arg name Ty.Word)).2.m_builder) M = some M1 ∧
      M1.trace = M.trace ++
        [.read ⟨.callData, s⟩ k, .write ⟨.stack id, 0⟩ k, .write ⟨.stack id, k⟩ p,
         .read ⟨.stack id, 0⟩ 32] ∧
      (∀ b, b ≠ Block.stack id → M1.mem b = M.mem b) := by
  obtain ⟨M1, id, nm, n, pre, hret, hem, hpre, _, hrun, _, hm, _, htr⟩ :=
    calldataload_run e M B i name hpool hslot h hmem hB
  refine ⟨M1, id, nm, n, pre, min i B.length, min 32 (B.length - min i B.length),
    32 - min 32 (B.length - min i B.length), min (min i B.length + 32) B.length,
    hret, hem, hpre, eval_cdlIdx n h hB, rfl, Nat.min_le_right _ _,
    eval_cdlCopySize n h hB, by omega, Nat.min_le_left _ _,
    eval_cdlPadSize n h hB, by omega, eval_cdlEndAdd n h hB, by omega,
    eval_cdlEnd n h hB, by omega, by omega, rfl, hrun, htr, ?_⟩
  intro b hb
  rw [hm]
  simp [hb]

/-- C2, at an instance: on the fresh object, with a three-byte buffer and index 1 the code
runs, reading a range of the call data that ends within its three bytes and writing 32 bytes of
the slot. -/
theorem calldataload_in_bounds_witness :
    fresh.PoolOfSlots ∧
    CallDataArgs (Machine.entry (Host.const 0) [1, 2, 3] (fun _ => .int 1)) "idx" 1 [1, 2, 3] ∧
    [1, 2, 3].length + 32 < 2 ^ 64 ∧
    ∃ (M1 : Machine) (id s k p : Nat),
      run (emitted fresh.m_builder (fresh.calldataload (.arg "idx" Ty.Word)).2.m_builder)
        (Machine.entry (Host.const 0) [1, 2, 3] (fun _ => .int 1)) = some M1 ∧
      M1.trace = [.read ⟨.callData, s⟩ k, .write ⟨.stack id, 0⟩ k, .write ⟨.stack id, k⟩ p,
        .read ⟨.stack id, 0⟩ 32] ∧
      s + k ≤ 3 ∧ k + p = 32 := by
  have hargs : CallDataArgs (Machine.entry (Host.const 0) [1, 2, 3] (fun _ => .int 1)) "idx" 1
      [1, 2, 3] := ⟨by simp [Machine.entry], by simp [Machine.entry], by simp [Machine.entry]⟩
  refine ⟨fresh_poolOfSlots, hargs, by norm_num, ?_⟩
  obtain ⟨M1, id, nm, n, pre, s, k, p, en, _, _, _, _, _, _, _, hsk, _, _, hkp, _, _, _, _, _, _,
      hrun, htr, _⟩ :=
    calldataload_in_bounds fresh (Machine.entry (Host.const 0) [1, 2, 3] (fun _ => .int 1))
      [1, 2, 3] 1 "idx" fresh_poolOfSlots (fun _ _ _ _ hc => by cases hc) hargs
      (by simp [Machine.entry]) (by norm_num)
  exact ⟨M1, id, s, k, p, hrun, by simpa [Machine.entry] using htr, by simpa using hsk, hkp⟩

/-! ## Theorems: the environment queries -/

theorem run_append (l1 l2 : List Instr) (M : Machine) :
    run (l1 ++ l2) M = match run l1 M with
      | some M1 => run l2 M1
      | none => none := by
  induction l1 generalizing M with
  | nil => rfl
  | cons i l1 ih =>
    simp only [List.cons_append, run]
    cases execInstr M i with
    | none => rfl
    | some M1 => exact ih M1

theorem run_append_of (l1 l2 : List Instr) (M M1 : Machine) (h : run l1 M = some M1) :
    run (l1 ++ l2) M = run l2 M1 := by
  rw [run_append, h]

theorem emitted_append (b b1 b2 : IRBuilder) (l1 l2 : List Emit)
    (h1 : b1.log = b.log ++ l1) (h2 : b2.log = b1.log ++ l2) :
    emitted b b2 = emitted b b1 ++ emitted b1 b2 := by
  rw [emitted_of_log b b1 l1 h1, emitted_of_log b1 b2 l2 h2,
    emitted_of_log b b2 (l1 ++ l2) (by rw [h2, h1, List.append_assoc]), List.map_append]

theorem fresh_wf : fresh.WF :=
  ⟨fun _ _ h => (by cases h), fun _ _ _ _ _ h => (by cases h), fun _ h => (by cases h)⟩

theorem fresh_declsOK : fresh.DeclsOK :=
  ⟨fun _ h => (by cases h), fun _ h => (by cases h)⟩

theorem entry_live (host : Host) (B : List Nat) (ops : String → RVal) :
    (Machine.entry host B ops).Live fresh :=
  ⟨fun _ _ _ h => (by cases h), fun _ h => (by cases h)⟩

theorem WF.poolOfSlots {e : Ext} (h : e.WF) : e.PoolOfSlots := by
  intro i a hi
  obtain ⟨id, nm, ha, _⟩ := h.slots i a hi
  exact ⟨id, nm, ha⟩

/-- Acquiring a slot and running the code this inserts: the slot is a one-word allocation, and
after the run it is allocated in the machine, which is otherwise as before. -/
theorem acquire_run (e : Ext) (M : Machine) (hwf : e.WF) (hl : M.Live e) :
    ∃ (id : Nat) (nm : String) (l : List Emit) (M1 : Machine),
      (e.getArgAlloca).1 = .alloca id Ty.Word 1 nm ∧
      (e.getArgAlloca).2.m_builder.log = e.m_builder.log ++ l ∧
      (e.getArgAlloca).2.m_builder.insertPt = e.m_builder.insertPt ∧
      run (l.map Emit.instr) M = some M1 ∧
      (e.getArgAlloca).2.WF ∧ M1.Live (e.getArgAlloca).2 ∧
      (∃ cs, M1.mem (.stack id) = some cs ∧ cs.length = 32) ∧
      (∀ b, b ≠ Block.stack id → M1.mem b = M.mem b) ∧
      M1.args = M.args ∧ M1.regs = M.regs ∧ M1.trace = M.trace ∧ M1.host = M.host ∧
      M1.basePointer = M.basePointer := by
  cases hc : e.m_argAllocas e.m_argCounter with
  | some a =>
    obtain ⟨id, nm, ha, hid⟩ := hwf.slots _ _ hc
    subst ha
    obtain ⟨h1, h2, h3⟩ := getArgAlloca_some e _ hc
    have hwf1 : (e.getArgAlloca).2.WF := by
      refine ⟨?_, ?_, ?_⟩
      · rw [h2, h3]; exact hwf.slots
      · rw [h2]; exact hwf.distinct
      · have ht : (e.getArgAlloca).2.m_topics = e.m_topics := by
          unfold getArgAlloca; rw [hc]
        rw [ht, h2, h3]; exact hwf.topics
    have hl1 : M.Live (e.getArgAlloca).2 := by
      have ht : (e.getArgAlloca).2.m_topics = e.m_topics := by
        unfold getArgAlloca; rw [hc]
      refine ⟨?_, ?_⟩
      · rw [h2]; exact hl.slots
      · rw [ht]; exact hl.topics
    exact ⟨id, nm, [], M, h1, by rw [h3]; simp, by rw [h3], rfl, hwf1, hl1,
      hl.slots _ _ _ hc, fun _ _ => rfl, rfl, rfl, rfl, rfl, rfl⟩
  | none =>
    obtain ⟨h1, h2, _⟩ := getArgAlloca_none e hc
    have hb : (e.getArgAlloca).2.m_builder =
        ⟨e.m_builder.log ++ [⟨⟨0, e.m_builder.entryBegin⟩,
          .val (.alloca e.m_builder.nextId Ty.Word 1 ("a." ++ toString e.m_argCounter))⟩],
          e.m_builder.insertPt, e.m_builder.nextId + 1⟩ := by
      unfold getArgAlloca; rw [hc]; rfl
    have ht : (e.getArgAlloca).2.m_topics = e.m_topics := by
      unfold getArgAlloca; rw [hc]
    have hpool : ∀ i, (e.getArgAlloca).2.m_argAllocas i =
        if i = e.m_argCounter then
          some (.alloca e.m_builder.nextId Ty.Word 1 ("a." ++ toString e.m_argCounter))
        else e.m_argAllocas i := by
      intro i; rw [h2, h1]
    have hwf1 : (e.getArgAlloca).2.WF := by
      refine ⟨?_, ?_, ?_⟩
      · intro i a hi
        rw [hpool] at hi
        rw [hb]
        by_cases hic : i = e.m_argCounter
        · simp only [hic, if_true, Option.some.injEq] at hi
          exact ⟨_, _, hi.symm, Nat.lt_succ_self _⟩
        · simp only [hic, if_false] at hi
          obtain ⟨id, nm, ha, hid⟩ := hwf.slots i a hi
          exact ⟨id, nm, ha, Nat.lt_succ_of_lt hid⟩
      · intro i j id ni nj hi hj
        rw [hpool] at hi hj
        by_cases hic : i = e.m_argCounter <;> by_cases hjc : j = e.m_argCounter
        · rw [hic, hjc]
        · simp only [hic, if_true, Option.some.injEq, Value.alloca.injEq] at hi
          simp only [hjc, if_false] at hj
          obtain ⟨id2, nm, ha, hid⟩ := hwf.slots j _ hj
          simp only [Value.alloca.injEq] at ha
          omega
        · simp only [hjc, if_true, Option.some.injEq, Value.alloca.injEq] at hj
          simp only [hic, if_false] at hi
          obtain ⟨id2, nm, ha, hid⟩ := hwf.slots i _ hi
          simp only [Value.alloca.injEq] at ha
          omega
        · simp only [hic, if_false] at hi
          simp only [hjc, if_false] at hj
          exact hwf.distinct i j id ni nj hi hj
      · intro t htt
        rw [ht] at htt
        obtain ⟨id, hte, hid, hne⟩ := hwf.topics t htt
        refine ⟨id, hte, by rw [hb]; exact Nat.lt_succ_of_lt hid, ?_⟩
        intro i nm hi
        rw [hpool] at hi
        by_cases hic : i = e.m_argCounter
        · simp only [hic, if_true, Option.some.injEq, Value.alloca.injEq] at hi
          omega
        · simp only [hic, if_false] at hi
          exact hne i nm hi
    obtain ⟨M1, hM1⟩ : ∃ M1 : Machine, M1 = { M with
        mem := fun b =>
          if b = .stack e.m_builder.nextId then
            some (List.replicate (1 * Ty.Word.bytes) MemVal.undef)
          else M.mem b } := ⟨_, rfl⟩
    have hl1 : M1.Live (e.getArgAlloca).2 := by
      refine ⟨?_, ?_⟩
      · intro i id nm hi
        rw [hpool] at hi
        by_cases hic : i = e.m_argCounter
        · simp only [hic, if_true, Option.some.injEq, Value.alloca.injEq] at hi
          rw [hM1, ← hi.1]
          exact ⟨List.replicate (1 * Ty.Word.bytes) MemVal.undef, by simp,
            by simp [Ty.Word, Ty.bytes]⟩
        · simp only [hic, if_false] at hi
          obtain ⟨cs, hcs, hlen⟩ := hl.slots i id nm hi
          obtain ⟨id2, nm2, ha, hid⟩ := hwf.slots i _ hi
          simp only [Value.alloca.injEq] at ha
          have hne : id ≠ e.m_builder.nextId := by omega
          exact ⟨cs, by rw [hM1]; simpa [hne] using hcs, hlen⟩
      · intro id hi
        rw [ht] at hi
        obtain ⟨cs, hcs, hlen⟩ := hl.topics id hi
        obtain ⟨id2, ha, hid, _⟩ := hwf.topics _ hi
        simp only [Value.alloca.injEq] at ha
        have hne : id ≠ e.m_builder.nextId := by omega
        exact ⟨cs, by rw [hM1]; simpa [hne] using hcs, hlen⟩
    refine ⟨e.m_builder.nextId, "a." ++ toString e.m_argCounter, _, M1, h1, by rw [hb], by rw [hb],
      ?_, hwf1, hl1, ⟨List.replicate (1 * Ty.Word.bytes) MemVal.undef, by rw [hM1]; simp,
        by simp [Ty.Word, Ty.bytes]⟩, ?_,
      by rw [hM1], by rw [hM1], by rw [hM1], by rw [hM1], by rw [hM1]⟩
    · simp only [List.map_cons, List.map_nil, run, execInstr]
      rw [hM1]
    · intro b hb2
      rw [hM1]
      simp [hb2]

theorem WF.mono {e e1 : Ext} (h : e.WF) (hp : e1.m_argAllocas = e.m_argAllocas)
    (ht : e1.m_topics = e.m_topics) (hn : e.m_builder.nextId ≤ e1.m_builder.nextId) :
    e1.WF := by
  refine ⟨?_, ?_, ?_⟩
  · intro i a hi
    rw [hp] at hi
    obtain ⟨id, nm, ha, hid⟩ := h.slots i a hi
    exact ⟨id, nm, ha, by omega⟩
  · rw [hp]; exact h.distinct
  · intro t htt
    rw [ht] at htt
    obtain ⟨id, hte, hid, hne⟩ := h.topics t htt
    exact ⟨id, hte, by omega, by rw [hp]; exact hne⟩

theorem live_congr {e e1 : Ext} {M : Machine} (h : M.Live e)
    (hp : e1.m_argAllocas = e.m_argAllocas) (ht : e1.m_topics = e.m_topics) : M.Live e1 := by
  refine ⟨?_, ?_⟩
  · rw [hp]; exact h.slots
  · rw [ht]; exact h.topics

theorem ofBytesLE_toBytesLE (k n : Nat) : ofBytesLE (toBytesLE k n) = n % 256 ^ k := by
  induction k generalizing n with
  | zero => simp [toBytesLE, ofBytesLE, Nat.mod_one]
  | succ k ih =>
    rw [toBytesLE_succ, ofBytesLE, ih, pow_succ', Nat.mod_mul]

theorem decode_word (w : Nat) (hw : w < 2 ^ 256) :
    decode Ty.Word (encode Ty.Word (.int w)) = .int w := by
  show (match cellBytes ((toBytesLE ((256 + 7) / 8) w).map MemVal.byte) with
      | some bs => RVal.int (ofBytesLE bs)
      | none => RVal.undef) = _
  rw [cellBytes_map_byte]
  show RVal.int (ofBytesLE (toBytesLE 32 w)) = _
  rw [ofBytesLE_toBytesLE, Nat.mod_eq_of_lt (by norm_num; omega)]

theorem encode_word_length (r : RVal) : (encode Ty.Word r).length = 32 := by
  cases r <;> simp [encode, Ty.Word, Ty.bytes, toBytesLE]

theorem exec_store (M : Machine) {v p : Value} {x : RVal} {q : Ptr} {cs : List MemVal}
    (id : Nat) (hv : evalValue M v = some x) (hp : evalValue M p = some (.ptr q))
    (hm : M.mem q.block = some cs) (hb : q.off + (encode v.type x).length ≤ cs.length) :
    execInstr M (.store id v p) = some { M with
      trace := M.trace ++ [.write q v.type.bytes]
      mem := fun b =>
        if b = q.block then
          some (cs.take q.off ++ encode v.type x ++ cs.drop (q.off + (encode v.type x).length))
        else M.mem b } := by
  simp only [execInstr, hv, hp]
  rw [writeCells_eq _ q _ cs (by exact hm) hb]
  simp [Machine.record]

theorem exec_call_query (M : Machine) (id : Nat) (args : List Value) (r : Ptr) (envv opnd x : RVal)
    (key : Nat) (cs : List MemVal)
    (hargs : evalArgs M args = some [.ptr r, envv, .int key, opnd])
    (hop : M.operand opnd = some x)
    (hm : M.mem r.block = some cs)
    (hb : r.off + (Machine.variantCells (M.host.query key x)).length ≤ cs.length) :
    execInstr M (.call id queryFunc args) = some { M with
      trace := M.trace ++ [.call "evm.query" [.ptr r, envv, .int key, opnd] M.mem]
      mem := fun b =>
        if b = r.block then
          some (cs.take r.off ++ Machine.variantCells (M.host.query key x) ++
            cs.drop (r.off + (Machine.variantCells (M.host.query key x)).length))
        else M.mem b } := by
  have hname : queryFunc.name = "evm.query" := rfl
  have hop2 : (M.record (.call "evm.query" [.ptr r, envv, .int key, opnd] M.mem)).operand opnd =
      some x := by
    cases opnd with
    | undef => exact hop
    | int n => simp [Machine.operand] at hop
    | agg a b => simp [Machine.operand] at hop
    | ptr p => simpa [Machine.operand, Machine.record, Machine.readCells] using hop
  simp only [execInstr, hargs, hname, execCall, if_true, hop2]
  rw [writeCells_eq _ r _ cs (by exact hm) (by exact hb)]
  simp [Machine.record]

theorem queryFunc_sret : queryFunc.hasStructRetAttr = true := by decide
theorem queryFunc_byVal1 : queryFunc.hasByValAttr 1 = false := by decide
theorem queryFunc_byVal2 : queryFunc.hasByValAttr 2 = false := by decide
theorem queryFunc_byVal3 : queryFunc.hasByValAttr 3 = true := by decide

theorem resolve_query (e : Ext) (h : e.DeclsOK) : (e.resolve getQueryFunc).1 = queryFunc := by
  unfold resolve getQueryFunc
  cases hf : e.m_module.getFunction "evm.query" with
  | some f => simp only [hf]; exact h.query f hf
  | none => simp only [hf]; rfl

theorem cabi_query_value (e : Ext) (key : Nat) (v : Value) (hv : v.type = Ty.Word)
    (hwf : e.WF) (id1 : Nat) (nm1 : String)
    (h1 : ((e.getArgAlloca).2.getArgAlloca).1 = .alloca id1 Ty.Word 1 nm1) :
    e.createCABICall queryFunc [RuntimeManager.getEnvPtr, IRBuilder.getInt32 key, v] true =
      (Ext.build { ((e.getArgAlloca).2.getArgAlloca).2.emit
            (·.CreateStore v ((e.getArgAlloca).2.getArgAlloca).1) with m_argCounter := 0 }
          (·.CreateCall queryFunc [(e.getArgAlloca).1, RuntimeManager.getEnvPtr,
            IRBuilder.getInt32 key, ((e.getArgAlloca).2.getArgAlloca).1])).2.build
        (·.CreateLoad (e.getArgAlloca).1) := by
  rw [createCABICall_sret e queryFunc [RuntimeManager.getEnvPtr, IRBuilder.getInt32 key, v] true
    queryFunc_sret hwf.poolOfSlots
    (show 3 + 1 = queryFunc.params.length by decide)]
  have hn1 : needsSlot queryFunc 1 RuntimeManager.getEnvPtr = false := by
    simp [needsSlot, queryFunc_byVal1]
  have hn2 : needsSlot queryFunc 2 (IRBuilder.getInt32 key) = false := by
    simp [needsSlot, queryFunc_byVal2]
  have hn3 : needsSlot queryFunc 3 v = true := by
    simp [needsSlot, queryFunc_byVal3, hv, Ty.Word, Ty.isPointerTy]
  have hcast : ((e.getArgAlloca).2.getArgAlloca).1.type = v.type.getPointerTo := by
    rw [h1, hv]; rfl
  simp only [if_true, marshalByVal, hn1, hn2, hn3, Bool.false_eq_true, if_false, slotFor,
    build, emit, IRBuilder.CreateBitCast, IRBuilder.CreateCast, hcast]

theorem overwrite_all (cs X : List MemVal) (hcs : cs.length = 32) (hX : X.length = 32) :
    cs.take 0 ++ X ++ cs.drop (0 + X.length) = X := by
  rw [hX, List.take_zero, List.nil_append, List.drop_of_length_le (by omega), List.append_nil]

theorem read_all (X : List MemVal) (hX : X.length = 32) : (X.drop 0).take 32 = X := by
  rw [List.drop_zero, List.take_of_length_le (by omega)]

/-- Running the call of the query entry point with a word operand `v` of value `x`: the operand
is stored into the second slot, the host is asked with the key and `x`, and the word `w` it
writes is what the load of the first slot yields. -/
theorem query_value_run (e : Ext) (M : Machine) (key : Nat) (v : Value) (x w : Nat)
    (hv : v.type = Ty.Word) (hx : x < 2 ^ 256) (hkey : key < 2 ^ 32)
    (hev : ∀ M1 : Machine, M1.args = M.args → M1.regs = M.regs →
      evalValue M1 v = some (.int x))
    (hwf : e.WF) (hl : M.Live e)
    (hw : M.host.query key (.int x) = .int w) (hw256 : w < 2 ^ 256) :
    ∃ (l : List Emit) (M1 : Machine) (lid : Nat) (slot : Value) (r o : Ptr) (mem : Mem),
      (e.createCABICall queryFunc
        [RuntimeManager.getEnvPtr, IRBuilder.getInt32 key, v] true).2.m_builder.log =
          e.m_builder.log ++ l ∧
      (e.createCABICall queryFunc
        [RuntimeManager.getEnvPtr, IRBuilder.getInt32 key, v] true).1 = .load lid slot ∧
      slot.type = Ty.WordPtr ∧
      run (l.map Emit.instr) M = some M1 ∧
      M1.regs lid = some (.int w) ∧ M1.args = M.args ∧ M1.host = M.host ∧
      M1.trace = M.trace ++
        [.write o 32, .call "evm.query" [.ptr r, M.args "env", .int key, .ptr o] mem,
         .read r 32] ∧
      (match mem o.block with
        | some cs => decode Ty.Word ((cs.drop o.off).take 32) = .int x
        | none => False) := by
  obtain ⟨id0, nm0, l0, Ma, ha0, hlog0, hpt0, hrun0, hwf1, hl1, ⟨cs0, hcs0, hlen0⟩, hfr0, harg0,
    hreg0, htr0, hho0, _⟩ := acquire_run e M hwf hl
  obtain ⟨id1, nm1, l1, Mb, ha1, hlog1, hpt1, hrun1, hwf2, hl2, ⟨cs1, hcs1, hlen1⟩, hfr1, harg1,
    hreg1, htr1, hho1, _⟩ := acquire_run (e.getArgAlloca).2 Ma hwf1 hl1
  have hne : id0 ≠ id1 := by
    intro heq
    have hp0 : ((e.getArgAlloca).2.getArgAlloca).2.m_argAllocas e.m_argCounter =
        some (.alloca id0 Ty.Word 1 nm0) := by
      rw [← ha0]; exact getArgAlloca_retains _ _ _ (getArgAlloca_at_cursor e)
    have hp1 : ((e.getArgAlloca).2.getArgAlloca).2.m_argAllocas (e.m_argCounter + 1) =
        some (.alloca id1 Ty.Word 1 nm1) := by
      rw [← ha1, ← getArgAlloca_argCounter e]; exact getArgAlloca_at_cursor _
    rw [heq] at hp0
    have := hwf2.distinct _ _ _ _ _ hp0 hp1
    omega
  have hcs0b : Mb.mem (.stack id0) = some cs0 := by
    rw [hfr1 _ (by simpa using hne)]; exact hcs0
  rw [cabi_query_value e key v hv hwf id1 nm1 ha1, ha0, ha1]
  -- the three instructions after the acquisitions
  obtain ⟨n, hn⟩ : ∃ n, n = ((e.getArgAlloca).2.getArgAlloca).2.m_builder.nextId := ⟨_, rfl⟩
  obtain ⟨pt, hpt⟩ : ∃ pt, pt = ((e.getArgAlloca).2.getArgAlloca).2.m_builder.insertPt :=
    ⟨_, rfl⟩
  have hevb : evalValue Mb v = some (.int x) :=
    hev Mb (by rw [harg1, harg0]) (by rw [hreg1, hreg0])
  have henc : (encode v.type (.int x)).length = 32 := by rw [hv]; exact encode_word_length _
  have hst := exec_store Mb n hevb
    (show evalValue Mb (.alloca id1 Ty.Word 1 nm1) = some (.ptr ⟨.stack id1, 0⟩) by
      simp [evalValue]) hcs1 (by rw [henc, hlen1])
  rw [overwrite_all cs1 _ hlen1 henc] at hst
  obtain ⟨Mc, hMc⟩ : ∃ Mc : Machine, Mc = { Mb with
      trace := Mb.trace ++ [.write ⟨.stack id1, 0⟩ v.type.bytes]
      mem := fun b => if b = .stack id1 then some (encode v.type (.int x)) else Mb.mem b } :=
    ⟨_, rfl⟩
  rw [← hMc] at hst
  have hMc0 : Mc.mem (.stack id0) = some cs0 := by
    rw [hMc]; simpa [hne] using hcs0b
  have hMc1 : Mc.mem (.stack id1) = some (encode v.type (.int x)) := by rw [hMc]; simp
  have hMchost : Mc.host = M.host := by rw [hMc]; simp only []; rw [hho1, hho0]
  have hargsC : evalArgs Mc [.alloca id0 Ty.Word 1 nm0, RuntimeManager.getEnvPtr,
      IRBuilder.getInt32 key, .alloca id1 Ty.Word 1 nm1] =
      some [.ptr ⟨.stack id0, 0⟩, M.args "env", .int key, .ptr ⟨.stack id1, 0⟩] := by
    have : Mc.args = M.args := by rw [hMc]; simp only []; rw [harg1, harg0]
    simp [evalArgs, evalValue, RuntimeManager.getEnvPtr, IRBuilder.getInt32, this]
    omega
  have hopC : Mc.operand (.ptr ⟨.stack id1, 0⟩) = some (.int x) := by
    simp only [Machine.operand, readCells_eq Mc ⟨.stack id1, 0⟩ 32 _ hMc1 (by rw [henc]),
      Option.map_some', read_all _ henc]
    rw [hv, decode_word x hx]
  have hvc : (Machine.variantCells (Mc.host.query key (.int x))).length = 32 := by
    rw [hMchost, hw]; exact encode_word_length _
  have hcall := exec_call_query Mc (n + 1) _ ⟨.stack id0, 0⟩ _ _ _ key cs0 hargsC hopC hMc0
    (by rw [hvc, hlen0])
  rw [overwrite_all cs0 _ hlen0 hvc] at hcall
  obtain ⟨Md, hMd⟩ : ∃ Md : Machine, Md = { Mc with
      trace := Mc.trace ++ [.call "evm.query"
        [.ptr ⟨.stack id0, 0⟩, M.args "env", .int key, .ptr ⟨.stack id1, 0⟩] Mc.mem]
      mem := fun b =>
        if b = .stack id0 then some (Machine.variantCells (Mc.host.query key (.int x)))
        else Mc.mem b } := ⟨_, rfl⟩
  rw [← hMd] at hcall
  have hMd0 : Md.mem (.stack id0) = some (encode Ty.Word (.int w)) := by
    rw [hMd]
    simp only [if_true]
    rw [hMchost, hw]
    rfl
  have hld := exec_load Md (n + 2) (p := .alloca id0 Ty.Word 1 nm0) (q := ⟨.stack id0, 0⟩)
    (by simp [evalValue]) hMd0
    (by rw [encode_word_length]; simp [Value.type, Ty.pointee, Ty.Word, Ty.bytes])
  have hb32 : (Value.alloca id0 Ty.Word 1 nm0).type.pointee.bytes = 32 := by
    simp [Value.type, Ty.pointee, Ty.Word, Ty.bytes]
  rw [hb32, read_all _ (encode_word_length _)] at hld
  have hdw : decode (Value.alloca id0 Ty.Word 1 nm0).type.pointee (encode Ty.Word (.int w)) =
      .int w := decode_word w hw256
  rw [hdw] at hld
  obtain ⟨Me, hMe⟩ : ∃ Me : Machine, Me = { Md with
      trace := Md.trace ++ [.read ⟨.stack id0, 0⟩ 32]
      regs := fun r => if r = n + 2 then some (.int w) else Md.regs r } := ⟨_, rfl⟩
  rw [← hMe] at hld
  refine ⟨l0 ++ l1 ++ [⟨pt, .store n v (.alloca id1 Ty.Word 1 nm1)⟩,
      ⟨pt, .call (n + 1) queryFunc [.alloca id0 Ty.Word 1 nm0, RuntimeManager.getEnvPtr,
        IRBuilder.getInt32 key, .alloca id1 Ty.Word 1 nm1]⟩,
      ⟨pt, .val (.load (n + 2) (.alloca id0 Ty.Word 1 nm0))⟩], Me, n + 2,
      .alloca id0 Ty.Word 1 nm0, ⟨.stack id0, 0⟩, ⟨.stack id1, 0⟩, Mc.mem, ?_, ?_, rfl, ?_, ?_,
      ?_, ?_, ?_, ?_⟩
  · simp [build, emit, IRBuilder.CreateStore, IRBuilder.CreateCall, IRBuilder.CreateLoad,
      IRBuilder.InsertV, IRBuilder.Insert, hlog1, hlog0, ← hn, ← hpt]
  · simp [build, emit, IRBuilder.CreateStore, IRBuilder.CreateCall, IRBuilder.CreateLoad,
      IRBuilder.InsertV, IRBuilder.Insert, ← hn, Nat.add_assoc]
  · rw [List.map_append, List.map_append, List.append_assoc,
      run_append_of _ _ M Ma hrun0, run_append_of _ _ Ma Mb hrun1]
    simp only [List.map_cons, List.map_nil, run, hst, hcall, hld]
  · rw [hMe]; simp
  · rw [hMe, hMd, hMc]; simp only []; rw [harg1, harg0]
  · rw [hMe, hMd, hMc]; simp only []; rw [hho1, hho0]
  · rw [hMe, hMd, hMc]; simp only []; rw [htr1, htr0, hv]
    simp [Ty.Word, Ty.bytes]
  · simp only [hMc1]
    rw [read_all _ henc, hv, decode_word x hx]

theorem cabi_query_undef (e : Ext) (key : Nat) (hwf : e.WF) :
    e.createCABICall queryFunc
        [RuntimeManager.getEnvPtr, IRBuilder.getInt32 key, Value.undef Ty.WordPtr] true =
      (Ext.build { (e.getArgAlloca).2 with m_argCounter := 0 }
          (·.CreateCall queryFunc [(e.getArgAlloca).1, RuntimeManager.getEnvPtr,
            IRBuilder.getInt32 key, Value.undef Ty.WordPtr])).2.build
        (·.CreateLoad (e.getArgAlloca).1) := by
  rw [createCABICall_sret e queryFunc
    [RuntimeManager.getEnvPtr, IRBuilder.getInt32 key, Value.undef Ty.WordPtr] true
    queryFunc_sret hwf.poolOfSlots (show 3 + 1 = queryFunc.params.length by decide)]
  have hn1 : needsSlot queryFunc 1 RuntimeManager.getEnvPtr = false := by
    simp [needsSlot, queryFunc_byVal1]
  have hn2 : needsSlot queryFunc 2 (IRBuilder.getInt32 key) = false := by
    simp [needsSlot, queryFunc_byVal2]
  have hn3 : needsSlot queryFunc 3 (Value.undef Ty.WordPtr) = false := by
    simp [needsSlot, Value.type, Ty.WordPtr, Ty.isPointerTy]
  simp only [if_true, marshalByVal, hn1, hn2, hn3, Bool.false_eq_true, if_false]

/-- Running the call of the query entry point without operand: the host is asked with the key,
and the word `w` it writes is what the load of the slot yields. -/
theorem query_undef_run (e : Ext) (M : Machine) (key : Nat) (w : Nat) (hkey : key < 2 ^ 32)
    (hwf : e.WF) (hl : M.Live e)
    (hw : M.host.query key .undef = .int w) (hw256 : w < 2 ^ 256) :
    ∃ (l : List Emit) (M1 : Machine) (lid : Nat) (slot : Value) (r : Ptr) (mem : Mem),
      (e.createCABICall queryFunc [RuntimeManager.getEnvPtr, IRBuilder.getInt32 key,
        Value.undef Ty.WordPtr] true).2.m_builder.log = e.m_builder.log ++ l ∧
      (e.createCABICall queryFunc [RuntimeManager.getEnvPtr, IRBuilder.getInt32 key,
        Value.undef Ty.WordPtr] true).2.m_builder.insertPt = e.m_builder.insertPt ∧
      (e.createCABICall queryFunc [RuntimeManager.getEnvPtr, IRBuilder.getInt32 key,
        Value.undef Ty.WordPtr] true).1 = .load lid slot ∧
      slot.type = Ty.WordPtr ∧
      run (l.map Emit.instr) M = some M1 ∧
      M1.regs lid = some (.int w) ∧ M1.args = M.args ∧ M1.host = M.host ∧
      M1.trace = M.trace ++
        [.call "evm.query" [.ptr r, M.args "env", .int key, .undef] mem, .read r 32] := by
  obtain ⟨id0, nm0, l0, Ma, ha0, hlog0, hpt0, hrun0, hwf1, hl1, ⟨cs0, hcs0, hlen0⟩, hfr0, harg0,
    hreg0, htr0, hho0, _⟩ := acquire_run e M hwf hl
  rw [cabi_query_undef e key hwf, ha0]
  obtain ⟨n, hn⟩ : ∃ n, n = (e.getArgAlloca).2.m_builder.nextId := ⟨_, rfl⟩
  obtain ⟨pt, hpt⟩ : ∃ pt, pt = (e.getArgAlloca).2.m_builder.insertPt := ⟨_, rfl⟩
  have hargsC : evalArgs Ma [.alloca id0 Ty.Word 1 nm0, RuntimeManager.getEnvPtr,
      IRBuilder.getInt32 key, Value.undef Ty.WordPtr] =
      some [.ptr ⟨.stack id0, 0⟩, M.args "env", .int key, .undef] := by
    simp [evalArgs, evalValue, RuntimeManager.getEnvPtr, IRBuilder.getInt32, harg0]
    omega
  have hvc : (Machine.variantCells (Ma.host.query key .undef)).length = 32 := by
    rw [hho0, hw]; exact encode_word_length _
  have hcall := exec_call_query Ma n _ ⟨.stack id0, 0⟩ _ _ _ key cs0 hargsC
    (show Ma.operand .undef = some .undef from rfl) hcs0 (by rw [hvc, hlen0])
  rw [overwrite_all cs0 _ hlen0 hvc] at hcall
  obtain ⟨Md, hMd⟩ : ∃ Md : Machine, Md = { Ma with
      trace := Ma.trace ++ [.call "evm.query"
        [.ptr ⟨.stack id0, 0⟩, M.args "env", .int key, .undef] Ma.mem]
      mem := fun b =>
        if b = .stack id0 then some (Machine.variantCells (Ma.host.query key .undef))
        else Ma.mem b } := ⟨_, rfl⟩
  rw [← hMd] at hcall
  have hMd0 : Md.mem (.stack id0) = some (encode Ty.Word (.int w)) := by
    rw [hMd]
    simp only [if_true]
    rw [hho0, hw]
    rfl
  have hld := exec_load Md (n + 1) (p := .alloca id0 Ty.Word 1 nm0) (q := ⟨.stack id0, 0⟩)
    (by simp [evalValue]) hMd0
    (by rw [encode_word_length]; simp [Value.type, Ty.pointee, Ty.Word, Ty.bytes])
  have hb32 : (Value.alloca id0 Ty.Word 1 nm0).type.pointee.bytes = 32 := by
    simp [Value.type, Ty.pointee, Ty.Word, Ty.bytes]
  rw [hb32, read_all _ (encode_word_length _)] at hld
  have hdw : decode (Value.alloca id0 Ty.Word 1 nm0).type.pointee (encode Ty.Word (.int w)) =
      .int w := decode_word w hw256
  rw [hdw] at hld
  obtain ⟨Me, hMe⟩ : ∃ Me : Machine, Me = { Md with
      trace := Md.trace ++ [.read ⟨.stack id0, 0⟩ 32]
      regs := fun r => if r = n + 1 then some (.int w) else Md.regs r } := ⟨_, rfl⟩
  rw [← hMe] at hld
  refine ⟨l0 ++ [⟨pt, .call n queryFunc [.alloca id0 Ty.Word 1 nm0, RuntimeManager.getEnvPtr,
        IRBuilder.getInt32 key, Value.undef Ty.WordPtr]⟩,
      ⟨pt, .val (.load (n + 1) (.alloca id0 Ty.Word 1 nm0))⟩], Me, n + 1,
      .alloca id0 Ty.Word 1 nm0, ⟨.stack id0, 0⟩, Ma.mem, ?_, ?_, ?_, rfl, ?_, ?_, ?_, ?_, ?_⟩
  · simp [build, IRBuilder.CreateCall, IRBuilder.CreateLoad,
      IRBuilder.InsertV, IRBuilder.Insert, hlog0, ← hn, ← hpt]
  · simp [build, IRBuilder.CreateCall, IRBuilder.CreateLoad,
      IRBuilder.InsertV, IRBuilder.Insert, hpt0]
  · simp [build, IRBuilder.CreateCall, IRBuilder.CreateLoad,
      IRBuilder.InsertV, IRBuilder.Insert, ← hn]
  · rw [List.map_append, run_append_of _ _ M Ma hrun0]
    simp only [List.map_cons, List.map_nil, run, hcall, hld]
  · rw [hMe]; simp
  · rw [hMe, hMd]; simp only []; rw [harg0]
  · rw [hMe, hMd]; simp only []; rw [hho0]
  · rw [hMe, hMd]; simp only []; rw [htr0]
    simp

theorem resolve_query_wf (e : Ext) (h : e.WF) : (e.resolve getQueryFunc).2.WF :=
  h.mono rfl rfl (Nat.le_refl _)

theorem resolve_query_live (e : Ext) (M : Machine) (h : M.Live e) :
    M.Live (e.resolve getQueryFunc).2 :=
  live_congr h rfl rfl

theorem evalValue_bswap_load (M : Machine) (id lid : Nat) (slot : Value) (w : Nat)
    (hs : slot.type = Ty.WordPtr) (hr : M.regs lid = some (.int w)) :
    evalValue M (.bswap id (.load lid slot)) = some (.int (byteSwap 32 w)) := by
  simp [evalValue, hr, Value.type, hs, Ty.WordPtr, Ty.pointee, Ty.Word, Ty.bytes]

theorem evalValue_and {M : Machine} {a b : Value} {x y : Nat} (id : Nat)
    (ha : evalValue M a = some (.int x)) (hb : evalValue M b = some (.int y)) :
    evalValue M (.and id a b) = some (.int (x &&& y)) := by
  simp [evalValue, ha, hb]

theorem evalValue_constInt (M : Machine) (bits v : Nat) (h : v < 2 ^ bits) :
    evalValue M (.constInt bits v) = some (.int v) := by
  simp only [evalValue, Nat.mod_eq_of_lt h]

/-- Running `query` for an address-shaped key. -/
theorem query_address_run (e : Ext) (M : Machine) (key : evm_query_key) (w : Nat)
    (hkey : key = .EVM_ADDRESS ∨ key = .EVM_CALLER ∨ key = .EVM_ORIGIN ∨ key = .EVM_COINBASE)
    (hwf : e.WF) (hd : e.DeclsOK) (hl : M.Live e)
    (hw : M.host.query key.code .undef = .int w) (hw256 : w < 2 ^ 256) :
    ∃ M1, run (emitted e.m_builder (e.query key).2.m_builder) M = some M1 ∧
      evalValue M1 (e.query key).1 = some (.int (byteSwap 32 w &&& (2 ^ 160 - 1))) := by
  have hk32 : key.code < 2 ^ 32 := by
    rcases hkey with h | h | h | h <;> subst h <;> simp [evm_query_key.code]
  obtain ⟨l, M1, lid, slot, r, mem, hlog, hpt, hval, hst, hrun, hreg, _, _, _⟩ :=
    query_undef_run (e.resolve getQueryFunc).2 M key.code w hk32 (resolve_query_wf e hwf)
      (resolve_query_live e M hl) hw hw256
  have hq : e.query key = ( ((e.resolve getQueryFunc).2.createCABICall queryFunc
      [RuntimeManager.getEnvPtr, IRBuilder.getInt32 key.code, Value.undef Ty.WordPtr]
      true).2.build (Endianness.toNative ·
        ((e.resolve getQueryFunc).2.createCABICall queryFunc
      [RuntimeManager.getEnvPtr, IRBuilder.getInt32 key.code, Value.undef Ty.WordPtr]
      true).1)).2.build (·.CreateAnd (((e.resolve getQueryFunc).2.createCABICall queryFunc
      [RuntimeManager.getEnvPtr, IRBuilder.getInt32 key.code, Value.undef Ty.WordPtr]
      true).2.build (Endianness.toNative ·
        ((e.resolve getQueryFunc).2.createCABICall queryFunc
      [RuntimeManager.getEnvPtr, IRBuilder.getInt32 key.code, Value.undef Ty.WordPtr]
      true).1)).1 (Value.constInt 256 (2 ^ 160 - 1))) := by
    rcases hkey with h | h | h | h <;> subst h <;>
      simp only [query, resolve_query e hd, derefDefault]
  rw [hq]
  generalize (e.resolve getQueryFunc).2.createCABICall queryFunc
      [RuntimeManager.getEnvPtr, IRBuilder.getInt32 key.code, Value.undef Ty.WordPtr]
      true = c at hlog hpt hval
  obtain ⟨n, hn⟩ : ∃ n, n = c.2.m_builder.nextId := ⟨_, rfl⟩
  obtain ⟨pt, hptd⟩ : ∃ pt, pt = c.2.m_builder.insertPt := ⟨_, rfl⟩
  have hlogf : ((c.2.build (Endianness.toNative · c.1)).2.build
      (·.CreateAnd (c.2.build (Endianness.toNative · c.1)).1
        (Value.constInt 256 (2 ^ 160 - 1)))).2.m_builder.log = e.m_builder.log ++ (l ++
      [⟨pt, .val (.bswap n (.load lid slot))⟩,
       ⟨pt, .val (.and (n + 1) (.bswap n (.load lid slot))
        (Value.constInt 256 (2 ^ 160 - 1)))⟩]) := by
    simp only [build, Endianness.toNative, IRBuilder.CreateAnd, IRBuilder.InsertV,
      IRBuilder.Insert, hlog, hval, ← hn, ← hptd]
    simp [resolve]
  have hvalf : ((c.2.build (Endianness.toNative · c.1)).2.build
      (·.CreateAnd (c.2.build (Endianness.toNative · c.1)).1
        (Value.constInt 256 (2 ^ 160 - 1)))).1 =
      .and (n + 1) (.bswap n (.load lid slot)) (Value.constInt 256 (2 ^ 160 - 1)) := by
    simp only [build, Endianness.toNative, IRBuilder.CreateAnd, IRBuilder.InsertV,
      IRBuilder.Insert, hval, ← hn]
  have hbs := evalValue_bswap_load M1 n lid slot w hst hreg
  have hand : evalValue M1 (.and (n + 1) (.bswap n (.load lid slot))
      (Value.constInt 256 (2 ^ 160 - 1))) = some (.int (byteSwap 32 w &&& (2 ^ 160 - 1))) := by
    exact evalValue_and (n + 1) hbs (evalValue_constInt M1 256 _ (by norm_num))
  have x1 := execInstr_val_of_eval M1 _ _ hbs (by simp) (by simp)
  have x2 := execInstr_val_of_eval M1 _ _ hand (by simp) (by simp)
  refine ⟨M1, ?_, ?_⟩
  · rw [emitted_of_log _ _ _ hlogf, List.map_append, run_append_of _ _ M M1 hrun]
    simp only [List.map_cons, List.map_nil, run, x1, x2]
  · rw [hvalf, hand]

/-- C6. For an address-shaped key and every word `w` that the query entry point writes into
the result slot, the code that `query` emits runs and the value `query` returns is `w`
converted to native order (byte-reversed) and masked with `2 ^ 160 - 1`; so it is below
`2 ^ 160`, all bits from 160 on being zero, whatever `w` is. -/
theorem query_address_masked (e : Ext) (M : Machine) (key : evm_query_key) (w : Nat)
    (hkey : key = .EVM_ADDRESS ∨ key = .EVM_CALLER ∨ key = .EVM_ORIGIN ∨ key = .EVM_COINBASE)
    (hwf : e.WF) (hd : e.DeclsOK) (hl : M.Live e)
    (hw : M.host.query key.code .undef = .int w) (hw256 : w < 2 ^ 256) :
    ∃ M1, run (emitted e.m_builder (e.query key).2.m_builder) M = some M1 ∧
      evalValue M1 (e.query key).1 = some (.int (byteSwap 32 w &&& (2 ^ 160 - 1))) ∧
      byteSwap 32 w &&& (2 ^ 160 - 1) < 2 ^ 160 ∧
      ∀ j, 160 ≤ j → (byteSwap 32 w &&& (2 ^ 160 - 1)).testBit j = false := by
  obtain ⟨M1, hrun, hval⟩ := query_address_run e M key w hkey hwf hd hl hw hw256
  refine ⟨M1, hrun, hval, Nat.and_lt_two_pow _ (by norm_num), ?_⟩
  intro j hj
  rw [Nat.testBit_and, Nat.testBit_two_pow_sub_one]
  simp
  omega

/-- C6, at an instance: on the fresh object, with a host that answers with the all-ones word,
the caller query runs and yields `2 ^ 160 - 1`. -/
theorem query_address_masked_witness :
    fresh.WF ∧ fresh.DeclsOK ∧
    (Machine.entry (Host.const (2 ^ 256 - 1)) [] (fun _ => .undef)).Live fresh ∧
    ∃ M1, run (emitted fresh.m_builder (fresh.query .EVM_CALLER).2.m_builder)
        (Machine.entry (Host.const (2 ^ 256 - 1)) [] (fun _ => .undef)) = some M1 ∧
      evalValue M1 (fresh.query .EVM_CALLER).1 =
        some (.int (byteSwap 32 (2 ^ 256 - 1) &&& (2 ^ 160 - 1))) := by
  refine ⟨fresh_wf, fresh_declsOK, entry_live _ _ _, ?_⟩
  obtain ⟨M1, h1, h2, _⟩ := query_address_masked fresh
    (Machine.entry (Host.const (2 ^ 256 - 1)) [] (fun _ => .undef)) .EVM_CALLER (2 ^ 256 - 1)
    (Or.inr (Or.inl rfl)) fresh_wf fresh_declsOK (entry_live _ _ _) rfl (by norm_num)
  exact ⟨M1, h1, h2⟩

/-- Running `query` for a numeric key. -/
theorem query_numeric_run (e : Ext) (M : Machine) (key : evm_query_key) (w : Nat)
    (hkey : key = .EVM_GAS_LIMIT ∨ key = .EVM_NUMBER ∨ key = .EVM_TIMESTAMP)
    (hwf : e.WF) (hd : e.DeclsOK) (hl : M.Live e)
    (hw : M.host.query key.code .undef = .int w) (hw256 : w < 2 ^ 256) :
    ∃ M1, run (emitted e.m_builder (e.query key).2.m_builder) M = some M1 ∧
      evalValue M1 (e.query key).1 = some (.int (w &&& (2 ^ 64 - 1))) := by
  have hk32 : key.code < 2 ^ 32 := by
    rcases hkey with h | h | h <;> subst h <;> simp [evm_query_key.code]
  obtain ⟨l, M1, lid, slot, r, mem, hlog, hpt, hval, hst, hrun, hreg, _, _, _⟩ :=
    query_undef_run (e.resolve getQueryFunc).2 M key.code w hk32 (resolve_query_wf e hwf)
      (resolve_query_live e M hl) hw hw256
  have hq : e.query key = ((e.resolve getQueryFunc).2.createCABICall queryFunc
      [RuntimeManager.getEnvPtr, IRBuilder.getInt32 key.code, Value.undef Ty.WordPtr]
      true).2.build (·.CreateAnd ((e.resolve getQueryFunc).2.createCABICall queryFunc
      [RuntimeManager.getEnvPtr, IRBuilder.getInt32 key.code, Value.undef Ty.WordPtr]
      true).1 (Value.constInt 256 (2 ^ 64 - 1))) := by
    rcases hkey with h | h | h <;> subst h <;>
      simp only [query, resolve_query e hd, derefDefault]
  rw [hq]
  generalize (e.resolve getQueryFunc).2.createCABICall queryFunc
      [RuntimeManager.getEnvPtr, IRBuilder.getInt32 key.code, Value.undef Ty.WordPtr]
      true = c at hlog hpt hval
  obtain ⟨n, hn⟩ : ∃ n, n = c.2.m_builder.nextId := ⟨_, rfl⟩
  obtain ⟨pt, hptd⟩ : ∃ pt, pt = c.2.m_builder.insertPt := ⟨_, rfl⟩
  have hlogf : (c.2.build (·.CreateAnd c.1 (Value.constInt 256 (2 ^ 64 - 1)))).2.m_builder.log =
      e.m_builder.log ++ (l ++
      [⟨pt, .val (.and n (.load lid slot) (Value.constInt 256 (2 ^ 64 - 1)))⟩]) := by
    simp only [build, IRBuilder.CreateAnd, IRBuilder.InsertV, IRBuilder.Insert, hlog, hval,
      ← hn, ← hptd]
    simp [resolve]
  have hvalf : (c.2.build (·.CreateAnd c.1 (Value.constInt 256 (2 ^ 64 - 1)))).1 =
      .and n (.load lid slot) (Value.constInt 256 (2 ^ 64 - 1)) := by
    simp only [build, IRBuilder.CreateAnd, IRBuilder.InsertV, IRBuilder.Insert, hval, ← hn]
  have hand : evalValue M1 (.and n (.load lid slot) (Value.constInt 256 (2 ^ 64 - 1))) =
      some (.int (w &&& (2 ^ 64 - 1))) :=
    evalValue_and n (show evalValue M1 (.load lid slot) = some (.int w) from hreg)
      (evalValue_constInt M1 256 _ (by norm_num))
  have x2 := execInstr_val_of_eval M1 _ _ hand (by simp) (by simp)
  refine ⟨M1, ?_, ?_⟩
  · rw [emitted_of_log _ _ _ hlogf, List.map_append, run_append_of _ _ M M1 hrun]
    simp only [List.map_cons, List.map_nil, run, x2]
  · rw [hvalf, hand]

/-- C7. For a numeric key and every word `w` that the query entry point writes into the result
slot, the code that `query` emits runs and the value `query` returns is `w` masked with
`2 ^ 64 - 1`: it is `w mod 2 ^ 64`, below `2 ^ 64`, and has the bits 0 to 63 of `w`. -/
theorem query_numeric_masked (e : Ext) (M : Machine) (key : evm_query_key) (w : Nat)
    (hkey : key = .EVM_GAS_LIMIT ∨ key = .EVM_NUMBER ∨ key = .EVM_TIMESTAMP)
    (hwf : e.WF) (hd : e.DeclsOK) (hl : M.Live e)
    (hw : M.host.query key.code .undef = .int w) (hw256 : w < 2 ^ 256) :
    ∃ M1, run (emitted e.m_builder (e.query key).2.m_builder) M = some M1 ∧
      evalValue M1 (e.query key).1 = some (.int (w &&& (2 ^ 64 - 1))) ∧
      w &&& (2 ^ 64 - 1) = w % 2 ^ 64 ∧
      w &&& (2 ^ 64 - 1) < 2 ^ 64 ∧
      ∀ j, j < 64 → (w &&& (2 ^ 64 - 1)).testBit j = w.testBit j := by
  obtain ⟨M1, hrun, hval⟩ := query_numeric_run e M key w hkey hwf hd hl hw hw256
  refine ⟨M1, hrun, hval, Nat.and_pow_two_sub_one_eq_mod w 64,
    Nat.and_lt_two_pow _ (by norm_num), ?_⟩
  intro j hj
  rw [Nat.testBit_and, Nat.testBit_two_pow_sub_one]
  simp [hj]

/-- C7, at an instance: on the fresh object, with a host that answers with `2 ^ 64 + 7`, the
block number query runs and yields the masked word. -/
theorem query_numeric_masked_witness :
    fresh.WF ∧ fresh.DeclsOK ∧
    (Machine.entry (Host.const (2 ^ 64 + 7)) [] (fun _ => .undef)).Live fresh ∧
    ∃ M1, run (emitted fresh.m_builder (fresh.query .EVM_NUMBER).2.m_builder)
        (Machine.entry (Host.const (2 ^ 64 + 7)) [] (fun _ => .undef)) = some M1 ∧
      evalValue M1 (fresh.query .EVM_NUMBER).1 = some (.int ((2 ^ 64 + 7) % 2 ^ 64)) := by
  refine ⟨fresh_wf, fresh_declsOK, entry_live _ _ _, ?_⟩
  obtain ⟨M1, h1, h2, h3, _⟩ := query_numeric_masked fresh
    (Machine.entry (Host.const (2 ^ 64 + 7)) [] (fun _ => .undef)) .EVM_NUMBER (2 ^ 64 + 7)
    (Or.inr (Or.inl rfl)) fresh_wf fresh_declsOK (entry_live _ _ _) rfl (by norm_num)
  exact ⟨M1, h1, by rw [h2, h3]⟩

/-! ## Theorems: storage, balance and block hash -/

theorem toBytesLE_lt (k n : Nat) : ∀ b ∈ toBytesLE k n, b < 256 := by
  intro b hb
  unfold toBytesLE at hb
  rw [List.mem_map] at hb
  obtain ⟨i, _, rfl⟩ := hb
  exact Nat.mod_lt _ (by norm_num)

theorem ofBytesLE_lt (l : List Nat) (h : ∀ b ∈ l, b < 256) : ofBytesLE l < 256 ^ l.length := by
  induction l with
  | nil => simp [ofBytesLE]
  | cons b l ih =>
    have hb : b < 256 := h b (List.mem_cons_self _ _)
    have := ih (fun x hx => h x (List.mem_cons_of_mem _ hx))
    rw [ofBytesLE, List.length_cons, pow_succ']
    omega

theorem byteSwap_lt (n : Nat) : byteSwap 32 n < 2 ^ 256 := by
  unfold byteSwap
  have h := ofBytesLE_lt (toBytesLE 32 n).reverse
    (fun b hb => toBytesLE_lt 32 n b (List.mem_reverse.1 hb))
  have hl : (toBytesLE 32 n).reverse.length = 32 := by simp [toBytesLE]
  rw [hl] at h
  calc ofBytesLE (toBytesLE 32 n).reverse < 256 ^ 32 := h
    _ = 2 ^ 256 := by norm_num

/-- Running `sload` on an operand of value `k`: the host is asked under the storage key with
the operand `k` itself, and the word `w` it writes is the value of `sload`. -/
theorem sload_run (e : Ext) (M : Machine) (name : String) (k w : Nat)
    (hwf : e.WF) (hd : e.DeclsOK) (hl : M.Live e)
    (hk : M.args name = .int k) (hk256 : k < 2 ^ 256)
    (hw : M.host.query evm_query_key.EVM_STORAGE.code (.int k) = .int w) (hw256 : w < 2 ^ 256) :
    ∃ (M1 : Machine) (r o : Ptr) (mem : Mem),
      run (emitted e.m_builder (e.sload (.arg name Ty.Word)).2.m_builder) M = some M1 ∧
      evalValue M1 (e.sload (.arg name Ty.Word)).1 = some (.int w) ∧
      M1.trace = M.trace ++
        [.write o 32,
         .call "evm.query" [.ptr r, M.args "env", .int evm_query_key.EVM_STORAGE.code, .ptr o]
          mem,
         .read r 32] ∧
      (match mem o.block with
        | some cs => decode Ty.Word ((cs.drop o.off).take 32) = .int k
        | none => False) := by
  obtain ⟨l, M1, lid, slot, r, o, mem, hlog, hval, hst, hrun, hreg, _, _, htr, hop⟩ :=
    query_value_run (e.resolve getQueryFunc).2 M evm_query_key.EVM_STORAGE.code
      (.arg name Ty.Word) k w rfl hk256 (by simp [evm_query_key.code])
      (fun M1 ha _ => by simp [evalValue, ha, hk])
      (resolve_query_wf e hwf) (resolve_query_live e M hl) hw hw256
  have hs : e.sload (.arg name Ty.Word) = (e.resolve getQueryFunc).2.createCABICall queryFunc
      [RuntimeManager.getEnvPtr, IRBuilder.getInt32 evm_query_key.EVM_STORAGE.code,
        .arg name Ty.Word] true := by
    simp only [sload, resolve_query e hd, derefDefault]
  rw [hs]
  refine ⟨M1, r, o, mem, ?_, ?_, htr, hop⟩
  · rw [emitted_of_log _ _ l (by rw [hlog]; rfl)]
    exact hrun
  · rw [hval]
    exact hreg

/-- C8 fails as stated. On the fresh object, for the key 1 and an environment that returns the
big-endian encoding of 5 (read as a native word: the byte-reversed 5), the code of `sload` runs
and yields the byte-reversed 5, which is not the native word 5. -/
theorem sload_big_endian_counterexample :
    ∃ M1, run (emitted fresh.m_builder (fresh.sload (.arg "k" Ty.Word)).2.m_builder)
        (Machine.entry (Host.const (byteSwap 32 5)) [] (fun _ => .int 1)) = some M1 ∧
      evalValue M1 (fresh.sload (.arg "k" Ty.Word)).1 = some (.int (byteSwap 32 5)) ∧
      byteSwap 32 5 ≠ 5 := by
  obtain ⟨M1, _, _, _, h1, h2, _⟩ := sload_run fresh
    (Machine.entry (Host.const (byteSwap 32 5)) [] (fun _ => .int 1)) "k" 1 (byteSwap 32 5)
    fresh_wf fresh_declsOK (entry_live _ _ _) (by simp [Machine.entry]) (by norm_num) rfl
    (byteSwap_lt 5)
  exact ⟨M1, h1, h2, by decide⟩

/-- C8, amended. Storage read crosses the boundary without byte-order conversion: for every
storage key `k` and word `w`, when the query entry point, asked under the storage key with
operand `k`, writes `w`, the code of `sload` runs, hands `k` itself to the entry point (the
operand slot holds `k` at the call) and yields `w` as written. -/
theorem sload_yields_written_word (e : Ext) (M : Machine) (name : String) (k w : Nat)
    (hwf : e.WF) (hd : e.DeclsOK) (hl : M.Live e)
    (hk : M.args name = .int k) (hk256 : k < 2 ^ 256)
    (hw : M.host.query evm_query_key.EVM_STORAGE.code (.int k) = .int w) (hw256 : w < 2 ^ 256) :
    ∃ (M1 : Machine) (r o : Ptr) (mem : Mem),
      run (emitted e.m_builder (e.sload (.arg name Ty.Word)).2.m_builder) M = some M1 ∧
      evalValue M1 (e.sload (.arg name Ty.Word)).1 = some (.int w) ∧
      M1.trace = M.trace ++
        [.write o 32,
         .call "evm.query" [.ptr r, M.args "env", .int evm_query_key.EVM_STORAGE.code, .ptr o]
          mem,
         .read r 32] ∧
      (match mem o.block with
        | some cs => decode Ty.Word ((cs.drop o.off).take 32) = .int k
        | none => False) :=
  sload_run e M name k w hwf hd hl hk hk256 hw hw256

/-- C8 amended, at an instance: on the fresh object, key 1 and an environment that writes the
word 5 yield 5. -/
theorem sload_yields_written_word_witness :
    fresh.WF ∧ fresh.DeclsOK ∧
    (Machine.entry (Host.const 5) [] (fun _ => .int 1)).Live fresh ∧
    (Machine.entry (Host.const 5) [] (fun _ => .int 1)).args "k" = .int 1 ∧
    ∃ M1, run (emitted fresh.m_builder (fresh.sload (.arg "k" Ty.Word)).2.m_builder)
        (Machine.entry (Host.const 5) [] (fun _ => .int 1)) = some M1 ∧
      evalValue M1 (fresh.sload (.arg "k" Ty.Word)).1 = some (.int 5) := by
  refine ⟨fresh_wf, fresh_declsOK, entry_live _ _ _, by simp [Machine.entry], ?_⟩
  obtain ⟨M1, _, _, _, h1, h2, _⟩ := sload_yields_written_word fresh
    (Machine.entry (Host.const 5) [] (fun _ => .int 1)) "k" 1 5
    fresh_wf fresh_declsOK (entry_live _ _ _) (by simp [Machine.entry]) (by norm_num) rfl
    (by norm_num)
  exact ⟨M1, h1, h2⟩

/-- Running `balance` on an address of value `a`: the host is asked under the balance key with
the byte-reversed `a`, and the word `w` it writes is the value of `balance`, as written. -/
theorem balance_run (e : Ext) (M : Machine) (name : String) (a w : Nat)
    (hwf : e.WF) (hd : e.DeclsOK) (hl : M.Live e)
    (ha : M.args name = .int a)
    (hw : M.host.query evm_query_key.EVM_BALANCE.code (.int (byteSwap 32 a)) = .int w)
    (hw256 : w < 2 ^ 256) :
    ∃ (M1 : Machine) (r o : Ptr) (mem : Mem),
      run (emitted e.m_builder (e.balance (.arg name Ty.Word)).2.m_builder) M = some M1 ∧
      evalValue M1 (e.balance (.arg name Ty.Word)).1 = some (.int w) ∧
      M1.trace = M.trace ++
        [.write o 32,
         .call "evm.query" [.ptr r, M.args "env", .int evm_query_key.EVM_BALANCE.code, .ptr o]
          mem,
         .read r 32] ∧
      (match mem o.block with
        | some cs => decode Ty.Word ((cs.drop o.off).take 32) = .int (byteSwap 32 a)
        | none => False) := by
  obtain ⟨n, hn⟩ : ∃ n, n = e.m_builder.nextId := ⟨_, rfl⟩
  obtain ⟨e1, he1⟩ : ∃ e1, e1 = ((e.resolve getQueryFunc).2.build
      (Endianness.toBE · (.arg name Ty.Word))).2 := ⟨_, rfl⟩
  have hadr : ((e.resolve getQueryFunc).2.build (Endianness.toBE · (.arg name Ty.Word))).1 =
      .bswap n (.arg name Ty.Word) := by
    rw [hn]; rfl
  have hlog1 : e1.m_builder.log =
      e.m_builder.log ++ [⟨e.m_builder.insertPt, .val (.bswap n (.arg name Ty.Word))⟩] := by
    rw [he1, hn]; rfl
  have hwf1 : e1.WF := by
    rw [he1]
    exact hwf.mono rfl rfl (Nat.le_succ _)
  have hl1 : M.Live e1 := by
    rw [he1]
    exact live_congr hl rfl rfl
  have hevv : ∀ M1 : Machine, M1.args = M.args →
      evalValue M1 (.bswap n (.arg name Ty.Word)) = some (.int (byteSwap 32 a)) := by
    intro M1 h1
    simp [evalValue, h1, ha, Value.type, Ty.Word, Ty.bytes]
  obtain ⟨l, M1, lid, slot, r, o, mem, hlog, hval, hst, hrun, hreg, _, _, htr, hop⟩ :=
    query_value_run e1 M evm_query_key.EVM_BALANCE.code (.bswap n (.arg name Ty.Word))
      (byteSwap 32 a) w rfl (byteSwap_lt a) (by simp [evm_query_key.code])
      (fun M1 h1 _ => hevv M1 h1) hwf1 hl1 hw hw256
  have hs : e.balance (.arg name Ty.Word) = e1.createCABICall queryFunc
      [RuntimeManager.getEnvPtr, IRBuilder.getInt32 evm_query_key.EVM_BALANCE.code,
        .bswap n (.arg name Ty.Word)] true := by
    simp only [balance, resolve_query e hd, derefDefault, hadr, he1]
  rw [hs]
  have x1 := execInstr_val_of_eval M _ _ (hevv M rfl) (by simp) (by simp)
  refine ⟨M1, r, o, mem, ?_, ?_, htr, hop⟩
  · rw [emitted_of_log _ _ ([⟨e.m_builder.insertPt, .val (.bswap n (.arg name Ty.Word))⟩] ++ l)
      (by rw [hlog, hlog1, List.append_assoc])]
    simp only [List.map_append, List.map_cons, List.map_nil, List.singleton_append, run, x1]
    exact hrun
  · rw [hval]
    exact hreg

/-- Running `blockHash` on a number of value `k`: the host is asked under the block hash key
with `k` itself, and the value of `blockHash` is the byte-reversed word `w` it writes. -/
theorem blockHash_run (e : Ext) (M : Machine) (name : String) (k w : Nat)
    (hwf : e.WF) (hd : e.DeclsOK) (hl : M.Live e)
    (hk : M.args name = .int k) (hk256 : k < 2 ^ 256)
    (hw : M.host.query evm_query_key.EVM_BLOCKHASH.code (.int k) = .int w)
    (hw256 : w < 2 ^ 256) :
    ∃ (M1 : Machine) (r o : Ptr) (mem : Mem),
      run (emitted e.m_builder (e.blockHash (.arg name Ty.Word)).2.m_builder) M = some M1 ∧
      evalValue M1 (e.blockHash (.arg name Ty.Word)).1 = some (.int (byteSwap 32 w)) ∧
      M1.trace = M.trace ++
        [.write o 32,
         .call "evm.query"
          [.ptr r, M.args "env", .int evm_query_key.EVM_BLOCKHASH.code, .ptr o] mem,
         .read r 32] ∧
      (match mem o.block with
        | some cs => decode Ty.Word ((cs.drop o.off).take 32) = .int k
        | none => False) := by
  obtain ⟨l, M1, lid, slot, r, o, mem, hlog, hval, hst, hrun, hreg, _, _, htr, hop⟩ :=
    query_value_run (e.resolve getQueryFunc).2 M evm_query_key.EVM_BLOCKHASH.code
      (.arg name Ty.Word) k w rfl hk256 (by simp [evm_query_key.code])
      (fun M1 ha _ => by simp [evalValue, ha, hk])
      (resolve_query_wf e hwf) (resolve_query_live e M hl) hw hw256
  have hs : e.blockHash (.arg name Ty.Word) =
      ((e.resolve getQueryFunc).2.createCABICall queryFunc
        [RuntimeManager.getEnvPtr, IRBuilder.getInt32 evm_query_key.EVM_BLOCKHASH.code,
          .arg name Ty.Word] true).2.build (Endianness.toNative ·
        ((e.resolve getQueryFunc).2.createCABICall queryFunc
        [RuntimeManager.getEnvPtr, IRBuilder.getInt32 evm_query_key.EVM_BLOCKHASH.code,
          .arg name Ty.Word] true).1) := by
    simp only [blockHash, resolve_query e hd, derefDefault]
  rw [hs]
  generalize (e.resolve getQueryFunc).2.createCABICall queryFunc
      [RuntimeManager.getEnvPtr, IRBuilder.getInt32 evm_query_key.EVM_BLOCKHASH.code,
        .arg name Ty.Word] true = c at hlog hval
  obtain ⟨n, hn⟩ : ∃ n, n = c.2.m_builder.nextId := ⟨_, rfl⟩
  have hlogf : (c.2.build (Endianness.toNative · c.1)).2.m_builder.log =
      e.m_builder.log ++ (l ++ [⟨c.2.m_builder.insertPt, .val (.bswap n (.load lid slot))⟩]) := by
    simp only [build, Endianness.toNative, IRBuilder.InsertV, IRBuilder.Insert, hlog, hval,
      ← hn]
    simp [resolve]
  have hvalf : (c.2.build (Endianness.toNative · c.1)).1 = .bswap n (.load lid slot) := by
    simp only [build, Endianness.toNative, IRBuilder.InsertV, hval, ← hn]
  have hbs := evalValue_bswap_load M1 n lid slot w hst hreg
  have x1 := execInstr_val_of_eval M1 _ _ hbs (by simp) (by simp)
  refine ⟨M1, r, o, mem, ?_, ?_, htr, hop⟩
  · rw [emitted_of_log _ _ _ hlogf, List.map_append, run_append_of _ _ M M1 hrun]
    simp only [List.map_cons, List.map_nil, run, x1]
  · rw [hvalf, hbs]

/-- C9 fails as stated. On the fresh object with operand 1 and an environment that writes the
word 5: the code of `balance` runs and returns 5 as written, not the byte-reversed 5; and the
code of `blockHash` runs and hands the entry point the operand 1 itself, not the byte-reversed
1. -/
theorem balance_blockHash_counterexample :
    (∃ M1, run (emitted fresh.m_builder (fresh.balance (.arg "x" Ty.Word)).2.m_builder)
        (Machine.entry (Host.const 5) [] (fun _ => .int 1)) = some M1 ∧
      evalValue M1 (fresh.balance (.arg "x" Ty.Word)).1 = some (.int 5) ∧
      5 ≠ byteSwap 32 5) ∧
    (∃ (M1 : Machine) (r o : Ptr) (mem : Mem),
      run (emitted fresh.m_builder (fresh.blockHash (.arg "x" Ty.Word)).2.m_builder)
        (Machine.entry (Host.const 5) [] (fun _ => .int 1)) = some M1 ∧
      M1.trace = [.write o 32,
         .call "evm.query"
          [.ptr r, .int 1, .int evm_query_key.EVM_BLOCKHASH.code, .ptr o] mem,
         .read r 32] ∧
      (match mem o.block with
        | some cs => decode Ty.Word ((cs.drop o.off).take 32) = .int 1
        | none => False) ∧
      1 ≠ byteSwap 32 1) := by
  constructor
  · obtain ⟨M1, _, _, _, h1, h2, _⟩ := balance_run fresh
      (Machine.entry (Host.const 5) [] (fun _ => .int 1)) "x" 1 5
      fresh_wf fresh_declsOK (entry_live _ _ _) (by simp [Machine.entry]) rfl (by norm_num)
    exact ⟨M1, h1, h2, by decide⟩
  · obtain ⟨M1, r, o, mem, h1, _, h3, h4⟩ := blockHash_run fresh
      (Machine.entry (Host.const 5) [] (fun _ => .int 1)) "x" 1 5
      fresh_wf fresh_declsOK (entry_live _ _ _) (by simp [Machine.entry]) (by norm_num) rfl
      (by norm_num)
    exact ⟨M1, r, o, mem, h1, by simpa [Machine.entry] using h3, h4, by decide⟩

/-- C9, amended. For every operand word `x`: the code of `balance` hands the query entry point
the operand converted to environment order (the byte-reversed `x`) and returns the word `r1`
the entry point writes, as written; the code of `blockHash` hands the entry point the operand
`x` itself and returns the word `r2` the entry point writes converted to native order
(byte-reversed). -/
theorem balance_blockHash_conversions (e : Ext) (M : Machine) (name : String) (x r1 r2 : Nat)
    (hwf : e.WF) (hd : e.DeclsOK) (hl : M.Live e)
    (hx : M.args name = .int x) (hx256 : x < 2 ^ 256)
    (hb : M.host.query evm_query_key.EVM_BALANCE.code (.int (byteSwap 32 x)) = .int r1)
    (hr1 : r1 < 2 ^ 256)
    (hh : M.host.query evm_query_key.EVM_BLOCKHASH.code (.int x) = .int r2)
    (hr2 : r2 < 2 ^ 256) :
    (∃ (M1 : Machine) (r o : Ptr) (mem : Mem),
      run (emitted e.m_builder (e.balance (.arg name Ty.Word)).2.m_builder) M = some M1 ∧
      evalValue M1 (e.balance (.arg name Ty.Word)).1 = some (.int r1) ∧
      M1.trace = M.trace ++
        [.write o 32,
         .call "evm.query" [.ptr r, M.args "env", .int evm_query_key.EVM_BALANCE.code, .ptr o]
          mem,
         .read r 32] ∧
      (match mem o.block with
        | some cs => decode Ty.Word ((cs.drop o.off).take 32) = .int (byteSwap 32 x)
        | none => False)) ∧
    (∃ (M1 : Machine) (r o : Ptr) (mem : Mem),
      run (emitted e.m_builder (e.blockHash (.arg name Ty.Word)).2.m_builder) M = some M1 ∧
      evalValue M1 (e.blockHash (.arg name Ty.Word)).1 = some (.int (byteSwap 32 r2)) ∧
      M1.trace = M.trace ++
        [.write o 32,
         .call "evm.query"
          [.ptr r, M.args "env", .int evm_query_key.EVM_BLOCKHASH.code, .ptr o] mem,
         .read r 32] ∧
      (match mem o.block with
        | some cs => decode Ty.Word ((cs.drop o.off).take 32) = .int x
        | none => False)) :=
  ⟨balance_run e M name x r1 hwf hd hl hx hb hr1,
    blockHash_run e M name x r2 hwf hd hl hx hx256 hh hr2⟩

/-- C9 amended, at an instance: on the fresh object with operand 1 and an environment that
writes 5, `balance` returns 5 and `blockHash` returns the byte-reversed 5. -/
theorem balance_blockHash_conversions_witness :
    fresh.WF ∧ fresh.DeclsOK ∧
    (Machine.entry (Host.const 5) [] (fun _ => .int 1)).Live fresh ∧
    (Machine.entry (Host.const 5) [] (fun _ => .int 1)).args "x" = .int 1 ∧
    (∃ M1, run (emitted fresh.m_builder (fresh.balance (.arg "x" Ty.Word)).2.m_builder)
        (Machine.entry (Host.const 5) [] (fun _ => .int 1)) = some M1 ∧
      evalValue M1 (fresh.balance (.arg "x" Ty.Word)).1 = some (.int 5)) ∧
    (∃ M1, run (emitted fresh.m_builder (fresh.blockHash (.arg "x" Ty.Word)).2.m_builder)
        (Machine.entry (Host.const 5) [] (fun _ => .int 1)) = some M1 ∧
      evalValue M1 (fresh.blockHash (.arg "x" Ty.Word)).1 = some (.int (byteSwap 32 5))) := by
  have hargs : (Machine.entry (Host.const 5) [] (fun _ => .int 1)).args "x" = .int 1 := by
    simp [Machine.entry]
  refine ⟨fresh_wf, fresh_declsOK, entry_live _ _ _, hargs, ?_⟩
  obtain ⟨⟨M1, _, _, _, h1, h2, _⟩, ⟨M2, _, _, _, h3, h4, _⟩⟩ :=
    balance_blockHash_conversions fresh (Machine.entry (Host.const 5) [] (fun _ => .int 1))
      "x" 1 5 5 fresh_wf fresh_declsOK (entry_live _ _ _) hargs (by norm_num) rfl
      (by norm_num) rfl (by norm_num)
  exact ⟨⟨M1, h1, h2⟩, ⟨M2, h3, h4⟩⟩

/-! ## Theorems: the log emission -/

theorem splice_length (cs vs : List MemVal) (off : Nat) (h : off + vs.length ≤ cs.length) :
    (splice cs off vs).length = cs.length := by
  simp only [splice, List.length_append, List.length_take, List.length_drop]
  omega

theorem getElem?_splice (cs vs : List MemVal) (off j : Nat) (h : off + vs.length ≤ cs.length) :
    (splice cs off vs)[j]? =
      if j < off then cs[j]? else if j < off + vs.length then vs[j - off]? else cs[j]? := by
  have htl : (cs.take off).length = off := by simp only [List.length_take]; omega
  unfold splice
  by_cases h1 : j < off
  · simp only [h1, if_true]
    rw [List.append_assoc, List.getElem?_append_left (by omega), List.getElem?_take]
    simp [h1]
  · simp only [h1, if_false]
    rw [List.append_assoc, List.getElem?_append_right (by omega), htl]
    by_cases h2 : j < off + vs.length
    · simp only [h2, if_true]
      rw [List.getElem?_append_left (by omega)]
    · simp only [h2, if_false]
      rw [List.getElem?_append_right (by omega), List.getElem?_drop]
      congr 1
      omega

theorem getElem?_readAt (cs : List MemVal) (o n i : Nat) :
    (readAt cs o n)[i]? = if i < n then cs[o + i]? else none := by
  unfold readAt
  rw [List.getElem?_take]
  by_cases h : i < n
  · simp [h, List.getElem?_drop]
  · simp [h]

theorem readAt_splice_same (cs vs : List MemVal) (off : Nat)
    (h : off + vs.length ≤ cs.length) : readAt (splice cs off vs) off vs.length = vs := by
  apply List.ext_getElem?
  intro i
  rw [getElem?_readAt, getElem?_splice cs vs off _ h]
  by_cases hi : i < vs.length
  · have h1 : ¬ off + i < off := by omega
    have h2 : off + i < off + vs.length := by omega
    simp only [hi, h1, h2, if_true, if_false]
    congr 1
    omega
  · simp only [hi, if_false]
    rw [List.getElem?_eq_none (by omega)]

theorem readAt_splice_disjoint (cs vs : List MemVal) (off o n : Nat)
    (h : off + vs.length ≤ cs.length) (hd : o + n ≤ off ∨ off + vs.length ≤ o) :
    readAt (splice cs off vs) o n = readAt cs o n := by
  apply List.ext_getElem?
  intro i
  rw [getElem?_readAt, getElem?_readAt, getElem?_splice cs vs off _ h]
  by_cases hi : i < n
  · simp only [hi, if_true]
    rcases hd with hd | hd
    · have h1 : o + i < off := by omega
      simp only [h1, if_true]
    · have h1 : ¬ o + i < off := by omega
      have h2 : ¬ o + i < off + vs.length := by omega
      simp only [h1, h2, if_false]
  · simp only [hi, if_false]

theorem Runs.refl (b : IRBuilder) (M : Machine) : Runs b b M M :=
  ⟨[], by simp, rfl⟩

theorem Runs.trans {b b1 b2 : IRBuilder} {M M1 M2 : Machine} (h1 : Runs b b1 M M1)
    (h2 : Runs b1 b2 M1 M2) : Runs b b2 M M2 := by
  obtain ⟨l1, hl1, hr1⟩ := h1
  obtain ⟨l2, hl2, hr2⟩ := h2
  refine ⟨l1 ++ l2, by rw [hl2, hl1, List.append_assoc], ?_⟩
  rw [List.map_append, run_append_of _ _ M M1 hr1]
  exact hr2

theorem Runs.run_emitted {b b1 : IRBuilder} {M M1 : Machine} (h : Runs b b1 M M1) :
    run (emitted b b1) M = some M1 := by
  obtain ⟨l, hl, hr⟩ := h
  rw [emitted_of_log b b1 l hl]
  exact hr

theorem runs_insertV (b : IRBuilder) (mk : Nat → Value) (M : Machine) (r : RVal)
    (h : evalValue M (mk b.nextId) = some r)
    (hna : ∀ id ty c nm, mk b.nextId ≠ .alloca id ty c nm)
    (hnl : ∀ id p, mk b.nextId ≠ .load id p) : Runs b (b.InsertV mk).2 M M := by
  refine ⟨[⟨b.insertPt, .val (mk b.nextId)⟩], rfl, ?_⟩
  simp only [List.map_cons, List.map_nil, run, execInstr_val_of_eval M _ r h hna hnl]

theorem runs_cast (b : IRBuilder) (mk : Nat → Value) (v : Value) (ty : Ty) (M : Machine)
    (r : RVal) (h : evalValue M (mk b.nextId) = some r)
    (hna : ∀ id ty c nm, mk b.nextId ≠ .alloca id ty c nm)
    (hnl : ∀ id p, mk b.nextId ≠ .load id p) : Runs b (b.CreateCast mk v ty).2 M M := by
  unfold IRBuilder.CreateCast
  split_ifs
  · exact Runs.refl b M
  · exact runs_insertV b mk M r h hna hnl

theorem runs_store (b : IRBuilder) (M : Machine) {v p : Value} {x : RVal} {q : Ptr}
    {cs : List MemVal} (hv : evalValue M v = some x) (hp : evalValue M p = some (.ptr q))
    (hm : M.mem q.block = some cs) (hb : q.off + (encode v.type x).length ≤ cs.length) :
    Runs b (b.CreateStore v p) M { M with
      trace := M.trace ++ [.write q v.type.bytes]
      mem := fun blk =>
        if blk = q.block then some (splice cs q.off (encode v.type x)) else M.mem blk } := by
  refine ⟨[⟨b.insertPt, .store b.nextId v p⟩], rfl, ?_⟩
  simp only [List.map_cons, List.map_nil, run, exec_store M b.nextId hv hp hm hb]
  rfl

/-- Obtaining the topics buffer and running the code this inserts. -/
theorem topicsBuffer_run (e : Ext) (M : Machine) (hwf : e.WF) (hl : M.Live e) :
    ∃ (idt : Nat) (M1 : Machine),
      (e.topicsBuffer).1 = .alloca idt Ty.Word 4 "topics" ∧
      Runs e.m_builder (e.topicsBuffer).2.m_builder M M1 ∧
      (e.topicsBuffer).2.WF ∧ M1.Live (e.topicsBuffer).2 ∧
      (e.topicsBuffer).2.m_topics = some (.alloca idt Ty.Word 4 "topics") ∧
      (e.topicsBuffer).2.m_argAllocas = e.m_argAllocas ∧
      (e.topicsBuffer).2.m_module = e.m_module ∧
      (∃ cs, M1.mem (.stack idt) = some cs ∧ cs.length = 128) ∧
      (∀ b, b ≠ Block.stack idt → M1.mem b = M.mem b) ∧
      M1.args = M.args ∧ M1.regs = M.regs ∧ M1.trace = M.trace ∧ M1.host = M.host ∧
      M1.basePointer = M.basePointer := by
  cases ht : e.m_topics with
  | some t =>
    obtain ⟨idt, hte, hid, hne⟩ := hwf.topics t ht
    subst hte
    have h1 : e.topicsBuffer = (.alloca idt Ty.Word 4 "topics", e) := by
      unfold topicsBuffer; rw [ht]
    rw [h1]
    exact ⟨idt, M, rfl, Runs.refl _ _, hwf, hl, ht, rfl, rfl, hl.topics idt ht,
      fun _ _ => rfl, rfl, rfl, rfl, rfl, rfl⟩
  | none =>
    have h1 : e.topicsBuffer = (.alloca e.m_builder.nextId Ty.Word 4 "topics",
        { e with
          m_builder := ⟨e.m_builder.log ++ [⟨⟨0, e.m_builder.entryBegin⟩,
            .val (.alloca e.m_builder.nextId Ty.Word 4 "topics")⟩],
            e.m_builder.insertPt, e.m_builder.nextId + 1⟩
          m_topics := some (.alloca e.m_builder.nextId Ty.Word 4 "topics") }) := by
      unfold topicsBuffer; rw [ht]; rfl
    rw [h1]
    obtain ⟨M1, hM1⟩ : ∃ M1 : Machine, M1 = { M with
        mem := fun b =>
          if b = .stack e.m_builder.nextId then
            some (List.replicate (4 * Ty.Word.bytes) MemVal.undef)
          else M.mem b } := ⟨_, rfl⟩
    refine ⟨e.m_builder.nextId, M1, rfl, ⟨_, rfl, ?_⟩, ?_, ?_, rfl, rfl, rfl,
      ⟨List.replicate (4 * Ty.Word.bytes) MemVal.undef, by rw [hM1]; simp,
        by simp [Ty.Word, Ty.bytes]⟩, ?_, by rw [hM1], by rw [hM1], by rw [hM1], by rw [hM1],
      by rw [hM1]⟩
    · simp only [List.map_cons, List.map_nil, run, execInstr]
      rw [hM1]
    · refine ⟨?_, hwf.distinct, ?_⟩
      · intro i a hi
        obtain ⟨id, nm, ha, hid⟩ := hwf.slots i a hi
        exact ⟨id, nm, ha, Nat.lt_succ_of_lt hid⟩
      · intro t htt
        simp only [Option.some.injEq] at htt
        refine ⟨e.m_builder.nextId, htt.symm, Nat.lt_succ_self _, ?_⟩
        intro i nm hi
        obtain ⟨id, nm2, ha, hid⟩ := hwf.slots i _ hi
        simp only [Value.alloca.injEq] at ha
        omega
    · refine ⟨?_, ?_⟩
      · intro i id nm hi
        obtain ⟨cs, hcs, hlen⟩ := hl.slots i id nm hi
        obtain ⟨id2, nm2, ha, hid⟩ := hwf.slots i _ hi
        simp only [Value.alloca.injEq] at ha
        have hne : id ≠ e.m_builder.nextId := by omega
        exact ⟨cs, by rw [hM1]; simpa [hne] using hcs, hlen⟩
      · intro id hi
        simp only [Option.some.injEq, Value.alloca.injEq] at hi
        rw [← hi.1, hM1]
        exact ⟨List.replicate (4 * Ty.Word.bytes) MemVal.undef, by simp,
          by simp [Ty.Word, Ty.bytes]⟩
    · intro b hb
      rw [hM1]
      simp [hb]

theorem storeTopics_frame (ts : List Value) (e : Ext) (tb : Value) (i : Nat) :
    (storeTopics e tb i ts).m_argAllocas = e.m_argAllocas ∧
    (storeTopics e tb i ts).m_topics = e.m_topics ∧
    (storeTopics e tb i ts).m_module = e.m_module ∧
    (storeTopics e tb i ts).m_argCounter = e.m_argCounter ∧
    e.m_builder.nextId ≤ (storeTopics e tb i ts).m_builder.nextId := by
  induction ts generalizing e i with
  | nil => exact ⟨rfl, rfl, rfl, rfl, Nat.le_refl _⟩
  | cons t ts ih =>
    obtain ⟨h1, h2, h3, h4, h5⟩ := ih
      (((e.build (Endianness.toBE · t)).2.build (·.CreateConstGEP1_32 tb i)).2.emit
        (·.CreateStore (e.build (Endianness.toBE · t)).1
          ((e.build (Endianness.toBE · t)).2.build (·.CreateConstGEP1_32 tb i)).1)) (i + 1)
    refine ⟨h1, h2, h3, h4, ?_⟩
    have : e.m_builder.nextId ≤ (((e.build (Endianness.toBE · t)).2.build
        (·.CreateConstGEP1_32 tb i)).2.emit
        (·.CreateStore (e.build (Endianness.toBE · t)).1
          ((e.build (Endianness.toBE · t)).2.build
            (·.CreateConstGEP1_32 tb i)).1)).m_builder.nextId := by
      simp [build, emit, Endianness.toBE, IRBuilder.CreateConstGEP1_32, IRBuilder.CreateStore,
        IRBuilder.InsertV, IRBuilder.Insert]
      omega
    exact Nat.le_trans this h5

/-- Running the loop of `log` over the topics: topic `j` of the list, byte-reversed, ends up
in the word `i + j` of the topics buffer; the words below `i` stay. -/
theorem storeTopics_run (names : List String) (tv : String → Nat) (idt : Nat) (i : Nat)
    (e : Ext) (M : Machine) (T : List MemVal)
    (hT : M.mem (.stack idt) = some T) (hlen : T.length = 128) (hi : i + names.length ≤ 4)
    (hargs : ∀ nm ∈ names, M.args nm = .int (tv nm)) (htv : ∀ nm ∈ names, tv nm < 2 ^ 256) :
    ∃ (M1 : Machine) (T1 : List MemVal),
      Runs e.m_builder (storeTopics e (.alloca idt Ty.Word 4 "topics") i
        (names.map (Value.arg · Ty.Word))).m_builder M M1 ∧
      M1.mem (.stack idt) = some T1 ∧ T1.length = 128 ∧
      (∀ j nm, names.get? j = some nm →
        decode Ty.Word (readAt T1 (32 * (i + j)) 32) = .int (byteSwap 32 (tv nm))) ∧
      (∀ j, j < i → readAt T1 (32 * j) 32 = readAt T (32 * j) 32) ∧
      (∀ b, b ≠ Block.stack idt → M1.mem b = M.mem b) ∧
      M1.args = M.args ∧ M1.regs = M.regs ∧ M1.host = M.host ∧
      M1.basePointer = M.basePointer ∧
      M1.trace = M.trace ++
        (List.range names.length).map (fun j => Event.write ⟨.stack idt, 32 * (i + j)⟩ 32) := by
  induction names generalizing i e M T with
  | nil =>
    exact ⟨M, T, Runs.refl _ _, hT, hlen, fun j nm h => by simp at h, fun _ _ => rfl,
      fun _ _ => rfl, rfl, rfl, rfl, rfl, by simp⟩
  | cons nm rest ih =>
    have hx : M.args nm = .int (tv nm) := hargs nm (List.mem_cons_self _ _)
    have hx256 : tv nm < 2 ^ 256 := htv nm (List.mem_cons_self _ _)
    simp only [List.length_cons] at hi
    obtain ⟨n, hn⟩ : ∃ n, n = e.m_builder.nextId := ⟨_, rfl⟩
    -- the three instructions of one round
    have hbs : evalValue M (.bswap n (.arg nm Ty.Word)) = some (.int (byteSwap 32 (tv nm))) := by
      simp [evalValue, hx, Value.type, Ty.Word, Ty.bytes]
    have hgep : evalValue M (.constGEP1 (n + 1) (.alloca idt Ty.Word 4 "topics") i) =
        some (.ptr ⟨.stack idt, 32 * i⟩) := by
      simp [evalValue, Value.type, Ty.pointee, Ty.Word, Ty.bytes, Nat.mul_comm]
    have r1 : Runs e.m_builder (e.build (Endianness.toBE · (.arg nm Ty.Word))).2.m_builder M M :=
      runs_insertV e.m_builder _ M _ (by rw [← hn]; exact hbs) (by simp) (by simp)
    have hv1 : (e.build (Endianness.toBE · (.arg nm Ty.Word))).1 = .bswap n (.arg nm Ty.Word) := by
      rw [hn]; rfl
    have hn1 : (e.build (Endianness.toBE · (.arg nm Ty.Word))).2.m_builder.nextId = n + 1 := by
      rw [hn]; rfl
    obtain ⟨e1, he1⟩ : ∃ e1, e1 = (e.build (Endianness.toBE · (.arg nm Ty.Word))).2 := ⟨_, rfl⟩
    rw [← he1] at r1 hn1
    have r2 : Runs e1.m_builder (e1.build (·.CreateConstGEP1_32
        (.alloca idt Ty.Word 4 "topics") i)).2.m_builder M M :=
      runs_insertV e1.m_builder _ M _ (by rw [hn1]; exact hgep) (by simp) (by simp)
    have hv2 : (e1.build (·.CreateConstGEP1_32 (.alloca idt Ty.Word 4 "topics") i)).1 =
        .constGEP1 (n + 1) (.alloca idt Ty.Word 4 "topics") i := by
      rw [← hn1]; rfl
    obtain ⟨e2, he2⟩ : ∃ e2, e2 = (e1.build (·.CreateConstGEP1_32
        (.alloca idt Ty.Word 4 "topics") i)).2 := ⟨_, rfl⟩
    rw [← he2] at r2
    have henc : (encode (Value.bswap n (.arg nm Ty.Word)).type
        (.int (byteSwap 32 (tv nm)))).length = 32 := encode_word_length _
    have r3 := runs_store e2.m_builder M hbs hgep hT (by rw [henc, hlen]; simp only []; omega)
    obtain ⟨M2, hM2⟩ : ∃ M2 : Machine, M2 = { M with
        trace := M.trace ++ [.write ⟨.stack idt, 32 * i⟩ (Value.bswap n (.arg nm Ty.Word)).type.bytes]
        mem := fun blk =>
          if blk = .stack idt then
            some (splice T (32 * i) (encode (Value.bswap n (.arg nm Ty.Word)).type
              (.int (byteSwap 32 (tv nm)))))
          else M.mem blk } := ⟨_, rfl⟩
    rw [← hM2] at r3
    have hT2 : M2.mem (.stack idt) = some (splice T (32 * i)
        (encode (Value.bswap n (.arg nm Ty.Word)).type (.int (byteSwap 32 (tv nm))))) := by
      rw [hM2]; simp
    have hsl : 32 * i + (encode (Value.bswap n (.arg nm Ty.Word)).type
        (.int (byteSwap 32 (tv nm)))).length ≤ T.length := by rw [henc, hlen]; omega
    obtain ⟨M1, T1, hr, hT1, hT1len, hdec, hkeep, hfr, ha, hrg, hh, hbp, htr⟩ :=
      ih (i + 1) (e2.emit (·.CreateStore (.bswap n (.arg nm Ty.Word))
        (.constGEP1 (n + 1) (.alloca idt Ty.Word 4 "topics") i))) M2 _ hT2
        (by rw [splice_length _ _ _ hsl]; exact hlen) (by omega)
        (fun x hxm => by rw [hM2]; exact hargs x (List.mem_cons_of_mem _ hxm))
        (fun x hxm => htv x (List.mem_cons_of_mem _ hxm))
    have hst : storeTopics e (.alloca idt Ty.Word 4 "topics") i
        ((nm :: rest).map (Value.arg · Ty.Word)) =
        storeTopics (e2.emit (·.CreateStore (.bswap n (.arg nm Ty.Word))
          (.constGEP1 (n + 1) (.alloca idt Ty.Word 4 "topics") i)))
          (.alloca idt Ty.Word 4 "topics") (i + 1) (rest.map (Value.arg · Ty.Word)) := by
      rw [List.map_cons, storeTopics, ← he1, ← he2, hv1, hv2]
    rw [hst]
    refine ⟨M1, T1, Runs.trans (Runs.trans r1 r2) (Runs.trans r3 hr), hT1, hT1len, ?_, ?_, ?_, ?_, ?_, ?_, ?_, ?_⟩
    · intro j x hj
      cases j with
      | zero =>
        simp only [List.get?_cons_zero, Option.some.injEq] at hj
        subst hj
        rw [Nat.add_zero, hkeep i (Nat.lt_succ_self _)]
        have := readAt_splice_same T _ (32 * i) hsl
        rw [henc] at this
        rw [this]
        exact decode_word _ (byteSwap_lt _)
      | succ j =>
        simp only [List.get?_cons_succ] at hj
        have := hdec j x hj
        rw [show i + (j + 1) = i + 1 + j by omega]
        exact this
    · intro j hj
      rw [hkeep j (by omega)]
      exact readAt_splice_disjoint T _ (32 * i) (32 * j) 32 hsl (Or.inl (by omega))
    · intro b hb
      rw [hfr b hb, hM2]
      simp [hb]
    · rw [ha, hM2]
    · rw [hrg, hM2]
    · rw [hh, hM2]
    · rw [hbp, hM2]
    · rw [htr, hM2]
      simp only [List.length_cons, List.range_succ_eq_map, List.map_cons, List.map_map,
        List.append_assoc, List.singleton_append, Nat.add_zero]
      congr 2
      simp [Value.type, Ty.Word, Ty.bytes]
      intro j _
      omega

theorem readAt_take (X : List MemVal) (o a b : Nat) (h : a ≤ b) :
    (readAt X o b).take a = readAt X o a := by
  unfold readAt
  rw [List.take_take, Nat.min_eq_left h]

theorem readAt_drop (X : List MemVal) (o a b : Nat) :
    (readAt X o (a + b)).drop a = readAt X (o + a) b := by
  unfold readAt
  rw [List.drop_take, List.drop_drop]
  congr 1
  omega

theorem decodeScalar_ptrFrags (t : Ty) (p : Ptr) : decodeScalar (.ptr t) (ptrFrags p) = .ptr p := by
  simp [decodeScalar, ptrFrags, List.range, List.range.loop]

theorem decodeScalar_bytes (bits k n : Nat) (h : n < 256 ^ k) :
    decodeScalar (.int bits) ((toBytesLE k n).map MemVal.byte) = .int n := by
  simp only [decodeScalar, cellBytes_map_byte, ofBytesLE_toBytesLE, Nat.mod_eq_of_lt h]

theorem memref_cells (A : List MemVal) (hA : A.length = 32) (p : Ptr) (n : Nat)
    (hn : n < 2 ^ 64) :
    decode Ty.memRef (readAt (splice (splice A 0 (ptrFrags p)) 8
      ((toBytesLE 8 n).map MemVal.byte)) 0 16) = .agg (.ptr p) (.int n) := by
  have hf : (ptrFrags p).length = 8 := by simp [ptrFrags]
  have hb : ((toBytesLE 8 n).map MemVal.byte).length = 8 := by simp [toBytesLE]
  have h1 : 0 + (ptrFrags p).length ≤ A.length := by rw [hf, hA]; omega
  have hl1 : (splice A 0 (ptrFrags p)).length = 32 := by rw [splice_length _ _ _ h1, hA]
  have h2 : 8 + ((toBytesLE 8 n).map MemVal.byte).length ≤ (splice A 0 (ptrFrags p)).length := by
    rw [hb, hl1]; omega
  show RVal.agg (decodeScalar Ty.BytePtr ((readAt _ 0 16).take 8))
      (decodeScalar Ty.Size ((readAt _ 0 16).drop 8)) = _
  rw [readAt_take _ 0 8 16 (by omega), readAt_drop _ 0 8 8,
    readAt_splice_disjoint _ _ 8 0 8 h2 (Or.inl (by omega))]
  have e1 := readAt_splice_same A (ptrFrags p) 0 h1
  rw [hf] at e1
  have e2 := readAt_splice_same (splice A 0 (ptrFrags p)) ((toBytesLE 8 n).map MemVal.byte) 8 h2
  rw [hb] at e2
  rw [e1, Nat.zero_add, e2]
  rw [show Ty.BytePtr = Ty.ptr Ty.Byte from rfl, decodeScalar_ptrFrags,
    show Ty.Size = Ty.int 64 from rfl, decodeScalar_bytes 64 8 n (by norm_num; omega)]

/-- Running the two stores that fill a memory reference into a slot: the pointer `pv` into the
first field, the size `sv` into the second. -/
theorem memref_stores_run (e : Ext) (M : Machine) (pm pData pv sv : Value) (id : Nat)
    (A : List MemVal) (p : Ptr) (n : Nat)
    (hpm : ∀ M1 : Machine, evalValue M1 pm = some (.ptr ⟨.stack id, 0⟩))
    (hpd : evalValue M pData = some (.ptr ⟨.stack id, 0⟩))
    (hpv : evalValue M pv = some (.ptr p)) (hpty : pv.type = Ty.BytePtr)
    (hsv : ∀ M1 : Machine, M1.args = M.args → evalValue M1 sv = some (.int n))
    (hsty : sv.type = Ty.Size) (hn : n < 2 ^ 64)
    (hA : M.mem (.stack id) = some A) (hlen : A.length = 32) :
    ∃ (M1 : Machine) (A1 : List MemVal),
      Runs e.m_builder
        (((e.emit (·.CreateStore pv pData)).build
          (·.CreateConstGEP2_32 Ty.memRef pm 0 1)).2.emit (·.CreateStore sv
            ((e.emit (·.CreateStore pv pData)).build
              (·.CreateConstGEP2_32 Ty.memRef pm 0 1)).1)).m_builder M M1 ∧
      M1.mem (.stack id) = some A1 ∧ A1.length = 32 ∧
      decode Ty.memRef (readAt A1 0 16) = .agg (.ptr p) (.int n) ∧
      (∀ b, b ≠ Block.stack id → M1.mem b = M.mem b) ∧
      M1.args = M.args ∧ M1.regs = M.regs ∧ M1.host = M.host ∧
      M1.basePointer = M.basePointer ∧
      M1.trace = M.trace ++ [.write ⟨.stack id, 0⟩ 8, .write ⟨.stack id, 8⟩ 8] := by
  have hencp : encode pv.type (.ptr p) = ptrFrags p := by rw [hpty]; rfl
  have hencs : encode sv.type (.int n) = (toBytesLE 8 n).map MemVal.byte := by rw [hsty]; rfl
  have hf : (ptrFrags p).length = 8 := by simp [ptrFrags]
  have hb : ((toBytesLE 8 n).map MemVal.byte).length = 8 := by simp [toBytesLE]
  have h1 : 0 + (ptrFrags p).length ≤ A.length := by rw [hf, hlen]; omega
  have hl1 : (splice A 0 (ptrFrags p)).length = 32 := by rw [splice_length _ _ _ h1, hlen]
  have h2 : 8 + ((toBytesLE 8 n).map MemVal.byte).length ≤ (splice A 0 (ptrFrags p)).length := by
    rw [hb, hl1]; omega
  have r1 := runs_store e.m_builder M hpv hpd hA (by rw [hencp]; exact h1)
  rw [hencp] at r1
  obtain ⟨M2, hM2⟩ : ∃ M2 : Machine, M2 = { M with
      trace := M.trace ++ [.write ⟨.stack id, 0⟩ pv.type.bytes]
      mem := fun blk =>
        if blk = .stack id then some (splice A 0 (ptrFrags p)) else M.mem blk } := ⟨_, rfl⟩
  rw [← hM2] at r1
  obtain ⟨e1, he1⟩ : ∃ e1, e1 = e.emit (·.CreateStore pv pData) := ⟨_, rfl⟩
  rw [← he1]
  have r1' : Runs e.m_builder e1.m_builder M M2 := by rw [he1]; exact r1
  obtain ⟨k, hk⟩ : ∃ k, k = e1.m_builder.nextId := ⟨_, rfl⟩
  have hg : evalValue M2 (.constGEP2 k Ty.memRef pm 0 1) = some (.ptr ⟨.stack id, 8⟩) := by
    simp [evalValue, hpm M2, fieldOffset]
  have r2 : Runs e1.m_builder (e1.build (·.CreateConstGEP2_32 Ty.memRef pm 0 1)).2.m_builder
      M2 M2 := runs_insertV e1.m_builder _ M2 _ (by rw [← hk]; exact hg) (by simp) (by simp)
  have hv2 : (e1.build (·.CreateConstGEP2_32 Ty.memRef pm 0 1)).1 =
      .constGEP2 k Ty.memRef pm 0 1 := by rw [hk]; rfl
  rw [hv2]
  obtain ⟨e2, he2⟩ : ∃ e2, e2 = (e1.build (·.CreateConstGEP2_32 Ty.memRef pm 0 1)).2 :=
    ⟨_, rfl⟩
  rw [← he2] at r2 ⊢
  have hM2s : M2.mem (.stack id) = some (splice A 0 (ptrFrags p)) := by rw [hM2]; simp
  have r3 := runs_store e2.m_builder M2 (hsv M2 (by rw [hM2])) hg hM2s
    (by rw [hencs]; exact h2)
  rw [hencs] at r3
  obtain ⟨M3, hM3⟩ : ∃ M3 : Machine, M3 = { M2 with
      trace := M2.trace ++ [.write ⟨.stack id, 8⟩ sv.type.bytes]
      mem := fun blk =>
        if blk = .stack id then
          some (splice (splice A 0 (ptrFrags p)) 8 ((toBytesLE 8 n).map MemVal.byte))
        else M2.mem blk } := ⟨_, rfl⟩
  rw [← hM3] at r3
  refine ⟨M3, _, Runs.trans r1' (Runs.trans r2 r3), by rw [hM3]; simp, ?_,
    memref_cells A hlen p n hn, ?_, by rw [hM3, hM2], by rw [hM3, hM2], by rw [hM3, hM2],
    by rw [hM3, hM2], ?_⟩
  · rw [splice_length _ _ _ h2, hl1]
  · intro b hb2
    rw [hM3, hM2]
    simp [hb2]
  · rw [hM3, hM2, hpty, hsty]
    simp [Ty.BytePtr, Ty.Size, Ty.bytes]

theorem writeCells_trace (M M1 : Machine) (p : Ptr) (vs : List MemVal)
    (h : M.writeCells p vs = some M1) : M1.trace = M.trace := by
  unfold Machine.writeCells at h
  split at h
  · split_ifs at h
    · simp only [Option.some.injEq] at h
      rw [← h]
  · cases h

theorem execCall_calls (M M1 : Machine) (id : Nat) (fn : String) (vs : List RVal)
    (h : execCall M id fn vs = some M1) :
    (M1.trace.filter Event.isCall).length = (M.trace.filter Event.isCall).length + 1 := by
  have key : ((M.record (.call fn vs M.mem)).trace.filter Event.isCall).length =
      (M.trace.filter Event.isCall).length + 1 := by
    simp [Machine.record, Event.isCall]
  unfold execCall at h
  simp only at h
  split_ifs at h
  · split at h
    · split at h
      · rw [writeCells_trace _ _ _ _ h]; exact key
      · cases h
    · cases h
  · split at h
    · simp only [Option.some.injEq] at h
      rw [← h]; exact key
    · cases h
  · simp only [Option.some.injEq] at h
    rw [← h]; exact key
  · split at h
    · rw [writeCells_trace _ _ _ _ h]; exact key
    · cases h
  · split at h
    · rw [writeCells_trace _ _ _ _ h]; exact key
    · cases h

theorem execInstr_calls (M M1 : Machine) (i : Instr) (h : execInstr M i = some M1) :
    (M1.trace.filter Event.isCall).length =
      (M.trace.filter Event.isCall).length + (if i.isCall then 1 else 0) := by
  cases i with
  | val v =>
    have hv : (Instr.val v).isCall = false := rfl
    rw [hv]
    simp only [Bool.false_eq_true, if_false, Nat.add_zero]
    cases v
    case alloca id ty c nm =>
      simp only [execInstr, Option.some.injEq] at h
      rw [← h]
    case load id p =>
      simp only [execInstr] at h
      split at h
      · split at h
        · simp only [Option.some.injEq] at h
          rw [← h]
          simp [Machine.record, Machine.setReg, Event.isCall]
        · cases h
      · cases h
    all_goals
      simp only [execInstr] at h
      split_ifs at h
      simp only [Option.some.injEq] at h
      rw [← h]
  | store id v p =>
    have hv : (Instr.store id v p).isCall = false := rfl
    rw [hv]
    simp only [Bool.false_eq_true, if_false, Nat.add_zero]
    simp only [execInstr] at h
    split at h
    · rw [writeCells_trace _ _ _ _ h]
      simp [Machine.record, Event.isCall]
    · cases h
  | memcpy id d s n a =>
    have hv : (Instr.memcpy id d s n a).isCall = false := rfl
    rw [hv]
    simp only [Bool.false_eq_true, if_false, Nat.add_zero]
    simp only [execInstr] at h
    split at h
    · split at h
      · rw [writeCells_trace _ _ _ _ h]
        simp [Machine.record, Event.isCall]
      · cases h
    · cases h
  | memset id d b n a =>
    have hv : (Instr.memset id d b n a).isCall = false := rfl
    rw [hv]
    simp only [Bool.false_eq_true, if_false, Nat.add_zero]
    simp only [execInstr] at h
    split at h
    · rw [writeCells_trace _ _ _ _ h]
      simp [Machine.record, Event.isCall]
    · cases h
  | call id fn args =>
    have hv : (Instr.call id fn args).isCall = true := rfl
    rw [hv]
    simp only [if_true]
    simp only [execInstr] at h
    split at h
    · exact execCall_calls _ _ _ _ _ h
    · cases h

/-- Every call instruction that runs leaves one call event in the trace, and nothing else
does: the trace counts the call instructions run. -/
theorem run_calls (is : List Instr) (M M1 : Machine) (h : run is M = some M1) :
    (M1.trace.filter Event.isCall).length =
      (M.trace.filter Event.isCall).length + (is.filter Instr.isCall).length := by
  induction is generalizing M with
  | nil =>
    simp only [run, Option.some.injEq] at h
    rw [← h]; simp
  | cons i is ih =>
    simp only [run] at h
    split at h
    · rename_i M2 h2
      rw [ih M2 h, execInstr_calls M M2 i h2]
      cases hi : i.isCall <;> simp [List.filter, hi]
      all_goals omega
    · cases h

theorem getArgAlloca_topics (e : Ext) : (e.getArgAlloca).2.m_topics = e.m_topics := by
  unfold getArgAlloca
  split <;> rfl

theorem getArgAlloca_module (e : Ext) : (e.getArgAlloca).2.m_module = e.m_module := by
  unfold getArgAlloca
  split <;> rfl

theorem resolve_update (e : Ext) (h : e.DeclsOK) : (e.resolve getUpdateFunc).1 = updateFunc := by
  unfold resolve getUpdateFunc
  cases hf : e.m_module.getFunction "evm.update" with
  | some f => simp only [hf]; exact h.update f hf
  | none => simp only [hf]; rfl

theorem eval_CreateBitCast (b : IRBuilder) (v : Value) (ty : Ty) (M : Machine) :
    evalValue M (b.CreateBitCast v ty).1 = evalValue M v := by
  unfold IRBuilder.CreateBitCast IRBuilder.CreateCast
  split_ifs
  · rfl
  · simp [IRBuilder.InsertV, evalValue]

theorem type_CreateBitCast (b : IRBuilder) (v : Value) (ty : Ty) :
    (b.CreateBitCast v ty).1.type = ty := by
  unfold IRBuilder.CreateBitCast IRBuilder.CreateCast
  split_ifs with h
  · exact h
  · simp [IRBuilder.InsertV, Value.type]

theorem runs_bitcast (b : IRBuilder) (v : Value) (ty : Ty) (M : Machine) (r : RVal)
    (h : evalValue M v = some r) : Runs b (b.CreateBitCast v ty).2 M M :=
  runs_cast b _ v ty M r (by simpa [evalValue] using h) (by simp) (by simp)

theorem live_pres {e e1 : Ext} {M M1 : Machine} (h : M.Live e)
    (hp : e1.m_argAllocas = e.m_argAllocas) (ht : e1.m_topics = e.m_topics)
    (hpres : ∀ b cs, M.mem b = some cs → ∃ cs1, M1.mem b = some cs1 ∧ cs1.length = cs.length) :
    M1.Live e1 := by
  refine ⟨?_, ?_⟩
  · intro i id name hi
    rw [hp] at hi
    obtain ⟨cs, hcs, hlen⟩ := h.slots i id name hi
    obtain ⟨cs1, h1, h2⟩ := hpres _ _ hcs
    exact ⟨cs1, h1, by rw [h2, hlen]⟩
  · intro id hi
    rw [ht] at hi
    obtain ⟨cs, hcs, hlen⟩ := h.topics id hi
    obtain ⟨cs1, h1, h2⟩ := hpres _ _ hcs
    exact ⟨cs1, h1, by rw [h2, hlen]⟩

theorem pres_of_frame {M M1 : Machine} (blk : Block) (A A1 : List MemVal)
    (hA : M.mem blk = some A) (hA1 : M1.mem blk = some A1) (hlen : A1.length = A.length)
    (hfr : ∀ b, b ≠ blk → M1.mem b = M.mem b) :
    ∀ b cs, M.mem b = some cs → ∃ cs1, M1.mem b = some cs1 ∧ cs1.length = cs.length := by
  intro b cs hb
  by_cases h : b = blk
  · subst h
    rw [hA] at hb
    simp only [Option.some.injEq] at hb
    subst hb
    exact ⟨A1, hA1, hlen⟩
  · exact ⟨cs, by rw [hfr b h]; exact hb, rfl⟩

theorem CreateBitCast_nextId (b : IRBuilder) (v : Value) (ty : Ty) :
    b.nextId ≤ (b.CreateBitCast v ty).2.nextId := by
  unfold IRBuilder.CreateBitCast IRBuilder.CreateCast
  split_ifs
  · exact Nat.le_refl _
  · exact Nat.le_succ _

theorem updateFunc_sret : updateFunc.hasStructRetAttr = false := by decide

theorem marshal_update (e : Ext) (x k a b : Value) (ha : a.type.isPointerTy = true)
    (hb : b.type.isPointerTy = true) :
    marshalByVal updateFunc 0 [x, k, a, b] e = ([x, k, a, b], e) := by
  have h0 : updateFunc.hasByValAttr 0 = false := by decide
  have h1 : updateFunc.hasByValAttr 1 = false := by decide
  simp [marshalByVal, needsSlot, h0, h1, ha, hb]

theorem exec_call_update (M : Machine) (id : Nat) (args : List Value) (x a b : RVal) (k : Nat)
    (hargs : evalArgs M args = some [x, .int k, a, b]) :
    execInstr M (.call id updateFunc args) =
      some (M.record (.call "evm.update" [x, .int k, a, b] M.mem)) := by
  have hname : updateFunc.name = "evm.update" := rfl
  simp [execInstr, hargs, hname, execCall]

theorem log_run (e : Ext) (M : Machine) (mIdx sz : String) (names : List String) (m s : Nat)
    (tv : String → Nat) (hwf : e.WF) (hd : e.DeclsOK) (hl : M.Live e)
    (hn : names.length ≤ 4) (hm : M.args mIdx = .int m) (hs : M.args sz = .int s)
    (ht : ∀ nm ∈ names, M.args nm = .int (tv nm)) (htv : ∀ nm ∈ names, tv nm < 2 ^ 256) :
    ∃ (M1 : Machine) (ida idb idt : Nat) (mem : Mem) (A B T : List MemVal),
      Runs e.m_builder (e.log (.arg mIdx Ty.Word) (.arg sz Ty.Word)
        (names.map (Value.arg · Ty.Word))).m_builder M M1 ∧
      M1.trace = M.trace ++
        (List.range names.length).map (fun j => Event.write ⟨.stack idt, 32 * j⟩ 32) ++
        [.write ⟨.stack ida, 0⟩ 8, .write ⟨.stack ida, 8⟩ 8,
         .write ⟨.stack idb, 0⟩ 8, .write ⟨.stack idb, 8⟩ 8,
         .call "evm.update" [M.args "env", .int evm_update_key.EVM_LOG.code,
           .ptr ⟨.stack ida, 0⟩, .ptr ⟨.stack idb, 0⟩] mem] ∧
      mem (.stack ida) = some A ∧
      decode Ty.memRef (readAt A 0 16) = .agg (.ptr (M.basePointer m)) (.int (s % 2 ^ 64)) ∧
      mem (.stack idb) = some B ∧
      decode Ty.memRef (readAt B 0 16) = .agg (.ptr ⟨.stack idt, 0⟩) (.int (32 * names.length)) ∧
      mem (.stack idt) = some T ∧
      (∀ j nm, names.get? j = some nm →
        decode Ty.Word (readAt T (32 * j) 32) = .int (byteSwap 32 (tv nm))) ∧
      (e.log (.arg mIdx Ty.Word) (.arg sz Ty.Word)
        (names.map (Value.arg · Ty.Word))).m_topics =
        some (.alloca idt Ty.Word 4 "topics") ∧
      ida ≠ idb := by
  -- the topics buffer
  obtain ⟨idt, M1, htb, r1, hwf1, hl1, htop1, hpool1, hmod1, ⟨T0, hT0, hT0len⟩, hfr1, ha1, hr1,
    htr1, hh1, hbp1⟩ := topicsBuffer_run e M hwf hl
  simp only [log, getMemRefTy, Ty.getPointerTo, derefDefault, List.length_map]
  generalize e.topicsBuffer = tp at htb r1 hwf1 hl1 htop1 hpool1 hmod1 ⊢
  obtain ⟨tb, e1⟩ := tp
  simp only at htb r1 hwf1 hl1 htop1 hpool1 hmod1 ⊢
  subst htb
  have hd1 : e1.DeclsOK := ⟨by rw [hmod1]; exact hd.query, by rw [hmod1]; exact hd.update⟩
  -- the size
  have r2 : Runs e1.m_builder (e1.build (·.CreateTrunc (.arg sz Ty.Word) Ty.Size)).2.m_builder
      M1 M1 :=
    runs_cast _ _ _ _ M1 (.int (s % 2 ^ 64))
      (by simp [evalValue, ha1, hs, Ty.width, Ty.Size]) (by simp) (by simp)
  have hsv : (e1.build (·.CreateTrunc (.arg sz Ty.Word) Ty.Size)).1 =
      .trunc e1.m_builder.nextId (.arg sz Ty.Word) Ty.Size := rfl
  have hwf2 : (e1.build (·.CreateTrunc (.arg sz Ty.Word) Ty.Size)).2.WF :=
    hwf1.mono rfl rfl (Nat.le_succ _)
  have hl2 : M1.Live (e1.build (·.CreateTrunc (.arg sz Ty.Word) Ty.Size)).2 :=
    live_congr hl1 rfl rfl
  have hd2 : (e1.build (·.CreateTrunc (.arg sz Ty.Word) Ty.Size)).2.DeclsOK :=
    ⟨hd1.query, hd1.update⟩
  have htop2 : (e1.build (·.CreateTrunc (.arg sz Ty.Word) Ty.Size)).2.m_topics =
      some (.alloca idt Ty.Word 4 "topics") := htop1
  generalize e1.build (·.CreateTrunc (.arg sz Ty.Word) Ty.Size) = sz2
    at r2 hsv hwf2 hl2 hd2 htop2 ⊢
  obtain ⟨sv, e2⟩ := sz2
  simp only at r2 hsv hwf2 hl2 hd2 htop2 ⊢
  have hsvE : ∀ M2 : Machine, M2.args = M.args → evalValue M2 sv = some (.int (s % 2 ^ 64)) := by
    intro M2 h2
    rw [hsv]
    simp [evalValue, h2, hs, Ty.width, Ty.Size]
  have hsvT : sv.type = Ty.Size := by rw [hsv]; rfl
  clear hsv
  have r02 := Runs.trans r1 r2
  clear r1 r2
  -- the topics
  obtain ⟨M3, T1, r3, hT1, hT1len, htopics, _, hfr3, ha3, hr3, hh3, hbp3, htr3⟩ :=
    storeTopics_run names tv idt 0 e2 M1 T0 hT0 hT0len (by omega)
      (fun nm h => by rw [ha1]; exact ht nm h) htv
  obtain ⟨f1, f2, f3, f4, f5⟩ := storeTopics_frame (names.map (Value.arg · Ty.Word)) e2
    (.alloca idt Ty.Word 4 "topics") 0
  have hwf3 := hwf2.mono f1 f2 f5
  have hl3 : M3.Live (storeTopics e2 (.alloca idt Ty.Word 4 "topics") 0
      (names.map (Value.arg · Ty.Word))) :=
    live_pres hl2 f1 f2 (pres_of_frame (.stack idt) T0 T1 hT0 hT1 (by rw [hT1len, hT0len]) hfr3)
  have hd3 : (storeTopics e2 (.alloca idt Ty.Word 4 "topics") 0
      (names.map (Value.arg · Ty.Word))).DeclsOK :=
    ⟨by rw [f3]; exact hd2.query, by rw [f3]; exact hd2.update⟩
  have htop3 := f2.trans htop2
  have r03 := Runs.trans r02 r3
  clear r02 r3 f1 f2 f3 f4 f5
  generalize storeTopics e2 (.alloca idt Ty.Word 4 "topics") 0
      (names.map (Value.arg · Ty.Word)) = e3 at hwf3 hl3 hd3 htop3 r03 ⊢
  -- the entry point
  have hf : (e3.resolve getUpdateFunc).1 = updateFunc := resolve_update e3 hd3
  have hwf4 : (e3.resolve getUpdateFunc).2.WF := hwf3.mono rfl rfl (Nat.le_refl _)
  have hl4 : M3.Live (e3.resolve getUpdateFunc).2 := live_congr hl3 rfl rfl
  have htop4 : (e3.resolve getUpdateFunc).2.m_topics =
      some (.alloca idt Ty.Word 4 "topics") := htop3
  have r04 : Runs e.m_builder (e3.resolve getUpdateFunc).2.m_builder M M3 := r03
  clear r03
  generalize e3.resolve getUpdateFunc = fe at hf hwf4 hl4 htop4 r04 ⊢
  obtain ⟨fn, e4⟩ := fe
  simp only at hf hwf4 hl4 htop4 r04 ⊢
  subst hf
  -- the slot of the data reference
  obtain ⟨ida, nma, la, M4, hav, hloga, _, hruna, hwf5, hl5, ⟨A0, hA0, hA0len⟩, hfr4, ha4, hr4,
    htr4, hh4, hbp4⟩ := acquire_run e4 M3 hwf4 hl4
  have r5 : Runs e4.m_builder (e4.getArgAlloca).2.m_builder M3 M4 := ⟨la, hloga, hruna⟩
  have r05 := Runs.trans r04 r5
  have hcur5 := getArgAlloca_at_cursor e4
  have hctr5 := getArgAlloca_argCounter e4
  have htop5 := (getArgAlloca_topics e4).trans htop4
  clear r04 r5 hloga hruna
  generalize e4.getArgAlloca = ga at hav hwf5 hl5 r05 hcur5 hctr5 htop5 ⊢
  obtain ⟨av, e5⟩ := ga
  simp only at hav hwf5 hl5 r05 hcur5 hctr5 htop5 ⊢
  subst hav
  have hat : ida ≠ idt := by
    intro h
    obtain ⟨id1, h1, _, h3⟩ := hwf5.topics _ htop5
    simp only [Value.alloca.injEq, and_true, true_and] at h1
    subst h1
    subst h
    exact h3 _ _ hcur5
  -- the data reference
  have hpmE : ∀ M2 : Machine, evalValue M2 (e5.build
      (·.CreateBitCast (.alloca ida Ty.Word 1 nma) (Ty.ptr Ty.memRef))).1 =
      some (.ptr ⟨.stack ida, 0⟩) := fun M2 => eval_CreateBitCast _ _ _ M2
  have r6 : Runs e5.m_builder (e5.build
      (·.CreateBitCast (.alloca ida Ty.Word 1 nma) (Ty.ptr Ty.memRef))).2.m_builder M4 M4 :=
    runs_bitcast _ _ _ M4 (.ptr ⟨.stack ida, 0⟩) rfl
  have hwf6 : (e5.build
      (·.CreateBitCast (.alloca ida Ty.Word 1 nma) (Ty.ptr Ty.memRef))).2.WF :=
    hwf5.mono rfl rfl (CreateBitCast_nextId _ _ _)
  have hl6 : M4.Live (e5.build
      (·.CreateBitCast (.alloca ida Ty.Word 1 nma) (Ty.ptr Ty.memRef))).2 :=
    live_congr hl5 rfl rfl
  have hctr6 : (e5.build
      (·.CreateBitCast (.alloca ida Ty.Word 1 nma) (Ty.ptr Ty.memRef))).2.m_argCounter =
      e4.m_argCounter + 1 := hctr5
  have htop6 : (e5.build
      (·.CreateBitCast (.alloca ida Ty.Word 1 nma) (Ty.ptr Ty.memRef))).2.m_topics =
      some (.alloca idt Ty.Word 4 "topics") := htop5
  have hcur6 : (e5.build
      (·.CreateBitCast (.alloca ida Ty.Word 1 nma) (Ty.ptr Ty.memRef))).2.m_argAllocas
      e4.m_argCounter = some (.alloca ida Ty.Word 1 nma) := hcur5
  have r06 := Runs.trans r05 r6
  clear r05 r6 hwf5 hl5 hctr5 htop5 hcur5
  generalize e5.build (·.CreateBitCast (.alloca ida Ty.Word 1 nma) (Ty.ptr Ty.memRef)) = pme
    at hpmE hwf6 hl6 hctr6 htop6 hcur6 r06 ⊢
  obtain ⟨pm, e6⟩ := pme
  simp only at hpmE hwf6 hl6 hctr6 htop6 hcur6 r06 ⊢
  have hpdE : evalValue M4 (e6.build (·.CreateConstGEP2_32 Ty.memRef pm 0 0)).1 =
      some (.ptr ⟨.stack ida, 0⟩) := by
    show evalValue M4 (.constGEP2 _ Ty.memRef pm 0 0) = _
    simp [evalValue, hpmE M4, fieldOffset]
  have r7 : Runs e6.m_builder (e6.build (·.CreateConstGEP2_32 Ty.memRef pm 0 0)).2.m_builder
      M4 M4 := runs_insertV _ _ M4 _ hpdE (by simp) (by simp)
  have hwf7 : (e6.build (·.CreateConstGEP2_32 Ty.memRef pm 0 0)).2.WF :=
    hwf6.mono rfl rfl (Nat.le_succ _)
  have hl7 : M4.Live (e6.build (·.CreateConstGEP2_32 Ty.memRef pm 0 0)).2 :=
    live_congr hl6 rfl rfl
  have hctr7 : (e6.build (·.CreateConstGEP2_32 Ty.memRef pm 0 0)).2.m_argCounter =
      e4.m_argCounter + 1 := hctr6
  have htop7 : (e6.build (·.CreateConstGEP2_32 Ty.memRef pm 0 0)).2.m_topics =
      some (.alloca idt Ty.Word 4 "topics") := htop6
  have hcur7 : (e6.build (·.CreateConstGEP2_32 Ty.memRef pm 0 0)).2.m_argAllocas
      e4.m_argCounter = some (.alloca ida Ty.Word 1 nma) := hcur6
  have r07 := Runs.trans r06 r7
  clear r06 r7 hwf6 hl6 hctr6 htop6 hcur6
  generalize e6.build (·.CreateConstGEP2_32 Ty.memRef pm 0 0) = pde
    at hpdE hwf7 hl7 hctr7 htop7 hcur7 r07 ⊢
  obtain ⟨pd, e7⟩ := pde
  simp only at hpdE hwf7 hl7 hctr7 htop7 hcur7 r07 ⊢
  have hbeg : evalValue M4 (Memory.getBytePtr (.arg mIdx Ty.Word)) =
      some (.ptr (M.basePointer m)) := by
    simp [Memory.getBytePtr, evalValue, ha4, ha3, ha1, hm, hbp4, hbp3, hbp1]
  obtain ⟨M5, A1, r8, hA1, hA1len, hA1dec, hfr5, ha5, hr5, hh5, hbp5, htr5⟩ :=
    memref_stores_run e7 M4 pm pd (Memory.getBytePtr (.arg mIdx Ty.Word)) sv ida A0
      (M.basePointer m) (s % 2 ^ 64) hpmE hpdE hbeg rfl
      (fun M2 h2 => hsvE M2 (by rw [h2, ha4, ha3, ha1])) hsvT (Nat.mod_lt _ (by norm_num))
      hA0 hA0len
  have hwf8 : (((e7.emit (·.CreateStore (Memory.getBytePtr (.arg mIdx Ty.Word)) pd)).build
      (·.CreateConstGEP2_32 Ty.memRef pm 0 1)).2.emit (·.CreateStore sv
        ((e7.emit (·.CreateStore (Memory.getBytePtr (.arg mIdx Ty.Word)) pd)).build
          (·.CreateConstGEP2_32 Ty.memRef pm 0 1)).1)).WF :=
    hwf7.mono rfl rfl (by
      simp only [build, emit, IRBuilder.CreateStore, IRBuilder.CreateConstGEP2_32,
        IRBuilder.InsertV, IRBuilder.Insert]
      omega)
  have hl8 : M5.Live (((e7.emit (·.CreateStore (Memory.getBytePtr (.arg mIdx Ty.Word)) pd)).build
      (·.CreateConstGEP2_32 Ty.memRef pm 0 1)).2.emit (·.CreateStore sv
        ((e7.emit (·.CreateStore (Memory.getBytePtr (.arg mIdx Ty.Word)) pd)).build
          (·.CreateConstGEP2_32 Ty.memRef pm 0 1)).1)) :=
    live_pres hl7 rfl rfl
      (pres_of_frame (.stack ida) A0 A1 hA0 hA1 (by rw [hA1len, hA0len]) hfr5)
  have hctr8 : (((e7.emit (·.CreateStore (Memory.getBytePtr (.arg mIdx Ty.Word)) pd)).build
      (·.CreateConstGEP2_32 Ty.memRef pm 0 1)).2.emit (·.CreateStore sv
        ((e7.emit (·.CreateStore (Memory.getBytePtr (.arg mIdx Ty.Word)) pd)).build
          (·.CreateConstGEP2_32 Ty.memRef pm 0 1)).1)).m_argCounter =
      e4.m_argCounter + 1 := hctr7
  have htop8 : (((e7.emit (·.CreateStore (Memory.getBytePtr (.arg mIdx Ty.Word)) pd)).build
      (·.CreateConstGEP2_32 Ty.memRef pm 0 1)).2.emit (·.CreateStore sv
        ((e7.emit (·.CreateStore (Memory.getBytePtr (.arg mIdx Ty.Word)) pd)).build
          (·.CreateConstGEP2_32 Ty.memRef pm 0 1)).1)).m_topics =
      some (.alloca idt Ty.Word 4 "topics") := htop7
  have hcur8 : (((e7.emit (·.CreateStore (Memory.getBytePtr (.arg mIdx Ty.Word)) pd)).build
      (·.CreateConstGEP2_32 Ty.memRef pm 0 1)).2.emit (·.CreateStore sv
        ((e7.emit (·.CreateStore (Memory.getBytePtr (.arg mIdx Ty.Word)) pd)).build
          (·.CreateConstGEP2_32 Ty.memRef pm 0 1)).1)).m_argAllocas
      e4.m_argCounter = some (.alloca ida Ty.Word 1 nma) := hcur7
  have r08 := Runs.trans r07 r8
  clear r07 r8 hwf7 hl7 hctr7 htop7 hcur7
  generalize ((e7.emit (·.CreateStore (Memory.getBytePtr (.arg mIdx Ty.Word)) pd)).build
      (·.CreateConstGEP2_32 Ty.memRef pm 0 1)).2.emit (·.CreateStore sv
        ((e7.emit (·.CreateStore (Memory.getBytePtr (.arg mIdx Ty.Word)) pd)).build
          (·.CreateConstGEP2_32 Ty.memRef pm 0 1)).1) = e8
    at hwf8 hl8 hctr8 htop8 hcur8 r08 ⊢
  -- the slot of the topics reference
  obtain ⟨idb, nmb, lb, M6, hbv, hlogb, _, hrunb, hwf9, hl9, ⟨B0, hB0, hB0len⟩, hfr6, ha6, hr6,
    htr6, hh6, hbp6⟩ := acquire_run e8 M5 hwf8 hl8
  have r9 : Runs e8.m_builder (e8.getArgAlloca).2.m_builder M5 M6 := ⟨lb, hlogb, hrunb⟩
  have r09 := Runs.trans r08 r9
  have hcur9 := getArgAlloca_at_cursor e8
  have hret9 := getArgAlloca_retains e8 _ _ hcur8
  have htop9 := (getArgAlloca_topics e8).trans htop8
  clear r08 r9 hlogb hrunb
  generalize e8.getArgAlloca = gb at hbv hwf9 hl9 r09 hcur9 hret9 htop9 ⊢
  obtain ⟨bv, e9⟩ := gb
  simp only at hbv hwf9 hl9 r09 hcur9 hret9 htop9 ⊢
  subst hbv
  have hbt : idb ≠ idt := by
    intro h
    obtain ⟨id1, h1, _, h3⟩ := hwf9.topics _ htop9
    simp only [Value.alloca.injEq, and_true, true_and] at h1
    subst h1
    subst h
    exact h3 _ _ hcur9
  have hba : idb ≠ ida := by
    intro h
    subst h
    have := hwf9.distinct _ _ _ _ _ hcur9 hret9
    omega
  -- the topics reference
  have hqmE : ∀ M2 : Machine, evalValue M2 (e9.build
      (·.CreateBitCast (.alloca idb Ty.Word 1 nmb) (Ty.ptr Ty.memRef))).1 =
      some (.ptr ⟨.stack idb, 0⟩) := fun M2 => eval_CreateBitCast _ _ _ M2
  have r10 : Runs e9.m_builder (e9.build
      (·.CreateBitCast (.alloca idb Ty.Word 1 nmb) (Ty.ptr Ty.memRef))).2.m_builder M6 M6 :=
    runs_bitcast _ _ _ M6 (.ptr ⟨.stack idb, 0⟩) rfl
  have r010 := Runs.trans r09 r10
  have htop10 : (e9.build
      (·.CreateBitCast (.alloca idb Ty.Word 1 nmb) (Ty.ptr Ty.memRef))).2.m_topics =
      some (.alloca idt Ty.Word 4 "topics") := htop9
  clear r09 r10 hwf9 hl9 htop9 hcur9 hret9 hwf8 hl8 hctr8 htop8 hcur8
  generalize e9.build (·.CreateBitCast (.alloca idb Ty.Word 1 nmb) (Ty.ptr Ty.memRef)) = qme
    at hqmE r010 htop10 ⊢
  obtain ⟨qm, e10⟩ := qme
  simp only at hqmE r010 htop10 ⊢
  have hqdE : evalValue M6 (e10.build (·.CreateConstGEP2_32 Ty.memRef qm 0 0)).1 =
      some (.ptr ⟨.stack idb, 0⟩) := by
    show evalValue M6 (.constGEP2 _ Ty.memRef qm 0 0) = _
    simp [evalValue, hqmE M6, fieldOffset]
  have r11 : Runs e10.m_builder (e10.build (·.CreateConstGEP2_32 Ty.memRef qm 0 0)).2.m_builder
      M6 M6 := runs_insertV _ _ M6 _ hqdE (by simp) (by simp)
  have r011 := Runs.trans r010 r11
  have htop11 : (e10.build (·.CreateConstGEP2_32 Ty.memRef qm 0 0)).2.m_topics =
      some (.alloca idt Ty.Word 4 "topics") := htop10
  clear r010 r11 htop10
  generalize e10.build (·.CreateConstGEP2_32 Ty.memRef qm 0 0) = qde at hqdE r011 htop11 ⊢
  obtain ⟨qd, e11⟩ := qde
  simp only at hqdE r011 htop11 ⊢
  have htcE : evalValue M6 (e11.build
      (·.CreateBitCast (.alloca idt Ty.Word 4 "topics") Ty.BytePtr)).1 =
      some (.ptr ⟨.stack idt, 0⟩) := eval_CreateBitCast _ _ _ M6
  have htcT : (e11.build
      (·.CreateBitCast (.alloca idt Ty.Word 4 "topics") Ty.BytePtr)).1.type = Ty.BytePtr :=
    type_CreateBitCast _ _ _
  have r12 : Runs e11.m_builder (e11.build
      (·.CreateBitCast (.alloca idt Ty.Word 4 "topics") Ty.BytePtr)).2.m_builder M6 M6 :=
    runs_bitcast _ _ _ M6 (.ptr ⟨.stack idt, 0⟩) rfl
  have r012 := Runs.trans r011 r12
  have htop12 : (e11.build
      (·.CreateBitCast (.alloca idt Ty.Word 4 "topics") Ty.BytePtr)).2.m_topics =
      some (.alloca idt Ty.Word 4 "topics") := htop11
  clear r011 r12 htop11
  generalize e11.build (·.CreateBitCast (.alloca idt Ty.Word 4 "topics") Ty.BytePtr) = tce
    at htcE htcT r012 htop12 ⊢
  obtain ⟨tc, e12⟩ := tce
  simp only at htcE htcT r012 htop12 ⊢
  obtain ⟨M7, B1, r13, hB1, hB1len, hB1dec, hfr7, ha7, hr7, hh7, hbp7, htr7⟩ :=
    memref_stores_run e12 M6 qm qd tc (IRBuilder.getInt64 (names.length * 32)) idb B0
      ⟨.stack idt, 0⟩ (names.length * 32 % 2 ^ 64) hqmE hqdE htcE htcT
      (fun M2 _ => rfl) rfl (Nat.mod_lt _ (by norm_num)) hB0 hB0len
  have r013 := Runs.trans r012 r13
  have htop13 : (((e12.emit (·.CreateStore tc qd)).build
      (·.CreateConstGEP2_32 Ty.memRef qm 0 1)).2.emit
        (·.CreateStore (IRBuilder.getInt64 (names.length * 32))
          ((e12.emit (·.CreateStore tc qd)).build
            (·.CreateConstGEP2_32 Ty.memRef qm 0 1)).1)).m_topics =
      some (.alloca idt Ty.Word 4 "topics") := htop12
  clear r012 r13 htop12
  generalize ((e12.emit (·.CreateStore tc qd)).build
      (·.CreateConstGEP2_32 Ty.memRef qm 0 1)).2.emit
        (·.CreateStore (IRBuilder.getInt64 (names.length * 32))
          ((e12.emit (·.CreateStore tc qd)).build
            (·.CreateConstGEP2_32 Ty.memRef qm 0 1)).1) = e13 at r013 htop13 ⊢
  -- the call
  rw [createCABICall_plain e13 updateFunc [RuntimeManager.getEnvPtr,
      IRBuilder.getInt32 evm_update_key.EVM_LOG.code,
      .alloca ida Ty.Word 1 nma, .alloca idb Ty.Word 1 nmb] true updateFunc_sret rfl,
    marshal_update e13 RuntimeManager.getEnvPtr (IRBuilder.getInt32 evm_update_key.EVM_LOG.code)
      (.alloca ida Ty.Word 1 nma) (.alloca idb Ty.Word 1 nmb) rfl rfl]
  have hargs : evalArgs M7 [RuntimeManager.getEnvPtr,
      IRBuilder.getInt32 evm_update_key.EVM_LOG.code,
      .alloca ida Ty.Word 1 nma, .alloca idb Ty.Word 1 nmb] =
      some [M.args "env", .int evm_update_key.EVM_LOG.code, .ptr ⟨.stack ida, 0⟩,
        .ptr ⟨.stack idb, 0⟩] := by
    simp [evalArgs, evalValue, RuntimeManager.getEnvPtr, IRBuilder.getInt32, ha7, ha6, ha5, ha4,
      ha3, ha1, evm_update_key.code]
  have r14 : Runs e13.m_builder
      (Ext.build { e13 with m_argCounter := 0 } (·.CreateCall updateFunc
        [RuntimeManager.getEnvPtr, IRBuilder.getInt32 evm_update_key.EVM_LOG.code,
          .alloca ida Ty.Word 1 nma, .alloca idb Ty.Word 1 nmb])).2.m_builder M7
      (M7.record (.call "evm.update" [M.args "env", .int evm_update_key.EVM_LOG.code,
        .ptr ⟨.stack ida, 0⟩, .ptr ⟨.stack idb, 0⟩] M7.mem)) := by
    refine ⟨[⟨e13.m_builder.insertPt, .call e13.m_builder.nextId updateFunc _⟩], rfl, ?_⟩
    simp only [List.map_cons, List.map_nil, run, exec_call_update M7 _ _ _ _ _ _ hargs]
  have hA7 : M7.mem (.stack ida) = some A1 := by
    rw [hfr7 _ (by simpa using hba.symm), hfr6 _ (by simpa using hba.symm)]
    exact hA1
  have hT7 : M7.mem (.stack idt) = some T1 := by
    rw [hfr7 _ (by simpa using hbt.symm), hfr6 _ (by simpa using hbt.symm),
      hfr5 _ (by simpa using hat.symm), hfr4 _ (by simpa using hat.symm)]
    exact hT1
  refine ⟨_, ida, idb, idt, M7.mem, A1, B1, T1, Runs.trans r013 r14, ?_, hA7, hA1dec, hB1, ?_,
    hT7, ?_, htop13, hba.symm⟩
  · simp only [Machine.record, htr7, htr6, htr5, htr4, htr3, htr1, Nat.zero_add,
      List.append_assoc, List.cons_append, List.nil_append]
  · rw [hB1dec]
    congr 2
    omega
  · intro j nm hj
    have := htopics j nm hj
    rw [Nat.zero_add] at this
    exact this

/-- C10. A log emission with `n ≤ 4` topics of values `tv`, the data offset `m` and the data
size `s`, on an object in a well-formed state: the emitted code runs, and it holds exactly one
call instruction. The run writes the topics, then the four fields of the two memory references,
and then calls `evm.update` once, with the environment pointer, the log key and the pointers to
two distinct scratch slots. In the memory handed to that call the first slot holds the data
reference `(basePointer m, s mod 2 ^ 64)`, the second the topics reference (pointer to the
topics buffer of the object, `32 * n`), and word `j` of the topics buffer holds topic `j`
byte-reversed, that is in the big-endian order of the environment. -/
theorem log_one_environment_call (e : Ext) (M : Machine) (mIdx sz : String)
    (names : List String) (m s : Nat) (tv : String → Nat)
    (hwf : e.WF) (hd : e.DeclsOK) (hl : M.Live e)
    (hn : names.length ≤ 4) (hm : M.args mIdx = .int m) (hs : M.args sz = .int s)
    (ht : ∀ nm ∈ names, M.args nm = .int (tv nm)) (htv : ∀ nm ∈ names, tv nm < 2 ^ 256) :
    ∃ (M1 : Machine) (ida idb idt : Nat) (mem : Mem) (A B T : List MemVal),
      run (emitted e.m_builder (e.log (.arg mIdx Ty.Word) (.arg sz Ty.Word)
        (names.map (Value.arg · Ty.Word))).m_builder) M = some M1 ∧
      ((emitted e.m_builder (e.log (.arg mIdx Ty.Word) (.arg sz Ty.Word)
        (names.map (Value.arg · Ty.Word))).m_builder).filter Instr.isCall).length = 1 ∧
      M1.trace = M.trace ++
        (List.range names.length).map (fun j => Event.write ⟨.stack idt, 32 * j⟩ 32) ++
        [.write ⟨.stack ida, 0⟩ 8, .write ⟨.stack ida, 8⟩ 8,
         .write ⟨.stack idb, 0⟩ 8, .write ⟨.stack idb, 8⟩ 8,
         .call "evm.update" [M.args "env", .int evm_update_key.EVM_LOG.code,
           .ptr ⟨.stack ida, 0⟩, .ptr ⟨.stack idb, 0⟩] mem] ∧
      ida ≠ idb ∧
      (e.log (.arg mIdx Ty.Word) (.arg sz Ty.Word)
        (names.map (Value.arg · Ty.Word))).m_topics =
        some (.alloca idt Ty.Word 4 "topics") ∧
      mem (.stack ida) = some A ∧
      decode Ty.memRef (readAt A 0 16) = .agg (.ptr (M.basePointer m)) (.int (s % 2 ^ 64)) ∧
      mem (.stack idb) = some B ∧
      decode Ty.memRef (readAt B 0 16) =
        .agg (.ptr ⟨.stack idt, 0⟩) (.int (32 * names.length)) ∧
      mem (.stack idt) = some T ∧
      (∀ j nm, names.get? j = some nm →
        decode Ty.Word (readAt T (32 * j) 32) = .int (byteSwap 32 (tv nm))) := by
  obtain ⟨M1, ida, idb, idt, mem, A, B, T, hrun, htr, hA, hAd, hB, hBd, hT, hTd, htop, hab⟩ :=
    log_run e M mIdx sz names m s tv hwf hd hl hn hm hs ht htv
  have hr := Runs.run_emitted hrun
  have hc := run_calls _ M M1 hr
  refine ⟨M1, ida, idb, idt, mem, A, B, T, hr, ?_, htr, hab, htop, hA, hAd, hB, hBd, hT, hTd⟩
  have hw : ((List.range names.length).map
      (fun j => Event.write ⟨.stack idt, 32 * j⟩ 32)).filter Event.isCall = [] := by
    rw [List.filter_eq_nil_iff]
    intro x hx
    rw [List.mem_map] at hx
    obtain ⟨j, _, rfl⟩ := hx
    simp [Event.isCall]
  rw [htr, List.filter_append, List.filter_append, hw] at hc
  simp only [List.filter, Event.isCall, List.append_nil, List.length_append, List.length_cons,
    List.length_nil] at hc
  omega

/-- C10, at an instance: on the fresh object, two topics and a data range of 10 bytes at
offset 3 give one call, with the topics length 64 and the data length 10. -/
theorem log_one_environment_call_witness :
    fresh.WF ∧ fresh.DeclsOK ∧
    (Machine.entry (Host.const 0) []
      (fun n => if n = "s" then .int 10 else if n = "m" then .int 3 else .int 7)).Live fresh ∧
    ∃ (M1 : Machine) (ida idb idt : Nat) (mem : Mem) (A B : List MemVal),
      run (emitted fresh.m_builder (fresh.log (.arg "m" Ty.Word) (.arg "s" Ty.Word)
        [.arg "t0" Ty.Word, .arg "t1" Ty.Word]).m_builder)
        (Machine.entry (Host.const 0) []
          (fun n => if n = "s" then .int 10 else if n = "m" then .int 3 else .int 7)) =
        some M1 ∧
      ((emitted fresh.m_builder (fresh.log (.arg "m" Ty.Word) (.arg "s" Ty.Word)
        [.arg "t0" Ty.Word, .arg "t1" Ty.Word]).m_builder).filter Instr.isCall).length = 1 ∧
      mem (.stack ida) = some A ∧
      decode Ty.memRef (readAt A 0 16) = .agg (.ptr ⟨.host "memory", 3⟩) (.int 10) ∧
      mem (.stack idb) = some B ∧
      decode Ty.memRef (readAt B 0 16) = .agg (.ptr ⟨.stack idt, 0⟩) (.int 64) := by
  refine ⟨fresh_wf, fresh_declsOK, entry_live _ _ _, ?_⟩
  obtain ⟨M1, ida, idb, idt, mem, A, B, T, h1, h2, _, _, _, hA, hAd, hB, hBd, _, _⟩ :=
    log_one_environment_call fresh
      (Machine.entry (Host.const 0) []
        (fun n => if n = "s" then .int 10 else if n = "m" then .int 3 else .int 7))
      "m" "s" ["t0", "t1"] 3 10 (fun _ => 7) fresh_wf fresh_declsOK (entry_live _ _ _)
      (by decide) (by simp [Machine.entry]) (by simp [Machine.entry])
      (by intro nm h; simp at h; rcases h with rfl | rfl <;> simp [Machine.entry])
      (fun _ _ => by norm_num)
  exact ⟨M1, ida, idb, idt, mem, A, B, h1, h2, hA, hAd, hB, hBd⟩

theorem toBytesLE_length (k n : Nat) : (toBytesLE k n).length = k := by
  simp [toBytesLE]

/-- Reversing the bytes twice gives the value back, for a value of `k` bytes. -/
theorem byteSwap_byteSwap (k n : Nat) (h : n < 256 ^ k) : byteSwap k (byteSwap k n) = n := by
  have hlen : (toBytesLE k n).reverse.length = k := by
    rw [List.length_reverse, toBytesLE_length]
  have hlt : ∀ b ∈ (toBytesLE k n).reverse, b < 256 := by
    intro b hb
    exact toBytesLE_lt k n b (List.mem_reverse.1 hb)
  have h1 := byteSwap_ofBytesLE (toBytesLE k n).reverse hlt
  rw [hlen] at h1
  show byteSwap k (ofBytesLE (toBytesLE k n).reverse) = n
  rw [h1, ofBytesBE, List.reverse_reverse, ofBytesLE_toBytesLE, Nat.mod_eq_of_lt h]

/-- C13. The byte-order round trip: for every 256-bit value `v`, converting to the order of the
environment and back gives `v`. In the emitted code: the value that `Endianness::toNative`
builds from the value that `Endianness::toBE` builds from a word operand of value `v` evaluates
to `v`, and the two inserted instructions run. -/
theorem toNative_toBE_roundtrip (v : Nat) (hv : v < 2 ^ 256) :
    byteSwap 32 (byteSwap 32 v) = v ∧
    ∀ (M : Machine) (b : IRBuilder) (x : Value), x.type = Ty.Word →
      evalValue M x = some (.int v) →
      evalValue M (Endianness.toBE b x).1 = some (.int (byteSwap 32 v)) ∧
      evalValue M (Endianness.toNative (Endianness.toBE b x).2 (Endianness.toBE b x).1).1 =
        some (.int v) ∧
      run (emitted b (Endianness.toNative (Endianness.toBE b x).2 (Endianness.toBE b x).1).2)
        M = some M := by
  have hrt : byteSwap 32 (byteSwap 32 v) = v :=
    byteSwap_byteSwap 32 v (by norm_num at hv ⊢; exact hv)
  refine ⟨hrt, ?_⟩
  intro M b x hx hev
  have h1 : evalValue M (.bswap b.nextId x) = some (.int (byteSwap 32 v)) := by
    simp [evalValue, hev, hx, Ty.Word, Ty.bytes]
  have h2 : evalValue M (.bswap (b.nextId + 1) (.bswap b.nextId x)) = some (.int v) := by
    simp [evalValue, hev, hx, Value.type, Ty.Word, Ty.bytes, hrt]
  refine ⟨h1, h2, ?_⟩
  have r1 : Runs b (Endianness.toBE b x).2 M M :=
    runs_insertV b _ M _ h1 (by simp) (by simp)
  have r2 : Runs (Endianness.toBE b x).2
      (Endianness.toNative (Endianness.toBE b x).2 (Endianness.toBE b x).1).2 M M :=
    runs_insertV _ _ M _ h2 (by simp) (by simp)
  exact Runs.run_emitted (Runs.trans r1 r2)

/-- C13, at an instance: the word 1 becomes `2 ^ 248` in the order of the environment and 1
again on the way back. -/
theorem toNative_toBE_roundtrip_witness :
    (1 : Nat) < 2 ^ 256 ∧ byteSwap 32 1 = 2 ^ 248 ∧ byteSwap 32 (byteSwap 32 1) = 1 :=
  ⟨by norm_num, by decide, (toNative_toBE_roundtrip 1 (by norm_num)).1⟩

theorem layout_snoc (b b1 : IRBuilder) (em : Emit) (h : b1.log = b.log ++ [em]) :
    b1.layout = place b.layout em := by
  simp [IRBuilder.layout, h, List.foldl_append]

theorem place_other (blocks : Nat → List Instr) (em : Emit) (n : Nat) (h : n ≠ em.pt.block) :
    place blocks em n = blocks n := by
  simp [place, h]

theorem insertBefore_split (i : Instr) (k : Nat) (l : List Instr) :
    ∃ pre post, l = pre ++ post ∧ insertBefore i k l = pre ++ i :: post := by
  induction l with
  | nil => exact ⟨[], [], rfl, rfl⟩
  | cons x xs ih =>
    unfold insertBefore
    split_ifs
    · exact ⟨[], x :: xs, rfl, rfl⟩
    · obtain ⟨pre, post, h1, h2⟩ := ih
      exact ⟨x :: pre, post, by rw [h1]; rfl, by rw [h2]; rfl⟩

theorem place_split (blocks : Nat → List Instr) (em : Emit) :
    ∃ pre post, blocks em.pt.block = pre ++ post ∧
      place blocks em em.pt.block = pre ++ em.instr :: post := by
  unfold place
  simp only [if_true]
  split
  · exact insertBefore_split _ _ _
  · exact ⟨blocks em.pt.block, [], by simp, by simp⟩

/-- Inserting before the first instruction of the entry block puts the instruction at the head
of the block, when the first instruction is numbered (as every instruction the builder creates
is) or the block is empty. -/
theorem place_entryBegin (blocks : Nat → List Instr) (i : Instr)
    (h : ∀ x ∈ (blocks 0).head?, x.id?.isSome = true) :
    place blocks ⟨⟨0, ((blocks 0).head?).bind Instr.id?⟩, i⟩ 0 = i :: blocks 0 := by
  unfold place
  simp only [if_true]
  cases hb : blocks 0 with
  | nil => simp
  | cons x xs =>
    have hx := h x (by rw [hb]; rfl)
    obtain ⟨k, hk⟩ := Option.isSome_iff_exists.1 hx
    simp [hk, insertBefore]

/-- C12. Whatever the insertion point `pt` of the builder is: a `getArgAlloca` call that finds
no slot at the cursor inserts one instruction, the allocation of the new slot, at the place
before the first instruction of the entry block (block 0); every other block keeps its
instructions, the entry block keeps its own around the new one (which stands at its head when
the block's first instruction is numbered or the block is empty), and the insertion point is
`pt` again afterwards. A call that finds a slot at the cursor returns it and leaves the builder
as it is: no instruction, the same insertion point. -/
theorem getArgAlloca_entry_block (e : Ext) (pt : InsertPoint) :
    ((e.emit (·.SetInsertPoint pt)).m_argAllocas (e.emit (·.SetInsertPoint pt)).m_argCounter =
        none →
      ((e.emit (·.SetInsertPoint pt)).getArgAlloca).1 =
        .alloca e.m_builder.nextId Ty.Word 1 ("a." ++ toString e.m_argCounter) ∧
      ((e.emit (·.SetInsertPoint pt)).getArgAlloca).2.m_builder.log = e.m_builder.log ++
        [⟨⟨0, e.m_builder.entryBegin⟩, .val ((e.emit (·.SetInsertPoint pt)).getArgAlloca).1⟩] ∧
      (∀ n, n ≠ 0 → ((e.emit (·.SetInsertPoint pt)).getArgAlloca).2.m_builder.layout n =
        e.m_builder.layout n) ∧
      (∃ pre post, e.m_builder.layout 0 = pre ++ post ∧
        ((e.emit (·.SetInsertPoint pt)).getArgAlloca).2.m_builder.layout 0 =
          pre ++ .val ((e.emit (·.SetInsertPoint pt)).getArgAlloca).1 :: post) ∧
      ((∀ x ∈ (e.m_builder.layout 0).head?, x.id?.isSome = true) →
        ((e.emit (·.SetInsertPoint pt)).getArgAlloca).2.m_builder.layout 0 =
          .val ((e.emit (·.SetInsertPoint pt)).getArgAlloca).1 :: e.m_builder.layout 0) ∧
      ((e.emit (·.SetInsertPoint pt)).getArgAlloca).2.m_builder.insertPt = pt) ∧
    (∀ a, (e.emit (·.SetInsertPoint pt)).m_argAllocas
        (e.emit (·.SetInsertPoint pt)).m_argCounter = some a →
      ((e.emit (·.SetInsertPoint pt)).getArgAlloca).1 = a ∧
      ((e.emit (·.SetInsertPoint pt)).getArgAlloca).2.m_builder =
        (e.emit (·.SetInsertPoint pt)).m_builder ∧
      emitted (e.emit (·.SetInsertPoint pt)).m_builder
        ((e.emit (·.SetInsertPoint pt)).getArgAlloca).2.m_builder = [] ∧
      ((e.emit (·.SetInsertPoint pt)).getArgAlloca).2.m_builder.insertPt = pt) := by
  obtain ⟨s, hs⟩ : ∃ s, s = e.emit (·.SetInsertPoint pt) := ⟨_, rfl⟩
  have hlog : s.m_builder.log = e.m_builder.log := by rw [hs]; rfl
  have hlay : s.m_builder.layout = e.m_builder.layout := by
    unfold IRBuilder.layout; rw [hlog]
  have hbeg : s.m_builder.entryBegin = e.m_builder.entryBegin := by
    unfold IRBuilder.entryBegin; rw [hlay]
  have hid : s.m_builder.nextId = e.m_builder.nextId := by rw [hs]; rfl
  have hctr : s.m_argCounter = e.m_argCounter := by rw [hs]; rfl
  have hpt : s.m_builder.insertPt = pt := by rw [hs]; rfl
  rw [← hs]
  refine ⟨?_, ?_⟩
  · intro hnone
    have hv : (s.getArgAlloca).1 =
        .alloca e.m_builder.nextId Ty.Word 1 ("a." ++ toString e.m_argCounter) := by
      rw [(getArgAlloca_none s hnone).1, hid, hctr]
    have hl : (s.getArgAlloca).2.m_builder.log = e.m_builder.log ++
        [⟨⟨0, e.m_builder.entryBegin⟩, .val (s.getArgAlloca).1⟩] := by
      rw [← hlog, ← hbeg]
      unfold getArgAlloca
      rw [hnone]
      rfl
    have hp : (s.getArgAlloca).2.m_builder.insertPt = pt := by
      rw [← hpt]
      unfold getArgAlloca
      rw [hnone]
      rfl
    have hlayout := layout_snoc e.m_builder (s.getArgAlloca).2.m_builder _ hl
    refine ⟨hv, hl, ?_, ?_, ?_, hp⟩
    · intro n hn
      rw [hlayout]
      exact place_other _ _ n hn
    · rw [hlayout]
      exact place_split e.m_builder.layout
        ⟨⟨0, e.m_builder.entryBegin⟩, .val (s.getArgAlloca).1⟩
    · intro hhead
      rw [hlayout]
      exact place_entryBegin e.m_builder.layout _ hhead
  · intro a ha
    obtain ⟨h1, _, h3⟩ := getArgAlloca_some s a ha
    refine ⟨h1, h3, ?_, by rw [h3, hpt]⟩
    rw [h3]
    simp [emitted]

/-- C12, at an instance: on the fresh object with the builder moved to the end of block 5, the
first acquisition puts the allocation at the head of the entry block, before the allocation of
`env.size`, and leaves block 5 empty and the builder at the end of block 5; an acquisition
after one acquisition and a reset of the cursor finds that slot and inserts nothing. -/
theorem getArgAlloca_entry_block_witness :
    (fresh.emit (·.SetInsertPoint ⟨5, none⟩)).m_argAllocas
      (fresh.emit (·.SetInsertPoint ⟨5, none⟩)).m_argCounter = none ∧
    ((fresh.emit (·.SetInsertPoint ⟨5, none⟩)).getArgAlloca).2.m_builder.layout 0 =
      [.val (.alloca 1 Ty.Word 1 "a.0"), .val (.alloca 0 Ty.Size 1 "env.size")] ∧
    ((fresh.emit (·.SetInsertPoint ⟨5, none⟩)).getArgAlloca).2.m_builder.layout 5 = [] ∧
    ((fresh.emit (·.SetInsertPoint ⟨5, none⟩)).getArgAlloca).2.m_builder.insertPt = ⟨5, none⟩ ∧
    ((fresh.poolSteps [.acquire, .reset]).emit (·.SetInsertPoint ⟨5, none⟩)).m_argAllocas
      ((fresh.poolSteps [.acquire, .reset]).emit (·.SetInsertPoint ⟨5, none⟩)).m_argCounter =
        some (.alloca 1 Ty.Word 1 "a.0") ∧
    emitted ((fresh.poolSteps [.acquire, .reset]).emit (·.SetInsertPoint ⟨5, none⟩)).m_builder
      (((fresh.poolSteps [.acquire, .reset]).emit
        (·.SetInsertPoint ⟨5, none⟩)).getArgAlloca).2.m_builder = [] := by
  obtain ⟨h1, _⟩ := getArgAlloca_entry_block fresh ⟨5, none⟩
  obtain ⟨hv, _, ho, _, hh, hp⟩ := h1 rfl
  obtain ⟨_, h2⟩ := getArgAlloca_entry_block (fresh.poolSteps [.acquire, .reset]) ⟨5, none⟩
  refine ⟨rfl, ?_, ?_, hp, rfl, (h2 _ rfl).2.2.1⟩
  · rw [hh (by decide), hv]
    rfl
  · rw [ho 5 (by decide)]
    rfl

theorem createFunc_eq (id : EnvFunc) (m : Module) :
    createFunc id m = (envDecl id, m.add (envDecl id)) := rfl

theorem envDecl_name_injective : Function.Injective (fun id => (envDecl id).name) := by
  intro a b h
  cases a <;> cases b <;> first | rfl | (exact absurd h (by decide))

theorem envDecl_injective : Function.Injective envDecl := by
  intro a b h
  exact envDecl_name_injective (congrArg Function.name h)

/-- One `createCall`: what it does to the cache, the module and the function body. -/
theorem createCall_effect (e : Ext) (id : EnvFunc) (args : List Value)
    (hinv : ∀ i f, e.m_funcs i = some f → f = envDecl i) :
    (e.createCall id args).2.m_funcs id = some (envDecl id) ∧
    (∀ i, i ≠ id → (e.createCall id args).2.m_funcs i = e.m_funcs i) ∧
    (e.createCall id args).2.m_module.functions = e.m_module.functions ++
      (if e.m_funcs id = none then [envDecl id] else []) ∧
    emitted e.m_builder (e.createCall id args).2.m_builder =
      [.call e.m_builder.nextId (envDecl id) args] := by
  unfold createCall
  cases h : e.m_funcs id with
  | some f =>
    have hf := hinv id f h
    subst hf
    refine ⟨h, fun _ _ => rfl, by simp [build], ?_⟩
    simp [emitted, build, IRBuilder.CreateCall, IRBuilder.Insert]
  | none =>
    refine ⟨by simp [build, createFunc_eq], fun i hi => by simp [build, hi], ?_, ?_⟩
    · simp [createFunc_eq, Module.add, build]
    · simp [emitted, build, IRBuilder.CreateCall, IRBuilder.Insert, createFunc_eq]

theorem createCalls_cons (e : Ext) (c : EnvFunc × List Value) (cs : List (EnvFunc × List Value)) :
    e.createCalls (c :: cs) = (e.createCall c.1 c.2).2.createCalls cs := rfl

theorem createCalls_snoc (e : Ext) (cs : List (EnvFunc × List Value)) (c : EnvFunc × List Value) :
    e.createCalls (cs ++ [c]) = ((e.createCalls cs).createCall c.1 c.2).2 := by
  simp [createCalls, List.foldl_append]

theorem createCall_cacheInv (e : Ext) (id : EnvFunc) (args : List Value)
    (hinv : ∀ i f, e.m_funcs i = some f → f = envDecl i) :
    ∀ i f, (e.createCall id args).2.m_funcs i = some f → f = envDecl i := by
  obtain ⟨h1, h2, _, _⟩ := createCall_effect e id args hinv
  intro i f hi
  by_cases hid : i = id
  · subst hid
    rw [h1] at hi
    exact (Option.some.inj hi).symm
  · rw [h2 i hid] at hi
    exact hinv i f hi

theorem createCalls_cacheInv (cs : List (EnvFunc × List Value)) (e : Ext)
    (hinv : ∀ i f, e.m_funcs i = some f → f = envDecl i) :
    ∀ i f, (e.createCalls cs).m_funcs i = some f → f = envDecl i := by
  induction cs generalizing e with
  | nil => exact hinv
  | cons c cs ih =>
    rw [createCalls_cons]
    exact ih _ (createCall_cacheInv e c.1 c.2 hinv)

/-- A sequence of `createCall` invocations: the identifiers called are cached, the others keep
their cache entry, and the module grows by one declaration for each identifier that was called
and not cached before, whatever the number of calls. -/
theorem createCalls_effect (cs : List (EnvFunc × List Value)) (e : Ext)
    (hinv : ∀ i f, e.m_funcs i = some f → f = envDecl i) :
    (∀ id, id ∈ cs.map Prod.fst → (e.createCalls cs).m_funcs id = some (envDecl id)) ∧
    (∀ id, id ∉ cs.map Prod.fst → (e.createCalls cs).m_funcs id = e.m_funcs id) ∧
    ∃ newIds : List EnvFunc, newIds.Nodup ∧
      (∀ id, id ∈ newIds ↔ id ∈ cs.map Prod.fst ∧ e.m_funcs id = none) ∧
      (e.createCalls cs).m_module.functions = e.m_module.functions ++ newIds.map envDecl := by
  induction cs generalizing e with
  | nil =>
    exact ⟨fun id h => by simp at h, fun _ _ => rfl, [], List.nodup_nil, by simp,
      by simp [createCalls]⟩
  | cons c cs ih =>
    obtain ⟨h1, h2, h3, _⟩ := createCall_effect e c.1 c.2 hinv
    obtain ⟨i1, i2, newIds, hnd, hmem, hfun⟩ := ih (e.createCall c.1 c.2).2
      (createCall_cacheInv e c.1 c.2 hinv)
    rw [createCalls_cons]
    refine ⟨?_, ?_, ?_⟩
    · intro id hid
      by_cases hin : id ∈ cs.map Prod.fst
      · exact i1 id hin
      · rw [i2 id hin]
        have : id = c.1 := by
          simp only [List.map_cons, List.mem_cons] at hid
          rcases hid with h | h
          · exact h
          · exact absurd h hin
        rw [this]
        exact h1
    · intro id hid
      simp only [List.map_cons, List.mem_cons, not_or] at hid
      rw [i2 id hid.2, h2 id hid.1]
    · by_cases hc : e.m_funcs c.1 = none
      · refine ⟨c.1 :: newIds, ?_, ?_, ?_⟩
        · refine List.nodup_cons.2 ⟨?_, hnd⟩
          intro hin
          have := ((hmem c.1).1 hin).2
          rw [h1] at this
          cases this
        · intro id
          simp only [List.mem_cons, List.map_cons]
          constructor
          · rintro (h | h)
            · subst h
              exact ⟨Or.inl rfl, hc⟩
            · obtain ⟨ha, hb⟩ := (hmem id).1 h
              have hne : id ≠ c.1 := fun hh => by
                rw [hh, h1] at hb
                cases hb
              exact ⟨Or.inr ha, by rw [← h2 id hne]; exact hb⟩
          · rintro ⟨ha, hb⟩
            by_cases hid : id = c.1
            · exact Or.inl hid
            · right
              refine (hmem id).2 ⟨?_, by rw [h2 id hid]; exact hb⟩
              rcases ha with ha | ha
              · exact absurd ha hid
              · exact ha
        · rw [hfun, h3]
          simp [hc]
      · refine ⟨newIds, hnd, ?_, ?_⟩
        · intro id
          simp only [List.map_cons, List.mem_cons]
          constructor
          · intro h
            obtain ⟨ha, hb⟩ := (hmem id).1 h
            have hne : id ≠ c.1 := fun hh => by
              rw [hh, h1] at hb
              cases hb
            exact ⟨Or.inr ha, by rw [← h2 id hne]; exact hb⟩
          · rintro ⟨ha, hb⟩
            have hid : id ≠ c.1 := fun hh => hc (by rw [← hh]; exact hb)
            refine (hmem id).2 ⟨?_, by rw [h2 id hid]; exact hb⟩
            rcases ha with ha | ha
            · exact absurd ha hid
            · exact ha
        · rw [hfun, h3]
          simp [hc]

theorem getFunction_add_self (m : Module) (f : Function) (h : m.getFunction f.name = none) :
    (m.add f).getFunction f.name = some f := by
  unfold Module.getFunction at h ⊢
  simp [Module.add, List.find?_append, h]

theorem getQueryFunc_present (m : Module) (f : Function)
    (h : m.getFunction "evm.query" = some f) : getQueryFunc m = (f, m) := by
  unfold getQueryFunc
  simp only [h]

theorem getQueryFunc_absent (m : Module) (h : m.getFunction "evm.query" = none) :
    getQueryFunc m = (queryFunc, m.add queryFunc) := by
  unfold getQueryFunc
  simp only [h]
  rfl

theorem getUpdateFunc_present (m : Module) (f : Function)
    (h : m.getFunction "evm.update" = some f) : getUpdateFunc m = (f, m) := by
  unfold getUpdateFunc
  simp only [h]

theorem getUpdateFunc_absent (m : Module) (h : m.getFunction "evm.update" = none) :
    getUpdateFunc m = (updateFunc, m.add updateFunc) := by
  unfold getUpdateFunc
  simp only [h]
  rfl

theorem getCallFunc_present (msc : Bool) (m : Module) (f : Function)
    (h : m.getFunction "evm.call" = some f) : getCallFunc msc m = (f, m) := by
  unfold getCallFunc
  simp only [h]

theorem getCallFunc_absent (msc : Bool) (m : Module) (h : m.getFunction "evm.call" = none) :
    getCallFunc msc m = (callFunc msc, m.add (callFunc msc)) := by
  unfold getCallFunc
  simp only [h]
  rfl

theorem getQueryFunc_again (m : Module) :
    (getQueryFunc m).2.getFunction "evm.query" = some (getQueryFunc m).1 ∧
    getQueryFunc (getQueryFunc m).2 = getQueryFunc m := by
  cases h : m.getFunction "evm.query" with
  | some f =>
    rw [getQueryFunc_present m f h]
    exact ⟨h, getQueryFunc_present m f h⟩
  | none =>
    rw [getQueryFunc_absent m h]
    have := getFunction_add_self m queryFunc h
    exact ⟨this, getQueryFunc_present _ _ this⟩

theorem getUpdateFunc_again (m : Module) :
    (getUpdateFunc m).2.getFunction "evm.update" = some (getUpdateFunc m).1 ∧
    getUpdateFunc (getUpdateFunc m).2 = getUpdateFunc m := by
  cases h : m.getFunction "evm.update" with
  | some f =>
    rw [getUpdateFunc_present m f h]
    exact ⟨h, getUpdateFunc_present m f h⟩
  | none =>
    rw [getUpdateFunc_absent m h]
    have := getFunction_add_self m updateFunc h
    exact ⟨this, getUpdateFunc_present _ _ this⟩

theorem getCallFunc_again (msc : Bool) (m : Module) :
    (getCallFunc msc m).2.getFunction "evm.call" = some (getCallFunc msc m).1 ∧
    getCallFunc msc (getCallFunc msc m).2 = getCallFunc msc m := by
  cases h : m.getFunction "evm.call" with
  | some f =>
    rw [getCallFunc_present msc m f h]
    exact ⟨h, getCallFunc_present msc m f h⟩
  | none =>
    rw [getCallFunc_absent msc m h]
    have hn : (callFunc msc).name = "evm.call" := by cases msc <;> rfl
    have := getFunction_add_self m (callFunc msc) (by rw [hn]; exact h)
    rw [hn] at this
    exact ⟨this, getCallFunc_present msc _ _ this⟩

/-- C11. Resolving an environment function is idempotent. On an object whose cache holds only
declarations made by `createFunc`, for every sequence `calls` of `createCall` invocations: each
invocation inserts one call of the declaration `envDecl id` of its identifier, which has the
name and signature of `getEnvFuncDescs id`, so the first and every later invocation for `id`
call the same declaration; afterwards the cache holds that declaration for every identifier
called; and the module has grown by exactly one declaration for each identifier that was called
and not cached before, however often it was called, the names added being pairwise different.
Likewise `getQueryFunc`, `getUpdateFunc` and `getCallFunc` return the declaration the module
holds under their name and leave the module alone when there is one, and a second resolution
returns the declaration of the first and adds nothing. -/
theorem resolve_idempotent (msc : Bool) (e : Ext)
    (hinv : ∀ i f, e.m_funcs i = some f → f = envDecl i)
    (calls : List (EnvFunc × List Value)) :
    (∀ id, envDecl id = Function.create (getEnvFuncDescs id).2.1 (getEnvFuncDescs id).2.2
      (getEnvFuncDescs id).1) ∧
    (∀ pre c post, calls = pre ++ c :: post →
      emitted (e.createCalls pre).m_builder (e.createCalls (pre ++ [c])).m_builder =
        [.call (e.createCalls pre).m_builder.nextId (envDecl c.1) c.2] ∧
      (e.createCalls (pre ++ [c])).m_funcs c.1 = some (envDecl c.1) ∧
      (e.createCalls (pre ++ [c])).m_module.functions =
        (e.createCalls pre).m_module.functions ++
          (if (e.createCalls pre).m_funcs c.1 = none then [envDecl c.1] else [])) ∧
    (∀ id, id ∈ calls.map Prod.fst → (e.createCalls calls).m_funcs id = some (envDecl id)) ∧
    (∃ newIds : List EnvFunc, newIds.Nodup ∧
      (∀ id, id ∈ newIds ↔ id ∈ calls.map Prod.fst ∧ e.m_funcs id = none) ∧
      (e.createCalls calls).m_module.functions =
        e.m_module.functions ++ newIds.map envDecl ∧
      ((newIds.map envDecl).map Function.name).Nodup) ∧
    (∀ m : Module,
      (∀ f, m.getFunction "evm.query" = some f → getQueryFunc m = (f, m)) ∧
      (getQueryFunc m).2.getFunction "evm.query" = some (getQueryFunc m).1 ∧
      getQueryFunc (getQueryFunc m).2 = getQueryFunc m ∧
      (∀ f, m.getFunction "evm.update" = some f → getUpdateFunc m = (f, m)) ∧
      (getUpdateFunc m).2.getFunction "evm.update" = some (getUpdateFunc m).1 ∧
      getUpdateFunc (getUpdateFunc m).2 = getUpdateFunc m ∧
      (∀ f, m.getFunction "evm.call" = some f → getCallFunc msc m = (f, m)) ∧
      (getCallFunc msc m).2.getFunction "evm.call" = some (getCallFunc msc m).1 ∧
      getCallFunc msc (getCallFunc msc m).2 = getCallFunc msc m) := by
  refine ⟨fun _ => rfl, ?_, (createCalls_effect calls e hinv).1, ?_, ?_⟩
  · intro pre c post _
    rw [createCalls_snoc]
    obtain ⟨h1, _, h3, h4⟩ := createCall_effect (e.createCalls pre) c.1 c.2
      (createCalls_cacheInv pre e hinv)
    exact ⟨h4, h1, h3⟩
  · obtain ⟨_, _, newIds, hnd, hmem, hfun⟩ := createCalls_effect calls e hinv
    refine ⟨newIds, hnd, hmem, hfun, ?_⟩
    rw [List.map_map]
    exact hnd.map envDecl_name_injective
  · intro m
    exact ⟨getQueryFunc_present m, (getQueryFunc_again m).1, (getQueryFunc_again m).2,
      getUpdateFunc_present m, (getUpdateFunc_again m).1, (getUpdateFunc_again m).2,
      getCallFunc_present msc m, (getCallFunc_again msc m).1, (getCallFunc_again msc m).2⟩

/-- C11, at an instance: on the fresh object the hash function called twice around a call of
the create function leaves two declarations in the module, `env_sha3` and `env_create`. -/
theorem resolve_idempotent_witness :
    (∀ i f, fresh.m_funcs i = some f → f = envDecl i) ∧
    (fresh.createCalls [(.sha3, []), (.create, []), (.sha3, [])]).m_module.functions =
      [envDecl .sha3, envDecl .create] ∧
    ((fresh.createCalls [(.sha3, []), (.create, []), (.sha3, [])]).m_module.functions.map
      Function.name) = ["env_sha3", "env_create"] ∧
    (∀ id, id ∈ [EnvFunc.sha3, EnvFunc.create, EnvFunc.sha3] →
      (fresh.createCalls [(.sha3, []), (.create, []), (.sha3, [])]).m_funcs id =
        some (envDecl id)) :=
  ⟨fun _ _ h => (by cases h), rfl, rfl,
    (resolve_idempotent false fresh (fun _ _ h => (by cases h))
      [(.sha3, []), (.create, []), (.sha3, [])]).2.2.1⟩

theorem bstep_refl (b : IRBuilder) : BStep b b :=
  ⟨Nat.le_refl _, [], by simp, by simp⟩

theorem bstep_trans {b b1 b2 : IRBuilder} (h1 : BStep b b1) (h2 : BStep b1 b2) : BStep b b2 := by
  obtain ⟨n1, l1, hl1, hp1⟩ := h1
  obtain ⟨n2, l2, hl2, hp2⟩ := h2
  refine ⟨Nat.le_trans n1 n2, l1 ++ l2, by rw [hl2, hl1, List.append_assoc], ?_⟩
  intro x hx
  rcases List.mem_append.1 hx with h | h
  · exact hp1 x h
  · exact hp2 x h

theorem bstep_insert (b : IRBuilder) (mk : Nat → Instr)
    (h : (mk b.nextId).isTopicsAlloca = false) : BStep b (b.Insert mk) := by
  refine ⟨Nat.le_succ _, [⟨b.insertPt, mk b.nextId⟩], rfl, ?_⟩
  intro x hx
  rw [List.mem_singleton.1 hx]
  exact h

theorem bstep_insertV (b : IRBuilder) (mk : Nat → Value)
    (h : (Instr.val (mk b.nextId)).isTopicsAlloca = false) : BStep b (b.InsertV mk).2 :=
  bstep_insert b _ h

theorem bstep_cast (b : IRBuilder) (mk : Nat → Value) (v : Value) (ty : Ty)
    (h : (Instr.val (mk b.nextId)).isTopicsAlloca = false) : BStep b (b.CreateCast mk v ty).2 := by
  unfold IRBuilder.CreateCast
  split_ifs
  · exact bstep_refl b
  · exact bstep_insertV b mk h

theorem bstep_call (b : IRBuilder) (f : Function) (args : List Value) :
    BStep b (b.CreateCall f args).2 :=
  bstep_insert b _ rfl

theorem bstep_setInsertPoint (b : IRBuilder) (pt : InsertPoint) : BStep b (b.SetInsertPoint pt) :=
  ⟨Nat.le_refl _, [], by simp [IRBuilder.SetInsertPoint], by simp⟩

theorem bstep_store (b : IRBuilder) (v p : Value) : BStep b (b.CreateStore v p) :=
  bstep_insert b _ rfl

theorem bstep_memcpy (b : IRBuilder) (d s n : Value) (a : Nat) :
    BStep b (b.CreateMemCpy d s n a) :=
  bstep_insert b _ rfl

theorem bstep_memset (b : IRBuilder) (d s n : Value) (a : Nat) :
    BStep b (b.CreateMemSet d s n a) :=
  bstep_insert b _ rfl

theorem bstep_bitcast (b : IRBuilder) (v : Value) (ty : Ty) : BStep b (b.CreateBitCast v ty).2 :=
  bstep_cast b _ v ty rfl

theorem bstep_trunc (b : IRBuilder) (v : Value) (ty : Ty) : BStep b (b.CreateTrunc v ty).2 :=
  bstep_cast b _ v ty rfl

theorem bstep_zext (b : IRBuilder) (v : Value) (ty : Ty) : BStep b (b.CreateZExt v ty).2 :=
  bstep_cast b _ v ty rfl

theorem bstep_icmpULT (b : IRBuilder) (x y : Value) : BStep b (b.CreateICmpULT x y).2 :=
  bstep_insertV b _ rfl

theorem bstep_icmpULE (b : IRBuilder) (x y : Value) : BStep b (b.CreateICmpULE x y).2 :=
  bstep_insertV b _ rfl

theorem bstep_select (b : IRBuilder) (c x y : Value) : BStep b (b.CreateSelect c x y).2 :=
  bstep_insertV b _ rfl

theorem bstep_nuwAdd (b : IRBuilder) (x y : Value) : BStep b (b.CreateNUWAdd x y).2 :=
  bstep_insertV b _ rfl

theorem bstep_nuwSub (b : IRBuilder) (x y : Value) : BStep b (b.CreateNUWSub x y).2 :=
  bstep_insertV b _ rfl

theorem bstep_and (b : IRBuilder) (x y : Value) : BStep b (b.CreateAnd x y).2 :=
  bstep_insertV b _ rfl

theorem bstep_gep (b : IRBuilder) (ty : Ty) (x y : Value) : BStep b (b.CreateGEP ty x y).2 :=
  bstep_insertV b _ rfl

theorem bstep_constGEP1 (b : IRBuilder) (x : Value) (i : Nat) :
    BStep b (b.CreateConstGEP1_32 x i).2 :=
  bstep_insertV b _ rfl

theorem bstep_constGEP2 (b : IRBuilder) (ty : Ty) (x : Value) (i j : Nat) :
    BStep b (b.CreateConstGEP2_32 ty x i j).2 :=
  bstep_insertV b _ rfl

theorem bstep_load (b : IRBuilder) (p : Value) : BStep b (b.CreateLoad p).2 :=
  bstep_insertV b _ rfl

theorem bstep_extractValue (b : IRBuilder) (x : Value) (i : Nat) :
    BStep b (b.CreateExtractValue x i).2 :=
  bstep_insertV b _ rfl

theorem bstep_insertValue (b : IRBuilder) (x y : Value) (i : Nat) :
    BStep b (b.CreateInsertValue x y i).2 :=
  bstep_insertV b _ rfl

theorem bstep_toBE (b : IRBuilder) (v : Value) : BStep b (Endianness.toBE b v).2 :=
  bstep_insertV b _ rfl

theorem bstep_toNative (b : IRBuilder) (v : Value) : BStep b (Endianness.toNative b v).2 :=
  bstep_insertV b _ rfl

theorem prim_build {msc t : Bool} {e0 e : Ext} (f : IRBuilder → Value × IRBuilder)
    (h : Prim msc t e0 e) (hf : BStep e.m_builder (f e.m_builder).2) :
    Prim msc t e0 (e.build f).2 :=
  Prim.trans t e0 e _ h (Prim.builder t e _ hf)

theorem prim_emit {msc t : Bool} {e0 e : Ext} (f : IRBuilder → IRBuilder)
    (h : Prim msc t e0 e) (hf : BStep e.m_builder (f e.m_builder)) :
    Prim msc t e0 (e.emit f) :=
  Prim.trans t e0 e _ h (Prim.builder t e _ hf)

theorem prim_resolveQuery {msc t : Bool} {e0 e : Ext} (h : Prim msc t e0 e) :
    Prim msc t e0 (e.resolve getQueryFunc).2 :=
  Prim.trans t e0 e _ h (Prim.resolveQuery t e)

theorem prim_resolveUpdate {msc t : Bool} {e0 e : Ext} (h : Prim msc t e0 e) :
    Prim msc t e0 (e.resolve getUpdateFunc).2 :=
  Prim.trans t e0 e _ h (Prim.resolveUpdate t e)

theorem prim_resolveCall {msc t : Bool} {e0 e : Ext} (h : Prim msc t e0 e) :
    Prim msc t e0 (e.resolve (getCallFunc msc)).2 :=
  Prim.trans t e0 e _ h (Prim.resolveCall t e)

theorem prim_acquire {msc t : Bool} {e0 e : Ext} (h : Prim msc t e0 e) :
    Prim msc t e0 (e.getArgAlloca).2 :=
  Prim.trans t e0 e _ h (Prim.acquire t e)

theorem prim_reset {msc t : Bool} {e0 e : Ext} (h : Prim msc t e0 e) :
    Prim msc t e0 { e with m_argCounter := 0 } :=
  Prim.trans t e0 e _ h (Prim.reset t e)

theorem prim_byPtr {msc t : Bool} {e0 e : Ext} (v : Value) (h : Prim msc t e0 e) :
    Prim msc t e0 (e.byPtr v).2 :=
  prim_emit (·.CreateStore v (e.getArgAlloca).1) (prim_acquire h) (bstep_store _ _ _)

theorem prim_byValArg {msc t : Bool} {e0 : Ext} (f : Function) (st : List Value × Ext)
    (i : Nat) (h : Prim msc t e0 st.2) : Prim msc t e0 (byValArg f st i).2 := by
  unfold byValArg
  split_ifs
  · split
    · split_ifs
      · simp only []
        apply prim_emit
        · apply prim_build
          · exact prim_acquire h
          · exact bstep_bitcast _ _ _
        · exact bstep_store _ _ _
      · exact h
    · exact h
  · exact h

theorem prim_foldl_byValArg {msc t : Bool} {e0 : Ext} (f : Function) (l : List Nat)
    (st : List Value × Ext) (h : Prim msc t e0 st.2) :
    Prim msc t e0 (l.foldl (byValArg f) st).2 := by
  induction l generalizing st with
  | nil => exact h
  | cons i l ih => exact ih _ (prim_byValArg f st i h)

theorem prim_createCABICall {msc t : Bool} {e0 e : Ext} (f : Function) (args : List Value)
    (d : Bool) (h : Prim msc t e0 e) : Prim msc t e0 (e.createCABICall f args d).2 := by
  unfold createCABICall
  simp only []
  have key : ∀ st0 : List Value × Ext, Prim msc t e0 st0.2 →
      Prim msc t e0 (Ext.build { ((List.range f.params.length).foldl (byValArg f) st0).2 with
        m_argCounter := 0 } (·.CreateCall f
          ((List.range f.params.length).foldl (byValArg f) st0).1)).2 :=
    fun st0 h0 => prim_build _ (prim_reset (prim_foldl_byValArg f _ st0 h0)) (bstep_call _ _ _)
  split_ifs
  · exact prim_build _ (key _ (prim_acquire h)) (bstep_load _ _)
  · exact key _ (prim_acquire h)
  · exact key _ h

theorem prim_createCall {msc t : Bool} {e0 e : Ext} (id : EnvFunc) (args : List Value)
    (h : Prim msc t e0 e) : Prim msc t e0 (e.createCall id args).2 := by
  unfold createCall
  simp only []
  split
  · exact prim_build _ (prim_reset h) (bstep_call _ _ _)
  · exact prim_build _ (prim_reset (Prim.trans t e0 e _ h (Prim.cache t e id)))
      (bstep_call _ _ _)

theorem prim_storeTopics {msc t : Bool} {e0 : Ext} (tb : Value) (ts : List Value) (i : Nat)
    (e : Ext) (h : Prim msc t e0 e) : Prim msc t e0 (storeTopics e tb i ts) := by
  induction ts generalizing e i with
  | nil => exact h
  | cons a l ih =>
    apply ih
    apply prim_emit
    · apply prim_build
      · apply prim_build
        · exact h
        · exact bstep_toBE _ _
      · exact bstep_constGEP1 _ _ _
    · exact bstep_store _ _ _

theorem Prim.weaken {msc : Bool} {e e1 : Ext} (h : Prim msc false e e1) : Prim msc true e e1 := by
  generalize ht : false = t at h
  induction h with
  | refl t e => exact Prim.refl _ _
  | builder t e b1 h => exact Prim.builder _ _ _ h
  | resolveQuery t e => exact Prim.resolveQuery _ _
  | resolveUpdate t e => exact Prim.resolveUpdate _ _
  | resolveCall t e => exact Prim.resolveCall _ _
  | cache t e id => exact Prim.cache _ _ _
  | acquire t e => exact Prim.acquire _ _
  | reset t e => exact Prim.reset _ _
  | topics e => exact Prim.topics _
  | trans t e e1 e2 _ _ ih1 ih2 => exact Prim.trans _ _ _ _ (ih1 ht) (ih2 ht)

/-- The part of `log` after the topics buffer is obtained. -/
theorem log_prim (msc : Bool) (e : Ext) (m n : Value) (ts : List Value) :
    Prim msc false (e.topicsBuffer).2 (e.log m n ts) := by
  simp only [log]
  apply prim_createCABICall
  apply prim_emit _ _ (bstep_store _ _ _)
  apply prim_build _ _ (bstep_constGEP2 _ _ _ _ _)
  apply prim_emit _ _ (bstep_store _ _ _)
  apply prim_build _ _ (bstep_bitcast _ _ _)
  apply prim_build _ _ (bstep_constGEP2 _ _ _ _ _)
  apply prim_build _ _ (bstep_bitcast _ _ _)
  apply prim_acquire
  apply prim_emit _ _ (bstep_store _ _ _)
  apply prim_build _ _ (bstep_constGEP2 _ _ _ _ _)
  apply prim_emit _ _ (bstep_store _ _ _)
  apply prim_build _ _ (bstep_constGEP2 _ _ _ _ _)
  apply prim_build _ _ (bstep_bitcast _ _ _)
  apply prim_acquire
  apply prim_resolveUpdate
  apply prim_storeTopics
  apply prim_build _ _ (bstep_trunc _ _ _)
  exact Prim.refl _ _

/-- Every operation builder other than `log` is composed of the state changes of `Prim` without
the topics buffer. -/
theorem step_prim (msc : Bool) (e : Ext) (op : Op) (hlog : ∀ m n ts, op ≠ .log m n ts) :
    Prim msc false e (e.step msc op) := by
  cases op with
  | sload i =>
    simp only [step, sload]
    exact prim_createCABICall _ _ _ (prim_resolveQuery (Prim.refl _ _))
  | sstore i v =>
    simp only [step, sstore]
    exact prim_createCABICall _ _ _ (prim_resolveUpdate (Prim.refl _ _))
  | selfdestruct b =>
    simp only [step, selfdestruct]
    apply prim_createCABICall
    apply prim_build _ _ (bstep_toBE _ _)
    exact prim_resolveUpdate (Prim.refl _ _)
  | calldataload i =>
    simp only [step, calldataload]
    apply prim_build _ _ (bstep_toNative _ _)
    apply prim_build _ _ (bstep_load _ _)
    apply prim_reset
    apply prim_emit _ _ (bstep_memset _ _ _ _ _)
    apply prim_build _ _ (bstep_gep _ _ _ _)
    apply prim_emit _ _ (bstep_memcpy _ _ _ _ _)
    apply prim_build _ _ (bstep_gep _ _ _ _)
    apply prim_build _ _ (bstep_nuwSub _ _ _)
    apply prim_build _ _ (bstep_nuwSub _ _ _)
    apply prim_build _ _ (bstep_select _ _ _ _)
    apply prim_build _ _ (bstep_icmpULE _ _ _)
    apply prim_build _ _ (bstep_nuwAdd _ _ _)
    apply prim_build _ _ (bstep_trunc _ _ _)
    apply prim_build _ _ (bstep_select _ _ _ _)
    apply prim_build _ _ (bstep_icmpULT _ _ _)
    apply prim_build _ _ (bstep_trunc _ _ _)
    apply prim_build _ _ (bstep_bitcast _ _ _)
    exact prim_acquire (Prim.refl _ _)
  | query k =>
    have hq : Prim msc false e ((e.resolve getQueryFunc).2.createCABICall
        (e.resolve getQueryFunc).1
        [RuntimeManager.getEnvPtr, IRBuilder.getInt32 k.code, Value.undef Ty.WordPtr]
        derefDefault).2 :=
      prim_createCABICall _ _ _ (prim_resolveQuery (Prim.refl _ _))
    cases k <;> simp only [step, query] <;>
      first
        | exact hq
        | exact prim_build _ hq (bstep_and _ _ _)
        | exact prim_build _ (prim_build _ hq (bstep_toNative _ _)) (bstep_and _ _ _)
  | balance a =>
    simp only [step, balance]
    apply prim_createCABICall
    apply prim_build _ _ (bstep_toBE _ _)
    exact prim_resolveQuery (Prim.refl _ _)
  | blockHash n =>
    simp only [step, blockHash]
    apply prim_build _ _ (bstep_toNative _ _)
    exact prim_createCABICall _ _ _ (prim_resolveQuery (Prim.refl _ _))
  | create v o n =>
    simp only [step, create]
    apply prim_build _ _ (bstep_toNative _ _)
    apply prim_build _ _ (bstep_load _ _)
    apply prim_createCall
    apply prim_byPtr
    apply prim_build _ _ (bstep_trunc _ _ _)
    exact prim_acquire (Prim.refl _ _)
  | sha3 o n =>
    simp only [step, sha3]
    apply prim_build _ _ (bstep_toNative _ _)
    apply prim_build _ _ (bstep_load _ _)
    apply prim_createCall
    apply prim_acquire
    apply prim_build _ _ (bstep_trunc _ _ _)
    exact Prim.refl _ _
  | extcode a =>
    simp only [step, extcode]
    apply prim_build _ _ (bstep_zext _ _ _)
    apply prim_build _ _ (bstep_extractValue _ _ _)
    apply prim_build _ _ (bstep_extractValue _ _ _)
    apply prim_build _ _ (bstep_load _ _)
    apply prim_build _ _ (bstep_bitcast _ _ _)
    apply prim_createCABICall
    apply prim_build _ _ (bstep_toBE _ _)
    exact prim_resolveQuery (Prim.refl _ _)
  | log m n ts => exact absurd rfl (hlog m n ts)
  | call k g a v io is oo os =>
    simp only [step, call]
    apply prim_createCABICall
    apply prim_resolveCall
    apply prim_build _ _ (bstep_insertValue _ _ _ _)
    apply prim_build _ _ (bstep_insertValue _ _ _ _)
    apply prim_build _ _ (bstep_trunc _ _ _)
    apply prim_build _ _ (bstep_trunc _ _ _)
    apply prim_build _ _ (bstep_toBE _ _)
    apply prim_build _ _ (bstep_trunc _ _ _)
    apply prim_build _ _ (bstep_trunc _ _ _)
    exact Prim.refl _ _
  | setInsertPoint pt =>
    exact prim_emit (·.SetInsertPoint pt) (Prim.refl _ _) (bstep_setInsertPoint _ _)

/-- Every operation builder is composed of the state changes of `Prim`. -/
theorem step_prim_all (msc : Bool) (e : Ext) (op : Op) : Prim msc true e (e.step msc op) := by
  by_cases h : ∃ m n ts, op = .log m n ts
  · obtain ⟨m, n, ts, rfl⟩ := h
    exact Prim.trans _ _ _ _ (Prim.topics e) (log_prim msc e m n ts).weaken
  · exact (step_prim msc e op (fun m n ts hop => h ⟨m, n, ts, hop⟩)).weaken

theorem steps_prim_all (msc : Bool) (ops : List Op) (e : Ext) :
    Prim msc true e (e.steps msc ops) := by
  induction ops generalizing e with
  | nil => exact Prim.refl _ _
  | cons op ops ih => exact Prim.trans _ _ _ _ (step_prim_all msc e op) (ih _)

theorem getArgAlloca_bstep (e : Ext) : BStep e.m_builder (e.getArgAlloca).2.m_builder := by
  cases hc : e.m_argAllocas e.m_argCounter with
  | some a =>
    rw [(getArgAlloca_some e a hc).2.2]
    exact bstep_refl _
  | none =>
    unfold getArgAlloca
    rw [hc]
    refine ⟨Nat.le_succ _, [⟨⟨0, e.m_builder.entryBegin⟩,
      .val (.alloca e.m_builder.nextId Ty.Word 1 ("a." ++ toString e.m_argCounter))⟩], rfl, ?_⟩
    intro x hx
    rw [List.mem_singleton.1 hx]
    rfl

theorem getArgAlloca_wf (e : Ext) (hwf : e.WF) : (e.getArgAlloca).2.WF := by
  have ht := getArgAlloca_topics e
  have hn := (getArgAlloca_bstep e).1
  cases hc : e.m_argAllocas e.m_argCounter with
  | some a =>
    obtain ⟨_, h2, h3⟩ := getArgAlloca_some e _ hc
    exact hwf.mono h2 ht hn
  | none =>
    obtain ⟨h1, h2, _⟩ := getArgAlloca_none e hc
    have hid : (e.getArgAlloca).2.m_builder.nextId = e.m_builder.nextId + 1 := by
      unfold getArgAlloca; rw [hc]; rfl
    have hpool : ∀ i, (e.getArgAlloca).2.m_argAllocas i =
        if i = e.m_argCounter then
          some (.alloca e.m_builder.nextId Ty.Word 1 ("a." ++ toString e.m_argCounter))
        else e.m_argAllocas i := by
      intro i; rw [h2, h1]
    refine ⟨?_, ?_, ?_⟩
    · intro i a hi
      rw [hpool] at hi
      rw [hid]
      by_cases hic : i = e.m_argCounter
      · simp only [hic, if_true, Option.some.injEq] at hi
        exact ⟨_, _, hi.symm, Nat.lt_succ_self _⟩
      · simp only [hic, if_false] at hi
        obtain ⟨id, nm, ha, hlt⟩ := hwf.slots i a hi
        exact ⟨id, nm, ha, Nat.lt_succ_of_lt hlt⟩
    · intro i j id ni nj hi hj
      rw [hpool] at hi hj
      by_cases hic : i = e.m_argCounter <;> by_cases hjc : j = e.m_argCounter
      · rw [hic, hjc]
      · simp only [hic, if_true, Option.some.injEq, Value.alloca.injEq] at hi
        simp only [hjc, if_false] at hj
        obtain ⟨id2, nm, ha, hlt⟩ := hwf.slots j _ hj
        simp only [Value.alloca.injEq] at ha
        omega
      · simp only [hjc, if_true, Option.some.injEq, Value.alloca.injEq] at hj
        simp only [hic, if_false] at hi
        obtain ⟨id2, nm, ha, hlt⟩ := hwf.slots i _ hi
        simp only [Value.alloca.injEq] at ha
        omega
      · simp only [hic, if_false] at hi
        simp only [hjc, if_false] at hj
        exact hwf.distinct i j id ni nj hi hj
    · intro t htt
      rw [ht] at htt
      obtain ⟨id, hte, hlt, hne⟩ := hwf.topics t htt
      refine ⟨id, hte, by omega, ?_⟩
      intro i nm hi
      rw [hpool] at hi
      by_cases hic : i = e.m_argCounter
      · simp only [hic, if_true, Option.some.injEq, Value.alloca.injEq] at hi
        omega
      · simp only [hic, if_false] at hi
        exact hne i nm hi

theorem topicsBuffer_wf (e : Ext) (hwf : e.WF) : (e.topicsBuffer).2.WF := by
  cases ht : e.m_topics with
  | some t =>
    have h1 : e.topicsBuffer = (t, e) := by unfold topicsBuffer; rw [ht]
    rw [h1]
    exact hwf
  | none =>
    have h1 : e.topicsBuffer = (.alloca e.m_builder.nextId Ty.Word 4 "topics",
        { e with
          m_builder := ⟨e.m_builder.log ++ [⟨⟨0, e.m_builder.entryBegin⟩,
            .val (.alloca e.m_builder.nextId Ty.Word 4 "topics")⟩],
            e.m_builder.insertPt, e.m_builder.nextId + 1⟩
          m_topics := some (.alloca e.m_builder.nextId Ty.Word 4 "topics") }) := by
      unfold topicsBuffer; rw [ht]; rfl
    rw [h1]
    refine ⟨?_, hwf.distinct, ?_⟩
    · intro i a hi
      obtain ⟨id, nm, ha, hid⟩ := hwf.slots i a hi
      exact ⟨id, nm, ha, Nat.lt_succ_of_lt hid⟩
    · intro t htt
      simp only [Option.some.injEq] at htt
      refine ⟨e.m_builder.nextId, htt.symm, Nat.lt_succ_self _, ?_⟩
      intro i nm hi
      obtain ⟨id, nm2, ha, hid⟩ := hwf.slots i _ hi
      simp only [Value.alloca.injEq] at ha
      omega

/-- The state changes of `Prim` keep the slots well formed. -/
theorem Prim.wf {msc t : Bool} {e e1 : Ext} (h : Prim msc t e e1) (hwf : e.WF) : e1.WF := by
  induction h with
  | refl t e => exact hwf
  | builder t e b1 h => exact hwf.mono rfl rfl h.1
  | resolveQuery t e => exact hwf.mono rfl rfl (Nat.le_refl _)
  | resolveUpdate t e => exact hwf.mono rfl rfl (Nat.le_refl _)
  | resolveCall t e => exact hwf.mono rfl rfl (Nat.le_refl _)
  | cache t e id => exact hwf.mono rfl rfl (Nat.le_refl _)
  | acquire t e => exact getArgAlloca_wf e hwf
  | reset t e => exact hwf.mono rfl rfl (Nat.le_refl _)
  | topics e => exact topicsBuffer_wf e hwf
  | trans t e e1 e2 _ _ ih1 ih2 => exact ih2 (ih1 hwf)

/-- Without the topics buffer step, the state changes of `Prim` keep the topics buffer and
insert no allocation of four elements. -/
theorem Prim.keepsTopics {msc : Bool} {e e1 : Ext} (h : Prim msc false e e1) :
    e1.m_topics = e.m_topics ∧ BStep e.m_builder e1.m_builder := by
  generalize ht : false = t at h
  induction h with
  | refl t e => exact ⟨rfl, bstep_refl _⟩
  | builder t e b1 h => exact ⟨rfl, h⟩
  | resolveQuery t e => exact ⟨rfl, bstep_refl _⟩
  | resolveUpdate t e => exact ⟨rfl, bstep_refl _⟩
  | resolveCall t e => exact ⟨rfl, bstep_refl _⟩
  | cache t e id => exact ⟨rfl, bstep_refl _⟩
  | acquire t e => exact ⟨getArgAlloca_topics e, getArgAlloca_bstep e⟩
  | reset t e => exact ⟨rfl, bstep_refl _⟩
  | topics e => cases ht
  | trans t e e1 e2 _ _ ih1 ih2 =>
    obtain ⟨a1, b1⟩ := ih1 ht
    obtain ⟨a2, b2⟩ := ih2 ht
    exact ⟨a2.trans a1, bstep_trans b1 b2⟩

theorem steps_wf (msc : Bool) (ops : List Op) (e : Ext) (hwf : e.WF) : (e.steps msc ops).WF :=
  (steps_prim_all msc ops e).wf hwf

theorem new_wf (b : IRBuilder) (m : Module) : (new b m).WF :=
  ⟨fun _ _ h => (by cases h), fun _ _ _ _ _ h => (by cases h), fun _ h => (by cases h)⟩

theorem topicsAllocas_bstep {b b1 : IRBuilder} (h : BStep b b1) :
    topicsAllocas b1 = topicsAllocas b := by
  obtain ⟨_, l, hl, hp⟩ := h
  unfold topicsAllocas
  rw [hl, List.filter_append]
  have : l.filter (fun x => x.instr.isTopicsAlloca) = [] := by
    rw [List.filter_eq_nil_iff]
    intro x hx
    simp [hp x hx]
  rw [this, List.append_nil]

theorem topicsBuffer_some (e : Ext) (t : Value) (h : e.m_topics = some t) :
    e.topicsBuffer = (t, e) := by
  unfold topicsBuffer
  rw [h]

theorem topicsBuffer_none (e : Ext) (h : e.m_topics = none) :
    (e.topicsBuffer).1 = .alloca e.m_builder.nextId Ty.Word 4 "topics" ∧
    (e.topicsBuffer).2.m_topics = some (.alloca e.m_builder.nextId Ty.Word 4 "topics") ∧
    (e.topicsBuffer).2.m_builder.log = e.m_builder.log ++
      [⟨⟨0, e.m_builder.entryBegin⟩, .val (.alloca e.m_builder.nextId Ty.Word 4 "topics")⟩] ∧
    (e.topicsBuffer).2.m_builder.insertPt = e.m_builder.insertPt := by
  unfold topicsBuffer
  rw [h]
  exact ⟨rfl, rfl, rfl, rfl⟩

/-- A builder invoked on an object that holds a topics buffer, or a builder other than `log`:
the topics buffer stays and no allocation of four elements is inserted. -/
theorem step_keepsTopics (msc : Bool) (e : Ext) (op : Op)
    (h : (∃ t, e.m_topics = some t) ∨ ∀ m n ts, op ≠ .log m n ts) :
    (e.step msc op).m_topics = e.m_topics ∧ BStep e.m_builder (e.step msc op).m_builder := by
  by_cases hl : ∃ m n ts, op = .log m n ts
  · obtain ⟨m, n, ts, rfl⟩ := hl
    rcases h with ⟨t, ht⟩ | h
    · have hp := log_prim msc e m n ts
      rw [topicsBuffer_some e t ht] at hp
      exact hp.keepsTopics
    · exact absurd rfl (h m n ts)
  · exact (step_prim msc e op (fun m n ts hop => hl ⟨m, n, ts, hop⟩)).keepsTopics

theorem steps_keepsTopics (msc : Bool) (ops : List Op) (e : Ext)
    (h : (∃ t, e.m_topics = some t) ∨ ∀ op ∈ ops, ∀ m n ts, op ≠ .log m n ts) :
    (e.steps msc ops).m_topics = e.m_topics ∧ BStep e.m_builder (e.steps msc ops).m_builder := by
  induction ops generalizing e with
  | nil => exact ⟨rfl, bstep_refl _⟩
  | cons op ops ih =>
    have h1 : (∃ t, e.m_topics = some t) ∨ ∀ m n ts, op ≠ .log m n ts := by
      rcases h with h | h
      · exact Or.inl h
      · exact Or.inr (h op (List.mem_cons_self _ _))
    obtain ⟨a1, b1⟩ := step_keepsTopics msc e op h1
    have h2 : (∃ t, (e.step msc op).m_topics = some t) ∨
        ∀ o ∈ ops, ∀ m n ts, o ≠ .log m n ts := by
      rcases h with ⟨t, ht⟩ | h
      · exact Or.inl ⟨t, by rw [a1]; exact ht⟩
      · exact Or.inr (fun o ho => h o (List.mem_cons_of_mem _ ho))
    obtain ⟨a2, b2⟩ := ih (e.step msc op) h2
    exact ⟨a2.trans a1, bstep_trans b1 b2⟩

theorem steps_append (msc : Bool) (e : Ext) (l1 l2 : List Op) :
    e.steps msc (l1 ++ l2) = (e.steps msc l1).steps msc l2 := by
  simp [steps, List.foldl_append]

/-- C16. The topics buffer is allocated at most once. On an object without topics buffer, for
every sequence of builder invocations (which may move the insertion point): as long as no `log`
is invoked there is no buffer and no allocation of four elements is inserted; the first `log`
inserts the allocation of the four-word buffer `topics` at the place before the first instruction
of the entry block (at the head of the block when its first instruction is numbered or it is
empty), restores the insertion point, and inserts no other allocation of four elements; every
later invocation, `log` included, keeps that buffer as the topics buffer of the object and
inserts no allocation of four elements, so that exactly one has been inserted; and `log` on an
object that holds a buffer takes that buffer and inserts nothing for it. -/
theorem topics_buffer_once (msc : Bool) (e : Ext) (hnone : e.m_topics = none) :
    (∀ ops, (∀ op ∈ ops, ∀ m n ts, op ≠ .log m n ts) →
      (e.steps msc ops).m_topics = none ∧
      topicsAllocas (e.steps msc ops).m_builder = topicsAllocas e.m_builder) ∧
    (∀ pre m n ts post, (∀ op ∈ pre, ∀ m n ts, op ≠ .log m n ts) →
      (∃ l, ((e.steps msc pre).log m n ts).m_builder.log = (e.steps msc pre).m_builder.log ++
          ⟨⟨0, (e.steps msc pre).m_builder.entryBegin⟩,
            .val (.alloca (e.steps msc pre).m_builder.nextId Ty.Word 4 "topics")⟩ :: l ∧
        ∀ x ∈ l, x.instr.isTopicsAlloca = false) ∧
      ((e.steps msc pre).topicsBuffer).2.m_builder.insertPt =
        (e.steps msc pre).m_builder.insertPt ∧
      ((∀ x ∈ ((e.steps msc pre).m_builder.layout 0).head?, x.id?.isSome = true) →
        ((e.steps msc pre).topicsBuffer).2.m_builder.layout 0 =
          .val (.alloca (e.steps msc pre).m_builder.nextId Ty.Word 4 "topics") ::
            (e.steps msc pre).m_builder.layout 0) ∧
      (e.steps msc (pre ++ .log m n ts :: post)).m_topics =
        some (.alloca (e.steps msc pre).m_builder.nextId Ty.Word 4 "topics") ∧
      topicsAllocas (e.steps msc (pre ++ .log m n ts :: post)).m_builder =
        topicsAllocas e.m_builder + 1 ∧
      BStep ((e.steps msc pre).log m n ts).m_builder
        (e.steps msc (pre ++ .log m n ts :: post)).m_builder) ∧
    (∀ (s : Ext) (t : Value), s.m_topics = some t → s.topicsBuffer = (t, s)) := by
  refine ⟨?_, ?_, topicsBuffer_some⟩
  · intro ops hops
    obtain ⟨h1, h2⟩ := steps_keepsTopics msc ops e (Or.inr hops)
    exact ⟨by rw [h1, hnone], topicsAllocas_bstep h2⟩
  · intro pre m n ts post hpre
    obtain ⟨h1, h2⟩ := steps_keepsTopics msc pre e (Or.inr hpre)
    obtain ⟨e0, he0⟩ : ∃ e0, e0 = e.steps msc pre := ⟨_, rfl⟩
    rw [← he0] at h1 h2 ⊢
    have hn0 : e0.m_topics = none := by rw [h1, hnone]
    obtain ⟨_, t2, t3, t4⟩ := topicsBuffer_none e0 hn0
    obtain ⟨k1, k2⟩ := (log_prim msc e0 m n ts).keepsTopics
    obtain ⟨_, l, hl, hp⟩ := k2
    have hlog : (e0.log m n ts).m_builder.log = e0.m_builder.log ++
        ⟨⟨0, e0.m_builder.entryBegin⟩,
          .val (.alloca e0.m_builder.nextId Ty.Word 4 "topics")⟩ :: l := by
      rw [hl, t3, List.append_assoc]
      rfl
    have hlt : (e0.log m n ts).m_topics =
        some (.alloca e0.m_builder.nextId Ty.Word 4 "topics") := by rw [k1, t2]
    have hsplit : e.steps msc (pre ++ .log m n ts :: post) =
        (e0.log m n ts).steps msc post := by
      rw [steps_append, ← he0]
      rfl
    obtain ⟨p1, p2⟩ := steps_keepsTopics msc post (e0.log m n ts) (Or.inl ⟨_, hlt⟩)
    have hcount : topicsAllocas (e0.log m n ts).m_builder = topicsAllocas e0.m_builder + 1 := by
      unfold topicsAllocas
      rw [hlog, List.filter_append, List.filter_cons]
      have : l.filter (fun x => x.instr.isTopicsAlloca) = [] := by
        rw [List.filter_eq_nil_iff]
        intro x hx
        simp [hp x hx]
      rw [this]
      simp [Instr.isTopicsAlloca]
    refine ⟨⟨l, hlog, hp⟩, t4, ?_, ?_, ?_, ?_⟩
    · intro hhead
      rw [layout_snoc e0.m_builder (e0.topicsBuffer).2.m_builder _ t3]
      exact place_entryBegin e0.m_builder.layout _ hhead
    · rw [hsplit, p1, hlt]
    · rw [hsplit, topicsAllocas_bstep p2, hcount, topicsAllocas_bstep h2]
    · rw [hsplit]
      exact p2

/-- C16, at an instance: on the fresh object, two log emissions at different insertion points
leave one allocation of four elements, the buffer made by the first, which stands at the head of
the entry block right after it is made. -/
theorem topics_buffer_once_witness :
    fresh.m_topics = none ∧
    (fresh.steps false [.setInsertPoint ⟨3, none⟩,
      .log (.arg "m" Ty.Word) (.arg "n" Ty.Word) [.arg "t" Ty.Word],
      .setInsertPoint ⟨7, none⟩,
      .log (.arg "m" Ty.Word) (.arg "n" Ty.Word) []]).m_topics =
        some (.alloca 1 Ty.Word 4 "topics") ∧
    topicsAllocas (fresh.steps false [.setInsertPoint ⟨3, none⟩,
      .log (.arg "m" Ty.Word) (.arg "n" Ty.Word) [.arg "t" Ty.Word],
      .setInsertPoint ⟨7, none⟩,
      .log (.arg "m" Ty.Word) (.arg "n" Ty.Word) []]).m_builder = 1 ∧
    ((fresh.steps false [.setInsertPoint ⟨3, none⟩]).topicsBuffer).2.m_builder.layout 0 =
      [.val (.alloca 1 Ty.Word 4 "topics"), .val (.alloca 0 Ty.Size 1 "env.size")] ∧
    ((fresh.steps false [.setInsertPoint ⟨3, none⟩]).topicsBuffer).2.m_builder.insertPt =
      ⟨3, none⟩ := by
  obtain ⟨_, h, _⟩ := topics_buffer_once false fresh rfl
  obtain ⟨_, hpt, hhead, htop, hcount, _⟩ := h [.setInsertPoint ⟨3, none⟩]
    (.arg "m" Ty.Word) (.arg "n" Ty.Word) [.arg "t" Ty.Word]
    [.setInsertPoint ⟨7, none⟩, .log (.arg "m" Ty.Word) (.arg "n" Ty.Word) []]
    (by intro op hop; simp at hop; subst hop; intro m n ts hc; cases hc)
  exact ⟨rfl, htop, hcount, hhead (by decide), hpt⟩

theorem getFunction_add_other (m : Module) (f : Function) (name : String) (h : f.name ≠ name) :
    (m.add f).getFunction name = m.getFunction name := by
  unfold Module.getFunction
  simp [Module.add, List.find?_append, h]

theorem resolve_call (msc : Bool) (e : Ext) (h : e.CallDeclOK msc) :
    (e.resolve (getCallFunc msc)).1 = callFunc msc := by
  unfold resolve
  cases hf : e.m_module.getFunction "evm.call" with
  | some f => rw [getCallFunc_present msc _ f hf]; exact h f hf
  | none => rw [getCallFunc_absent msc _ hf]

theorem callFunc_name (msc : Bool) : (callFunc msc).name = "evm.call" := by
  cases msc <;> rfl

/-- Adding a declaration under another name keeps the declarations of the generic entry
points. -/
theorem decls_add (msc : Bool) (e e1 : Ext) (f : Function)
    (hm : e1.m_module = e.m_module.add f)
    (hq : f.name = "evm.query" → f = queryFunc ∧ e.m_module.getFunction "evm.query" = none)
    (hu : f.name = "evm.update" → f = updateFunc ∧ e.m_module.getFunction "evm.update" = none)
    (hc : f.name = "evm.call" → f = callFunc msc ∧ e.m_module.getFunction "evm.call" = none)
    (h : e.DeclsOK ∧ e.CallDeclOK msc) : e1.DeclsOK ∧ e1.CallDeclOK msc := by
  obtain ⟨hd, hcd⟩ := h
  have key : ∀ (name : String) (g : Function),
      (f.name = name → f = g ∧ e.m_module.getFunction name = none) →
      (∀ x, e.m_module.getFunction name = some x → x = g) →
      ∀ x, e1.m_module.getFunction name = some x → x = g := by
    intro name g hf hold x hx
    rw [hm] at hx
    by_cases hn : f.name = name
    · obtain ⟨hfg, hnone⟩ := hf hn
      have := getFunction_add_self e.m_module f (by rw [hn]; exact hnone)
      rw [hn, hx] at this
      rw [Option.some.inj this, hfg]
    · rw [getFunction_add_other _ _ _ hn] at hx
      exact hold x hx
  exact ⟨⟨key _ _ hq hd.query, key _ _ hu hd.update⟩, key _ _ hc hcd⟩

theorem decls_same (msc : Bool) (e e1 : Ext) (hm : e1.m_module = e.m_module)
    (h : e.DeclsOK ∧ e.CallDeclOK msc) : e1.DeclsOK ∧ e1.CallDeclOK msc := by
  obtain ⟨hd, hcd⟩ := h
  refine ⟨⟨?_, ?_⟩, ?_⟩
  · rw [hm]; exact hd.query
  · rw [hm]; exact hd.update
  · unfold CallDeclOK; rw [hm]; exact hcd

theorem envDecl_name_ne (id : EnvFunc) :
    (envDecl id).name ≠ "evm.query" ∧ (envDecl id).name ≠ "evm.update" ∧
      (envDecl id).name ≠ "evm.call" := by
  cases id <;> decide

/-- The state changes of `Prim` keep the declarations of the generic entry points. -/
theorem Prim.decls {msc t : Bool} {e e1 : Ext} (h : Prim msc t e e1)
    (hd : e.DeclsOK ∧ e.CallDeclOK msc) : e1.DeclsOK ∧ e1.CallDeclOK msc := by
  induction h with
  | refl t e => exact hd
  | builder t e b1 h => exact decls_same msc e _ rfl hd
  | resolveQuery t e =>
    cases hf : e.m_module.getFunction "evm.query" with
    | some f =>
      exact decls_same msc e _ (by show (getQueryFunc e.m_module).2 = _
                                   rw [getQueryFunc_present _ f hf]) hd
    | none =>
      refine decls_add msc e _ queryFunc (by show (getQueryFunc e.m_module).2 = _
                                             rw [getQueryFunc_absent _ hf]) ?_ ?_ ?_ hd
      · exact fun _ => ⟨rfl, hf⟩
      · exact fun h => absurd h (by decide)
      · exact fun h => absurd h (by decide)
  | resolveUpdate t e =>
    cases hf : e.m_module.getFunction "evm.update" with
    | some f =>
      exact decls_same msc e _ (by show (getUpdateFunc e.m_module).2 = _
                                   rw [getUpdateFunc_present _ f hf]) hd
    | none =>
      refine decls_add msc e _ updateFunc (by show (getUpdateFunc e.m_module).2 = _
                                              rw [getUpdateFunc_absent _ hf]) ?_ ?_ ?_ hd
      · exact fun h => absurd h (by decide)
      · exact fun _ => ⟨rfl, hf⟩
      · exact fun h => absurd h (by decide)
  | resolveCall t e =>
    cases hf : e.m_module.getFunction "evm.call" with
    | some f =>
      exact decls_same msc e _ (by show (getCallFunc msc e.m_module).2 = _
                                   rw [getCallFunc_present msc _ f hf]) hd
    | none =>
      refine decls_add msc e _ (callFunc msc) (by show (getCallFunc msc e.m_module).2 = _
                                                  rw [getCallFunc_absent msc _ hf]) ?_ ?_ ?_ hd
      · exact fun h => absurd h (by rw [callFunc_name]; decide)
      · exact fun h => absurd h (by rw [callFunc_name]; decide)
      · exact fun _ => ⟨rfl, hf⟩
  | cache t e id =>
    obtain ⟨h1, h2, h3⟩ := envDecl_name_ne id
    exact decls_add msc e _ (envDecl id) rfl (fun h => absurd h h1) (fun h => absurd h h2)
      (fun h => absurd h h3) hd
  | acquire t e => exact decls_same msc e _ (getArgAlloca_module e) hd
  | reset t e => exact decls_same msc e _ rfl hd
  | topics e =>
    refine decls_same msc e _ ?_ hd
    unfold topicsBuffer
    split <;> rfl
  | trans t e e1 e2 _ _ ih1 ih2 => exact ih2 (ih1 hd)

/-- The state changes of `Prim` keep the cursor within the pool. -/
theorem Prim.cursorInPool {msc t : Bool} {e e1 : Ext} (h : Prim msc t e e1)
    (hc : e.CursorInPool) : e1.CursorInPool := by
  induction h with
  | refl t e => exact hc
  | builder t e b1 h => exact hc
  | resolveQuery t e => exact hc
  | resolveUpdate t e => exact hc
  | resolveCall t e => exact hc
  | cache t e id => exact hc
  | acquire t e => exact getArgAlloca_inv e hc
  | reset t e => exact reset_inv e hc
  | topics e =>
    unfold topicsBuffer
    split <;> exact hc
  | trans t e e1 e2 _ _ ih1 ih2 => exact ih2 (ih1 hc)

/-- The state changes of `Prim` keep every slot of the pool. -/
theorem Prim.retains {msc t : Bool} {e e1 : Ext} (h : Prim msc t e e1) :
    ∀ i a, e.m_argAllocas i = some a → e1.m_argAllocas i = some a := by
  induction h with
  | refl t e => exact fun _ _ h => h
  | builder t e b1 h => exact fun _ _ h => h
  | resolveQuery t e => exact fun _ _ h => h
  | resolveUpdate t e => exact fun _ _ h => h
  | resolveCall t e => exact fun _ _ h => h
  | cache t e id => exact fun _ _ h => h
  | acquire t e => exact getArgAlloca_retains e
  | reset t e => exact fun _ _ h => h
  | topics e =>
    unfold topicsBuffer
    split <;> exact fun _ _ h => h
  | trans t e e1 e2 _ _ ih1 ih2 => exact fun i a h => ih2 i a (ih1 i a h)

theorem slotFor_pool (e : Ext) (a : Value) (n : Nat) (hp : e.PoolPrefix n)
    (hle : e.m_argCounter ≤ n) :
    (slotFor e a).2.PoolPrefix (max n (e.m_argCounter + 1)) ∧
    (slotFor e a).2.m_argCounter = e.m_argCounter + 1 :=
  ⟨getArgAlloca_pool e n hp hle, getArgAlloca_argCounter e⟩

theorem marshalByVal_pool (f : Function) (args : List Value) (pos : Nat) (e : Ext) (n : Nat)
    (hp : e.PoolPrefix n) (hle : e.m_argCounter ≤ n) :
    (marshalByVal f pos args e).2.PoolPrefix
      (max n (e.m_argCounter + slotsNeeded f pos args)) ∧
    (marshalByVal f pos args e).2.m_argCounter = e.m_argCounter + slotsNeeded f pos args := by
  induction args generalizing pos e n with
  | nil =>
    rw [marshalByVal, slotsNeeded, Nat.add_zero, max_eq_left hle]
    exact ⟨hp, rfl⟩
  | cons a rest ih =>
    rw [marshalByVal, slotsNeeded]
    by_cases hn : needsSlot f pos a = true
    · simp only [hn, if_true]
      obtain ⟨h1, h2⟩ := slotFor_pool e a n hp hle
      obtain ⟨h3, h4⟩ := ih (pos + 1) (slotFor e a).2 _ h1 (by rw [h2]; exact le_max_right _ _)
      rw [h2] at h3 h4
      refine ⟨?_, by rw [h4]; omega⟩
      have : max (max n (e.m_argCounter + 1))
          (e.m_argCounter + 1 + slotsNeeded f (pos + 1) rest) =
          max n (e.m_argCounter + (1 + slotsNeeded f (pos + 1) rest)) := by omega
      rw [← this]
      exact h3
    · simp only [hn, Bool.false_eq_true, if_false, Nat.zero_add]
      exact ih (pos + 1) e n hp hle

/-- The pool after `createCABICall`: it holds the slots below the largest of what it held and
the cursor advanced by the slot of the struct return and the slots of the by-value arguments;
the cursor is zero. -/
theorem createCABICall_pool (e : Ext) (f : Function) (args : List Value) (d : Bool) (n : Nat)
    (hpool : e.PoolOfSlots) (hlen : args.length + sretArgs f = f.params.length)
    (hp : e.PoolPrefix n) (hle : e.m_argCounter ≤ n) :
    (e.createCABICall f args d).2.PoolPrefix
      (max n (e.m_argCounter + sretArgs f + slotsNeeded f (sretArgs f) args)) ∧
    (e.createCABICall f args d).2.m_argCounter = 0 := by
  refine ⟨?_, createCABICall_argCounter e f args d⟩
  by_cases hs : f.hasStructRetAttr = true
  · have hsr : sretArgs f = 1 := by simp [sretArgs, hs]
    rw [hsr] at hlen ⊢
    rw [createCABICall_sret e f args d hs hpool hlen]
    have h1 := getArgAlloca_pool e n hp hle
    obtain ⟨h3, _⟩ := marshalByVal_pool f args 1 (e.getArgAlloca).2 _ h1
      (by rw [getArgAlloca_argCounter]; exact le_max_right _ _)
    rw [getArgAlloca_argCounter] at h3
    have : max (max n (e.m_argCounter + 1)) (e.m_argCounter + 1 + slotsNeeded f 1 args) =
        max n (e.m_argCounter + 1 + slotsNeeded f 1 args) := by omega
    rw [this] at h3
    cases d <;> exact h3
  · have hs' : f.hasStructRetAttr = false := by simpa using hs
    have hsr : sretArgs f = 0 := by simp [sretArgs, hs']
    rw [hsr] at hlen ⊢
    rw [createCABICall_plain e f args d hs' (by simpa using hlen)]
    exact (marshalByVal_pool f args 0 e n hp hle).1

theorem type_CreateTrunc (b : IRBuilder) (v : Value) (ty : Ty) :
    (b.CreateTrunc v ty).1.type = ty := by
  unfold IRBuilder.CreateTrunc IRBuilder.CreateCast
  split_ifs with h
  · exact h
  · simp [IRBuilder.InsertV, Value.type]

theorem updateFunc_byVal0 : updateFunc.hasByValAttr 0 = false := by decide
theorem updateFunc_byVal1 : updateFunc.hasByValAttr 1 = false := by decide
theorem updateFunc_byVal2 : updateFunc.hasByValAttr 2 = true := by decide
theorem updateFunc_byVal3 : updateFunc.hasByValAttr 3 = true := by decide

theorem callFunc_sret (msc : Bool) : (callFunc msc).hasStructRetAttr = false := by
  cases msc <;> decide

theorem callFunc_params (msc : Bool) : (callFunc msc).params.length = 8 := by
  cases msc <;> rfl

theorem callFunc_byVal (msc : Bool) :
    (callFunc msc).hasByValAttr 0 = false ∧ (callFunc msc).hasByValAttr 1 = false ∧
    (callFunc msc).hasByValAttr 2 = false ∧ (callFunc msc).hasByValAttr 3 = true ∧
    (callFunc msc).hasByValAttr 4 = true ∧ (callFunc msc).hasByValAttr 5 = msc ∧
    (callFunc msc).hasByValAttr 6 = false ∧ (callFunc msc).hasByValAttr 7 = true := by
  cases msc <;> decide

theorem cabi_pool (e : Ext) (f : Function) (args : List Value) (d : Bool) (n k : Nat)
    (hpool : e.PoolOfSlots) (hlen : args.length + sretArgs f = f.params.length)
    (hp : e.PoolPrefix n) (hle : e.m_argCounter ≤ n)
    (hk : e.m_argCounter + sretArgs f + slotsNeeded f (sretArgs f) args = k) :
    (e.createCABICall f args d).2.PoolPrefix (max n k) := by
  rw [← hk]
  exact (createCABICall_pool e f args d n hpool hlen hp hle).1

/-- A call of the query entry point with a word operand that is a value takes two slots. -/
theorem query_value_pool (e : Ext) (key : Nat) (v : Value) (d : Bool) (n : Nat)
    (hv : v.type.isPointerTy = false) (hpool : e.PoolOfSlots) (hp : e.PoolPrefix n)
    (hc : e.m_argCounter = 0) :
    (e.createCABICall queryFunc [RuntimeManager.getEnvPtr, IRBuilder.getInt32 key, v]
      d).2.PoolPrefix (max n 2) := by
  refine cabi_pool e queryFunc [RuntimeManager.getEnvPtr, IRBuilder.getInt32 key, v] d n 2 hpool
    rfl hp (by omega) ?_
  have hs : sretArgs queryFunc = 1 := by decide
  rw [hc, hs]
  simp [slotsNeeded, needsSlot, queryFunc_byVal1, queryFunc_byVal2, queryFunc_byVal3, hv]

/-- A call of the query entry point without operand takes one slot. -/
theorem query_undef_pool (e : Ext) (key : Nat) (d : Bool) (n : Nat)
    (hpool : e.PoolOfSlots) (hp : e.PoolPrefix n) (hc : e.m_argCounter = 0) :
    (e.createCABICall queryFunc
      [RuntimeManager.getEnvPtr, IRBuilder.getInt32 key, Value.undef Ty.WordPtr]
      d).2.PoolPrefix (max n 1) := by
  refine cabi_pool e queryFunc
    [RuntimeManager.getEnvPtr, IRBuilder.getInt32 key, Value.undef Ty.WordPtr] d n 1 hpool
    rfl hp (by omega) ?_
  have hs : sretArgs queryFunc = 1 := by decide
  rw [hc, hs]
  simp [slotsNeeded, needsSlot, queryFunc_byVal1, queryFunc_byVal2, Value.type, Ty.WordPtr,
    Ty.isPointerTy]

/-- A call of the update entry point from cursor `c`: one slot for each of the two word
operands that is a value. -/
theorem update_pool (e : Ext) (key : Nat) (a b : Value) (d : Bool) (n k : Nat)
    (hpool : e.PoolOfSlots) (hp : e.PoolPrefix n) (hle : e.m_argCounter ≤ n)
    (hk : e.m_argCounter + ((if a.type.isPointerTy then 0 else 1) +
      (if b.type.isPointerTy then 0 else 1)) = k) :
    (e.createCABICall updateFunc [RuntimeManager.getEnvPtr, IRBuilder.getInt32 key, a, b]
      d).2.PoolPrefix (max n k) := by
  refine cabi_pool e updateFunc [RuntimeManager.getEnvPtr, IRBuilder.getInt32 key, a, b] d n k
    hpool rfl hp hle ?_
  have hs : sretArgs updateFunc = 0 := by decide
  rw [← hk, hs]
  cases ha : a.type.isPointerTy <;> cases hb : b.type.isPointerTy <;>
    simp [slotsNeeded, needsSlot, updateFunc_byVal0, updateFunc_byVal1, updateFunc_byVal2,
      updateFunc_byVal3, ha, hb]

theorem call_pool (msc : Bool) (e : Ext) (x k g a v p s o : Value) (d : Bool) (n : Nat)
    (ha : a.type.isPointerTy = false) (hv : v.type.isPointerTy = false)
    (hpt : p.type.isPointerTy = true) (ho : o.type.isPointerTy = false)
    (hpool : e.PoolOfSlots) (hp : e.PoolPrefix n) (hc : e.m_argCounter = 0) :
    (e.createCABICall (callFunc msc) [x, k, g, a, v, p, s, o] d).2.PoolPrefix (max n 3) := by
  refine cabi_pool e (callFunc msc) [x, k, g, a, v, p, s, o] d n 3 hpool ?_ hp (by omega) ?_
  · have hs : sretArgs (callFunc msc) = 0 := by simp [sretArgs, callFunc_sret]
    rw [hs, callFunc_params]
    rfl
  · have hs : sretArgs (callFunc msc) = 0 := by simp [sretArgs, callFunc_sret]
    obtain ⟨b0, b1, b2, b3, b4, b5, b6, b7⟩ := callFunc_byVal msc
    rw [hc, hs]
    simp [slotsNeeded, needsSlot, b0, b1, b2, b3, b4, b5, b6, b7, ha, hv, hpt, ho]

theorem createCall_argAllocas (e : Ext) (id : EnvFunc) (args : List Value) :
    (e.createCall id args).2.m_argAllocas = e.m_argAllocas := by
  unfold createCall
  simp only []
  split <;> rfl

theorem poolPrefix_congr {e e1 : Ext} {n : Nat} (h : e1.m_argAllocas = e.m_argAllocas)
    (hp : e.PoolPrefix n) : e1.PoolPrefix n := by
  intro i
  rw [h]
  exact hp i

theorem topicsBuffer_pool (e : Ext) :
    (e.topicsBuffer).2.m_argAllocas = e.m_argAllocas ∧
    (e.topicsBuffer).2.m_argCounter = e.m_argCounter ∧
    (e.topicsBuffer).2.m_module = e.m_module := by
  unfold topicsBuffer
  split <;> exact ⟨rfl, rfl, rfl⟩

theorem poolOfSlots_congr {e e1 : Ext} (h : e1.m_argAllocas = e.m_argAllocas)
    (hp : e.PoolOfSlots) : e1.PoolOfSlots := by
  intro i a hi
  rw [h] at hi
  exact hp i a hi

theorem log_pool (e : Ext) (m s : Value) (ts : List Value) (n : Nat)
    (hpool : e.PoolOfSlots) (hd : e.DeclsOK) (hp : e.PoolPrefix n) (hc : e.m_argCounter = 0) :
    (e.log m s ts).PoolPrefix (max n 2) := by
  obtain ⟨t1, t2, t3⟩ := topicsBuffer_pool e
  obtain ⟨f1, _, f3, f4, _⟩ := storeTopics_frame ts
    ((e.topicsBuffer).2.build (·.CreateTrunc s Ty.Size)).2 (e.topicsBuffer).1 0
  simp only [log, getMemRefTy, Ty.getPointerTo, derefDefault]
  have hd3 : (storeTopics ((e.topicsBuffer).2.build (·.CreateTrunc s Ty.Size)).2
      (e.topicsBuffer).1 0 ts).DeclsOK := by
    refine ⟨?_, ?_⟩
    · rw [f3]; show ∀ f, (e.topicsBuffer).2.m_module.getFunction _ = _ → _
      rw [t3]; exact hd.query
    · rw [f3]; show ∀ f, (e.topicsBuffer).2.m_module.getFunction _ = _ → _
      rw [t3]; exact hd.update
  rw [resolve_update _ hd3]
  have hpool3 : (storeTopics ((e.topicsBuffer).2.build (·.CreateTrunc s Ty.Size)).2
      (e.topicsBuffer).1 0 ts).PoolOfSlots :=
    poolOfSlots_congr (f1.trans t1) hpool
  have hp3 : (storeTopics ((e.topicsBuffer).2.build (·.CreateTrunc s Ty.Size)).2
      (e.topicsBuffer).1 0 ts).PoolPrefix n := poolPrefix_congr (f1.trans t1) hp
  have hc3 : (storeTopics ((e.topicsBuffer).2.build (·.CreateTrunc s Ty.Size)).2
      (e.topicsBuffer).1 0 ts).m_argCounter = 0 := by
    rw [f4]; show (e.topicsBuffer).2.m_argCounter = 0; rw [t2, hc]
  generalize storeTopics ((e.topicsBuffer).2.build (·.CreateTrunc s Ty.Size)).2
      (e.topicsBuffer).1 0 ts = e3 at hpool3 hp3 hc3 ⊢
  clear f1 f3 f4 hd3
  generalize ((e.topicsBuffer).2.build (·.CreateTrunc s Ty.Size)).1 = sv
  generalize (e.topicsBuffer).1 = tb
  -- the first slot
  have hp4 : (e3.resolve getUpdateFunc).2.PoolPrefix n := hp3
  have hpool4 : (e3.resolve getUpdateFunc).2.PoolOfSlots := hpool3
  have hc4 : (e3.resolve getUpdateFunc).2.m_argCounter = 0 := hc3
  generalize (e3.resolve getUpdateFunc).2 = e4 at hp4 hpool4 hc4 ⊢
  have hp5 := getArgAlloca_pool e4 n hp4 (by omega)
  have hc5 := getArgAlloca_argCounter e4
  have hpool5 := getArgAlloca_poolOfSlots e4 hpool4
  obtain ⟨ida, nma, hav⟩ := getArgAlloca_isAlloca e4 hpool4
  rw [hc4] at hp5 hc5
  generalize e4.getArgAlloca = ga at hp5 hc5 hpool5 hav ⊢
  obtain ⟨av, e5⟩ := ga
  simp only at hp5 hc5 hpool5 hav ⊢
  subst hav
  generalize (e5.build (·.CreateBitCast (.alloca ida Ty.Word 1 nma) (Ty.ptr Ty.memRef))).1 = pm
  have hp6 : (e5.build
      (·.CreateBitCast (.alloca ida Ty.Word 1 nma) (Ty.ptr Ty.memRef))).2.PoolPrefix _ := hp5
  have hc6 : (e5.build
      (·.CreateBitCast (.alloca ida Ty.Word 1 nma) (Ty.ptr Ty.memRef))).2.m_argCounter = 0 + 1 :=
    hc5
  have hpool6 : (e5.build
      (·.CreateBitCast (.alloca ida Ty.Word 1 nma) (Ty.ptr Ty.memRef))).2.PoolOfSlots := hpool5
  generalize (e5.build (·.CreateBitCast (.alloca ida Ty.Word 1 nma) (Ty.ptr Ty.memRef))).2 = e6
    at hp6 hc6 hpool6 ⊢
  generalize (e6.build (·.CreateConstGEP2_32 Ty.memRef pm 0 0)).1 = pd
  have hp7 : (e6.build (·.CreateConstGEP2_32 Ty.memRef pm 0 0)).2.PoolPrefix _ := hp6
  have hc7 : (e6.build (·.CreateConstGEP2_32 Ty.memRef pm 0 0)).2.m_argCounter = 0 + 1 := hc6
  have hpool7 : (e6.build (·.CreateConstGEP2_32 Ty.memRef pm 0 0)).2.PoolOfSlots := hpool6
  generalize (e6.build (·.CreateConstGEP2_32 Ty.memRef pm 0 0)).2 = e7 at hp7 hc7 hpool7 ⊢
  generalize ((e7.emit (·.CreateStore (Memory.getBytePtr m) pd)).build
    (·.CreateConstGEP2_32 Ty.memRef pm 0 1)).1 = ps
  have hp8 : (((e7.emit (·.CreateStore (Memory.getBytePtr m) pd)).build
    (·.CreateConstGEP2_32 Ty.memRef pm 0 1)).2.emit (·.CreateStore sv ps)).PoolPrefix _ := hp7
  have hc8 : (((e7.emit (·.CreateStore (Memory.getBytePtr m) pd)).build
    (·.CreateConstGEP2_32 Ty.memRef pm 0 1)).2.emit (·.CreateStore sv ps)).m_argCounter =
      0 + 1 := hc7
  have hpool8 : (((e7.emit (·.CreateStore (Memory.getBytePtr m) pd)).build
    (·.CreateConstGEP2_32 Ty.memRef pm 0 1)).2.emit (·.CreateStore sv ps)).PoolOfSlots := hpool7
  generalize ((e7.emit (·.CreateStore (Memory.getBytePtr m) pd)).build
    (·.CreateConstGEP2_32 Ty.memRef pm 0 1)).2.emit (·.CreateStore sv ps) = e8
    at hp8 hc8 hpool8 ⊢
  -- the second slot
  have hp9 := getArgAlloca_pool e8 _ hp8 (by rw [hc8]; exact le_max_right _ _)
  have hc9 := getArgAlloca_argCounter e8
  have hpool9 := getArgAlloca_poolOfSlots e8 hpool8
  obtain ⟨idb, nmb, hbv⟩ := getArgAlloca_isAlloca e8 hpool8
  rw [hc8] at hp9 hc9
  generalize e8.getArgAlloca = gb at hp9 hc9 hpool9 hbv ⊢
  obtain ⟨bv, e9⟩ := gb
  simp only at hp9 hc9 hpool9 hbv ⊢
  subst hbv
  have hmax : max (max n (0 + 1)) (0 + 1 + 1) = max n 2 := by omega
  rw [hmax] at hp9
  have key : ∀ e13 : Ext, e13.PoolOfSlots → e13.PoolPrefix (max n 2) →
      e13.m_argCounter = 0 + 1 + 1 →
      (e13.createCABICall updateFunc [RuntimeManager.getEnvPtr,
        IRBuilder.getInt32 evm_update_key.EVM_LOG.code, .alloca ida Ty.Word 1 nma,
        .alloca idb Ty.Word 1 nmb] true).2.PoolPrefix (max n 2) := by
    intro e13 h1 h2 h3
    have := update_pool e13 evm_update_key.EVM_LOG.code (.alloca ida Ty.Word 1 nma)
      (.alloca idb Ty.Word 1 nmb) true (max n 2) 2 h1 h2
      (by rw [h3]; exact le_max_right _ _) (by rw [h3]; rfl)
    have hm : max (max n 2) 2 = max n 2 := by omega
    rw [hm] at this
    exact this
  exact key _ hpool9 hp9 hc9

/-- The slots an operation builder leaves in the pool: from a pool that holds the slots below
`n`, with the cursor at zero, the pool holds the slots below the larger of `n` and the demand of
the builder. -/
theorem step_pool (msc : Bool) (e : Ext) (op : Op) (n : Nat)
    (hpool : e.PoolOfSlots) (hd : e.DeclsOK) (hcd : e.CallDeclOK msc) (hv : op.valueOperands)
    (hp : e.PoolPrefix n) (hc : e.m_argCounter = 0) :
    (e.step msc op).PoolPrefix (max n op.slotDemand) := by
  cases op with
  | sload i =>
    have hi : i.type.isPointerTy = false := hv i (by simp [Op.wordOperands])
    simp only [step, sload, resolve_query e hd]
    exact query_value_pool _ _ _ _ n hi hpool hp hc
  | sstore i v =>
    have hi : i.type.isPointerTy = false := hv i (by simp [Op.wordOperands])
    have hvv : v.type.isPointerTy = false := hv v (by simp [Op.wordOperands])
    simp only [step, sstore, resolve_update e hd]
    exact update_pool _ _ _ _ _ n 2 hpool hp (by show e.m_argCounter ≤ n; omega)
      (by show e.m_argCounter + _ = 2; rw [hc, hi, hvv]; rfl)
  | selfdestruct b =>
    have hb : b.type.isPointerTy = false := hv b (by simp [Op.wordOperands])
    simp only [step, selfdestruct, resolve_update e hd]
    have h1 : (Value.undef Ty.WordPtr).type.isPointerTy = true := rfl
    have h2 : ((e.resolve getUpdateFunc).2.build
        (Endianness.toBE · b)).1.type.isPointerTy = false := hb
    exact update_pool _ _ _ _ _ n 1 hpool hp (by show e.m_argCounter ≤ n; omega)
      (by show e.m_argCounter + _ = 1; rw [hc, h1, h2]; rfl)
  | calldataload i =>
    simp only [step, calldataload]
    have := getArgAlloca_pool e n hp (by omega)
    rw [hc] at this
    exact this
  | query k =>
    have hq := query_undef_pool (e.resolve getQueryFunc).2 k.code derefDefault n hpool hp hc
    cases k <;> simp only [step, query, resolve_query e hd] <;> exact hq
  | balance a =>
    have ha : a.type.isPointerTy = false := hv a (by simp [Op.wordOperands])
    simp only [step, balance, resolve_query e hd]
    exact query_value_pool ((e.resolve getQueryFunc).2.build (Endianness.toBE · a)).2
      evm_query_key.EVM_BALANCE.code _ derefDefault n
      (show ((e.resolve getQueryFunc).2.build (Endianness.toBE · a)).1.type.isPointerTy = false
        from ha) hpool hp hc
  | blockHash x =>
    have hx : x.type.isPointerTy = false := hv x (by simp [Op.wordOperands])
    simp only [step, blockHash, resolve_query e hd]
    exact query_value_pool (e.resolve getQueryFunc).2 evm_query_key.EVM_BLOCKHASH.code x
      derefDefault n hx hpool hp hc
  | create v o s =>
    simp only [step, create]
    have h1 := getArgAlloca_pool e n hp (by omega)
    have h2 := getArgAlloca_pool ((e.getArgAlloca).2.build (·.CreateTrunc s Ty.Size)).2 _ h1
      (by show (e.getArgAlloca).2.m_argCounter ≤ _
          rw [getArgAlloca_argCounter]; exact le_max_right _ _)
    have hcc : ((e.getArgAlloca).2.build (·.CreateTrunc s Ty.Size)).2.m_argCounter = 1 := by
      show (e.getArgAlloca).2.m_argCounter = 1
      rw [getArgAlloca_argCounter, hc]
    rw [hcc, hc] at h2
    have : max (max n (0 + 1)) (1 + 1) = max n 2 := by omega
    rw [this] at h2
    refine poolPrefix_congr ?_ h2
    simp only [build_argAllocas, createCall_argAllocas]
    rfl
  | sha3 o s =>
    simp only [step, sha3]
    have h1 := getArgAlloca_pool (e.build (·.CreateTrunc s Ty.Size)).2 n hp
      (by show e.m_argCounter ≤ n; omega)
    have hcc : (e.build (·.CreateTrunc s Ty.Size)).2.m_argCounter = 0 := hc
    rw [hcc] at h1
    refine poolPrefix_congr ?_ h1
    simp only [build_argAllocas, createCall_argAllocas]
  | extcode a =>
    have ha : a.type.isPointerTy = false := hv a (by simp [Op.wordOperands])
    simp only [step, extcode, resolve_query e hd]
    exact query_value_pool ((e.resolve getQueryFunc).2.build (Endianness.toBE · a)).2
      evm_query_key.EVM_CODE_BY_ADDRESS.code _ false n
      (show ((e.resolve getQueryFunc).2.build (Endianness.toBE · a)).1.type.isPointerTy = false
        from ha) hpool hp hc
  | log m s ts => exact log_pool e m s ts n hpool hd hp hc
  | call k g a v io is oo os =>
    have hvv : v.type.isPointerTy = false := hv v (by simp [Op.wordOperands])
    simp only [step, call, getMemRefTy]
    rw [resolve_call msc]
    · refine call_pool msc _ _ _ _ _ _ _ _ _ _ n ?_ hvv rfl ?_ hpool hp hc
      · simp only [build, Endianness.toBE, IRBuilder.InsertV, Value.type, type_CreateTrunc]
        rfl
      · rfl
    · exact hcd
  | setInsertPoint pt =>
    simp only [step, Op.slotDemand, Nat.max_zero]
    exact hp

/-- The state changes of `Prim` keep every slot of the pool a one-word allocation. -/
theorem Prim.keepsPoolOfSlots {msc t : Bool} {e e1 : Ext} (h : Prim msc t e e1)
    (hp : e.PoolOfSlots) : e1.PoolOfSlots := by
  induction h with
  | refl t e => exact hp
  | builder t e b1 h => exact hp
  | resolveQuery t e => exact hp
  | resolveUpdate t e => exact hp
  | resolveCall t e => exact hp
  | cache t e id => exact hp
  | acquire t e => exact getArgAlloca_poolOfSlots e hp
  | reset t e => exact hp
  | topics e => exact poolOfSlots_congr (topicsBuffer_pool e).1 hp
  | trans t e e1 e2 _ _ ih1 ih2 => exact ih2 (ih1 hp)

theorem steps_cons (msc : Bool) (e : Ext) (op : Op) (ops : List Op) :
    e.steps msc (op :: ops) = (e.step msc op).steps msc ops := rfl

theorem steps_pool (msc : Bool) (ops : List Op) (e : Ext) (n : Nat)
    (hpool : e.PoolOfSlots) (hd : e.DeclsOK) (hcd : e.CallDeclOK msc)
    (hv : ∀ op ∈ ops, op.valueOperands) (hp : e.PoolPrefix n) (hc : e.m_argCounter = 0) :
    (e.steps msc ops).PoolPrefix ((ops.map Op.slotDemand).foldl max n) := by
  induction ops generalizing e n with
  | nil => exact hp
  | cons op ops ih =>
    have hprim := step_prim_all msc e op
    obtain ⟨hd1, hcd1⟩ := hprim.decls ⟨hd, hcd⟩
    rw [steps_cons, List.map_cons, List.foldl_cons]
    exact ih (e.step msc op) _ (hprim.keepsPoolOfSlots hpool) hd1 hcd1
      (fun o ho => hv o (List.mem_cons_of_mem _ ho))
      (step_pool msc e op n hpool hd hcd (hv op (List.mem_cons_self _ _)) hp hc)
      (step_argCounter_zero msc e op hc)

theorem slotDemand_le (op : Op) : op.slotDemand ≤ 3 := by
  cases op <;> simp [Op.slotDemand]

theorem foldl_max_le (l : List Nat) (n b : Nat) (hn : n ≤ b) (hl : ∀ x ∈ l, x ≤ b) :
    l.foldl max n ≤ b := by
  induction l generalizing n with
  | nil => exact hn
  | cons x l ih =>
    rw [List.foldl_cons]
    exact ih _ (max_le hn (hl x (List.mem_cons_self _ _)))
      (fun y hy => hl y (List.mem_cons_of_mem _ hy))

theorem poolPrefix_le_of_retains {s e1 : Ext} {k n : Nat} (hs : s.PoolPrefix k)
    (h1 : e1.PoolPrefix n) (hr : ∀ i a, s.m_argAllocas i = some a → e1.m_argAllocas i = some a) :
    k ≤ n := by
  by_contra hlt
  have hk : n < k := by omega
  have h2 := (hs n).2 hk
  obtain ⟨a, ha⟩ := Option.isSome_iff_exists.1 h2
  have h3 := (h1 n).1 (by rw [hr n a ha]; rfl)
  omega

/-- C18. Scratch-slot demand is bounded by 3. On an object with an empty pool and the cursor at
zero, whose module holds no other declaration under the names of the generic entry points, for
every sequence of builder invocations with value operands: afterwards the pool holds exactly the
slots below the largest demand of the builders invoked, which is at most 3, and the cursor is
zero; every state between the start and the end of the sequence (reached from the start, and
from which the end is reached, by the state changes the builders are composed of) has its cursor
and its number of slots at most 3. Each builder, invoked with the cursor at zero on a pool of
`n` slots, leaves a pool of `max n d` slots for its demand `d`, and `d` is 3 for `call` and at
most 2 for every other builder. -/
theorem slot_demand_bounded (msc : Bool) (e : Ext) (hempty : ∀ i, e.m_argAllocas i = none)
    (hc : e.m_argCounter = 0) (hd : e.DeclsOK) (hcd : e.CallDeclOK msc) :
    (∀ ops, (∀ op ∈ ops, op.valueOperands) →
      (e.steps msc ops).PoolPrefix ((ops.map Op.slotDemand).foldl max 0) ∧
      (ops.map Op.slotDemand).foldl max 0 ≤ 3 ∧
      (e.steps msc ops).m_argCounter = 0 ∧
      ∀ s, Prim msc true e s → Prim msc true s (e.steps msc ops) →
        s.m_argCounter ≤ 3 ∧ ∃ k, s.PoolPrefix k ∧ s.m_argCounter ≤ k ∧ k ≤ 3) ∧
    (∀ (e1 : Ext) (op : Op) (n : Nat), e1.PoolOfSlots → e1.DeclsOK → e1.CallDeclOK msc →
      op.valueOperands → e1.PoolPrefix n → e1.m_argCounter = 0 →
      (e1.step msc op).PoolPrefix (max n op.slotDemand)) ∧
    (∀ op : Op, op.slotDemand ≤ 3 ∧
      ((∃ k g a v io is oo os, op = .call k g a v io is oo os) → op.slotDemand = 3) ∧
      ((∀ k g a v io is oo os, op ≠ .call k g a v io is oo os) → op.slotDemand ≤ 2)) := by
  have hpool : e.PoolOfSlots := fun i a hi => by rw [hempty i] at hi; cases hi
  have hp0 : e.PoolPrefix 0 := fun i => by simp [hempty i]
  refine ⟨?_, fun e1 op n h1 h2 h3 h4 h5 h6 => step_pool msc e1 op n h1 h2 h3 h4 h5 h6, ?_⟩
  · intro ops hv
    have hfin := steps_pool msc ops e 0 hpool hd hcd hv hp0 hc
    have hle : (ops.map Op.slotDemand).foldl max 0 ≤ 3 :=
      foldl_max_le _ 0 3 (by omega) (fun x hx => by
        obtain ⟨op, _, rfl⟩ := List.mem_map.1 hx
        exact slotDemand_le op)
    refine ⟨hfin, hle, steps_argCounter_zero msc ops e hc, ?_⟩
    intro s h1 h2
    obtain ⟨k, hk, hck⟩ := h1.cursorInPool ⟨0, hp0, by omega⟩
    have hkn := poolPrefix_le_of_retains hk hfin h2.retains
    exact ⟨by omega, k, hk, hck, by omega⟩
  · intro op
    refine ⟨slotDemand_le op, ?_, ?_⟩
    · rintro ⟨k, g, a, v, io, is, oo, os, rfl⟩
      rfl
    · intro h
      cases op <;> simp [Op.slotDemand]
      exact h _ _ _ _ _ _ _ _ rfl

/-- C18, at an instance: on the fresh object a sub-call with word operands leaves the slots 0,
1 and 2 in the pool, and a storage read after it leaves them as they are. -/
theorem slot_demand_bounded_witness :
    (∀ i, fresh.m_argAllocas i = none) ∧ fresh.m_argCounter = 0 ∧ fresh.DeclsOK ∧
    fresh.CallDeclOK false ∧
    (fresh.steps false [.call 0 (.arg "g" Ty.Word) (.arg "a" Ty.Word) (.arg "v" Ty.Word)
      (.arg "io" Ty.Word) (.arg "is" Ty.Word) (.arg "oo" Ty.Word) (.arg "os" Ty.Word),
      .sload (.arg "k" Ty.Word)]).PoolPrefix 3 ∧
    (fresh.steps false [.sload (.arg "k" Ty.Word)]).PoolPrefix 2 := by
  have h := (slot_demand_bounded false fresh (fun _ => rfl) rfl fresh_declsOK
    (fun _ hf => (by cases hf))).1
  refine ⟨fun _ => rfl, rfl, fresh_declsOK, fun _ hf => (by cases hf), ?_, ?_⟩
  · exact (h [.call 0 (.arg "g" Ty.Word) (.arg "a" Ty.Word) (.arg "v" Ty.Word)
      (.arg "io" Ty.Word) (.arg "is" Ty.Word) (.arg "oo" Ty.Word) (.arg "os" Ty.Word),
      .sload (.arg "k" Ty.Word)] (by
        intro op hop v hv
        simp at hop
        rcases hop with rfl | rfl <;> simp [Op.wordOperands] at hv
        · rcases hv with rfl | rfl | rfl | rfl | rfl | rfl | rfl <;> rfl
        · subst hv; rfl)).1
  · exact (h [.sload (.arg "k" Ty.Word)] (by
        intro op hop v hv
        simp at hop
        subst hop
        simp [Op.wordOperands] at hv
        subst hv; rfl)).1

/-- In a well-formed state no slot sits at two indices of the pool. -/
theorem WF.pool_injective {e : Ext} (h : e.WF) {i j : Nat} {a : Value}
    (hi : e.m_argAllocas i = some a) (hj : e.m_argAllocas j = some a) : i = j := by
  obtain ⟨id, nm, ha, _⟩ := h.slots i a hi
  subst ha
  exact h.distinct i j id nm nm hi hj

theorem acquireEach_spec (fs : List (IRBuilder → IRBuilder)) (e : Ext) (hwf : e.WF)
    (hfs : ∀ f ∈ fs, ∀ b, BStep b (f b)) :
    (e.acquireEach fs).2.WF ∧
    (∀ i a, e.m_argAllocas i = some a → (e.acquireEach fs).2.m_argAllocas i = some a) ∧
    (e.acquireEach fs).1.length = fs.length ∧
    ∀ j h, (e.acquireEach fs).1.get? j = some h →
      (e.acquireEach fs).2.m_argAllocas (e.m_argCounter + j) = some h := by
  induction fs generalizing e with
  | nil =>
    refine ⟨hwf, fun _ _ h => h, rfl, ?_⟩
    intro j h hj
    simp [acquireEach] at hj
  | cons f fs ih =>
    have hwf1 : ((e.getArgAlloca).2.emit f).WF :=
      (getArgAlloca_wf e hwf).mono rfl rfl (hfs f (List.mem_cons_self _ _) _).1
    obtain ⟨h1, h2, h3, h4⟩ := ih ((e.getArgAlloca).2.emit f) hwf1
      (fun g hg => hfs g (List.mem_cons_of_mem _ hg))
    have hcur : ((e.getArgAlloca).2.emit f).m_argCounter = e.m_argCounter + 1 :=
      getArgAlloca_argCounter e
    rw [acquireEach]
    refine ⟨h1, fun i a hi => h2 i a (getArgAlloca_retains e i a hi), by simp [h3], ?_⟩
    intro j h hj
    cases j with
    | zero =>
      simp only [List.get?_cons_zero, Option.some.injEq] at hj
      subst hj
      exact h2 _ _ (getArgAlloca_at_cursor e)
    | succ j =>
      simp only [List.get?_cons_succ] at hj
      have := h4 j h hj
      rw [hcur] at this
      have hidx : e.m_argCounter + (j + 1) = e.m_argCounter + 1 + j := by omega
      rw [hidx]
      exact this

/-- The handles of successive acquisitions are pairwise distinct. -/
theorem acquireEach_nodup (fs : List (IRBuilder → IRBuilder)) (e : Ext) (hwf : e.WF)
    (hfs : ∀ f ∈ fs, ∀ b, BStep b (f b)) : (e.acquireEach fs).1.Nodup := by
  obtain ⟨h1, _, _, h4⟩ := acquireEach_spec fs e hwf hfs
  rw [List.nodup_iff_get?_ne_get?]
  intro i j hij hj heq
  obtain ⟨a, ha⟩ : ∃ a, (e.acquireEach fs).1.get? j = some a := by
    cases hg : (e.acquireEach fs).1.get? j with
    | some a => exact ⟨a, rfl⟩
    | none =>
      have := List.get?_eq_none.1 hg
      omega
  have hi := h4 i a (by rw [heq, ha])
  have hj2 := h4 j a ha
  have := h1.pool_injective hi hj2
  omega

theorem prim_slotFor {msc t : Bool} {e0 e : Ext} (a : Value) (h : Prim msc t e0 e) :
    Prim msc t e0 (slotFor e a).2 := by
  unfold slotFor
  simp only []
  apply prim_emit
  · apply prim_build
    · exact prim_acquire h
    · exact bstep_bitcast _ _ _
  · exact bstep_store _ _ _

theorem prim_marshalByVal {msc t : Bool} {e0 : Ext} (f : Function) (args : List Value)
    (pos : Nat) (e : Ext) (h : Prim msc t e0 e) : Prim msc t e0 (marshalByVal f pos args e).2 := by
  induction args generalizing pos e with
  | nil => exact h
  | cons a rest ih =>
    rw [marshalByVal]
    split_ifs
    · exact ih _ _ (prim_slotFor a h)
    · exact ih _ _ h

/-- The state changes of `Prim` only add to the insertions made. -/
theorem Prim.logExt {msc t : Bool} {e e1 : Ext} (h : Prim msc t e e1) :
    ∃ l, e1.m_builder.log = e.m_builder.log ++ l := by
  induction h with
  | refl t e => exact ⟨[], by simp⟩
  | builder t e b1 h =>
    obtain ⟨_, l, hl, _⟩ := h
    exact ⟨l, hl⟩
  | resolveQuery t e => exact ⟨[], by simp [resolve]⟩
  | resolveUpdate t e => exact ⟨[], by simp [resolve]⟩
  | resolveCall t e => exact ⟨[], by simp [resolve]⟩
  | cache t e id => exact ⟨[], by simp⟩
  | acquire t e =>
    obtain ⟨_, l, hl, _⟩ := getArgAlloca_bstep e
    exact ⟨l, hl⟩
  | reset t e => exact ⟨[], by simp⟩
  | topics e =>
    cases ht : e.m_topics with
    | some t => rw [topicsBuffer_some e t ht]; exact ⟨[], by simp⟩
    | none => exact ⟨_, (topicsBuffer_none e ht).2.2.1⟩
  | trans t e e1 e2 _ _ ih1 ih2 =>
    obtain ⟨l1, h1⟩ := ih1
    obtain ⟨l2, h2⟩ := ih2
    exact ⟨l1 ++ l2, by rw [h2, h1, List.append_assoc]⟩

theorem slotsNeeded_take_lt (f : Function) (args : List Value) (pos j1 j2 : Nat) (a : Value)
    (h12 : j1 < j2) (ha : args.get? j1 = some a) (hn : needsSlot f (pos + j1) a = true) :
    slotsNeeded f pos (args.take j1) < slotsNeeded f pos (args.take j2) := by
  induction args generalizing pos j1 j2 with
  | nil => simp at ha
  | cons x rest ih =>
    obtain ⟨j2', rfl⟩ : ∃ k, j2 = k + 1 := ⟨j2 - 1, by omega⟩
    cases j1 with
    | zero =>
      simp only [List.get?_cons_zero, Option.some.injEq] at ha
      subst ha
      rw [Nat.add_zero] at hn
      simp only [List.take_zero, List.take_succ_cons, slotsNeeded, hn, if_true]
      omega
    | succ j1' =>
      simp only [List.get?_cons_succ] at ha
      have hn' : needsSlot f (pos + 1 + j1') a = true := by
        have : pos + 1 + j1' = pos + (j1' + 1) := by omega
        rw [this]; exact hn
      have := ih (pos + 1) j1' j2' (by omega) ha hn'
      simp only [List.take_succ_cons, slotsNeeded]
      omega

/-- The slots that `marshalByVal` substitutes are different slots, and different from every slot
at an index below the cursor it starts from. -/
theorem marshalByVal_distinct (f : Function) (args : List Value) (pos : Nat) (e : Ext)
    (hwf : e.WF) :
    (∀ i j ai aj vi vj, i < j → args.get? i = some ai → args.get? j = some aj →
      needsSlot f (pos + i) ai = true → needsSlot f (pos + j) aj = true →
      (marshalByVal f pos args e).1.get? i = some vi →
      (marshalByVal f pos args e).1.get? j = some vj →
      vi.stripPointerCasts ≠ vj.stripPointerCasts) ∧
    (∀ k s j aj vj, k < e.m_argCounter → e.m_argAllocas k = some s →
      args.get? j = some aj → needsSlot f (pos + j) aj = true →
      (marshalByVal f pos args e).1.get? j = some vj → vj.stripPointerCasts ≠ s) := by
  have hwf2 : (marshalByVal f pos args e).2.WF :=
    (prim_marshalByVal f args pos e (Prim.refl false e : Prim false false e e)).wf hwf
  obtain ⟨_, hret, _, _, l, _, _, hpt⟩ := marshalByVal_spec f args pos e hwf.poolOfSlots
  refine ⟨?_, ?_⟩
  · intro i j ai aj vi vj hij hai haj hni hnj hvi hvj heq
    obtain ⟨si, wi, _, _, h1, h2, h3, _⟩ := (hpt i ai hai).2 hni
    obtain ⟨sj, wj, _, _, k1, k2, k3, _⟩ := (hpt j aj haj).2 hnj
    rw [hvi] at h2
    rw [hvj] at k2
    have e1 := Option.some.inj h2
    have e2 := Option.some.inj k2
    subst e1 e2
    rw [h3] at heq
    rw [k3] at heq
    subst heq
    have := hwf2.pool_injective h1 k1
    have hlt := slotsNeeded_take_lt f args pos i j ai hij hai hni
    omega
  · intro k s j aj vj hk hs haj hnj hvj heq
    obtain ⟨sj, wj, _, _, k1, k2, k3, _⟩ := (hpt j aj haj).2 hnj
    rw [hvj] at k2
    have e2 := Option.some.inj k2
    subst e2
    rw [k3] at heq
    subst heq
    have := hwf2.pool_injective (hret k _ hs) k1
    omega

theorem stripPointerCasts_alloca (id : Nat) (ty : Ty) (c : Nat) (nm : String) :
    (Value.alloca id ty c nm).stripPointerCasts = .alloca id ty c nm := rfl

/-- The call that `createCABICall` makes: its actual arguments that are scratch slots are
different slots. -/
theorem cabi_distinct (e : Ext) (f : Function) (args : List Value) (d : Bool) (hwf : e.WF)
    (hlen : args.length + sretArgs f = f.params.length) :
    ∃ (id : Nat) (actual : List Value) (pre post : List Instr),
      emitted e.m_builder (e.createCABICall f args d).2.m_builder =
        pre ++ Instr.call id f actual :: post ∧
      (∀ i ∈ pre ++ post, i.isCall = false) ∧
      ∀ i j vi vj, i < j → SlotArg f args i → SlotArg f args j →
        actual.get? i = some vi → actual.get? j = some vj →
        vi.stripPointerCasts ≠ vj.stripPointerCasts := by
  have hpool := hwf.poolOfSlots
  by_cases hs : f.hasStructRetAttr = true
  · have hsa : sretArgs f = 1 := by simp [sretArgs, hs]
    rw [hsa] at hlen
    obtain ⟨l0, hl0, hc0⟩ := getArgAlloca_log e
    have hwf1 := getArgAlloca_wf e hwf
    obtain ⟨_, _, _, _, l2, hlog2, hcall2, _⟩ :=
      marshalByVal_spec f args 1 (e.getArgAlloca).2 (getArgAlloca_poolOfSlots e hpool)
    obtain ⟨hd1, hd2⟩ := marshalByVal_distinct f args 1 (e.getArgAlloca).2 hwf1
    obtain ⟨id0, nm0, ha0⟩ := getArgAlloca_isAlloca e hpool
    rw [createCABICall_sret e f args d hs hpool hlen]
    refine ⟨(marshalByVal f 1 args (e.getArgAlloca).2).2.m_builder.nextId,
      (e.getArgAlloca).1 :: (marshalByVal f 1 args (e.getArgAlloca).2).1,
      (l0 ++ l2).map Emit.instr,
      if d then [.val (.load ((marshalByVal f 1 args (e.getArgAlloca).2).2.m_builder.nextId + 1)
        (e.getArgAlloca).1)] else [], ?_, ?_, ?_⟩
    · cases d
      · simp only [Bool.false_eq_true, if_false]
        rw [emitted_of_log _ _ (l0 ++ l2 ++ [⟨(marshalByVal f 1 args
            (e.getArgAlloca).2).2.m_builder.insertPt,
          .call (marshalByVal f 1 args (e.getArgAlloca).2).2.m_builder.nextId f
            ((e.getArgAlloca).1 :: (marshalByVal f 1 args (e.getArgAlloca).2).1)⟩])
          (by simp [build, IRBuilder.CreateCall, IRBuilder.Insert, hlog2, hl0])]
        simp
      · simp only [if_true]
        rw [emitted_of_log _ _ (l0 ++ l2 ++ [⟨(marshalByVal f 1 args
            (e.getArgAlloca).2).2.m_builder.insertPt,
          .call (marshalByVal f 1 args (e.getArgAlloca).2).2.m_builder.nextId f
            ((e.getArgAlloca).1 :: (marshalByVal f 1 args (e.getArgAlloca).2).1)⟩,
          ⟨(marshalByVal f 1 args (e.getArgAlloca).2).2.m_builder.insertPt,
          .val (.load ((marshalByVal f 1 args (e.getArgAlloca).2).2.m_builder.nextId + 1)
            (e.getArgAlloca).1)⟩])
          (by simp [build, IRBuilder.CreateCall, IRBuilder.CreateLoad, IRBuilder.InsertV,
            IRBuilder.Insert, hlog2, hl0])]
        simp
    · intro i hi
      simp only [List.mem_append, List.mem_map] at hi
      rcases hi with ⟨x, hx | hx, rfl⟩ | hi
      · exact hc0 x hx
      · exact hcall2 x hx
      · cases d
        · simp at hi
        · simp only [if_true, List.mem_singleton] at hi
          rw [hi]; rfl
    · intro i j vi vj hij hsi hsj hvi hvj
      simp only [SlotArg, hsa] at hsi hsj
      obtain ⟨j', rfl⟩ : ∃ k, j = k + 1 := ⟨j - 1, by omega⟩
      simp only [List.get?_cons_succ] at hvj
      rcases hsj with ⟨_, hj0⟩ | ⟨aj, _, haj, hnj⟩
      · omega
      · simp only [Nat.add_sub_cancel] at haj
        have hnj' : needsSlot f (1 + j') aj = true := by rw [Nat.add_comm]; exact hnj
        cases i with
        | zero =>
          simp only [List.get?_cons_zero, Option.some.injEq] at hvi
          subst hvi
          rw [ha0, stripPointerCasts_alloca, ← ha0]
          exact (hd2 e.m_argCounter _ j' aj vj (by rw [getArgAlloca_argCounter]; omega)
            (getArgAlloca_at_cursor e) haj hnj' hvj).symm
        | succ i' =>
          simp only [List.get?_cons_succ] at hvi
          rcases hsi with ⟨_, hi0⟩ | ⟨ai, _, hai, hni⟩
          · omega
          · simp only [Nat.add_sub_cancel] at hai
            have hni' : needsSlot f (1 + i') ai = true := by rw [Nat.add_comm]; exact hni
            exact hd1 i' j' ai aj vi vj (by omega) hai haj hni' hnj' hvi hvj
  · have hs' : f.hasStructRetAttr = false := by simpa using hs
    have hsa : sretArgs f = 0 := by simp [sretArgs, hs']
    rw [hsa] at hlen
    obtain ⟨_, _, _, _, l2, hlog2, hcall2, _⟩ := marshalByVal_spec f args 0 e hpool
    obtain ⟨hd1, _⟩ := marshalByVal_distinct f args 0 e hwf
    rw [createCABICall_plain e f args d hs' (by simpa using hlen)]
    refine ⟨(marshalByVal f 0 args e).2.m_builder.nextId, (marshalByVal f 0 args e).1,
      l2.map Emit.instr, [], ?_, ?_, ?_⟩
    · rw [emitted_of_log _ _ (l2 ++ [⟨(marshalByVal f 0 args e).2.m_builder.insertPt,
          .call (marshalByVal f 0 args e).2.m_builder.nextId f (marshalByVal f 0 args e).1⟩])
          (by simp [build, IRBuilder.CreateCall, IRBuilder.Insert, hlog2])]
      simp
    · intro i hi
      simp only [List.append_nil, List.mem_map] at hi
      obtain ⟨x, hx, rfl⟩ := hi
      exact hcall2 x hx
    · intro i j vi vj hij hsi hsj hvi hvj
      simp only [SlotArg, hsa, hs', Bool.false_eq_true, false_and, false_or, Nat.zero_le,
        true_and, Nat.sub_zero] at hsi hsj
      obtain ⟨ai, hai, hni⟩ := hsi
      obtain ⟨aj, haj, hnj⟩ := hsj
      exact hd1 i j ai aj vi vj hij hai haj (by rw [Nat.zero_add]; exact hni)
        (by rw [Nat.zero_add]; exact hnj) hvi hvj

theorem quiet_refl (b : IRBuilder) : Quiet b b := ⟨[], by simp, by simp⟩

theorem quiet_trans {b b1 b2 : IRBuilder} (h1 : Quiet b b1) (h2 : Quiet b1 b2) : Quiet b b2 := by
  obtain ⟨l1, hl1, hp1⟩ := h1
  obtain ⟨l2, hl2, hp2⟩ := h2
  refine ⟨l1 ++ l2, by rw [hl2, hl1, List.append_assoc], ?_⟩
  intro x hx
  rcases List.mem_append.1 hx with h | h
  · exact hp1 x h
  · exact hp2 x h

theorem quiet_insert (b : IRBuilder) (mk : Nat → Instr)
    (h : (mk b.nextId).isCall = false) : Quiet b (b.Insert mk) := by
  refine ⟨[⟨b.insertPt, mk b.nextId⟩], rfl, ?_⟩
  intro x hx
  rw [List.mem_singleton.1 hx]
  exact h

theorem quiet_insertV (b : IRBuilder) (mk : Nat → Value) : Quiet b (b.InsertV mk).2 :=
  quiet_insert b _ rfl

theorem quiet_cast (b : IRBuilder) (mk : Nat → Value) (v : Value) (ty : Ty) :
    Quiet b (b.CreateCast mk v ty).2 := by
  unfold IRBuilder.CreateCast
  split_ifs
  · exact quiet_refl b
  · exact quiet_insertV b mk

theorem quiet_store (b : IRBuilder) (v p : Value) : Quiet b (b.CreateStore v p) :=
  quiet_insert b _ rfl

theorem quiet_bitcast (b : IRBuilder) (v : Value) (ty : Ty) : Quiet b (b.CreateBitCast v ty).2 :=
  quiet_cast b _ v ty

theorem quiet_trunc (b : IRBuilder) (v : Value) (ty : Ty) : Quiet b (b.CreateTrunc v ty).2 :=
  quiet_cast b _ v ty

theorem quiet_constGEP1 (b : IRBuilder) (x : Value) (i : Nat) :
    Quiet b (b.CreateConstGEP1_32 x i).2 :=
  quiet_insertV b _

theorem quiet_constGEP2 (b : IRBuilder) (ty : Ty) (x : Value) (i j : Nat) :
    Quiet b (b.CreateConstGEP2_32 ty x i j).2 :=
  quiet_insertV b _

theorem quiet_load (b : IRBuilder) (p : Value) : Quiet b (b.CreateLoad p).2 :=
  quiet_insertV b _

theorem quiet_toBE (b : IRBuilder) (v : Value) : Quiet b (Endianness.toBE b v).2 :=
  quiet_insertV b _

theorem quiet_toNative (b : IRBuilder) (v : Value) : Quiet b (Endianness.toNative b v).2 :=
  quiet_insertV b _

theorem quiet_build {b0 : IRBuilder} {e : Ext} (f : IRBuilder → Value × IRBuilder)
    (h : Quiet b0 e.m_builder) (hf : Quiet e.m_builder (f e.m_builder).2) :
    Quiet b0 (e.build f).2.m_builder :=
  quiet_trans h hf

theorem quiet_emit {b0 : IRBuilder} {e : Ext} (f : IRBuilder → IRBuilder)
    (h : Quiet b0 e.m_builder) (hf : Quiet e.m_builder (f e.m_builder)) :
    Quiet b0 (e.emit f).m_builder :=
  quiet_trans h hf

theorem quiet_acquire {b0 : IRBuilder} {e : Ext} (h : Quiet b0 e.m_builder) :
    Quiet b0 (e.getArgAlloca).2.m_builder :=
  quiet_trans h (getArgAlloca_log e)

theorem quiet_resolve {b0 : IRBuilder} {e : Ext} (g : Module → Function × Module)
    (h : Quiet b0 e.m_builder) : Quiet b0 (e.resolve g).2.m_builder := h

theorem quiet_topicsBuffer {b0 : IRBuilder} {e : Ext} (h : Quiet b0 e.m_builder) :
    Quiet b0 (e.topicsBuffer).2.m_builder := by
  refine quiet_trans h ?_
  unfold topicsBuffer
  split
  · exact quiet_refl _
  · refine ⟨[⟨⟨0, e.m_builder.entryBegin⟩,
      .val (.alloca e.m_builder.nextId Ty.Word 4 "topics")⟩], rfl, ?_⟩
    intro x hx
    rw [List.mem_singleton.1 hx]
    rfl

theorem quiet_storeTopics {b0 : IRBuilder} (tb : Value) (ts : List Value) (i : Nat) (e : Ext)
    (h : Quiet b0 e.m_builder) : Quiet b0 (storeTopics e tb i ts).m_builder := by
  induction ts generalizing e i with
  | nil => exact h
  | cons a l ih =>
    apply ih
    apply quiet_emit _ _ (quiet_store _ _ _)
    apply quiet_build _ _ (quiet_constGEP1 _ _ _)
    exact quiet_build _ h (quiet_toBE _ _)

theorem quiet_byPtr {b0 : IRBuilder} {e : Ext} (v : Value) (h : Quiet b0 e.m_builder) :
    Quiet b0 (e.byPtr v).2.m_builder :=
  quiet_emit _ (quiet_acquire h) (quiet_store _ _ _)

theorem createCall_log (e : Ext) (id : EnvFunc) (args : List Value) :
    ∃ f, (e.createCall id args).2.m_builder.log =
      e.m_builder.log ++ [⟨e.m_builder.insertPt, .call e.m_builder.nextId f args⟩] := by
  unfold createCall
  simp only []
  split <;> exact ⟨_, rfl⟩

/-- Two successive acquisitions with the pool and the cursor left alone in between yield
different slots. -/
theorem two_slots_distinct (e4 e8 : Ext) (hwf : e4.WF)
    (hp : e8.m_argAllocas = (e4.getArgAlloca).2.m_argAllocas)
    (hc : e8.m_argCounter = (e4.getArgAlloca).2.m_argCounter)
    (ht : e8.m_topics = (e4.getArgAlloca).2.m_topics)
    (hn : (e4.getArgAlloca).2.m_builder.nextId ≤ e8.m_builder.nextId) :
    ∃ (ida idb : Nat) (nma nmb : String), ida ≠ idb ∧
      (e4.getArgAlloca).1 = .alloca ida Ty.Word 1 nma ∧
      (e8.getArgAlloca).1 = .alloca idb Ty.Word 1 nmb := by
  have hwf5 := getArgAlloca_wf e4 hwf
  have hwf8 : e8.WF := hwf5.mono hp ht hn
  obtain ⟨ida, nma, ha⟩ := getArgAlloca_isAlloca e4 hwf.poolOfSlots
  obtain ⟨idb, nmb, hb⟩ := getArgAlloca_isAlloca e8 hwf8.poolOfSlots
  have hcur5 := getArgAlloca_at_cursor e4
  have hcur8 : e8.m_argAllocas e4.m_argCounter = some (e4.getArgAlloca).1 := by
    rw [hp]; exact hcur5
  have hret := getArgAlloca_retains e8 _ _ hcur8
  have hcur9 := getArgAlloca_at_cursor e8
  have hwf9 := getArgAlloca_wf e8 hwf8
  rw [hc, getArgAlloca_argCounter] at hcur9
  rw [ha] at hret
  rw [hb] at hcur9
  refine ⟨ida, idb, nma, nmb, ?_, ha, hb⟩
  intro h
  subst h
  have := hwf9.distinct _ _ _ _ _ hret hcur9
  omega

/-- The one call that `create` makes: the slot of the endowment and the slot of the result are
different slots. -/
theorem create_call_shape (e : Ext) (v o s : Value) (hwf : e.WF) :
    ∃ (idr ide : Nat) (nmr nme : String) (id : Nat) (f : Function) (sz : Value)
      (pre post : List Instr),
      idr ≠ ide ∧ sz.type = Ty.Size ∧
      emitted e.m_builder (e.create v o s).2.m_builder =
        pre ++ Instr.call id f [RuntimeManager.getEnvPtr, RuntimeManager.getGasPtr,
          .alloca ide Ty.Word 1 nme, Memory.getBytePtr o, sz, .alloca idr Ty.Word 1 nmr] :: post ∧
      ∀ i ∈ pre ++ post, i.isCall = false := by
  simp only [create]
  generalize h3 : Ext.byPtr _ _ = ep
  generalize h2 : (Ext.build _ _).2 = e2 at h3
  obtain ⟨idr, ide, nmr, nme, hne, hr, he⟩ := two_slots_distinct e e2 hwf
    (by rw [← h2]; rfl) (by rw [← h2]; rfl) (by rw [← h2]; rfl)
    (by rw [← h2]; exact (bstep_trunc _ _ _).1)
  have hty : (Ext.build (e.getArgAlloca).2 (·.CreateTrunc s Ty.Size)).1.type = Ty.Size :=
    type_CreateTrunc _ _ _
  generalize (Ext.build (e.getArgAlloca).2 (·.CreateTrunc s Ty.Size)).1 = sz at hty ⊢
  have hq : Quiet e.m_builder ep.2.m_builder := by
    rw [← h3, ← h2]
    apply quiet_byPtr
    apply quiet_build _ _ (quiet_trunc _ _ _)
    exact quiet_acquire (quiet_refl _)
  have hev : ep.1 = .alloca ide Ty.Word 1 nme := by rw [← h3]; exact he
  rw [hev, hr]
  obtain ⟨l3, hl3, hq3⟩ := hq
  obtain ⟨f, hlc⟩ := createCall_log ep.2 EnvFunc.create
    [RuntimeManager.getEnvPtr, RuntimeManager.getGasPtr, .alloca ide Ty.Word 1 nme,
      Memory.getBytePtr o, sz, .alloca idr Ty.Word 1 nmr]
  generalize ep.2 = e3 at hl3 hlc ⊢
  generalize e3.createCall EnvFunc.create
    [RuntimeManager.getEnvPtr, RuntimeManager.getGasPtr, .alloca ide Ty.Word 1 nme,
      Memory.getBytePtr o, sz, .alloca idr Ty.Word 1 nmr] = c at hlc ⊢
  refine ⟨idr, ide, nmr, nme, e3.m_builder.nextId, f, sz, l3.map Emit.instr,
    [.val (.load c.2.m_builder.nextId (.alloca idr Ty.Word 1 nmr)),
     .val (.bswap (c.2.m_builder.nextId + 1)
       (.load c.2.m_builder.nextId (.alloca idr Ty.Word 1 nmr)))], hne, hty, ?_, ?_⟩
  · rw [emitted_of_log _ _ (l3 ++ [⟨e3.m_builder.insertPt, .call e3.m_builder.nextId f
        [RuntimeManager.getEnvPtr, RuntimeManager.getGasPtr, .alloca ide Ty.Word 1 nme,
          Memory.getBytePtr o, sz, .alloca idr Ty.Word 1 nmr]⟩,
        ⟨c.2.m_builder.insertPt, .val (.load c.2.m_builder.nextId (.alloca idr Ty.Word 1 nmr))⟩,
        ⟨c.2.m_builder.insertPt, .val (.bswap (c.2.m_builder.nextId + 1)
          (.load c.2.m_builder.nextId (.alloca idr Ty.Word 1 nmr)))⟩])
      (by simp [build, IRBuilder.CreateLoad, Endianness.toNative, IRBuilder.InsertV,
        IRBuilder.Insert, hlc, hl3])]
    simp
  · intro i hi
    rcases List.mem_append.1 hi with h | h
    · obtain ⟨x, hx, rfl⟩ := List.mem_map.1 h
      exact hq3 x hx
    · simp at h
      rcases h with rfl | rfl <;> rfl

/-- The one call that `sha3` makes: its result slot is its only slot argument. -/
theorem sha3_call_shape (e : Ext) (o s : Value) (hwf : e.WF) :
    ∃ (idr : Nat) (nmr : String) (id : Nat) (f : Function) (sz : Value)
      (pre post : List Instr),
      sz.type = Ty.Size ∧
      emitted e.m_builder (e.sha3 o s).2.m_builder =
        pre ++ Instr.call id f [Memory.getBytePtr o, sz, .alloca idr Ty.Word 1 nmr] :: post ∧
      ∀ i ∈ pre ++ post, i.isCall = false := by
  simp only [sha3]
  have hwf1 : (e.build (·.CreateTrunc s Ty.Size)).2.WF := hwf.mono rfl rfl (bstep_trunc _ _ _).1
  have hty : (e.build (·.CreateTrunc s Ty.Size)).1.type = Ty.Size := type_CreateTrunc _ _ _
  obtain ⟨l1, hl1, hq1⟩ : Quiet e.m_builder
      ((e.build (·.CreateTrunc s Ty.Size)).2.getArgAlloca).2.m_builder :=
    quiet_acquire (quiet_build _ (quiet_refl _) (quiet_trunc _ _ _))
  generalize (e.build (·.CreateTrunc s Ty.Size)).1 = sz at hty ⊢
  generalize (e.build (·.CreateTrunc s Ty.Size)).2 = e1 at hwf1 hl1 ⊢
  obtain ⟨idr, nmr, hr⟩ := getArgAlloca_isAlloca e1 hwf1.poolOfSlots
  rw [hr]
  obtain ⟨f, hlc⟩ := createCall_log (e1.getArgAlloca).2 EnvFunc.sha3
    [Memory.getBytePtr o, sz, .alloca idr Ty.Word 1 nmr]
  generalize (e1.getArgAlloca).2 = e2 at hl1 hlc ⊢
  generalize e2.createCall EnvFunc.sha3
    [Memory.getBytePtr o, sz, .alloca idr Ty.Word 1 nmr] = c at hlc ⊢
  refine ⟨idr, nmr, e2.m_builder.nextId, f, sz, l1.map Emit.instr,
    [.val (.load c.2.m_builder.nextId (.alloca idr Ty.Word 1 nmr)),
     .val (.bswap (c.2.m_builder.nextId + 1)
       (.load c.2.m_builder.nextId (.alloca idr Ty.Word 1 nmr)))], hty, ?_, ?_⟩
  · rw [emitted_of_log _ _ (l1 ++ [⟨e2.m_builder.insertPt, .call e2.m_builder.nextId f
        [Memory.getBytePtr o, sz, .alloca idr Ty.Word 1 nmr]⟩,
        ⟨c.2.m_builder.insertPt, .val (.load c.2.m_builder.nextId (.alloca idr Ty.Word 1 nmr))⟩,
        ⟨c.2.m_builder.insertPt, .val (.bswap (c.2.m_builder.nextId + 1)
          (.load c.2.m_builder.nextId (.alloca idr Ty.Word 1 nmr)))⟩])
      (by simp [build, IRBuilder.CreateLoad, Endianness.toNative, IRBuilder.InsertV,
        IRBuilder.Insert, hlc, hl1])]
    simp
  · intro i hi
    rcases List.mem_append.1 hi with h | h
    · obtain ⟨x, hx, rfl⟩ := List.mem_map.1 h
      exact hq1 x hx
    · simp at h
      rcases h with rfl | rfl <;> rfl

/-- The one call that `log` makes: the slot of the data reference and the slot of the topics
reference are different slots. -/
theorem log_call_shape (e : Ext) (m s : Value) (ts : List Value) (hwf : e.WF) (hd : e.DeclsOK) :
    ∃ (ida idb : Nat) (nma nmb : String) (id : Nat) (pre : List Instr),
      ida ≠ idb ∧
      emitted e.m_builder (e.log m s ts).m_builder =
        pre ++ [Instr.call id updateFunc [RuntimeManager.getEnvPtr,
          IRBuilder.getInt32 evm_update_key.EVM_LOG.code,
          .alloca ida Ty.Word 1 nma, .alloca idb Ty.Word 1 nmb]] ∧
      ∀ i ∈ pre, i.isCall = false := by
  obtain ⟨t1, t2, t3⟩ := topicsBuffer_pool e
  obtain ⟨f1, _, f3, f4, _⟩ := storeTopics_frame ts
    ((e.topicsBuffer).2.build (·.CreateTrunc s Ty.Size)).2 (e.topicsBuffer).1 0
  simp only [log, getMemRefTy, Ty.getPointerTo, derefDefault]
  have hd3 : (storeTopics ((e.topicsBuffer).2.build (·.CreateTrunc s Ty.Size)).2
      (e.topicsBuffer).1 0 ts).DeclsOK := by
    refine ⟨?_, ?_⟩
    · rw [f3]; show ∀ f, (e.topicsBuffer).2.m_module.getFunction _ = _ → _
      rw [t3]; exact hd.query
    · rw [f3]; show ∀ f, (e.topicsBuffer).2.m_module.getFunction _ = _ → _
      rw [t3]; exact hd.update
  rw [resolve_update _ hd3]
  have hP3 : Prim false true e (storeTopics ((e.topicsBuffer).2.build
      (·.CreateTrunc s Ty.Size)).2 (e.topicsBuffer).1 0 ts) :=
    prim_storeTopics _ _ _ _ (prim_build _ (Prim.topics e) (bstep_trunc _ _ _))
  have hQ3 : Quiet e.m_builder (storeTopics ((e.topicsBuffer).2.build
      (·.CreateTrunc s Ty.Size)).2 (e.topicsBuffer).1 0 ts).m_builder :=
    quiet_storeTopics _ _ _ _ (quiet_build _ (quiet_topicsBuffer (quiet_refl _))
      (quiet_trunc _ _ _))
  clear t1 t2 t3 f1 f3 f4 hd3
  generalize storeTopics ((e.topicsBuffer).2.build (·.CreateTrunc s Ty.Size)).2
      (e.topicsBuffer).1 0 ts = e3 at hP3 hQ3 ⊢
  have hP4 : Prim false true e (e3.resolve getUpdateFunc).2 := prim_resolveUpdate hP3
  have hQ4 : Quiet e.m_builder (e3.resolve getUpdateFunc).2.m_builder := hQ3
  generalize (e3.resolve getUpdateFunc).2 = e4 at hP4 hQ4 ⊢
  have hwf4 := hP4.wf hwf
  generalize h13 : Ext.emit _ _ = e13
  generalize h9 : Ext.getArgAlloca (Ext.emit _ _) = gb at h13 ⊢
  generalize h8 : Ext.emit _ _ = e8 at h9
  obtain ⟨ida, idb, nma, nmb, hne, ha, hb⟩ := two_slots_distinct e4 e8 hwf4
    (by rw [← h8]; rfl) (by rw [← h8]; rfl) (by rw [← h8]; rfl)
    (by
      rw [← h8]
      exact Nat.le_trans (bstep_bitcast _ _ _).1 (Nat.le_trans (bstep_constGEP2 _ _ _ _ _).1
        (Nat.le_trans (bstep_store _ _ _).1 (Nat.le_trans (bstep_constGEP2 _ _ _ _ _).1
          (bstep_store _ _ _).1))))
  have hQ8 : Quiet e.m_builder e8.m_builder := by
    rw [← h8]
    apply quiet_emit _ _ (quiet_store _ _ _)
    apply quiet_build _ _ (quiet_constGEP2 _ _ _ _ _)
    apply quiet_emit _ _ (quiet_store _ _ _)
    apply quiet_build _ _ (quiet_constGEP2 _ _ _ _ _)
    apply quiet_build _ _ (quiet_bitcast _ _ _)
    exact quiet_acquire hQ4
  have hQ13 : Quiet e.m_builder e13.m_builder := by
    rw [← h13, ← h9]
    apply quiet_emit _ _ (quiet_store _ _ _)
    apply quiet_build _ _ (quiet_constGEP2 _ _ _ _ _)
    apply quiet_emit _ _ (quiet_store _ _ _)
    apply quiet_build _ _ (quiet_bitcast _ _ _)
    apply quiet_build _ _ (quiet_constGEP2 _ _ _ _ _)
    apply quiet_build _ _ (quiet_bitcast _ _ _)
    exact quiet_acquire hQ8
  obtain ⟨l, hl, hq⟩ := hQ13
  subst h9
  rw [ha, hb]
  rw [createCABICall_plain _ _ _ _ updateFunc_sret rfl,
    marshal_update e13 RuntimeManager.getEnvPtr (IRBuilder.getInt32 evm_update_key.EVM_LOG.code)
      (.alloca ida Ty.Word 1 nma) (.alloca idb Ty.Word 1 nmb) rfl rfl]
  refine ⟨ida, idb, nma, nmb, e13.m_builder.nextId, l.map Emit.instr, hne, ?_, ?_⟩
  · rw [emitted_of_log _ _ (l ++ [⟨e13.m_builder.insertPt, .call e13.m_builder.nextId updateFunc
        [RuntimeManager.getEnvPtr, IRBuilder.getInt32 evm_update_key.EVM_LOG.code,
          .alloca ida Ty.Word 1 nma, .alloca idb Ty.Word 1 nmb]⟩])
      (by simp [build, IRBuilder.CreateCall, IRBuilder.InsertV, IRBuilder.Insert, hl])]
    simp
  · intro i hi
    obtain ⟨x, hx, rfl⟩ := List.mem_map.1 hi
    exact hq x hx

/-- C17. Scratch slots of one marshaling sequence are different slots. On a well-formed object
(every pool slot a one-word allocation, no two pool indices sharing one), whatever the cursor:
the handles returned by successive `getArgAlloca` calls, with any insertions through the builder
in between and no reset of the cursor, are pairwise distinct. Consequently `createCABICall`
emits exactly one call, and any two of its actual arguments that are scratch slots (the
struct-return slot in front, the slots substituted for by-value arguments that are not
pointers) are, with pointer casts stripped, different slots. `create` emits exactly one call,
whose endowment slot and result slot are different allocations; `sha3` emits exactly one call,
whose only slot is the result slot; `log` emits exactly one call, to the update entry point,
whose data reference slot and topics reference slot are different allocations. -/
theorem scratch_slots_distinct (e : Ext) (hwf : e.WF) (hd : e.DeclsOK) :
    (∀ fs : List (IRBuilder → IRBuilder), (∀ f ∈ fs, ∀ b, BStep b (f b)) →
      (e.acquireEach fs).1.Nodup) ∧
    (∀ (f : Function) (args : List Value) (d : Bool),
      args.length + sretArgs f = f.params.length →
      ∃ (id : Nat) (actual : List Value) (pre post : List Instr),
        emitted e.m_builder (e.createCABICall f args d).2.m_builder =
          pre ++ Instr.call id f actual :: post ∧
        (∀ i ∈ pre ++ post, i.isCall = false) ∧
        ∀ i j vi vj, i < j → SlotArg f args i → SlotArg f args j →
          actual.get? i = some vi → actual.get? j = some vj →
          vi.stripPointerCasts ≠ vj.stripPointerCasts) ∧
    (∀ v o s : Value,
      ∃ (idr ide : Nat) (nmr nme : String) (id : Nat) (f : Function) (sz : Value)
        (pre post : List Instr),
        idr ≠ ide ∧ sz.type = Ty.Size ∧
        emitted e.m_builder (e.create v o s).2.m_builder =
          pre ++ Instr.call id f [RuntimeManager.getEnvPtr, RuntimeManager.getGasPtr,
            .alloca ide Ty.Word 1 nme, Memory.getBytePtr o, sz,
            .alloca idr Ty.Word 1 nmr] :: post ∧
        ∀ i ∈ pre ++ post, i.isCall = false) ∧
    (∀ o s : Value,
      ∃ (idr : Nat) (nmr : String) (id : Nat) (f : Function) (sz : Value)
        (pre post : List Instr),
        sz.type = Ty.Size ∧
        emitted e.m_builder (e.sha3 o s).2.m_builder =
          pre ++ Instr.call id f [Memory.getBytePtr o, sz, .alloca idr Ty.Word 1 nmr] :: post ∧
        ∀ i ∈ pre ++ post, i.isCall = false) ∧
    (∀ (m s : Value) (ts : List Value),
      ∃ (ida idb : Nat) (nma nmb : String) (id : Nat) (pre : List Instr),
        ida ≠ idb ∧
        emitted e.m_builder (e.log m s ts).m_builder =
          pre ++ [Instr.call id updateFunc [RuntimeManager.getEnvPtr,
            IRBuilder.getInt32 evm_update_key.EVM_LOG.code,
            .alloca ida Ty.Word 1 nma, .alloca idb Ty.Word 1 nmb]] ∧
        ∀ i ∈ pre, i.isCall = false) :=
  ⟨fun fs hfs => acquireEach_nodup fs e hwf hfs,
   fun f args d hlen => cabi_distinct e f args d hwf hlen,
   fun v o s => create_call_shape e v o s hwf,
   fun o s => sha3_call_shape e o s hwf,
   fun m s ts => log_call_shape e m s ts hwf hd⟩

theorem scratch_slots_distinct_witness :
    fresh.WF ∧ fresh.DeclsOK ∧
    (fresh.acquireEach [fun b => b, fun b => b, fun b => b]).1.Nodup ∧
    (fresh.acquireEach [fun b => b, fun b => b, fun b => b]).1.length = 3 :=
  ⟨fresh_wf, fresh_declsOK,
   (scratch_slots_distinct fresh fresh_wf fresh_declsOK).1 [fun b => b, fun b => b, fun b => b]
     (by
       intro f hf b
       simp at hf
       subst hf
       exact bstep_refl b),
   by decide⟩

/-- Putting the value `a` into a scratch slot and running the code this inserts: the slot at
the cursor is taken, and after the run it holds the representation of the value of `a`; the
machine is otherwise as before, one write apart. -/
theorem slotFor_run (e : Ext) (M : Machine) (a : Value) (x : RVal) (hwf : e.WF) (hl : M.Live e)
    (hev : ∀ M1 : Machine, M1.args = M.args → M1.regs = M.regs →
      M1.basePointer = M.basePointer → evalValue M1 a = some x)
    (hlen : (encode a.type x).length ≤ 32) :
    ∃ (id : Nat) (nm : String) (M1 : Machine) (cs : List MemVal),
      (∀ M2 : Machine, evalValue M2 (slotFor e a).1 = some (.ptr ⟨.stack id, 0⟩)) ∧
      (slotFor e a).2.m_argAllocas e.m_argCounter = some (.alloca id Ty.Word 1 nm) ∧
      (∀ i v, e.m_argAllocas i = some v → (slotFor e a).2.m_argAllocas i = some v) ∧
      (slotFor e a).2.m_argCounter = e.m_argCounter + 1 ∧
      (slotFor e a).2.m_module = e.m_module ∧
      Runs e.m_builder (slotFor e a).2.m_builder M M1 ∧
      (slotFor e a).2.WF ∧ M1.Live (slotFor e a).2 ∧
      cs.length = 32 ∧
      M1.mem (.stack id) = some (splice cs 0 (encode a.type x)) ∧
      (∀ b, b ≠ Block.stack id → M1.mem b = M.mem b) ∧
      M1.args = M.args ∧ M1.regs = M.regs ∧ M1.host = M.host ∧
      M1.basePointer = M.basePointer ∧
      M1.trace = M.trace ++ [.write ⟨.stack id, 0⟩ a.type.bytes] := by
  obtain ⟨id, nm, l, Ma, hav, hlog, _, hrun, hwf1, hl1, ⟨cs, hcs, hcslen⟩, hfr, harg, hreg, htr,
    hho, hbp⟩ := acquire_run e M hwf hl
  have r1 : Runs e.m_builder (e.getArgAlloca).2.m_builder M Ma := ⟨l, hlog, hrun⟩
  have hcur := getArgAlloca_at_cursor e
  have hret := getArgAlloca_retains e
  have hctr := getArgAlloca_argCounter e
  have hmod := getArgAlloca_module e
  unfold slotFor
  simp only []
  clear hlog hrun
  generalize e.getArgAlloca = ga at hav hwf1 hl1 r1 hcur hret hctr hmod ⊢
  obtain ⟨av, e1⟩ := ga
  simp only at hav hwf1 hl1 r1 hcur hret hctr hmod ⊢
  subst hav
  have hpE : ∀ M2 : Machine, evalValue M2 (e1.build
      (·.CreateBitCast (.alloca id Ty.Word 1 nm) a.type.getPointerTo)).1 =
      some (.ptr ⟨.stack id, 0⟩) := fun M2 => eval_CreateBitCast _ _ _ M2
  have r2 : Runs e1.m_builder (e1.build
      (·.CreateBitCast (.alloca id Ty.Word 1 nm) a.type.getPointerTo)).2.m_builder Ma Ma :=
    runs_bitcast _ _ _ Ma (.ptr ⟨.stack id, 0⟩) rfl
  have hn2 : e1.m_builder.nextId ≤ (e1.build
      (·.CreateBitCast (.alloca id Ty.Word 1 nm) a.type.getPointerTo)).2.m_builder.nextId :=
    CreateBitCast_nextId _ _ _
  have r3 := runs_store (e1.build
      (·.CreateBitCast (.alloca id Ty.Word 1 nm) a.type.getPointerTo)).2.m_builder Ma
    (hev Ma harg hreg hbp) (hpE Ma) hcs (by rw [hcslen]; simpa using hlen)
  refine ⟨id, nm, _, cs, hpE, hcur, hret, hctr, hmod, Runs.trans r1 (Runs.trans r2 r3), ?_, ?_,
    hcslen, ?_, ?_, harg, hreg, hho, hbp, ?_⟩
  · exact hwf1.mono rfl rfl (Nat.le_trans hn2 (Nat.le_succ _))
  · refine live_pres hl1 rfl rfl ?_
    intro b c hb
    by_cases h : b = .stack id
    · subst h
      rw [hcs] at hb
      simp only [Option.some.injEq] at hb
      subst hb
      exact ⟨_, if_pos rfl, splice_length _ _ _ (by rw [hcslen]; simpa using hlen)⟩
    · exact ⟨c, by simp only [h, if_false]; exact hb, rfl⟩
  · simp
  · intro b hb
    simp only [hb, if_false]
    exact hfr b hb
  · simp [htr]

theorem marshal_call (msc : Bool) (e : Ext) (x k g a v p s o : Value)
    (ha : a.type.isPointerTy = false) (hv : v.type.isPointerTy = false)
    (hp : p.type.isPointerTy = true) (ho : o.type.isPointerTy = false) :
    marshalByVal (callFunc msc) 0 [x, k, g, a, v, p, s, o] e =
      ([x, k, g, (slotFor e a).1, (slotFor (slotFor e a).2 v).1, p, s,
        (slotFor (slotFor (slotFor e a).2 v).2 o).1],
       (slotFor (slotFor (slotFor e a).2 v).2 o).2) := by
  obtain ⟨b0, b1, b2, b3, b4, b5, b6, b7⟩ := callFunc_byVal msc
  simp [marshalByVal, needsSlot, b0, b1, b2, b3, b4, b5, b6, b7, ha, hv, hp, ho]

theorem quiet_slotFor {b0 : IRBuilder} {e : Ext} (a : Value) (h : Quiet b0 e.m_builder) :
    Quiet b0 (slotFor e a).2.m_builder := by
  unfold slotFor
  simp only []
  apply quiet_emit _ _ (quiet_store _ _ _)
  apply quiet_build _ _ (quiet_bitcast _ _ _)
  exact quiet_acquire h

theorem exec_call_call (msc : Bool) (M : Machine) (id : Nat) (args : List Value)
    (vs : List RVal) (hargs : evalArgs M args = some vs) :
    execInstr M (.call id (callFunc msc) args) =
      some ((M.record (.call "evm.call" vs M.mem)).setReg id
        (.int (M.host.call vs M.mem % 2 ^ 64))) := by
  simp [execInstr, hargs, callFunc_name, execCall, Machine.record, Machine.setReg]

theorem decode_int160 (cs : List MemVal) (n : Nat) (hcs : cs.length = 32) (hn : n < 2 ^ 160) :
    decode (Ty.int 160) (readAt (splice cs 0 (encode (Ty.int 160) (.int n))) 0 20) = .int n := by
  have hlen : (encode (Ty.int 160) (.int n)).length = 20 := by simp [encode, toBytesLE]
  have h := readAt_splice_same cs (encode (Ty.int 160) (.int n)) 0 (by rw [hlen, hcs]; omega)
  rw [hlen] at h
  rw [h]
  show decodeScalar (.int 160) ((toBytesLE ((160 + 7) / 8) n).map MemVal.byte) = _
  exact decodeScalar_bytes 160 _ n (by norm_num; omega)

theorem decode_word_slot (cs : List MemVal) (n : Nat) (hcs : cs.length = 32) (hn : n < 2 ^ 256) :
    decode Ty.Word (readAt (splice cs 0 (encode Ty.Word (.int n))) 0 32) = .int n := by
  have hlen : (encode Ty.Word (.int n)).length = 32 := encode_word_length _
  have h := readAt_splice_same cs (encode Ty.Word (.int n)) 0 (by rw [hlen, hcs])
  rw [hlen] at h
  rw [h]
  exact decode_word n hn

theorem decode_memref_slot (cs : List MemVal) (p : Ptr) (n : Nat) (hcs : cs.length = 32)
    (hn : n < 2 ^ 64) :
    decode Ty.memRef (readAt (splice cs 0 (encode Ty.memRef (.agg (.ptr p) (.int n)))) 0 16) =
      .agg (.ptr p) (.int n) := by
  have hlen : (encode Ty.memRef (.agg (.ptr p) (.int n))).length = 16 := by
    simp [encode, Ty.BytePtr, Ty.Size, ptrFrags, toBytesLE]
  have h := readAt_splice_same cs (encode Ty.memRef (.agg (.ptr p) (.int n))) 0
    (by rw [hlen, hcs]; omega)
  rw [hlen] at h
  rw [h]
  have hf : (ptrFrags p).length = 8 := by simp [ptrFrags]
  show RVal.agg (decodeScalar Ty.BytePtr ((encode Ty.BytePtr (.ptr p) ++
    encode Ty.Size (.int n)).take 8)) (decodeScalar Ty.Size ((encode Ty.BytePtr (.ptr p) ++
    encode Ty.Size (.int n)).drop 8)) = _
  have e1 : encode Ty.BytePtr (.ptr p) = ptrFrags p := rfl
  have e2 : encode Ty.Size (.int n) = (toBytesLE 8 n).map MemVal.byte := rfl
  rw [e1, e2, List.take_left' hf, List.drop_left' hf]
  show RVal.agg (decodeScalar (.ptr _) _) (decodeScalar (.int 64) _) = _
  rw [decodeScalar_ptrFrags, decodeScalar_bytes 64 8 n (by norm_num; omega)]

/-- C14. The sub-call. On a well-formed object whose module holds under `evm.call`, if
anything, the declaration `getCallFunc` creates, with the slots of the pool allocated in the
machine, for word operands of values `g`, `a`, `v` (below 2^256), `io`, `is`, `oo`, `os`: the
code `call` emits runs without undefined behaviour and holds exactly one call, its last
instruction, to the call entry point; the value `call` returns is the result of that very
instruction, of the gas type, and the function is not struct-return. The entry point receives
the environment pointer, the kind, the gas `g mod 2^64`, a pointer to a slot holding the 160-bit
value `a mod 2^160` byte-reversed over 20 bytes, a pointer to a slot holding `v`, the input
pointer `basePointer io`, the input size `is mod 2^64`, and a pointer to a slot holding the
memory reference `(basePointer oo, os mod 2^64)`; the three slots are different ones, and the
register of the call holds what the host returns for these arguments. -/
theorem call_arguments (msc : Bool) (e : Ext) (M : Machine) (kind : Nat)
    (gn an vn ion isn oon osn : String) (g a v io is oo os : Nat)
    (hwf : e.WF) (hcd : e.CallDeclOK msc) (hl : M.Live e)
    (hg : M.args gn = .int g) (ha : M.args an = .int a) (hv : M.args vn = .int v)
    (hv256 : v < 2 ^ 256)
    (hio : M.args ion = .int io) (his : M.args isn = .int is)
    (hoo : M.args oon = .int oo) (hos : M.args osn = .int os) :
    ∃ (M1 : Machine) (id ia iv io1 : Nat) (actual : List Value) (pre : List Instr) (mem : Mem)
      (A V O : List MemVal),
      emitted e.m_builder (e.call msc kind (.arg gn Ty.Word) (.arg an Ty.Word) (.arg vn Ty.Word)
        (.arg ion Ty.Word) (.arg isn Ty.Word) (.arg oon Ty.Word) (.arg osn Ty.Word)).2.m_builder =
        pre ++ [Instr.call id (callFunc msc) actual] ∧
      (∀ i ∈ pre, i.isCall = false) ∧
      run (emitted e.m_builder (e.call msc kind (.arg gn Ty.Word) (.arg an Ty.Word)
        (.arg vn Ty.Word) (.arg ion Ty.Word) (.arg isn Ty.Word) (.arg oon Ty.Word)
        (.arg osn Ty.Word)).2.m_builder) M = some M1 ∧
      (e.call msc kind (.arg gn Ty.Word) (.arg an Ty.Word) (.arg vn Ty.Word)
        (.arg ion Ty.Word) (.arg isn Ty.Word) (.arg oon Ty.Word) (.arg osn Ty.Word)).1 =
        .callRet id Ty.Gas ∧
      (callFunc msc).hasStructRetAttr = false ∧
      M1.trace = M.trace ++
        [.write ⟨.stack ia, 0⟩ 20, .write ⟨.stack iv, 0⟩ 32, .write ⟨.stack io1, 0⟩ 16,
         .call "evm.call" [M.args "env", .int (kind % 2 ^ 32), .int (g % 2 ^ 64),
           .ptr ⟨.stack ia, 0⟩, .ptr ⟨.stack iv, 0⟩, .ptr (M.basePointer io),
           .int (is % 2 ^ 64), .ptr ⟨.stack io1, 0⟩] mem] ∧
      mem (.stack ia) = some A ∧
      decode (Ty.int 160) (readAt A 0 20) = .int (byteSwap 20 (a % 2 ^ 160)) ∧
      mem (.stack iv) = some V ∧ decode Ty.Word (readAt V 0 32) = .int v ∧
      mem (.stack io1) = some O ∧
      decode Ty.memRef (readAt O 0 16) =
        .agg (.ptr (M.basePointer oo)) (.int (os % 2 ^ 64)) ∧
      ia ≠ iv ∧ ia ≠ io1 ∧ iv ≠ io1 ∧
      M1.regs id = some (.int (M.host.call [M.args "env", .int (kind % 2 ^ 32),
        .int (g % 2 ^ 64), .ptr ⟨.stack ia, 0⟩, .ptr ⟨.stack iv, 0⟩, .ptr (M.basePointer io),
        .int (is % 2 ^ 64), .ptr ⟨.stack io1, 0⟩] mem % 2 ^ 64)) := by
  have hws : (Ty.Word = Ty.Size) = False := by decide
  have hw160 : (Ty.Word = Ty.int 160) = False := by decide
  simp only [call, build, IRBuilder.CreateTrunc, IRBuilder.CreateCast, Endianness.toBE,
    IRBuilder.CreateInsertValue, IRBuilder.InsertV, IRBuilder.Insert, Value.type, hws, hw160,
    if_false, getMemRefTy, derefDefault, Memory.getBytePtr]
  generalize h7 : Ext.mk _ e.m_module _ _ _ _ _ = e7
  have hwf7 : e7.WF := by
    rw [← h7]; exact hwf.mono rfl rfl (by simp only []; omega)
  have hl7 : M.Live e7 := by rw [← h7]; exact live_congr hl rfl rfl
  have hcd7 : e7.CallDeclOK msc := by rw [← h7]; exact hcd
  have r7 : Runs e.m_builder e7.m_builder M M := by
    rw [← h7]
    refine ⟨_, by simp only [List.append_assoc]; rfl, ?_⟩
    simp [run, execInstr, evalValue, hg, ha, his, hos, hoo]
  have q7 : Quiet e.m_builder e7.m_builder := by
    rw [← h7]
    refine ⟨_, by simp only [List.append_assoc]; rfl, ?_⟩
    intro x hx
    simp at hx
    rcases hx with rfl | rfl | rfl | rfl | rfl | rfl | rfl <;> rfl
  clear h7
  generalize hov : Value.insertValue _ (Value.insertValue _ _ _ 0) _ 1 = ov
  generalize hav : Value.bswap _ _ = av
  generalize hgv : Value.trunc _ (Value.arg gn Ty.Word) Ty.Size = gv
  generalize hisv : Value.trunc _ (Value.arg isn Ty.Word) Ty.Size = isv
  have hovE : ∀ M2 : Machine, M2.args = M.args → M2.basePointer = M.basePointer →
      evalValue M2 ov = some (.agg (.ptr (M.basePointer oo)) (.int (os % 2 ^ 64))) := by
    intro M2 h2 h3
    rw [← hov]
    simp [evalValue, h2, h3, hoo, hos, Ty.width, Ty.Size]
  have hovT : ov.type = Ty.memRef := by rw [← hov]; rfl
  have havE : ∀ M2 : Machine, M2.args = M.args →
      evalValue M2 av = some (.int (byteSwap 20 (a % 2 ^ 160))) := by
    intro M2 h2
    rw [← hav]
    simp [evalValue, h2, ha, Ty.width, Value.type, Ty.bytes]
  have havT : av.type = Ty.int 160 := by rw [← hav]; rfl
  have hgvE : ∀ M2 : Machine, M2.args = M.args → evalValue M2 gv = some (.int (g % 2 ^ 64)) := by
    intro M2 h2
    rw [← hgv]
    simp [evalValue, h2, hg, Ty.width, Ty.Size]
  have hisvE : ∀ M2 : Machine, M2.args = M.args →
      evalValue M2 isv = some (.int (is % 2 ^ 64)) := by
    intro M2 h2
    rw [← hisv]
    simp [evalValue, h2, his, Ty.width, Ty.Size]
  clear hov hav hgv hisv
  rw [resolve_call msc e7 hcd7]
  have hwf8 : (e7.resolve (getCallFunc msc)).2.WF := hwf7.mono rfl rfl (Nat.le_refl _)
  have hl8 : M.Live (e7.resolve (getCallFunc msc)).2 := live_congr hl7 rfl rfl
  have r8 : Runs e.m_builder (e7.resolve (getCallFunc msc)).2.m_builder M M := r7
  have q8 : Quiet e.m_builder (e7.resolve (getCallFunc msc)).2.m_builder := q7
  generalize (e7.resolve (getCallFunc msc)).2 = e8 at hwf8 hl8 r8 q8 ⊢
  rw [createCABICall_plain e8 (callFunc msc) _ true (callFunc_sret msc)
    (by rw [callFunc_params]; rfl)]
  rw [marshal_call msc e8 _ _ _ av (.arg vn Ty.Word) (Value.memBytePtr (.arg ion Ty.Word)) _ ov
    (by rw [havT]; rfl) rfl rfl (by rw [hovT]; rfl)]
  simp only []
  -- the slot of the address
  obtain ⟨ia, nma, Ma, csA, hpaE, hcurA, _, hctrA, _, rA, hwfA, hlA, hcsA, hmemA, hfrA, hargA,
    hregA, hhoA, hbpA, htrA⟩ := slotFor_run e8 M av (.int (byteSwap 20 (a % 2 ^ 160))) hwf8 hl8
      (fun M1 h1 _ _ => havE M1 h1) (by rw [havT]; simp [encode, toBytesLE])
  have qA := quiet_slotFor av q8
  have r9 := Runs.trans r8 rA
  clear r8 rA q8
  generalize slotFor e8 av = sa at hpaE hcurA hctrA hwfA hlA r9 qA ⊢
  obtain ⟨pa, e9⟩ := sa
  simp only at hpaE hcurA hctrA hwfA hlA r9 qA ⊢
  -- the slot of the value
  obtain ⟨iv, nmv, Mb, csV, hpvE, hcurV, hretV, hctrV, _, rV, hwfV, hlV, hcsV, hmemV, hfrV, hargV,
    hregV, hhoV, hbpV, htrV⟩ := slotFor_run e9 Ma (.arg vn Ty.Word) (.int v) hwfA hlA
      (fun M1 h1 _ _ => by simp [evalValue, h1, hargA, hv])
      (by rw [show (Value.arg vn Ty.Word).type = Ty.Word from rfl, encode_word_length])
  have qV := quiet_slotFor (.arg vn Ty.Word) qA
  have r10 := Runs.trans r9 rV
  have hcurA10 := hretV _ _ hcurA
  clear r9 rV qA hretV
  generalize slotFor e9 (.arg vn Ty.Word) = sv at hpvE hcurV hctrV hwfV hlV r10 qV hcurA10 ⊢
  obtain ⟨pv, e10⟩ := sv
  simp only at hpvE hcurV hctrV hwfV hlV r10 qV hcurA10 ⊢
  -- the slot of the output reference
  obtain ⟨io1, nmo, Mc, csO, hpoE, hcurO, hretO, hctrO, _, rO, hwfO, hlO, hcsO, hmemO, hfrO,
    hargO, hregO, hhoO, hbpO, htrO⟩ := slotFor_run e10 Mb ov
      (.agg (.ptr (M.basePointer oo)) (.int (os % 2 ^ 64))) hwfV hlV
      (fun M1 h1 _ h3 => hovE M1 (by rw [h1, hargV, hargA]) (by rw [h3, hbpV, hbpA]))
      (by rw [hovT]; simp [encode, Ty.BytePtr, Ty.Size, ptrFrags, toBytesLE])
  have qO := quiet_slotFor ov qV
  have r11 := Runs.trans r10 rO
  have hcurA11 := hretO _ _ hcurA10
  have hcurV11 := hretO _ _ hcurV
  clear r10 rO qV hretO
  generalize slotFor e10 ov = so at hpoE hcurO hctrO hwfO hlO r11 qO hcurA11 hcurV11 ⊢
  obtain ⟨po, e11⟩ := so
  simp only at hpoE hcurO hctrO hwfO hlO r11 qO hcurA11 hcurV11 ⊢
  -- the three slots are different ones
  have hav : ia ≠ iv := by
    intro h; subst h
    have := hwfO.distinct _ _ _ _ _ hcurA11 hcurV11
    omega
  have hao : ia ≠ io1 := by
    intro h; subst h
    have := hwfO.distinct _ _ _ _ _ hcurA11 hcurO
    omega
  have hvo : iv ≠ io1 := by
    intro h; subst h
    have := hwfO.distinct _ _ _ _ _ hcurV11 hcurO
    omega
  -- the call
  have hargs : evalArgs Mc [RuntimeManager.getEnvPtr, IRBuilder.getInt32 kind, gv, pa, pv,
      Value.memBytePtr (.arg ion Ty.Word), isv, po] =
      some [M.args "env", .int (kind % 2 ^ 32), .int (g % 2 ^ 64), .ptr ⟨.stack ia, 0⟩,
        .ptr ⟨.stack iv, 0⟩, .ptr (M.basePointer io), .int (is % 2 ^ 64),
        .ptr ⟨.stack io1, 0⟩] := by
    have hA : Mc.args = M.args := by rw [hargO, hargV, hargA]
    have hB : Mc.basePointer = M.basePointer := by rw [hbpO, hbpV, hbpA]
    simp [evalArgs, evalValue, RuntimeManager.getEnvPtr, IRBuilder.getInt32, hpaE, hpvE, hpoE,
      hgvE Mc hA, hisvE Mc hA, hA, hB, hio]
  have hcall := exec_call_call msc Mc e11.m_builder.nextId _ _ hargs
  generalize hMd : Machine.setReg _ _ _ = Md at hcall
  obtain ⟨l, hlog, hrun⟩ := r11
  obtain ⟨l1, hlog1, hq⟩ := qO
  have hll : l1 = l := List.append_cancel_left (hlog1.symm.trans hlog)
  subst hll
  have hem : emitted e.m_builder (Ext.build { e11 with m_argCounter := 0 }
      (·.CreateCall (callFunc msc) [RuntimeManager.getEnvPtr, IRBuilder.getInt32 kind, gv, pa, pv,
        Value.memBytePtr (.arg ion Ty.Word), isv, po])).2.m_builder =
      l1.map Emit.instr ++ [Instr.call e11.m_builder.nextId (callFunc msc)
        [RuntimeManager.getEnvPtr, IRBuilder.getInt32 kind, gv, pa, pv,
          Value.memBytePtr (.arg ion Ty.Word), isv, po]] := by
    rw [emitted_of_log _ _ (l1 ++ [⟨e11.m_builder.insertPt, .call e11.m_builder.nextId
      (callFunc msc) [RuntimeManager.getEnvPtr, IRBuilder.getInt32 kind, gv, pa, pv,
        Value.memBytePtr (.arg ion Ty.Word), isv, po]⟩])
      (by simp [build, IRBuilder.CreateCall, IRBuilder.Insert, hlog])]
    simp
  have hmA : Mc.mem (.stack ia) = some (splice csA 0
      (encode (Ty.int 160) (.int (byteSwap 20 (a % 2 ^ 160))))) := by
    rw [hfrO _ (by simpa using hao), hfrV _ (by simpa using hav), hmemA, havT]
  have hmV : Mc.mem (.stack iv) = some (splice csV 0 (encode Ty.Word (.int v))) := by
    rw [hfrO _ (by simpa using hvo), hmemV]
    rfl
  have hmO : Mc.mem (.stack io1) = some (splice csO 0
      (encode Ty.memRef (.agg (.ptr (M.basePointer oo)) (.int (os % 2 ^ 64))))) := by
    rw [hmemO, hovT]
  have hbs : byteSwap 20 (a % 2 ^ 160) < 2 ^ 160 := by
    unfold byteSwap
    have h := ofBytesLE_lt (toBytesLE 20 (a % 2 ^ 160)).reverse
      (fun b hb => toBytesLE_lt 20 _ b (List.mem_reverse.1 hb))
    have hl : (toBytesLE 20 (a % 2 ^ 160)).reverse.length = 20 := by simp [toBytesLE]
    rw [hl] at h
    calc _ < 256 ^ 20 := h
      _ = 2 ^ 160 := by norm_num
  refine ⟨Md, e11.m_builder.nextId, ia, iv, io1, _, l1.map Emit.instr, Mc.mem, _, _, _, hem, ?_,
    ?_, ?_, callFunc_sret msc, ?_, hmA, decode_int160 csA _ hcsA hbs, hmV,
    decode_word_slot csV v hcsV hv256, hmO,
    decode_memref_slot csO _ _ hcsO (Nat.mod_lt _ (by norm_num)), hav, hao, hvo, ?_⟩
  · intro i hi
    obtain ⟨x, hx, rfl⟩ := List.mem_map.1 hi
    exact hq x hx
  · rw [hem, run_append_of _ _ M Mc hrun]
    simp only [run, hcall]
  · show Value.callRet _ (callFunc msc).retTy = _
    cases msc <;> rfl
  · rw [← hMd]
    simp [Machine.record, Machine.setReg, htrO, htrV, htrA, havT, hovT, Ty.bytes, Value.type,
      Ty.Word]
  · rw [← hMd]
    simp [Machine.record, Machine.setReg, hhoO, hhoV, hhoA]

/-- C14, at an instance: on the fresh object, gas 2^64 + 5 reaches the entry point as 5, the
address 1 as its 20-byte reversal, the value 7 as written, the output range (7, 7) as a memory
reference in a slot. -/
theorem call_arguments_witness :
    fresh.WF ∧ fresh.CallDeclOK false ∧
    (Machine.entry (Host.const 0) []
      (fun n => if n = "g" then .int (2 ^ 64 + 5) else if n = "a" then .int 1 else .int 7)).Live
      fresh ∧
    ∃ (M1 : Machine) (id ia iv io1 : Nat) (actual : List Value) (pre : List Instr) (mem : Mem)
      (A V O : List MemVal),
      emitted fresh.m_builder (fresh.call false 0 (.arg "g" Ty.Word) (.arg "a" Ty.Word)
        (.arg "v" Ty.Word) (.arg "io" Ty.Word) (.arg "is" Ty.Word) (.arg "oo" Ty.Word)
        (.arg "os" Ty.Word)).2.m_builder = pre ++ [Instr.call id (callFunc false) actual] ∧
      run (emitted fresh.m_builder (fresh.call false 0 (.arg "g" Ty.Word) (.arg "a" Ty.Word)
        (.arg "v" Ty.Word) (.arg "io" Ty.Word) (.arg "is" Ty.Word) (.arg "oo" Ty.Word)
        (.arg "os" Ty.Word)).2.m_builder)
        (Machine.entry (Host.const 0) []
          (fun n => if n = "g" then .int (2 ^ 64 + 5) else if n = "a" then .int 1 else .int 7)) =
        some M1 ∧
      M1.trace =
        [.write ⟨.stack ia, 0⟩ 20, .write ⟨.stack iv, 0⟩ 32, .write ⟨.stack io1, 0⟩ 16,
         .call "evm.call" [.int 7, .int (0 % 2 ^ 32), .int ((2 ^ 64 + 5) % 2 ^ 64),
           .ptr ⟨.stack ia, 0⟩, .ptr ⟨.stack iv, 0⟩, .ptr ⟨.host "memory", 7⟩,
           .int (7 % 2 ^ 64), .ptr ⟨.stack io1, 0⟩] mem] ∧
      mem (.stack ia) = some A ∧
      decode (Ty.int 160) (readAt A 0 20) = .int (byteSwap 20 (1 % 2 ^ 160)) ∧
      mem (.stack iv) = some V ∧ decode Ty.Word (readAt V 0 32) = .int 7 ∧
      mem (.stack io1) = some O ∧
      decode Ty.memRef (readAt O 0 16) = .agg (.ptr ⟨.host "memory", 7⟩) (.int (7 % 2 ^ 64)) := by
  refine ⟨fresh_wf, fun _ hf => (by cases hf), entry_live _ _ _, ?_⟩
  obtain ⟨M1, id, ia, iv, io1, actual, pre, mem, A, V, O, h1, _, h3, _, _, h6, h7, h8, h9, h10,
    h11, h12, _⟩ :=
    call_arguments false fresh
      (Machine.entry (Host.const 0) []
        (fun n => if n = "g" then .int (2 ^ 64 + 5) else if n = "a" then .int 1 else .int 7))
      0 "g" "a" "v" "io" "is" "oo" "os" (2 ^ 64 + 5) 1 7 7 7 7 7 fresh_wf
      (fun _ hf => (by cases hf)) (entry_live _ _ _)
      (by simp [Machine.entry]) (by simp [Machine.entry]) (by simp [Machine.entry])
      (by norm_num) (by simp [Machine.entry]) (by simp [Machine.entry])
      (by simp [Machine.entry]) (by simp [Machine.entry])
  exact ⟨M1, id, ia, iv, io1, actual, pre, mem, A, V, O, h1, h3, h6, h7, h8, h9, h10, h11, h12⟩

theorem quiet_extractValue (b : IRBuilder) (x : Value) (i : Nat) :
    Quiet b (b.CreateExtractValue x i).2 :=
  quiet_insertV b _

theorem quiet_zext (b : IRBuilder) (v : Value) (ty : Ty) : Quiet b (b.CreateZExt v ty).2 :=
  quiet_cast b _ v ty

theorem runs_quiet {b b1 : IRBuilder} {M M1 : Machine} (r : Runs b b1 M M1) (q : Quiet b b1) :
    ∃ l : List Emit, b1.log = b.log ++ l ∧ run (l.map Emit.instr) M = some M1 ∧
      ∀ x ∈ l, x.instr.isCall = false := by
  obtain ⟨l, hl, hr⟩ := r
  obtain ⟨l1, hl1, hq⟩ := q
  have : l1 = l := List.append_cancel_left (hl1.symm.trans hl)
  subst this
  exact ⟨l1, hl, hr, hq⟩

theorem marshal_query (e : Ext) (x k v : Value) (hv : v.type.isPointerTy = false) :
    marshalByVal queryFunc 1 [x, k, v] e = ([x, k, (slotFor e v).1], (slotFor e v).2) := by
  simp [marshalByVal, needsSlot, queryFunc_byVal1, queryFunc_byVal2, queryFunc_byVal3, hv]

theorem eval_CreateZExt (b : IRBuilder) (v : Value) (ty : Ty) (M : Machine) (k : Nat)
    (h : evalValue M v = some (.int k)) : evalValue M (b.CreateZExt v ty).1 = some (.int k) := by
  unfold IRBuilder.CreateZExt IRBuilder.CreateCast
  split_ifs
  · exact h
  · simp [IRBuilder.InsertV, evalValue, h]

theorem runs_zext (b : IRBuilder) (v : Value) (ty : Ty) (M : Machine) (k : Nat)
    (h : evalValue M v = some (.int k)) : Runs b (b.CreateZExt v ty).2 M M :=
  runs_cast b _ v ty M (.int k) (by simp [evalValue, h]) (by simp) (by simp)

/-- The memory reference that a slot holds after the cells of the reference `(p, n)` are
written into it: the length is the one of 64 bits. -/
theorem decode_memref_written (cs : List MemVal) (p : Ptr) (n : Nat) (hcs : cs.length = 32) :
    decode Ty.memRef (readAt (splice cs 0 (encode Ty.memRef (.agg (.ptr p) (.int n)))) 0 16) =
      .agg (.ptr p) (.int (n % 2 ^ 64)) := by
  have hlen : (encode Ty.memRef (.agg (.ptr p) (.int n))).length = 16 := by
    simp [encode, Ty.BytePtr, Ty.Size, ptrFrags, toBytesLE]
  have h := readAt_splice_same cs (encode Ty.memRef (.agg (.ptr p) (.int n))) 0
    (by rw [hlen, hcs]; omega)
  rw [hlen] at h
  rw [h]
  have hf : (ptrFrags p).length = 8 := by simp [ptrFrags]
  show RVal.agg (decodeScalar Ty.BytePtr ((encode Ty.BytePtr (.ptr p) ++
    encode Ty.Size (.int n)).take 8)) (decodeScalar Ty.Size ((encode Ty.BytePtr (.ptr p) ++
    encode Ty.Size (.int n)).drop 8)) = _
  have e1 : encode Ty.BytePtr (.ptr p) = ptrFrags p := rfl
  have e2 : encode Ty.Size (.int n) = (toBytesLE 8 n).map MemVal.byte := rfl
  rw [e1, e2, List.take_left' hf, List.drop_left' hf]
  show RVal.agg (decodeScalar (.ptr _) _) (decodeScalar (.int 64) _) = _
  rw [decodeScalar_ptrFrags]
  simp only [decodeScalar, cellBytes_map_byte, ofBytesLE_toBytesLE]
  norm_num

/-- Running the code of `extcode` on a word operand of value `a`, the host answering the
key of the code by address, asked with the byte-reversed `a`, with the reference `(p, n)`. -/
theorem extcode_run (e : Ext) (M : Machine) (name : String) (a n : Nat) (p : Ptr)
    (hwf : e.WF) (hd : e.DeclsOK) (hl : M.Live e) (ha : M.args name = .int a)
    (hq : M.host.query evm_query_key.EVM_CODE_BY_ADDRESS.code (.int (byteSwap 32 a)) =
      .agg (.ptr p) (.int n)) :
    ∃ (M1 : Machine) (id ir io : Nat) (actual : List Value) (pre post : List Instr) (mem : Mem)
      (O : List MemVal),
      emitted e.m_builder (e.extcode (.arg name Ty.Word)).2.m_builder =
        pre ++ Instr.call id queryFunc actual :: post ∧
      (∀ i ∈ pre ++ post, i.isCall = false) ∧
      run (emitted e.m_builder (e.extcode (.arg name Ty.Word)).2.m_builder) M = some M1 ∧
      M1.trace = M.trace ++
        [.write ⟨.stack io, 0⟩ 32,
         .call "evm.query" [.ptr ⟨.stack ir, 0⟩, M.args "env",
           .int evm_query_key.EVM_CODE_BY_ADDRESS.code, .ptr ⟨.stack io, 0⟩] mem,
         .read ⟨.stack ir, 0⟩ 16] ∧
      mem (.stack io) = some O ∧ decode Ty.Word (readAt O 0 32) = .int (byteSwap 32 a) ∧
      evalValue M1 (e.extcode (.arg name Ty.Word)).1.1 = some (.ptr p) ∧
      evalValue M1 (e.extcode (.arg name Ty.Word)).1.2 = some (.int (n % 2 ^ 64)) ∧
      (e.extcode (.arg name Ty.Word)).1.2.type = Ty.Word ∧ n % 2 ^ 64 < 2 ^ 64 := by
  simp only [extcode, getMemRefTy, Ty.getPointerTo]
  rw [resolve_query e hd]
  have hwf1 : (e.resolve getQueryFunc).2.WF := hwf.mono rfl rfl (Nat.le_refl _)
  have hl1 : M.Live (e.resolve getQueryFunc).2 := live_congr hl rfl rfl
  have r1 : Runs e.m_builder (e.resolve getQueryFunc).2.m_builder M M := Runs.refl _ _
  have q1 : Quiet e.m_builder (e.resolve getQueryFunc).2.m_builder := quiet_refl _
  generalize (e.resolve getQueryFunc).2 = e1 at hwf1 hl1 r1 q1 ⊢
  -- the address in the order of the environment
  have hadE : ∀ M2 : Machine, M2.args = M.args →
      evalValue M2 (e1.build (Endianness.toBE · (.arg name Ty.Word))).1 =
        some (.int (byteSwap 32 a)) := by
    intro M2 h2
    simp [build, Endianness.toBE, IRBuilder.InsertV, evalValue, h2, ha, Value.type, Ty.Word,
      Ty.bytes]
  have hadT : (e1.build (Endianness.toBE · (.arg name Ty.Word))).1.type = Ty.Word := rfl
  have r2 : Runs e1.m_builder (e1.build (Endianness.toBE · (.arg name Ty.Word))).2.m_builder
      M M := runs_insertV _ _ M _ (hadE M rfl) (by simp) (by simp)
  have q2 : Quiet e.m_builder (e1.build (Endianness.toBE · (.arg name Ty.Word))).2.m_builder :=
    quiet_build _ q1 (quiet_toBE _ _)
  have hwf2 : (e1.build (Endianness.toBE · (.arg name Ty.Word))).2.WF :=
    hwf1.mono rfl rfl (Nat.le_succ _)
  have hl2 : M.Live (e1.build (Endianness.toBE · (.arg name Ty.Word))).2 :=
    live_congr hl1 rfl rfl
  have r02 := Runs.trans r1 r2
  clear r1 r2 q1 hwf1 hl1
  generalize e1.build (Endianness.toBE · (.arg name Ty.Word)) = ad
    at hadE hadT hwf2 hl2 r02 q2 ⊢
  obtain ⟨adv, e2⟩ := ad
  simp only at hadE hadT hwf2 hl2 r02 q2 ⊢
  -- the call through the adapter
  rw [createCABICall_sret e2 queryFunc [RuntimeManager.getEnvPtr,
    IRBuilder.getInt32 evm_query_key.EVM_CODE_BY_ADDRESS.code, adv] false queryFunc_sret
    hwf2.poolOfSlots rfl]
  simp only [Bool.false_eq_true, if_false]
  rw [marshal_query _ _ _ adv (by rw [hadT]; rfl)]
  simp only []
  obtain ⟨ir, nmr, l0, Ma, hrv, hlog0, _, hrun0, hwf3, hl3, ⟨cs0, hcs0, hlen0⟩, hfr0, harg0,
    hreg0, htr0, hho0, hbp0⟩ := acquire_run e2 M hwf2 hl2
  have r3 : Runs e2.m_builder (e2.getArgAlloca).2.m_builder M Ma := ⟨l0, hlog0, hrun0⟩
  have r03 := Runs.trans r02 r3
  have q3 := quiet_acquire q2
  have hcur3 := getArgAlloca_at_cursor e2
  have hctr3 := getArgAlloca_argCounter e2
  clear r02 r3 q2 hlog0 hrun0
  generalize e2.getArgAlloca = ga at hrv hwf3 hl3 r03 q3 hcur3 hctr3 ⊢
  obtain ⟨rv, e3⟩ := ga
  simp only at hrv hwf3 hl3 r03 q3 hcur3 hctr3 ⊢
  subst hrv
  -- the slot of the operand
  obtain ⟨io, nmo, Mb, cs1, hpoE, hcur4, hret4, hctr4, _, r4, hwf4, hl4, hcs1, hmem1, hfr1, harg1,
    hreg1, hho1, hbp1, htr1⟩ := slotFor_run e3 Ma adv (.int (byteSwap 32 a)) hwf3 hl3
      (fun M1 h1 _ _ => hadE M1 (by rw [h1, harg0]))
      (by rw [hadT, encode_word_length])
  have q4 := quiet_slotFor adv q3
  have r04 := Runs.trans r03 r4
  have hcur3b := hret4 _ _ hcur3
  clear r03 r4 q3 hret4
  generalize slotFor e3 adv = so at hpoE hcur4 hctr4 hwf4 hl4 r04 q4 hcur3b ⊢
  obtain ⟨po, e4⟩ := so
  simp only at hpoE hcur4 hctr4 hwf4 hl4 r04 q4 hcur3b ⊢
  have hne : ir ≠ io := by
    intro h; subst h
    have := hwf4.distinct _ _ _ _ _ hcur3b hcur4
    omega
  have hcT : (Value.alloca ir Ty.Word 1 nmr).type = Ty.memRef.ptr ↔ False := by
    simp [Value.type, Ty.Word, Ty.getPointerTo]
  have hzT : (Value.extractValue (e4.m_builder.nextId + 1 + 1 + 1 + 1)
      (Value.load (e4.m_builder.nextId + 1 + 1)
        (Value.bitcast (e4.m_builder.nextId + 1) (Value.alloca ir Ty.Word 1 nmr) Ty.memRef.ptr))
      1).type = Ty.Word ↔ False := by
    simp [Value.type, Ty.Word, Ty.field, Ty.pointee, Ty.Size]
  simp only [build, IRBuilder.CreateCall, IRBuilder.CreateBitCast, IRBuilder.CreateCast,
    IRBuilder.CreateLoad, IRBuilder.CreateExtractValue, IRBuilder.CreateZExt,
    IRBuilder.InsertV, IRBuilder.Insert, hcT, hzT, if_false]
  obtain ⟨l, hlog, hrun, hquiet⟩ := runs_quiet r04 q4
  clear r04 q4 hzT hcT
  generalize e4.m_builder.nextId = nn
  generalize e4.m_builder.insertPt = pt
  -- the call
  have hA : Mb.args = M.args := by rw [harg1, harg0]
  have hargs : evalArgs Mb [.alloca ir Ty.Word 1 nmr, RuntimeManager.getEnvPtr,
      IRBuilder.getInt32 evm_query_key.EVM_CODE_BY_ADDRESS.code, po] =
      some [.ptr ⟨.stack ir, 0⟩, M.args "env", .int evm_query_key.EVM_CODE_BY_ADDRESS.code,
        .ptr ⟨.stack io, 0⟩] := by
    simp [evalArgs, evalValue, RuntimeManager.getEnvPtr, IRBuilder.getInt32, hpoE, hA,
      evm_query_key.code]
  have hmO : Mb.mem (.stack io) = some (splice cs1 0 (encode Ty.Word (.int (byteSwap 32 a)))) := by
    rw [hmem1, hadT]
  have hsl : (splice cs1 0 (encode Ty.Word (.int (byteSwap 32 a)))).length = 32 := by
    rw [splice_length _ _ _ (by rw [encode_word_length, hcs1]), hcs1]
  have hdec := decode_word_slot cs1 (byteSwap 32 a) hcs1 (byteSwap_lt a)
  have hop : Mb.operand (.ptr ⟨.stack io, 0⟩) = some (.int (byteSwap 32 a)) := by
    simp only [Machine.operand, readCells_eq Mb ⟨.stack io, 0⟩ 32 _ hmO (by rw [hsl]),
      Option.map_some']
    exact congrArg some hdec
  have hmR : Mb.mem (.stack ir) = some cs0 := by
    rw [hfr1 _ (by simpa using hne)]; exact hcs0
  have hvcs : Machine.variantCells (Mb.host.query evm_query_key.EVM_CODE_BY_ADDRESS.code
      (.int (byteSwap 32 a))) = encode Ty.memRef (.agg (.ptr p) (.int n)) := by
    rw [hho1, hho0, hq]; rfl
  have hvl : (encode Ty.memRef (.agg (.ptr p) (.int n))).length = 16 := by
    simp [encode, Ty.BytePtr, Ty.Size, ptrFrags, toBytesLE]
  have hcall := exec_call_query Mb nn _ ⟨.stack ir, 0⟩ _ _ _ _ cs0 hargs hop hmR
    (by rw [hvcs, hvl, hlen0]; norm_num)
  rw [hvcs] at hcall
  generalize hMd : Machine.mk _ _ _ _ _ _ = Md at hcall
  have hMdR : Md.mem (.stack ir) =
      some (splice cs0 0 (encode Ty.memRef (.agg (.ptr p) (.int n)))) := by
    rw [← hMd]; simp [splice]
  have hMdT : Md.trace = Mb.trace ++ [.call "evm.query" [.ptr ⟨.stack ir, 0⟩, M.args "env",
      .int evm_query_key.EVM_CODE_BY_ADDRESS.code, .ptr ⟨.stack io, 0⟩] Mb.mem] := by
    rw [← hMd]
  -- the reference read back
  have hbc : execInstr Md (.val (.bitcast (nn + 1) (.alloca ir Ty.Word 1 nmr) Ty.memRef.ptr)) =
      some Md := execInstr_val_of_eval Md _ (.ptr ⟨.stack ir, 0⟩) (by simp [evalValue])
        (by simp) (by simp)
  have hld := exec_load Md (nn + 1 + 1)
    (p := .bitcast (nn + 1) (.alloca ir Ty.Word 1 nmr) Ty.memRef.ptr) (q := ⟨.stack ir, 0⟩)
    (by simp [evalValue]) hMdR
    (by
      rw [splice_length _ _ _ (by rw [hvl, hlen0]; omega), hlen0]
      simp [Value.type, Ty.pointee, Ty.bytes])
  have hpt16 : (Value.bitcast (nn + 1) (.alloca ir Ty.Word 1 nmr) Ty.memRef.ptr).type.pointee =
      Ty.memRef := rfl
  rw [hpt16] at hld
  have hrd := decode_memref_written cs0 p n hlen0
  have hrd2 : decode Ty.memRef ((List.drop 0 (splice cs0 0
      (encode Ty.memRef (.agg (.ptr p) (.int n))))).take Ty.memRef.bytes) =
      .agg (.ptr p) (.int (n % 2 ^ 64)) := hrd
  rw [hrd2] at hld
  generalize hMe : Machine.mk _ _ _ _ _ _ = Me at hld
  have hMeR : Me.regs (nn + 1 + 1) = some (.agg (.ptr p) (.int (n % 2 ^ 64))) := by
    rw [← hMe]; simp
  have hMeT : Me.trace = Md.trace ++ [.read ⟨.stack ir, 0⟩ 16] := by
    rw [← hMe]; rfl
  have hx0 : evalValue Me (.extractValue (nn + 1 + 1 + 1) (.load (nn + 1 + 1)
      (.bitcast (nn + 1) (.alloca ir Ty.Word 1 nmr) Ty.memRef.ptr)) 0) = some (.ptr p) := by
    simp [evalValue, hMeR]
  have hx1 : evalValue Me (.extractValue (nn + 1 + 1 + 1 + 1) (.load (nn + 1 + 1)
      (.bitcast (nn + 1) (.alloca ir Ty.Word 1 nmr) Ty.memRef.ptr)) 1) =
      some (.int (n % 2 ^ 64)) := by
    simp [evalValue, hMeR]
  have hz : evalValue Me (.zext (nn + 1 + 1 + 1 + 1 + 1) (.extractValue (nn + 1 + 1 + 1 + 1)
      (.load (nn + 1 + 1) (.bitcast (nn + 1) (.alloca ir Ty.Word 1 nmr) Ty.memRef.ptr)) 1)
      Ty.Word) = some (.int (n % 2 ^ 64)) := by
    simp [evalValue, hMeR]
  have hemit := emitted_of_log e.m_builder
    { log := e4.m_builder.log ++
        [⟨pt, Instr.call nn queryFunc [.alloca ir Ty.Word 1 nmr, RuntimeManager.getEnvPtr,
          IRBuilder.getInt32 evm_query_key.EVM_CODE_BY_ADDRESS.code, po]⟩] ++
        [⟨pt, .val (.bitcast (nn + 1) (.alloca ir Ty.Word 1 nmr) Ty.memRef.ptr)⟩] ++
        [⟨pt, .val (.load (nn + 1 + 1)
          (.bitcast (nn + 1) (.alloca ir Ty.Word 1 nmr) Ty.memRef.ptr))⟩] ++
        [⟨pt, .val (.extractValue (nn + 1 + 1 + 1) (.load (nn + 1 + 1)
          (.bitcast (nn + 1) (.alloca ir Ty.Word 1 nmr) Ty.memRef.ptr)) 0)⟩] ++
        [⟨pt, .val (.extractValue (nn + 1 + 1 + 1 + 1) (.load (nn + 1 + 1)
          (.bitcast (nn + 1) (.alloca ir Ty.Word 1 nmr) Ty.memRef.ptr)) 1)⟩] ++
        [⟨pt, .val (.zext (nn + 1 + 1 + 1 + 1 + 1) (.extractValue (nn + 1 + 1 + 1 + 1)
          (.load (nn + 1 + 1) (.bitcast (nn + 1) (.alloca ir Ty.Word 1 nmr) Ty.memRef.ptr)) 1)
          Ty.Word)⟩],
      insertPt := pt, nextId := nn + 1 + 1 + 1 + 1 + 1 + 1 }
    (l ++ [⟨pt, Instr.call nn queryFunc [.alloca ir Ty.Word 1 nmr, RuntimeManager.getEnvPtr,
          IRBuilder.getInt32 evm_query_key.EVM_CODE_BY_ADDRESS.code, po]⟩,
        ⟨pt, .val (.bitcast (nn + 1) (.alloca ir Ty.Word 1 nmr) Ty.memRef.ptr)⟩,
        ⟨pt, .val (.load (nn + 1 + 1)
          (.bitcast (nn + 1) (.alloca ir Ty.Word 1 nmr) Ty.memRef.ptr))⟩,
        ⟨pt, .val (.extractValue (nn + 1 + 1 + 1) (.load (nn + 1 + 1)
          (.bitcast (nn + 1) (.alloca ir Ty.Word 1 nmr) Ty.memRef.ptr)) 0)⟩,
        ⟨pt, .val (.extractValue (nn + 1 + 1 + 1 + 1) (.load (nn + 1 + 1)
          (.bitcast (nn + 1) (.alloca ir Ty.Word 1 nmr) Ty.memRef.ptr)) 1)⟩,
        ⟨pt, .val (.zext (nn + 1 + 1 + 1 + 1 + 1) (.extractValue (nn + 1 + 1 + 1 + 1)
          (.load (nn + 1 + 1) (.bitcast (nn + 1) (.alloca ir Ty.Word 1 nmr) Ty.memRef.ptr)) 1)
          Ty.Word)⟩])
    (by simp [hlog])
  rw [hemit]
  simp only [List.map_append, List.map_cons, List.map_nil]
  refine ⟨Me, nn, ir, io, _, l.map Emit.instr, _, Mb.mem, _, rfl, ?_, ?_, ?_, hmO, hdec, hx0, hz,
    rfl, Nat.mod_lt _ (by norm_num)⟩
  · intro i hi
    rcases List.mem_append.1 hi with h | h
    · obtain ⟨x, hx, rfl⟩ := List.mem_map.1 h
      exact hquiet x hx
    · simp at h
      rcases h with rfl | rfl | rfl | rfl | rfl <;> rfl
  · rw [run_append_of _ _ M Mb hrun]
    simp only [run, hcall, hbc, hld,
      execInstr_val_of_eval Me _ _ hx0 (by simp) (by simp),
      execInstr_val_of_eval Me _ _ hx1 (by simp) (by simp),
      execInstr_val_of_eval Me _ _ hz (by simp) (by simp)]
  · rw [hMeT, hMdT, htr1, htr0, hadT]
    simp [Ty.Word, Ty.bytes]

/-- C15 fails as stated. On the fresh object the one call that `extcode` emits is a call of
the generic query entry point `evm.query`, which is not the declaration of the dedicated
function `env_extcode`; no other call is emitted. -/
theorem extcode_dedicated_counterexample :
    ∃ (id : Nat) (actual : List Value) (pre post : List Instr),
      emitted fresh.m_builder (fresh.extcode (.arg "a" Ty.Word)).2.m_builder =
        pre ++ Instr.call id queryFunc actual :: post ∧
      (∀ i ∈ pre ++ post, i.isCall = false) ∧
      queryFunc.name = "evm.query" ∧ (envDecl EnvFunc.extcode).name = "env_extcode" ∧
      queryFunc ≠ envDecl EnvFunc.extcode := by
  obtain ⟨_, id, _, _, actual, pre, post, _, _, h1, h2, _⟩ := extcode_run fresh
    (Machine.entry ⟨fun _ _ => .agg (.ptr ⟨.host "code", 0⟩) (.int 3), fun _ _ => 0,
      fun _ _ => 0, fun _ _ => 0⟩ [] (fun _ => .int 1)) "a" 1 3 ⟨.host "code", 0⟩
    fresh_wf fresh_declsOK (entry_live _ _ _) (by simp [Machine.entry]) rfl
  exact ⟨id, actual, pre, post, h1, h2, rfl, rfl, by decide⟩

/-- C15, amended. External-code fetch goes through the generic query entry point. On a
well-formed object whose module holds under `evm.query` and `evm.update`, if anything, the
declarations this component creates, with the slots of the pool allocated in the machine, for
a word operand of value `a`, when the host answers the key `EVM_CODE_BY_ADDRESS`, asked with
the byte-reversed `a`, with the reference `(p, n)`: the code of `extcode` runs without
undefined behaviour and holds exactly one call, a call of `evm.query`; the operand slot holds
the byte-reversed `a` at the call; the reference is read back from the result slot (16 bytes,
not a word); the first value returned is the pointer `p`, the second is of the word type and
is the length of 64 bits, `n mod 2^64`, unchanged by the zero extension and below 2^64. -/
theorem extcode_generic_query (e : Ext) (M : Machine) (name : String) (a n : Nat) (p : Ptr)
    (hwf : e.WF) (hd : e.DeclsOK) (hl : M.Live e) (ha : M.args name = .int a)
    (hq : M.host.query evm_query_key.EVM_CODE_BY_ADDRESS.code (.int (byteSwap 32 a)) =
      .agg (.ptr p) (.int n)) :
    ∃ (M1 : Machine) (id ir io : Nat) (actual : List Value) (pre post : List Instr) (mem : Mem)
      (O : List MemVal),
      emitted e.m_builder (e.extcode (.arg name Ty.Word)).2.m_builder =
        pre ++ Instr.call id queryFunc actual :: post ∧
      (∀ i ∈ pre ++ post, i.isCall = false) ∧
      run (emitted e.m_builder (e.extcode (.arg name Ty.Word)).2.m_builder) M = some M1 ∧
      M1.trace = M.trace ++
        [.write ⟨.stack io, 0⟩ 32,
         .call "evm.query" [.ptr ⟨.stack ir, 0⟩, M.args "env",
           .int evm_query_key.EVM_CODE_BY_ADDRESS.code, .ptr ⟨.stack io, 0⟩] mem,
         .read ⟨.stack ir, 0⟩ 16] ∧
      mem (.stack io) = some O ∧ decode Ty.Word (readAt O 0 32) = .int (byteSwap 32 a) ∧
      evalValue M1 (e.extcode (.arg name Ty.Word)).1.1 = some (.ptr p) ∧
      evalValue M1 (e.extcode (.arg name Ty.Word)).1.2 = some (.int (n % 2 ^ 64)) ∧
      (e.extcode (.arg name Ty.Word)).1.2.type = Ty.Word ∧ n % 2 ^ 64 < 2 ^ 64 :=
  extcode_run e M name a n p hwf hd hl ha hq

/-- C15, amended, at an instance: on the fresh object, for the address 1 and a host that
answers with the code at `code` of length 3, `extcode` yields that pointer and the size 3. -/
theorem extcode_generic_query_witness :
    fresh.WF ∧ fresh.DeclsOK ∧
    (Machine.entry ⟨fun _ _ => .agg (.ptr ⟨.host "code", 0⟩) (.int 3), fun _ _ => 0,
      fun _ _ => 0, fun _ _ => 0⟩ [] (fun _ => .int 1)).Live fresh ∧
    ∃ (M1 : Machine),
      run (emitted fresh.m_builder (fresh.extcode (.arg "a" Ty.Word)).2.m_builder)
        (Machine.entry ⟨fun _ _ => .agg (.ptr ⟨.host "code", 0⟩) (.int 3), fun _ _ => 0,
          fun _ _ => 0, fun _ _ => 0⟩ [] (fun _ => .int 1)) = some M1 ∧
      evalValue M1 (fresh.extcode (.arg "a" Ty.Word)).1.1 = some (.ptr ⟨.host "code", 0⟩) ∧
      evalValue M1 (fresh.extcode (.arg "a" Ty.Word)).1.2 = some (.int (3 % 2 ^ 64)) := by
  refine ⟨fresh_wf, fresh_declsOK, entry_live _ _ _, ?_⟩
  obtain ⟨M1, _, _, _, _, _, _, _, _, _, _, h3, _, _, _, h7, h8, _⟩ :=
    extcode_generic_query fresh
      (Machine.entry ⟨fun _ _ => .agg (.ptr ⟨.host "code", 0⟩) (.int 3), fun _ _ => 0,
        fun _ _ => 0, fun _ _ => 0⟩ [] (fun _ => .int 1)) "a" 1 3 ⟨.host "code", 0⟩
      fresh_wf fresh_declsOK (entry_live _ _ _) (by simp [Machine.entry]) rfl
  exact ⟨M1, h3, h7, h8⟩

end Ext

end EvmJit
